import Mathlib

/-!
# Transform-domain image codec: encoder.c / decoder.c

A shallow embedding of the integer and symbolic stages of the codec
(Huffman coder, bit packer, zigzag, DPCM, run-length coder, quantiser) and the
properties of the specification that were checked against it.

Conventions of the embedding

* C integers are `Nat` / `Int`; a narrowing cast is written out as a reduction
  modulo `2^w` (`u8`, `u32`, `u64`, `i16`).
* A call of `die` (or a dereference of `NULL`) is the result `none`.
* C loops whose trip count is not a literal are written with a fuel argument that
  is initialised with a bound the loop cannot exceed; running out of fuel is
  `none` where the result is optional.
* `double` arithmetic is embedded as exact arithmetic in an ordered field (the
  definitions compute over `ℚ`); the conversion to `float` is written out as the
  rounding to binary32.
* Text files are embedded line by line, a line being represented by the fields
  that `fprintf` prints and `sscanf` converts.
-/

set_option autoImplicit false

/-! ## Machine integer casts -/

/-- Cast to `uint8_t`. -/
def u8 (n : Nat) : Nat := n % 2 ^ 8

/-- Cast to `uint32_t`. -/
def u32 (n : Nat) : Nat := n % 2 ^ 32

/-- Cast to `uint64_t` (wrap-around of `uint64_t` arithmetic). -/
def u64 (n : Nat) : Nat := n % 2 ^ 64

/-- Cast to `int16_t` (two's complement wrap-around). -/
def i16 (x : Int) : Int := (x + 2 ^ 15) % 2 ^ 16 - 2 ^ 15

namespace Encoder

/-! ## Huffman tree (encoder.c, lines 231-358) -/

/-- The encoder's `HNode`.  A leaf carries `sym` and `freq`; an internal node owns
two children.  `hn_new_internal` is only ever called on nodes popped from a heap
of more than one element, so the children are never `NULL`. -/
inductive HNode where
  | leaf (sym : Nat) (freq : Nat) : HNode
  | node (l r : HNode) (freq : Nat) : HNode
  deriving DecidableEq, Repr, Inhabited

/-- Field `is_leaf`. -/
def HNode.is_leaf : HNode → Bool
  | .leaf _ _ => true
  | .node _ _ _ => false

/-- Field `sym` (`calloc` leaves it 0 in an internal node). -/
def HNode.sym : HNode → Nat
  | .leaf s _ => s
  | .node _ _ _ => 0

/-- Field `freq`. -/
def HNode.freq : HNode → Nat
  | .leaf _ f => f
  | .node _ _ f => f

/-- `hn_new_leaf`. -/
def hn_new_leaf (sym : Nat) (freq : Nat) : HNode := .leaf sym freq

/-- `hn_new_internal`: the frequency is the `uint64_t` sum of the children's. -/
def hn_new_internal (a b : HNode) : HNode := .node a b (u64 (a.freq + b.freq))

/-- `min_sym`: least leaf symbol below a node. -/
def min_sym : HNode → Nat
  | .leaf s _ => s
  | .node l r _ =>
    let ml := min_sym l
    let mr := min_sym r
    if ml < mr then ml else mr

/-- `hn_less`: the deterministic comparator (freq, minSym, leaf first). -/
def hn_less (x y : HNode) : Bool :=
  if x.freq ≠ y.freq then decide (x.freq < y.freq)
  else
    let mx := min_sym x
    let my := min_sym y
    if mx ≠ my then decide (mx < my)
    else if x.is_leaf ≠ y.is_leaf then (x.is_leaf && !y.is_leaf)
    else false

/-- Exchange of `a[i]` and `a[j]` (the three-assignment swap through `tmp`). -/
def swap (a : List HNode) (i j : Nat) : List HNode :=
  (a.set i (a.getD j default)).set j (a.getD i default)

/-- The sift-up loop of `heap_push`: `while(i>0){ p=(i-1)/2; ... i=p; }`.
The index strictly decreases, so fuel `i` is never exhausted. -/
def heap_push_loop : Nat → List HNode → Nat → List HNode
  | 0, a, _ => a
  | fuel + 1, a, i =>
    if 0 < i then
      let p := (i - 1) / 2
      if !hn_less (a.getD i default) (a.getD p default) then a
      else heap_push_loop fuel (swap a i p) p
    else a

/-- `heap_push`.  The heap is the list `a[0..sz)`; the capacity bookkeeping
(`cap`, `realloc`) does not affect the contents. -/
def heap_push (h : List HNode) (n : HNode) : List HNode :=
  heap_push_loop h.length (h ++ [n]) h.length

/-- The body of the sift-down loop of `heap_pop` up to the test `m==i`: the index
`m` of the least of `a[i]` and its children `a[2i+1]`, `a[2i+2]` (those below `sz`). -/
def heap_pop_pick (a : List HNode) (i : Nat) : Nat :=
  let l := i * 2 + 1
  let r := i * 2 + 2
  let m := i
  let m := if l < a.length && hn_less (a.getD l default) (a.getD m default) then l else m
  let m := if r < a.length && hn_less (a.getD r default) (a.getD m default) then r else m
  m

/-- The sift-down loop of `heap_pop`: `while(1){ ... if(m==i) break; ... i=m; }`.
The index strictly increases and stays below `sz`, so fuel `sz` is never
exhausted. -/
def heap_pop_loop : Nat → List HNode → Nat → List HNode
  | 0, a, _ => a
  | fuel + 1, a, i =>
    let m := heap_pop_pick a i
    if m = i then a
    else heap_pop_loop fuel (swap a i m) m

/-- `heap_pop`: `none` is the `NULL` returned on an empty heap; otherwise the old
root and the heap left behind. -/
def heap_pop (h : List HNode) : Option (HNode × List HNode) :=
  match h with
  | [] => none
  | ret :: _ =>
    let sz := h.length - 1
    let a := (h.set 0 (h.getD sz default)).take sz
    some (ret, heap_pop_loop sz a 0)

/-- The leaf-insertion loop of `build_huffman`: heap and `unique` after visiting
the symbols in `syms` (called with `0..255`). -/
def build_leaves (freq : Nat → Nat) : List Nat → List HNode × Nat → List HNode × Nat
  | [], st => st
  | s :: ss, (hp, unique) =>
    if 0 < freq s then build_leaves freq ss (heap_push hp (hn_new_leaf s (freq s)), unique + 1)
    else build_leaves freq ss (hp, unique)

/-- The merge loop of `build_huffman`: `while(hp.sz>1){...}`.  Every iteration
removes one node, so fuel `hp.sz` is never exhausted. -/
def build_merge : Nat → List HNode → Option (List HNode)
  | 0, hp => if 1 < hp.length then none else some hp
  | fuel + 1, hp =>
    if 1 < hp.length then
      match heap_pop hp with
      | none => none
      | some (a, hp1) =>
        match heap_pop hp1 with
        | none => none
        | some (b, hp2) =>
          let ab := if hn_less b a then (b, a) else (a, b)
          build_merge fuel (heap_push hp2 (hn_new_internal ab.1 ab.2))
    else some hp

/-- `build_huffman`: the root and `*unique_out`, or `none` for `die`. -/
def build_huffman (freq : Nat → Nat) : Option (HNode × Nat) :=
  let st := build_leaves freq (List.range 256) ([], 0)
  let hp := st.1
  let unique := st.2
  if unique = 0 then none
  else if unique = 1 then
    match heap_pop hp with
    | none => none
    | some (only, _) =>
      let dummy := hn_new_leaf (if only.sym = 0 then 1 else 0) 0
      some (hn_new_internal dummy only, unique)
  else
    match build_merge hp.length hp with
    | none => none
    | some hp1 =>
      match heap_pop hp1 with
      | none => none
      | some (root, _) => some (root, unique)

/-- The table `char* codes[256]`: `none` is the initial `NULL`. -/
abbrev Codes := Nat → Option (List Char)

/-- `gen_codes`.  `buf` is the path `buf[0..depth)` written so far; the string
stored at a leaf is `"0"` when the path is empty. -/
def gen_codes : HNode → List Char → Codes → Codes
  | .leaf sym _, buf, codes => Function.update codes sym (some (if buf = [] then ['0'] else buf))
  | .node l r _, buf, codes => gen_codes r (buf ++ ['1']) (gen_codes l (buf ++ ['0']) codes)

/-! ### Auxiliary notions used to state properties of the tree -/

/-- The leaves of a tree from left to right, as (symbol, frequency) pairs. -/
def HNode.leaves : HNode → List (Nat × Nat)
  | .leaf s f => [(s, f)]
  | .node l r _ => l.leaves ++ r.leaves

/-- The symbols at the leaves of a tree, from left to right. -/
def HNode.syms (t : HNode) : List Nat := t.leaves.map Prod.fst

/-- The (symbol, code string) assignments `gen_codes` performs, in the order in
which it performs them. -/
def paths : HNode → List Char → List (Nat × List Char)
  | .leaf sym _, buf => [(sym, if buf = [] then ['0'] else buf)]
  | .node l r _, buf => paths l (buf ++ ['0']) ++ paths r (buf ++ ['1'])

/-- One assignment `codes[sym] = strdup(code)`. -/
def assign (c : Codes) (p : Nat × List Char) : Codes := Function.update c p.1 (some p.2)

/-- The leaves the first loop of `build_huffman` creates for a frequency table. -/
def initial_leaves (freq : Nat → Nat) (syms : List Nat) : List HNode :=
  (syms.filter (fun s => 0 < freq s)).map (fun s => hn_new_leaf s (freq s))

end Encoder

/-! ## Files exchanged between encoder and decoder (Method 3) -/

/-- One line of the text file `codebook.txt`, classified by what the decoder's two
`sscanf` patterns make of it.  The formatting done by `fprintf` and the scanning
done by `sscanf` are not modelled below this level; every line is taken to be
shorter than the 4096-byte buffer of `fgets`. -/
inductive Line where
  /-- The line `M3_BYTE_HUFFMAN`. -/
  | tag : Line
  /-- A line `payload_size N`: the only lines `sscanf(line,"payload_size %zu",..)`
  converts. -/
  | payload_size (n : Nat) : Line
  /-- A line `unique K`. -/
  | unique (k : Nat) : Line
  /-- A line `sym freq code`, as the encoder prints it with `"%d %llu %s\n"`. -/
  | entry (sym : Int) (freq : Nat) (code : List Char) : Line
  /-- Any other line. -/
  | other (text : List Char) : Line
  deriving DecidableEq, Repr

/-- The binary Huffman file: magic, `payload_size` (u32), `padbits` (u8),
`bit_bytes` (u32), and the bytes that follow. -/
structure M3File where
  magic : List Char
  psz : Nat
  padbits : Nat
  bit_bytes : Nat
  data : List Nat
  deriving DecidableEq, Repr

namespace Encoder

/-! ## Bit packer (encoder.c, lines 360-390) -/

/-- The encoder's `BitBuf`: `data` has `cap` bytes. -/
structure BitBuf where
  data : List Nat
  bit_len : Nat
  cap : Nat
  deriving DecidableEq, Repr

/-- `bitbuf_init`: 1024 zero bytes (`calloc`). -/
def bitbuf_init : BitBuf := { data := List.replicate 1024 0, bit_len := 0, cap := 1024 }

/-- `bitbuf_push_bit`: grow by doubling (new bytes zeroed by `memset`), then set
bit `7-off` of byte `bit_len/8` when `bit` is nonzero. -/
def bitbuf_push_bit (b : BitBuf) (bit : Bool) : BitBuf :=
  let byte := b.bit_len / 8
  let off := b.bit_len % 8
  let b1 : BitBuf :=
    if b.cap ≤ byte then
      { b with cap := b.cap * 2, data := b.data ++ List.replicate (b.cap * 2 - b.cap) 0 }
    else b
  let data :=
    if bit then b1.data.set byte (b1.data.getD byte 0 ||| u8 (1 <<< (7 - off))) else b1.data
  { b1 with data := data, bit_len := b.bit_len + 1 }

/-- `bitbuf_push_code`: one bit per character, `1` for the character `'1'`. -/
def bitbuf_push_code (b : BitBuf) (code : List Char) : BitBuf :=
  code.foldl (fun b p => bitbuf_push_bit b (p == '1')) b

/-! ## Method 3 (encoder.c, lines 718-783) -/

/-- `for(long i=0;i<sz;i++) freq[payload[i]]++;` on a zeroed `uint64_t freq[256]`. -/
def count_freq (payload : List Nat) : Nat → Nat :=
  payload.foldl (fun f b => Function.update f b (u64 (f b + 1))) (fun _ => 0)

/-- The symbol lines of the codebook: one per symbol of nonzero frequency, in
ascending symbol order.  `none` when a printed `codes[s]` is `NULL`. -/
def codebook_entries (freq : Nat → Nat) (codes : Codes) : List Nat → Option (List Line)
  | [] => some []
  | s :: ss =>
    if 0 < freq s then
      match codes s, codebook_entries freq codes ss with
      | some code, some rest => some (Line.entry (s : Int) (freq s) code :: rest)
      | _, _ => none
    else codebook_entries freq codes ss

/-- The loop `for(i<sz) bitbuf_push_code(&bb, codes[payload[i]])`.  `none` when a
pushed `codes[..]` is `NULL`. -/
def encode_payload (codes : Codes) : List Nat → BitBuf → Option BitBuf
  | [], bb => some bb
  | b :: bs, bb =>
    match codes b with
    | some code => encode_payload codes bs (bitbuf_push_code bb code)
    | none => none

/-- `padbits = (8 - (bb.bit_len % 8)) % 8`. -/
def padbits (bit_len : Nat) : Nat := (8 - bit_len % 8) % 8

/-- Method 3 after the payload has been read, binary output: the codebook lines
and the binary Huffman file for the payload bytes.  `none` is `die`. -/
def method3 (payload : List Nat) : Option (List Line × M3File) :=
  let sz := payload.length
  if sz = 0 then none
  else
    let freq := count_freq payload
    match build_huffman freq with
    | none => none
    | some (root, unique) =>
      let codes := gen_codes root [] (fun _ => none)
      match codebook_entries freq codes (List.range 256),
        encode_payload codes payload bitbuf_init with
      | some entries, some bb =>
        let bit_bytes := u32 ((bb.bit_len + 7) / 8)
        some (Line.tag :: Line.payload_size sz :: Line.unique unique :: entries,
          { magic := ['M', '3', 'B', '0'], psz := u32 sz, padbits := u8 (padbits bb.bit_len),
            bit_bytes := bit_bytes, data := bb.data.take bit_bytes })
      | _, _ => none

end Encoder

namespace Decoder

/-! ## Huffman trie (decoder.c, lines 580-644) -/

/-- The decoder's `HNode`, with `null` for the `NULL` pointer. -/
inductive HNode where
  | null : HNode
  | node (is_leaf : Bool) (sym : Nat) (zero one : HNode) : HNode
  deriving DecidableEq, Repr, Inhabited

/-- `hn_new`: a zeroed node (`calloc`). -/
def hn_new : HNode := .node false 0 .null .null

/-- `cur->zero` or `cur->one`. -/
def HNode.child : HNode → Bool → HNode
  | .null, _ => .null
  | .node _ _ zero one, bit => if bit then one else zero

/-- The walk `for(char* p=code; *p; p++){...} cur->is_leaf=1; cur->sym=sym;` from
the node `cur`, returning the updated node.  `none` is `die` on a character other
than `'0'` and `'1'`. -/
def insert_code : HNode → List Char → Nat → Option HNode
  | .null, _, _ => none
  | .node _ _ zero one, [], sym => some (.node true sym zero one)
  | .node il s zero one, p :: ps, sym =>
    if p = '0' then
      match insert_code (if zero = .null then hn_new else zero) ps sym with
      | some z => some (.node il s z one)
      | none => none
    else if p = '1' then
      match insert_code (if one = .null then hn_new else one) ps sym with
      | some o => some (.node il s zero o)
      | none => none
    else none

/-- The `while(fgets(...))` loop of `load_codebook_build_trie` over the lines
after the three header lines.  A line takes part when `sscanf` converts all three
fields, the code being cut at 2047 characters by `%2047s`. -/
def load_entries : List Line → HNode → Option HNode
  | [], root => some root
  | Line.entry sym _ code :: rest, root =>
    if code = [] then load_entries rest root
    else if sym < 0 ∨ 255 < sym then none
    else
      match insert_code root (code.take 2047) sym.toNat with
      | some root1 => load_entries rest root1
      | none => none
  | _ :: rest, root => load_entries rest root

/-- `load_codebook_build_trie`: the trie and `*payload_size_out`. -/
def load_codebook_build_trie (codebook : List Line) : Option (HNode × Nat) :=
  match codebook with
  | [] => none
  | _ :: [] => none
  | _ :: Line.payload_size payload_size :: rest =>
    match rest with
    | [] => none
    | _ :: entries =>
      match load_entries entries hn_new with
      | some root => some (root, payload_size)
      | none => none
  | _ :: _ :: _ => none

/-! ## Huffman bitstream decoder (decoder.c, lines 666-706) -/

/-- The expression `(byte >> (7-(i%8))) & 1` on `data[i/8]`. -/
def get_bit (data : List Nat) (i : Nat) : Nat :=
  (data.getD (i / 8) 0 >>> (7 - i % 8)) &&& 1

/-- The loop `for(i=0; i<valid_bits && outLen<want_bytes; i++)`, with `n` the
number of indices `i` still below `valid_bits`.  `none` is `die` on a missing
child. -/
def decode_loop (root : HNode) (data : List Nat) (want_bytes : Nat) :
    Nat → Nat → HNode → List Nat → Option (List Nat)
  | 0, _, _, out => some out
  | n + 1, i, cur, out =>
    if out.length < want_bytes then
      match cur.child (get_bit data i != 0) with
      | .null => none
      | .node is_leaf sym zero one =>
        if is_leaf then decode_loop root data want_bytes n (i + 1) root (out ++ [u8 sym])
        else decode_loop root data want_bytes n (i + 1) (.node is_leaf sym zero one) out
    else some out

/-- `huffman_decode_binary`. -/
def huffman_decode_binary (f : M3File) (root : HNode) (want_bytes : Nat) : Option (List Nat) :=
  if f.magic ≠ ['M', '3', 'B', '0'] then none
  else if f.data.length < f.bit_bytes then none
  else
    let data := f.data.take f.bit_bytes
    let total_bits := f.bit_bytes * 8
    if 7 < f.padbits then none
    else if total_bits < f.padbits then none
    else
      let valid_bits := total_bits - f.padbits
      match decode_loop root data want_bytes valid_bits 0 root [] with
      | none => none
      | some out => if out.length ≠ want_bytes then none else some out

/-- The Huffman stage of `decode_method3` in binary mode: the payload bytes
recovered from a codebook and a binary Huffman file. -/
def decode_method3_payload (codebook : List Line) (f : M3File) : Option (List Nat) :=
  match load_codebook_build_trie codebook with
  | none => none
  | some (root, payload_size) => huffman_decode_binary f root payload_size

end Decoder

/-! ## Auxiliary notions used to state properties of Method 3 -/

namespace Encoder

/-- The bits `bitbuf_push_code` pushes for a code string. -/
def code_bits (code : List Char) : List Bool := code.map (fun p => p == '1')

/-- Pushing a sequence of bits, one `bitbuf_push_bit` each. -/
def push_bits (b : BitBuf) (bits : List Bool) : BitBuf := bits.foldl bitbuf_push_bit b

/-- The number of code bits the encoder writes for a payload: the sum over the
payload bytes of the length of each byte's code. -/
def total_code_bits (payload : List Nat) : Nat :=
  match build_huffman (count_freq payload) with
  | none => 0
  | some (root, _) =>
    (payload.map (fun b => ((gen_codes root [] (fun _ => none) b).getD []).length)).sum

open Decoder (get_bit) in
/-- The state of a `BitBuf` into which the bits `bs` have been pushed: the length
is the number of pushed bits, the buffer has `cap` bytes, and bit `i` of the
buffer (MSB first) is `bs[i]`, and zero from `bit_len` on. -/
def Holds (b : BitBuf) (bs : List Bool) : Prop :=
  b.bit_len = bs.length ∧ b.data.length = b.cap ∧ 0 < b.cap ∧ b.bit_len ≤ 8 * b.cap ∧
    ∀ i, get_bit b.data i = (bs.getD i false).toNat

end Encoder

namespace Decoder

/-- The node reached from `t` along a sequence of bits (`null` once a child is
missing). -/
def HNode.descend : HNode → List Bool → HNode
  | t, [] => t
  | t, b :: bs => (t.child b).descend bs

/-- The fields `(is_leaf, sym)` of a node, `none` for `NULL`. -/
def HNode.flag : HNode → Option (Bool × Nat)
  | .null => none
  | .node is_leaf sym _ _ => some (is_leaf, sym)

/-- A string of the characters `'0'` and `'1'`. -/
def IsBits (code : List Char) : Prop := ∀ ch ∈ code, ch = '0' ∨ ch = '1'

/-- The trie `t` holds exactly the (symbol, code) pairs of `E`: a node is marked
leaf only at the end of a code of `E`, the end of every code of `E` is marked leaf
with its symbol, and every node along a code of `E` exists. -/
def Loaded (t : HNode) (E : List (Nat × List Bool)) : Prop :=
  t ≠ HNode.null ∧
  (∀ q s, (t.descend q).flag = some (true, s) → (s, q) ∈ E) ∧
  (∀ p ∈ E, (t.descend p.2).flag = some (true, p.1)) ∧
  (∀ p ∈ E, ∀ q, q <+: p.2 → t.descend q ≠ HNode.null)

/-- No code of `E` is a prefix of the code of another entry of `E`. -/
def PrefixFree (E : List (Nat × List Bool)) : Prop :=
  ∀ p ∈ E, ∀ q ∈ E, p ≠ q → ¬ p.2 <+: q.2

end Decoder

/-! ## Method 2: zigzag, DPCM and run-length coding -/

/-- An 8x8 array indexed `[u][v]`. -/
abbrev Grid := Nat → Nat → Int

/-- The assignment `F[u][v] = x`. -/
def Grid.set (F : Grid) (u v : Nat) (x : Int) : Grid :=
  fun u' v' => if u' = u ∧ v' = v then x else F u' v'

/-- The struct `Pair { int16_t skip; int16_t val; }`. -/
structure Pair where
  skip : Int
  val : Int
  deriving DecidableEq, Repr

/-- One binary RLE record: `uint16 pc` followed by the pairs. -/
structure Record where
  pc : Nat
  pairs : List Pair
  deriving DecidableEq, Repr

/-- Cast to `uint16_t`. -/
def u16 (n : Nat) : Nat := n % 2 ^ 16

namespace Encoder

/-- The table `QT_Y` (encoder.c, lines 168-177). -/
def QT_Y : List (List Int) :=
  [[16, 11, 10, 16, 24, 40, 51, 61],
   [12, 12, 14, 19, 26, 58, 60, 55],
   [14, 13, 16, 24, 40, 57, 69, 56],
   [14, 17, 22, 29, 51, 87, 80, 62],
   [18, 22, 37, 56, 68, 109, 103, 77],
   [24, 35, 55, 64, 81, 104, 113, 92],
   [49, 64, 78, 87, 103, 121, 120, 101],
   [72, 92, 95, 98, 112, 100, 103, 99]]

/-- The table `QT_C` (encoder.c, lines 178-187). -/
def QT_C : List (List Int) :=
  [[17, 18, 24, 47, 99, 99, 99, 99],
   [18, 21, 26, 66, 99, 99, 99, 99],
   [24, 26, 56, 99, 99, 99, 99, 99],
   [47, 66, 99, 99, 99, 99, 99, 99],
   [99, 99, 99, 99, 99, 99, 99, 99],
   [99, 99, 99, 99, 99, 99, 99, 99],
   [99, 99, 99, 99, 99, 99, 99, 99],
   [99, 99, 99, 99, 99, 99, 99, 99]]

/-- The table `ZZU` (encoder.c, lines 202-207). -/
def ZZU : List Nat :=
  [0, 0, 1, 2, 1, 0, 0, 1, 2, 3, 4, 3, 2, 1, 0, 0,
   1, 2, 3, 4, 5, 6, 5, 4, 3, 2, 1, 0, 1, 2, 3, 4,
   5, 6, 7, 7, 6, 5, 4, 3, 2, 3, 4, 5, 6, 7, 7, 6,
   5, 4, 5, 6, 7, 7, 6, 7, 7, 7, 7, 7, 7, 7, 7, 7]

/-- The table `ZZV` (encoder.c, lines 208-213). -/
def ZZV : List Nat :=
  [0, 1, 0, 0, 1, 2, 3, 2, 1, 0, 0, 1, 2, 3, 4, 5,
   4, 3, 2, 1, 0, 0, 1, 2, 3, 4, 5, 6, 7, 6, 5, 4,
   3, 2, 1, 0, 1, 2, 3, 4, 5, 6, 7, 7, 6, 5, 4, 3,
   4, 5, 6, 7, 7, 6, 5, 6, 7, 7, 6, 5, 4, 3, 2, 1]

/-- The zigzag collection loop (lines 628-632): `zz[k] = q[c][ZZU[k]][ZZV[k]]`. -/
def zigzag (q : Grid) : List Int :=
  (List.range 64).map (fun k => q (ZZU.getD k 0) (ZZV.getD k 0))

/-- The DPCM step on the DC value (lines 634-637): the new `prevDC` and the stored
difference `(int16_t)(dc - prevDC[c])`. -/
def dpcm (prevDC : Nat → Int) (c : Nat) (dc : Int) : (Nat → Int) × Int :=
  (Function.update prevDC c dc, i16 (dc - prevDC c))

/-- The RLE loop (lines 640-652) over the entries `zz[k]`, `k = 0..63`, with the
running zero count `zc`: one pair `((int16_t)zc, v)` per nonzero entry. -/
def rle_loop : List Int → Int → List Pair
  | [], _ => []
  | v :: vs, zc =>
    if v = 0 then rle_loop vs (zc + 1)
    else { skip := i16 zc, val := v } :: rle_loop vs 0

/-- The RLE pairs of a 64-vector. -/
def rle (zz : List Int) : List Pair := rle_loop zz 0

/-- The binary record of a pair list (lines 663-665): `(uint16_t)pc`, then the
`pc` pairs. -/
def write_record (pairs : List Pair) : Record :=
  { pc := u16 pairs.length, pairs := pairs }

/-- The per-channel coding of one block (lines 626-666, binary output): zigzag,
DPCM on `zz[0]`, RLE, and the record written. -/
def encode_channel (prevDC : Nat → Int) (c : Nat) (q : Grid) : (Nat → Int) × Record :=
  let zz := zigzag q
  let dc := zz.getD 0 0
  let st := dpcm prevDC c dc
  let zz := zz.set 0 st.2
  (st.1, write_record (rle zz))

/-- The three channels of one block, in the order Y, Cb, Cr; `q c` is `q[c]`. -/
def encode_block (prevDC : Nat → Int) (q : Nat → Grid) : (Nat → Int) × List Record :=
  let r0 := encode_channel prevDC 0 (q 0)
  let r1 := encode_channel r0.1 1 (q 1)
  let r2 := encode_channel r1.1 2 (q 2)
  (r2.1, [r0.2, r1.2, r2.2])

/-- The records written for the blocks of an image in raster order, from the
quantised grids of the blocks. -/
def encode_blocks : (Nat → Int) → List (Nat → Grid) → List Record
  | _, [] => []
  | prevDC, q :: qs =>
    let r := encode_block prevDC q
    r.2 ++ encode_blocks r.1 qs

/-- The DC part of the block loop: for the DC values `dc c` of the blocks in raster
order, the differences stored at vector index 0, channel by channel. -/
def dpcm_blocks : (Nat → Int) → List (Nat → Int) → List (Nat → Int)
  | _, [] => []
  | prevDC, dc :: rest =>
    let s0 := dpcm prevDC 0 (dc 0)
    let s1 := dpcm s0.1 1 (dc 1)
    let s2 := dpcm s1.1 2 (dc 2)
    (fun c => if c = 0 then s0.2 else if c = 1 then s1.2 else s2.2) :: dpcm_blocks s2.1 rest

/-- The array `prevDC` after the block loop has run over the given blocks. -/
def dpcm_state : (Nat → Int) → List (Nat → Int) → (Nat → Int)
  | prevDC, [] => prevDC
  | prevDC, dc :: rest =>
    let s0 := dpcm prevDC 0 (dc 0)
    let s1 := dpcm s0.1 1 (dc 1)
    let s2 := dpcm s1.1 2 (dc 2)
    dpcm_state s2.1 rest

/-- The body of the Method-2 binary file for the quantised grids of the blocks:
`prevDC` starts as `{0,0,0}`. -/
def method2_records (blocks : List (Nat → Grid)) : List Record :=
  encode_blocks (fun _ => 0) blocks

end Encoder

namespace Decoder

/-- The table `QY` (decoder.c, lines 94-99). -/
def QY : List (List Int) :=
  [[16, 11, 10, 16, 24, 40, 51, 61], [12, 12, 14, 19, 26, 58, 60, 55],
   [14, 13, 16, 24, 40, 57, 69, 56], [14, 17, 22, 29, 51, 87, 80, 62],
   [18, 22, 37, 56, 68, 109, 103, 77], [24, 35, 55, 64, 81, 104, 113, 92],
   [49, 64, 78, 87, 103, 121, 120, 101], [72, 92, 95, 98, 112, 100, 103, 99]]

/-- The table `QC` (decoder.c, lines 100-105). -/
def QC : List (List Int) :=
  [[17, 18, 24, 47, 99, 99, 99, 99], [18, 21, 26, 66, 99, 99, 99, 99],
   [24, 26, 56, 99, 99, 99, 99, 99], [47, 66, 99, 99, 99, 99, 99, 99],
   [99, 99, 99, 99, 99, 99, 99, 99], [99, 99, 99, 99, 99, 99, 99, 99],
   [99, 99, 99, 99, 99, 99, 99, 99], [99, 99, 99, 99, 99, 99, 99, 99]]

/-- The table `ZZU` (decoder.c, lines 108-113). -/
def ZZU : List Nat :=
  [0, 0, 1, 2, 1, 0, 0, 1, 2, 3, 4, 3, 2, 1, 0, 0,
   1, 2, 3, 4, 5, 6, 5, 4, 3, 2, 1, 0, 1, 2, 3, 4,
   5, 6, 7, 7, 6, 5, 4, 3, 2, 3, 4, 5, 6, 7, 7, 6,
   5, 4, 5, 6, 7, 7, 6, 7, 7, 7, 7, 7, 7, 7, 7, 7]

/-- The table `ZZV` (decoder.c, lines 114-119). -/
def ZZV : List Nat :=
  [0, 1, 0, 0, 1, 2, 3, 2, 1, 0, 0, 1, 2, 3, 4, 5,
   4, 3, 2, 1, 0, 0, 1, 2, 3, 4, 5, 6, 7, 6, 5, 4,
   3, 2, 1, 0, 1, 2, 3, 4, 5, 6, 7, 7, 6, 5, 4, 3,
   4, 5, 6, 7, 7, 6, 5, 6, 7, 7, 6, 5, 4, 3, 2, 1]

/-- The replay loop of the binary decoder (lines 496-503) from cursor `k` on the
buffer `zz`: `k += pr.skip; if(k>=64) die(...); zz[k++] = pr.val;`.  A write at a
negative index (undefined behaviour in C) is treated as a failure too. -/
def replay : List Pair → Int → List Int → Option (List Int)
  | [], _, zz => some zz
  | pr :: rest, k, zz =>
    let k := k + pr.skip
    if 64 ≤ k then none
    else if k < 0 then none
    else replay rest (k + 1) (zz.set k.toNat pr.val)

/-- Reading one binary record into a zero-filled `zz[64]`: `pc` pairs are read
(a short read is fatal) and replayed. -/
def read_record (r : Record) : Option (List Int) :=
  if r.pairs.length < r.pc then none
  else replay (r.pairs.take r.pc) 0 (List.replicate 64 0)

/-- The inverse DPCM step (lines 507-510): the new `prevDC` and the recovered
`dc = (int16_t)(prevDC[c] + diff)`. -/
def inverse_dpcm (prevDC : Nat → Int) (c : Nat) (diff : Int) : (Nat → Int) × Int :=
  (Function.update prevDC c (i16 (prevDC c + diff)), i16 (prevDC c + diff))

/-- The DC part of the decoder's block loop: the absolute DC values recovered
from the stored differences `diff c` of the blocks in raster order. -/
def inverse_dpcm_blocks : (Nat → Int) → List (Nat → Int) → List (Nat → Int)
  | _, [] => []
  | prevDC, diff :: rest =>
    let s0 := inverse_dpcm prevDC 0 (diff 0)
    let s1 := inverse_dpcm s0.1 1 (diff 1)
    let s2 := inverse_dpcm s1.1 2 (diff 2)
    (fun c => if c = 0 then s0.2 else if c = 1 then s1.2 else s2.2) ::
      inverse_dpcm_blocks s2.1 rest

/-- The divisor `Q = (c==0)? QY[u][v] : QC[u][v]`. -/
def Q (c u v : Nat) : Int :=
  if c = 0 then (QY.getD u []).getD v 0 else (QC.getD u []).getD v 0

/-- The cells of the de-zigzag loop without the dequantisation: iteration `t`
stores `zz[t]` at `[ZZU[t]][ZZV[t]]` of a zeroed grid, a later write replacing an
earlier one. -/
def dezigzag (zz : List Int) : Grid :=
  (List.range 64).foldl
    (fun F t => F.set (ZZU.getD t 0) (ZZV.getD t 0) (zz.getD t 0)) (fun _ _ => 0)

/-- The de-zigzag and dequantisation loop (lines 513-519) on a zeroed `F`:
`F[ZZU[t]][ZZV[t]] = zz[t] * Q`. -/
def dequant (c : Nat) (zz : List Int) : Grid :=
  (List.range 64).foldl
    (fun F t => F.set (ZZU.getD t 0) (ZZV.getD t 0)
      (zz.getD t 0 * Q c (ZZU.getD t 0) (ZZV.getD t 0))) (fun _ _ => 0)

/-- The per-channel decoding of one block (lines 494-519, binary input): the new
`prevDC` and the coefficient grid `F` handed to `idct8x8`. -/
def decode_channel (prevDC : Nat → Int) (c : Nat) (r : Record) : Option ((Nat → Int) × Grid) :=
  match read_record r with
  | none => none
  | some zz =>
    let st := inverse_dpcm prevDC c (zz.getD 0 0)
    let zz := zz.set 0 st.2
    some (st.1, dequant c zz)

/-- The coefficient grids of the blocks of an image, three per block, decoded from
the stream of records; `n` is the number of blocks `bw*bh`. -/
def decode_blocks : Nat → (Nat → Int) → List Record → Option (List (List Grid))
  | 0, _, _ => some []
  | n + 1, prevDC, r0 :: r1 :: r2 :: rest =>
    match decode_channel prevDC 0 r0 with
    | none => none
    | some (p0, F0) =>
      match decode_channel p0 1 r1 with
      | none => none
      | some (p1, F1) =>
        match decode_channel p1 2 r2 with
        | none => none
        | some (p2, F2) =>
          match decode_blocks n p2 rest with
          | none => none
          | some Fs => some ([F0, F1, F2] :: Fs)
  | _ + 1, _, _ => none

/-- The coefficient grids the Method-2 binary decoder rebuilds: `prevDC` starts as
`{0,0,0}`. -/
def method2_grids (n : Nat) (records : List Record) : Option (List (List Grid)) :=
  decode_blocks n (fun _ => 0) records

end Decoder

/-! ## Quantiser (encoder.c, lines 504-516 and 615-623)

The coefficients are `double`s in the program.  They are embedded in exact
arithmetic: any linearly ordered field with a floor function, in particular `ℚ`,
where the definitions compute. -/

namespace Encoder

/-- The C library function `llround` in exact arithmetic: the nearest integer,
halfway cases rounded away from zero. -/
def llround {α : Type} [LinearOrderedField α] [FloorRing α] (x : α) : Int :=
  if 0 ≤ x then ⌊x + 1 / 2⌋ else -⌊-x + 1 / 2⌋

/-- Method 1 (line 510): `qi = (int16_t)llround(f/q)`. -/
def quantise_m1 {α : Type} [LinearOrderedField α] [FloorRing α] (f : α) (q : Int) : Int :=
  i16 (llround (f / (q : α)))

/-- Rounding to the nearest integer, a value halfway between two integers going
to the even one (the rounding direction of IEEE-754 conversions). -/
def round_half_even {α : Type} [LinearOrderedField α] [FloorRing α] (y : α) : Int :=
  let n := ⌊y⌋
  if y - (n : α) < 1 / 2 then n
  else if 1 / 2 < y - (n : α) then n + 1
  else if n % 2 = 0 then n else n + 1

/-- The conversion `(float)x` of a `double` to IEEE-754 binary32, in exact
arithmetic: 24 significant bits, least exponent -126 (below `2^-126` the spacing
stays `2^-149`), round to nearest, ties to even.  Magnitudes of `2^128` and more,
which overflow, are outside the model. -/
def to_float32 {α : Type} [LinearOrderedField α] [FloorRing α] (x : α) : α :=
  if x = 0 then 0
  else
    let e : Int := max (Int.log 2 |x|) (-126)
    let ulp : α := (2 : α) ^ (e - 23)
    ((round_half_even (x / ulp) : Int) : α) * ulp

/-- Method 1 (line 511): `ei = (float)(f - (double)qi*q)`. -/
def residual_m1 {α : Type} [LinearOrderedField α] [FloorRing α] (f : α) (q : Int) : α :=
  to_float32 (f - ((quantise_m1 f q : Int) : α) * (q : α))

/-- Method 2 (line 620): `q[c][u][v] = (int16_t)llround(F[c][u][v]/Q)`. -/
def quantise_m2 {α : Type} [LinearOrderedField α] [FloorRing α] (F : α) (Q : Int) : Int :=
  i16 (llround (F / (Q : α)))

end Encoder

namespace Decoder

/-- Method 1 dequantisation (decoder.c, lines 316-322): `fy = q * QY[u][v]`, and
`fy += (double)e` when the residual stream is present. -/
def dequant_m1 {α : Type} [LinearOrderedField α] (q : Int) (Q : Int) (e : Option α) : α :=
  match e with
  | none => (q : α) * (Q : α)
  | some e => (q : α) * (Q : α) + e

end Decoder

/-! ## Auxiliary notions used to state properties of Method 2 -/

/-- A value of type `int16_t`. -/
def IsI16 (x : Int) : Prop := -32768 ≤ x ∧ x ≤ 32767

instance (x : Int) : Decidable (IsI16 x) := by unfold IsI16; infer_instance

/-- The differential code of one channel written without casts: each value minus
its predecessor, the first minus `prev`. -/
def diffs : Int → List Int → List Int
  | _, [] => []
  | prev, d :: ds => (d - prev) :: diffs d ds

/-- The differential code of one channel with the encoder's `int16_t` cast. -/
def dpcm_chain : Int → List Int → List Int
  | _, [] => []
  | prev, d :: ds => i16 (d - prev) :: dpcm_chain d ds

/-- Every successive difference of the sequence (the first taken from `prev`) is
a value of type `int16_t`. -/
def fits16 : Int → List Int → Bool
  | _, [] => true
  | prev, d :: ds => decide (IsI16 (d - prev)) && fits16 d ds

/-- The quantised luma grid of the 8x8 image whose columns alternate white and
black: row 0 is `0 17 0 14 0 8 0 15`, the other rows are zero. -/
def stripes_Y : Grid := fun u v => if u = 0 then [0, 17, 0, 14, 0, 8, 0, 15].getD v 0 else 0

/-- The quantised grids `q[c]` of the striped image: the chroma grids are zero. -/
def stripes : Nat → Grid := fun c => if c = 0 then stripes_Y else fun _ _ => 0

/-- The integer `n` is `x` rounded to the nearest integer, a value halfway between
two integers being rounded away from zero. -/
def IsRoundHalfAway {α : Type} [LinearOrderedField α] (x : α) (n : Int) : Prop :=
  |x - (n : α)| < 1 / 2 ∨ (|x - (n : α)| = 1 / 2 ∧ |x| < |(n : α)|)

/-! ## Auxiliary notions: code table, reference walk of the trie -/

namespace Encoder

/-- The code table of a frequency table: `build_huffman` followed by `gen_codes`
on a table of `NULL`s, as in Method 3 (lines 721-726). -/
def huffman_codes (freq : Nat → Nat) : Option Codes :=
  match build_huffman freq with
  | none => none
  | some (root, _) => some (gen_codes root [] (fun _ => none))

end Encoder

/-- The codebook line with its frequency field replaced by 0. -/
def Line.erase_freq : Line → Line
  | .entry sym _ code => .entry sym 0 code
  | l => l

namespace Decoder

/-- Reference walk of a trie: the symbols emitted when all the given bits are
walked from `cur`, the walk restarting at `root` after each node marked leaf;
`none` when a step leads to a non-existent child. -/
def walk (root : HNode) : HNode → List Bool → Option (List Nat)
  | _, [] => some []
  | cur, b :: bs =>
    match cur.child b with
    | .null => none
    | .node is_leaf sym zero one =>
      if is_leaf then (walk root root bs).map (fun w => u8 sym :: w)
      else walk root (.node is_leaf sym zero one) bs

/-- The bits `(data[i/8] >> (7-(i%8))) & 1` for `i = start .. start+n-1`. -/
def stream_bits (data : List Nat) (start n : Nat) : List Bool :=
  (List.range n).map (fun j => get_bit data (start + j) != 0)

end Decoder


/-! ## DCT and IDCT (encoder.c, lines 107-157; decoder.c, lines 44-78)

`double` is modelled by a field; the loops `for(i=0;i<8;i++) s += ...` are folds
over `List.range 8`.  The transforms take the tables as arguments, so that they
can be evaluated on rational tables; the tables of the program, filled by
`init_dct_table` and `init_dct` with `cos` and `sqrt`, are the real-valued
`COS8`, `ALPHA8` and `A8` below. -/

namespace Encoder

/-- `COS8[u][x] = cos(((2.0*x + 1.0)*u*M_PI)/16.0)`, over the reals. -/
noncomputable def COS8 (u x : Nat) : ℝ :=
  Real.cos (((2 * (x : ℝ) + 1) * (u : ℝ) * Real.pi) / 16)

/-- `ALPHA8[u] = (u==0)? (1.0/sqrt(2.0)) : 1.0`, over the reals. -/
noncomputable def ALPHA8 (u : Nat) : ℝ :=
  if u = 0 then 1 / Real.sqrt 2 else 1

/-- `dct8x8` (encoder.c, lines 122-139), `out` as a function of `in`. -/
def dct8x8 {K : Type} [Field K] (COS8 : Nat → Nat → K) (ALPHA8 : Nat → K)
    (inp : Nat → Nat → K) : Nat → Nat → K :=
  let temp : Nat → Nat → K := fun u y =>
    (List.range 8).foldl (fun s x => s + inp x y * COS8 u x) 0
  fun u v =>
    1 / 4 * ALPHA8 u * ALPHA8 v *
      (List.range 8).foldl (fun s y => s + temp u y * COS8 v y) 0

end Encoder

namespace Decoder

/-- `COS8[u][x] = cos(((2.0*x+1.0)*u*M_PI)/16.0)`, over the reals. -/
noncomputable def COS8 (u x : Nat) : ℝ :=
  Real.cos (((2 * (x : ℝ) + 1) * (u : ℝ) * Real.pi) / 16)

/-- `A8[u] = (u==0)? 1.0/sqrt(2.0) : 1.0`, over the reals. -/
noncomputable def A8 (u : Nat) : ℝ :=
  if u = 0 then 1 / Real.sqrt 2 else 1

/-- `idct8x8` (decoder.c, lines 59-78), `out` as a function of `in`. -/
def idct8x8 {K : Type} [Field K] (COS8 : Nat → Nat → K) (A8 : Nat → K)
    (inp : Nat → Nat → K) : Nat → Nat → K :=
  let tmp : Nat → Nat → K := fun x v =>
    (List.range 8).foldl (fun s u => s + A8 u * inp u v * COS8 u x) 0
  fun x y =>
    1 / 4 * (List.range 8).foldl (fun s v => s + A8 v * tmp x v * COS8 v y) 0

end Decoder


namespace Encoder

/-! ### Auxiliary notions used to state the optimality of the code -/

/-- The order of the heap: `x` is not after `y` when `hn_less y x` is 0. -/
def hn_le (x y : HNode) : Prop := hn_less y x = false

/-- The heap property of the array `a[0..sz)`: no node is less than its parent
`a[(i-1)/2]`. -/
def IsHeap (a : List HNode) : Prop :=
  ∀ i, 0 < i → i < a.length → hn_le (a.getD ((i - 1) / 2) default) (a.getD i default)

/-- The sum of the frequencies at the leaves of a tree. -/
def HNode.weight : HNode → Nat
  | .leaf _ f => f
  | .node l r _ => l.weight + r.weight

/-- The weighted path length of a tree whose root is at depth `d`: the sum over
the leaves of frequency times depth. -/
def HNode.wpl : Nat → HNode → Nat
  | d, .leaf _ f => f * d
  | d, .node l r _ => HNode.wpl (d + 1) l + HNode.wpl (d + 1) r

/-- The cost of a list of (weight, length) pairs. -/
def cost (P : List (Nat × Nat)) : Nat := (P.map (fun p => p.1 * p.2)).sum

/-- The Kraft sum of a list of (weight, length) pairs, scaled by `2^B`. -/
def kraft (B : Nat) (P : List (Nat × Nat)) : Nat := (P.map (fun p => 2 ^ (B - p.2))).sum

/-- The lengths of `P` are at most `B` and satisfy the Kraft inequality. -/
def Feasible (B : Nat) (P : List (Nat × Nat)) : Prop :=
  (∀ p ∈ P, p.2 ≤ B) ∧ kraft B P ≤ 2 ^ B

/-- The total cost `sum of freq[s] * length(code[s])` of a code table, a symbol
without a code counting with length 0. -/
def total_cost (freq : Nat → Nat) (len : Nat → Nat) : Nat :=
  ((List.range 256).map (fun s => freq s * len s)).sum

end Encoder

/-- The rest of a bit string that starts with the bit `b`. -/
def strip_bit (b : Bool) : List Bool → Option (List Bool)
  | [] => none
  | x :: t => if x = b then some t else none


/-! ## Colour conversion and write-back of the decoders (decoder.c) -/

/-- Cast to `int` (32 bits, two's complement wrap-around). -/
def i32 (x : Int) : Int := (x + 2 ^ 31) % 2 ^ 32 - 2 ^ 31

namespace Decoder

/-- `clampi` (decoder.c, line 42). -/
def clampi (x lo hi : Int) : Int := if x < lo then lo else if x > hi then hi else x

/-- `ycbcr_to_rgb` (decoder.c, lines 81-91) in exact arithmetic: the three bytes
stored through `R`, `G` and `B`.  The constants and the arithmetic are exact; the
casts `(int)` of the `long long` returned by `llround` and `(uint8_t)` are written
out.  The computation in `double`, with every operation rounded, is
`ycbcr_to_rgb_double`. -/
def ycbcr_to_rgb {α : Type} [LinearOrderedField α] [FloorRing α] (Y Cb Cr : α) :
    Nat × Nat × Nat :=
  let r := Y + 1402 / 1000 * (Cr - 128)
  let g := Y - 344136 / 1000000 * (Cb - 128) - 714136 / 1000000 * (Cr - 128)
  let b := Y + 1772 / 1000 * (Cb - 128)
  let ri := i32 (Encoder.llround r)
  let gi := i32 (Encoder.llround g)
  let bi := i32 (Encoder.llround b)
  ((clampi ri 0 255 % 256).toNat, (clampi gi 0 255 % 256).toNat, (clampi bi 0 255 % 256).toNat)

/-- The positions of an 8x8 block that the write-back loops store (decoder.c, lines
349-358 and 523-532): for `i`, `j` in `0..7`, with `int y = m*8+i` and
`int x = n*8+j`, the iteration is skipped when `y>=H || x>=W`; otherwise the index
is `y*W+x`.  The arithmetic is that of the 32-bit `int`: a result outside its range
wraps around (two's complement), which is what the overflow, undefined in C, does
on the usual targets.  The result lists `(i, j, y*W+x)` in loop order. -/
def block_pixels (W H : Int) (m n : Nat) : List (Nat × Nat × Int) :=
  (List.range 8).flatMap (fun i => (List.range 8).flatMap (fun j =>
    let y : Int := i32 ((m : Int) * 8 + i)
    let x : Int := i32 ((n : Int) * 8 + j)
    if y ≥ H ∨ x ≥ W then [] else [(i, j, i32 (i32 (y * W) + x))]))

/-- The stores of the write-back of one block: index `y*W+x` and the bytes written
to `R`, `G`, `B` there, in program order. -/
def write_back (W H : Int) (m n : Nat) (px : Nat → Nat → Nat × Nat × Nat) :
    List (Int × Nat × Nat × Nat) :=
  (block_pixels W H m n).map (fun p => (p.2.2, px p.1 p.2.1))

/-- The block indices `(m, n)` of the loops `for(m=0;m<bh;m++) for(n=0;n<bw;n++)`. -/
def block_indices (bh bw : Nat) : List (Nat × Nat) :=
  (List.range bh).flatMap (fun m => (List.range bw).map (fun n => (m, n)))

end Decoder

namespace Encoder

/-- The sample of block `(m, n)` at `(i, j)` that the block build reads (encoder.c,
lines 490-491 and 600-601): `int y=m*8+i; if(y>=H) y=H-1; int x=n*8+j;
if(x>=W) x=W-1;`, the index being `y*W+x`.  The arithmetic is that of the 32-bit
`int`, with wrap-around (two's complement) where C leaves the overflow undefined.
The result is `(y, x, y*W+x)`. -/
def block_sample (W H : Int) (m n i j : Nat) : Int × Int × Int :=
  let y : Int := i32 ((m : Int) * 8 + i)
  let y := if y ≥ H then i32 (H - 1) else y
  let x : Int := i32 ((n : Int) * 8 + j)
  let x := if x ≥ W then i32 (W - 1) else x
  (y, x, i32 (i32 (y * W) + x))

end Encoder


/-! ## Method 2 decoder (decoder.c, lines 400-540)

The RLE file is embedded after scanning: the header fields as `fscanf` / `fread`
deliver them, the ascii lines as `parse_line_header` and `sscanf` convert them, the
binary body as its records.  Allocation (`malloc`) is not represented; the stores
into the planes `R`, `G`, `B` are listed in program order. -/

/-- One line of the ascii RLE file after the line `W H`: the result `(m, n, CH)` of
`parse_line_header` (`none` when it returns 0) and the tokens `skip:val` that
`sscanf(p,"%d:%d",..)` converts, in order, up to the first one it does not. -/
structure AsciiLine where
  header : Option (Int × Int × List Char)
  tokens : List (Int × Int)
  deriving DecidableEq, Repr

/-- The file `rlePath` in the two modes: in ascii mode the pair `W H` of the first
line (`none` when `fscanf` does not convert two integers) and the lines after it; in
binary mode the four magic bytes, `W`, `H`, `bw`, `bh` and the records. -/
inductive RleFile where
  | ascii (header : Option (Int × Int)) (lines : List AsciiLine) : RleFile
  | binary (magic : List Char) (W H bw bh : Int) (records : List Record) : RleFile
  deriving DecidableEq, Repr

/-- The messages `decode_method2_from_file` prints with `fprintf(stderr,"WARN: ...")`. -/
inductive Warning where
  | dim (W H Wd Hd : Int) : Warning
  | block (mm nn : Int) (m n : Nat) : Warning
  | channel (ch expect : List Char) (m n : Nat) : Warning
  deriving DecidableEq, Repr

/-- What `decode_method2_from_file` hands to the BMP writer: the dimensions and the
stores into the planes. -/
structure Decoded where
  W : Int
  H : Int
  writes : List (Int × Nat × Nat × Nat)
  deriving DecidableEq, Repr

/-- One unit of input of the block loop: a line (ascii) or a record (binary). -/
inductive Item where
  | line (l : AsciiLine) : Item
  | record (r : Record) : Item
  deriving DecidableEq, Repr

namespace Decoder

/-- The replay loop of the ascii decoder (lines 474-491) from cursor `k`:
`k += skip; if(k>=64) break; zz[k++] = (int16_t)val;`.  A write at a negative
index (undefined behaviour in C) is treated as a failure, as in `replay`. -/
def replay_ascii : List (Int × Int) → Int → List Int → Option (List Int)
  | [], _, zz => some zz
  | t :: rest, k, zz =>
    let k := k + t.1
    if 64 ≤ k then some zz
    else if k < 0 then none
    else replay_ascii rest (k + 1) (zz.set k.toNat (i16 t.2))

/-- Reading one ascii line for channel `c` of block `(m, n)` (lines 457-491): `die`
on a bad line header, warnings on an unexpected block index or channel name, then
the replay into a zero-filled `zz[64]`. -/
def read_line (m n c : Nat) (l : AsciiLine) : Option (List Warning × List Int) :=
  match l.header with
  | none => none
  | some (mm, nn, ch) =>
    let w1 := if mm ≠ m ∨ nn ≠ n then [Warning.block mm nn m n] else []
    let expect := if c = 0 then ['Y'] else if c = 1 then ['C', 'b'] else ['C', 'r']
    let w2 := if ch ≠ expect then [Warning.channel ch expect m n] else []
    match replay_ascii l.tokens 0 (List.replicate 64 0) with
    | none => none
    | some zz => some (w1 ++ w2, zz)

/-- Reading the vector `zz` of one channel from the next unit of input. -/
def read_item (m n c : Nat) : Item → Option (List Warning × List Int)
  | .line l => read_line m n c l
  | .record r =>
    match read_record r with
    | none => none
    | some zz => some ([], zz)

/-- From the vector `zz` of channel `c` to the spatial block `blk[c]` (lines
506-520): inverse DPCM on `zz[0]`, de-zigzag and dequantisation, `idct8x8`. -/
def decode_zz {α : Type} [Field α] (COS8 : Nat → Nat → α) (A8 : Nat → α)
    (prevDC : Nat → Int) (c : Nat) (zz : List Int) : (Nat → Int) × (Nat → Nat → α) :=
  let st := inverse_dpcm prevDC c (zz.getD 0 0)
  let zz := zz.set 0 st.2
  (st.1, idct8x8 COS8 A8 (fun u v => ((dequant c zz u v : Int) : α)))

/-- The body of the block loop for block `(m, n)` (lines 451-534): the three
channels are read in the order Y, Cb, Cr, then the pixels of the block are stored.
The result is the new `prevDC`, the input left, the warnings and the stores. -/
def decode_block {α : Type} [LinearOrderedField α] [FloorRing α]
    (COS8 : Nat → Nat → α) (A8 : Nat → α) (W H : Int) (m n : Nat)
    (prevDC : Nat → Int) (items : List Item) :
    Option ((Nat → Int) × List Item × List Warning × List (Int × Nat × Nat × Nat)) :=
  match items with
  | i0 :: i1 :: i2 :: rest =>
    match read_item m n 0 i0 with
    | none => none
    | some (w0, zz0) =>
      let s0 := decode_zz COS8 A8 prevDC 0 zz0
      match read_item m n 1 i1 with
      | none => none
      | some (w1, zz1) =>
        let s1 := decode_zz COS8 A8 s0.1 1 zz1
        match read_item m n 2 i2 with
        | none => none
        | some (w2, zz2) =>
          let s2 := decode_zz COS8 A8 s1.1 2 zz2
          some (s2.1, rest, w0 ++ w1 ++ w2,
            write_back W H m n (fun i j =>
              ycbcr_to_rgb (s0.2 i j + 128) (s1.2 i j + 128) (s2.2 i j + 128)))
  | _ => none

/-- The block loop over the given block indices. -/
def decode_blocks_px {α : Type} [LinearOrderedField α] [FloorRing α]
    (COS8 : Nat → Nat → α) (A8 : Nat → α) (W H : Int) :
    List (Nat × Nat) → (Nat → Int) → List Item →
      Option (List Warning × List (Int × Nat × Nat × Nat))
  | [], _, _ => some ([], [])
  | b :: bs, prevDC, items =>
    match decode_block COS8 A8 W H b.1 b.2 prevDC items with
    | none => none
    | some (p, rest, w, wr) =>
      match decode_blocks_px COS8 A8 W H bs p rest with
      | none => none
      | some (ws, wrs) => some (w ++ ws, wr ++ wrs)

/-- The warning of lines 430-435 about dimensions that differ from `dim.txt`. -/
def dim_warning (W H W_from_dim H_from_dim : Int) (has_dim_WH : Bool) : List Warning :=
  if has_dim_WH then
    if W ≠ W_from_dim ∨ H ≠ H_from_dim then [Warning.dim W H W_from_dim H_from_dim] else []
  else []

/-- `decode_method2_from_file` from the header on: `bw`, `bh` block columns and
rows, `prevDC = {0,0,0}`. -/
def decode_body {α : Type} [LinearOrderedField α] [FloorRing α]
    (COS8 : Nat → Nat → α) (A8 : Nat → α) (W H bw bh : Int) (warn : List Warning)
    (items : List Item) : Option (List Warning × Decoded) :=
  match decode_blocks_px COS8 A8 W H (block_indices bh.toNat bw.toNat) (fun _ => 0) items with
  | none => none
  | some (ws, writes) => some (warn ++ ws, { W := W, H := H, writes := writes })

/-- `decode_method2_from_file` (lines 400-540): the warnings printed and the data
handed to the BMP writer, or `none` for `die`.  In ascii mode `bw` and `bh` are
`(W+7)/8` and `(H+7)/8` (C division, the sum in 32-bit `int` with wrap-around); in
binary mode they are read from the file. -/
def decode_method2_from_file {α : Type} [LinearOrderedField α] [FloorRing α]
    (COS8 : Nat → Nat → α) (A8 : Nat → α) (f : RleFile)
    (W_from_dim H_from_dim : Int) (has_dim_WH : Bool) : Option (List Warning × Decoded) :=
  match f with
  | .ascii none _ => none
  | .ascii (some (W, H)) lines =>
    decode_body COS8 A8 W H (Int.tdiv (i32 (W + 7)) 8) (Int.tdiv (i32 (H + 7)) 8)
      (dim_warning W H W_from_dim H_from_dim has_dim_WH) (lines.map Item.line)
  | .binary magic W H bw bh records =>
    if magic ≠ ['M', '2', 'B', '0'] then none
    else
      decode_body COS8 A8 W H bw bh
        (dim_warning W H W_from_dim H_from_dim has_dim_WH) (records.map Item.record)

end Decoder

namespace Encoder

/-! ### Trace of the merge loop -/

/-- One iteration of the merge loop of `build_huffman`: the heap before it, the two
nodes popped (`a` first) and the value of the swap guard `hn_less(b,a)`. -/
structure MergeStep where
  heap : List HNode
  a : HNode
  b : HNode
  guard : Bool

/-- The merge loop of `build_huffman` (`build_merge`) with its iterations
recorded. -/
def merge_run : Nat → List HNode → Option (List HNode × List MergeStep)
  | 0, hp => if 1 < hp.length then none else some (hp, [])
  | fuel + 1, hp =>
    if 1 < hp.length then
      match heap_pop hp with
      | none => none
      | some (a, hp1) =>
        match heap_pop hp1 with
        | none => none
        | some (b, hp2) =>
          let ab := if hn_less b a then (b, a) else (a, b)
          match merge_run fuel (heap_push hp2 (hn_new_internal ab.1 ab.2)) with
          | none => none
          | some (hp', steps) =>
            some (hp', { heap := hp, a := a, b := b, guard := hn_less b a } :: steps)
    else some (hp, [])

/-- In every internal node of the tree the left child is less than the right
child under `hn_less`, and the right child is not less than the left one. -/
def HNode.ordered : HNode → Prop
  | .leaf _ _ => True
  | .node l r _ => hn_less l r = true ∧ hn_less r l = false ∧ l.ordered ∧ r.ordered

/-! ### Reference description of the run-length code -/

/-- The indices of the nonzero entries of a vector, in increasing order. -/
def nonzero_indices (v : List Int) : List Nat :=
  (List.range v.length).filter (fun i => v.getD i 0 ≠ 0)

/-- The run-length code as the specification words it: one pair per nonzero entry,
in index order; its value is the entry and its skip is the number of entries
strictly between it and the previous nonzero entry (index -1 standing for the
start of the vector). -/
def rle_spec (v : List Int) : List Pair :=
  List.zipWith (fun (prev : Int) (i : Nat) => { skip := (i : Int) - prev - 1, val := v.getD i 0 })
    ((-1 : Int) :: (nonzero_indices v).map Int.ofNat) (nonzero_indices v)

/-- The indices of the nonzero entries of the vector `v`, the index of its head
being `o`. -/
def nonzero_from : Nat → List Int → List Nat
  | _, [] => []
  | o, x :: xs => if x ≠ 0 then o :: nonzero_from (o + 1) xs else nonzero_from (o + 1) xs

end Encoder

/-- Some zero-run of the list moves the write cursor, which starts at `k` and
advances by `skip + 1` per pair, to 64 or beyond. -/
def overflows : List Int → Int → Prop
  | [], _ => False
  | s :: rest, k => 64 ≤ k + s ∨ overflows rest (k + s + 1)


namespace Decoder

/-- The plane indices stored by the write-back loops over all blocks, in program
order, for a plane of `W` columns and `H` rows and `bh` by `bw` blocks. -/
def stored_indices (W H bh bw : Nat) : List Nat :=
  (List.range bh).flatMap (fun m => (List.range bw).flatMap (fun n =>
    (List.range 8).flatMap (fun i => (List.range 8).flatMap (fun j =>
      if H ≤ m * 8 + i ∨ W ≤ n * 8 + j then [] else [(m * 8 + i) * W + (n * 8 + j)]))))

end Decoder

/-! ## The forward colour conversion and the block build (encoder.c, lines 161-166 and 601-622) -/

namespace Encoder

/-- `rgb_to_ycbcr` (encoder.c, lines 161-166) on the bytes `R`, `G`, `B`: the triple
`(*Y, *Cb, *Cr)`.  The decimal constants are read as exact fractions. -/
def rgb_to_ycbcr {α : Type} [Field α] (R G B : Nat) : α × α × α :=
  (299 / 1000 * (R : α) + 587 / 1000 * (G : α) + 114 / 1000 * (B : α),
   -(168736 / 1000000) * (R : α) - 331264 / 1000000 * (G : α) + 1 / 2 * (B : α) + 128,
   1 / 2 * (R : α) - 418688 / 1000000 * (G : α) - 81312 / 1000000 * (B : α) + 128)

/-- The level-shifted block `blk[c]` of block `(m, n)` (lines 601-612): entry
`[i][j]` is channel `c` of `rgb_to_ycbcr` at the sample `block_sample` picks, minus
128.  `R`, `G`, `B` are the planes, indexed by `y*W+x`. -/
def build_block {α : Type} [Field α] (R G B : Int → Nat) (W H : Int) (m n c : Nat) :
    Nat → Nat → α :=
  fun i j =>
    let idx := (block_sample W H m n i j).2.2
    let p : α × α × α := rgb_to_ycbcr (R idx) (G idx) (B idx)
    (if c = 0 then p.1 else if c = 1 then p.2.1 else p.2.2) - 128

/-- The divisor `Q = (c==0)? (double)QT_Y[u][v] : (double)QT_C[u][v]` (line 619). -/
def QT (c u v : Nat) : Int :=
  if c = 0 then (QT_Y.getD u []).getD v 0 else (QT_C.getD u []).getD v 0

/-- The quantised grid `q[c]` of a block (lines 615-622): `dct8x8`, then
`q[c][u][v] = (int16_t)llround(F[c][u][v]/Q)`. -/
def quantise_block {α : Type} [LinearOrderedField α] [FloorRing α]
    (COS8 : Nat → Nat → α) (ALPHA8 : Nat → α) (blk : Nat → Nat → α) (c : Nat) : Grid :=
  fun u v => quantise_m2 (dct8x8 COS8 ALPHA8 blk u v) (QT c u v)

/-- Every internal node of the tree carries the sum of the frequencies of its two
children. -/
def HNode.sums : HNode → Prop
  | .leaf _ _ => True
  | .node l r f => f = l.freq + r.freq ∧ l.sums ∧ r.sums

end Encoder

/-! ## `double` arithmetic of the colour conversion (decoder.c, lines 81-91) -/

/-- The rounding of an exact result to `double` (IEEE-754 binary64): 53 significant
bits, least exponent -1022 (below `2^-1022` the spacing stays `2^-1074`), round to
nearest, ties to even.  Magnitudes of `2^1024` and more, which overflow, are outside
the model. -/
def to_double {α : Type} [LinearOrderedField α] [FloorRing α] (x : α) : α :=
  if x = 0 then 0
  else
    let e : Int := max (Int.log 2 |x|) (-1022)
    let ulp : α := (2 : α) ^ (e - 52)
    ((Encoder.round_half_even (x / ulp) : Int) : α) * ulp

namespace Decoder

/-- The `double` values `r`, `g`, `b` of `ycbcr_to_rgb` (decoder.c, lines 82-84):
each decimal constant is the nearest `double`, and the result of each subtraction,
multiplication and addition is rounded to `double`, in the order in which C
evaluates the expressions. -/
def ycbcr_channels {α : Type} [LinearOrderedField α] [FloorRing α] (Y Cb Cr : α) :
    α × α × α :=
  (to_double (Y + to_double (to_double (1402 / 1000) * to_double (Cr - 128))),
   to_double (to_double (Y - to_double (to_double (344136 / 1000000) * to_double (Cb - 128))) -
     to_double (to_double (714136 / 1000000) * to_double (Cr - 128))),
   to_double (Y + to_double (to_double (1772 / 1000) * to_double (Cb - 128))))

/-- `ycbcr_to_rgb` (decoder.c, lines 81-91) in `double` arithmetic: the bytes stored
through `R`, `G` and `B`, from the `double` values `r`, `g`, `b` by `llround`, the
cast `(int)`, `clampi` and the cast `(uint8_t)`. -/
def ycbcr_to_rgb_double {α : Type} [LinearOrderedField α] [FloorRing α] (Y Cb Cr : α) :
    Nat × Nat × Nat :=
  let c := ycbcr_channels Y Cb Cr
  let ri := i32 (Encoder.llround c.1)
  let gi := i32 (Encoder.llround c.2.1)
  let bi := i32 (Encoder.llround c.2.2)
  ((clampi ri 0 255 % 256).toNat, (clampi gi 0 255 % 256).toNat, (clampi bi 0 255 % 256).toNat)

end Decoder

namespace Decoder

/-- The exact results that the operations of `ycbcr_channels` round to `double`:
the differences `Cr-128` and `Cb-128`, the four products and the four sums.  The
model of the rounding stands for the `double` computation as long as their
magnitudes stay below `2^1024`. -/
def ycbcr_exact_results {α : Type} [LinearOrderedField α] [FloorRing α] (Y Cb Cr : α) :
    List α :=
  [Cr - 128, Cb - 128,
   to_double (1402 / 1000) * to_double (Cr - 128),
   Y + to_double (to_double (1402 / 1000) * to_double (Cr - 128)),
   to_double (344136 / 1000000) * to_double (Cb - 128),
   Y - to_double (to_double (344136 / 1000000) * to_double (Cb - 128)),
   to_double (714136 / 1000000) * to_double (Cr - 128),
   to_double (Y - to_double (to_double (344136 / 1000000) * to_double (Cb - 128))) -
     to_double (to_double (714136 / 1000000) * to_double (Cr - 128)),
   to_double (1772 / 1000) * to_double (Cb - 128),
   Y + to_double (to_double (1772 / 1000) * to_double (Cb - 128))]

end Decoder

/-! # Properties -/

namespace Encoder

theorem set_cons_perm (t : List HNode) (j : Nat) (x : HNode) (hj : j < t.length) :
    List.Perm (t.getD j default :: t.set j x) (x :: t) := by
  induction t generalizing j with
  | nil => simp at hj
  | cons y t ih =>
    cases j with
    | zero => simpa using List.Perm.swap x y t
    | succ j =>
      have hj' : j < t.length := by simpa using hj
      have h := ih j hj'
      simp only [List.getD_cons_succ, List.set_cons_succ]
      exact ((List.Perm.swap _ _ _).trans (h.cons y)).trans (List.Perm.swap _ _ _)

theorem swap_perm (a : List HNode) (i j : Nat) (hi : i < a.length) (hj : j < a.length) :
    List.Perm (swap a i j) a := by
  unfold swap
  induction a generalizing i j with
  | nil => simp at hi
  | cons x t ih =>
    cases i with
    | zero =>
      cases j with
      | zero => simp
      | succ j =>
        have hj' : j < t.length := by simpa using hj
        simpa using set_cons_perm t j x hj'
    | succ i =>
      have hi' : i < t.length := by simpa using hi
      cases j with
      | zero =>
        simp only [List.getD_cons_zero, List.set_cons_succ, List.getD_cons_succ, List.set_cons_zero]
        exact (set_cons_perm t i x hi').trans (List.Perm.refl _)
      | succ j =>
        have hj' : j < t.length := by simpa using hj
        simpa using ih i j hi' hj'

theorem swap_length (a : List HNode) (i j : Nat) : (swap a i j).length = a.length := by
  simp [swap]

theorem heap_push_loop_perm (fuel : Nat) (a : List HNode) (i : Nat) (hi : i < a.length) :
    List.Perm (heap_push_loop fuel a i) a := by
  induction fuel generalizing a i with
  | zero => simp [heap_push_loop]
  | succ fuel ih =>
    unfold heap_push_loop
    split
    · simp only []
      split
      · exact List.Perm.refl _
      · have hp : (i - 1) / 2 < a.length := by omega
        exact (ih _ _ (by rw [swap_length]; exact hp)).trans (swap_perm a i _ hi hp)
    · exact List.Perm.refl _

theorem heap_push_perm (h : List HNode) (n : HNode) : List.Perm (heap_push h n) (n :: h) := by
  unfold heap_push
  exact (heap_push_loop_perm _ _ _ (by simp)).trans (List.perm_append_singleton n h)

theorem heap_pop_pick_lt (a : List HNode) (i : Nat) (hi : i < a.length) :
    heap_pop_pick a i < a.length := by
  unfold heap_pop_pick
  simp only [Bool.and_eq_true, decide_eq_true_eq]
  split_ifs with h1 h2 h3
  · exact h2.1
  · exact h1.1
  · exact h3.1
  · exact hi

theorem heap_pop_loop_perm (fuel : Nat) (a : List HNode) (i : Nat) (hi : i < a.length) :
    List.Perm (heap_pop_loop fuel a i) a := by
  induction fuel generalizing a i with
  | zero => simp [heap_pop_loop]
  | succ fuel ih =>
    unfold heap_pop_loop
    simp only []
    split
    · exact List.Perm.refl _
    · have hml := heap_pop_pick_lt a i hi
      exact (ih _ _ (by rw [swap_length]; exact hml)).trans (swap_perm a i _ hi hml)

theorem set_zero_last_perm (y : HNode) (t : List HNode) (ht : t ≠ []) :
    List.Perm (y :: ((y :: t).set 0 ((y :: t).getD t.length default)).take t.length) (y :: t) := by
  refine List.Perm.cons y ?_
  simp only [List.set_cons_zero]
  have hlast : (y :: t).getD t.length default = t.getLast ht := by
    cases t with
    | nil => exact absurd rfl ht
    | cons z t =>
      simp only [List.length_cons, List.getD_cons_succ]
      rw [List.getLast_eq_getElem]
      simp [List.getD_eq_getElem?_getD]
  rw [hlast]
  have h1 : (t.getLast ht :: t).take t.length = t.getLast ht :: t.dropLast := by
    cases t with
    | nil => exact absurd rfl ht
    | cons z t => simp [List.dropLast_eq_take]
  rw [h1]
  have h2 : List.Perm (t.dropLast ++ [t.getLast ht]) (t.getLast ht :: t.dropLast) :=
    List.perm_append_singleton _ _
  have h3 : t.dropLast ++ [t.getLast ht] = t := List.dropLast_append_getLast ht
  rw [h3] at h2
  exact h2.symm

theorem heap_pop_perm (h : List HNode) (x : HNode) (h' : List HNode)
    (hp : heap_pop h = some (x, h')) : List.Perm h (x :: h') := by
  cases h with
  | nil => simp [heap_pop] at hp
  | cons y t =>
    simp only [heap_pop, Option.some.injEq, Prod.mk.injEq] at hp
    obtain ⟨rfl, rfl⟩ := hp
    by_cases ht : t = []
    · subst ht; simp [heap_pop_loop]
    · have hlen : 0 < t.length := List.length_pos.mpr ht
      simp only [List.length_cons, Nat.add_sub_cancel]
      have h1 := heap_pop_loop_perm t.length
        (((y :: t).set 0 ((y :: t).getD t.length default)).take t.length) 0
        (by simp; omega)
      have h2 := set_zero_last_perm y t ht
      exact (h2.symm.trans ((h1.symm).cons y))

theorem heap_pop_eq_none (h : List HNode) : heap_pop h = none ↔ h = [] := by
  cases h <;> simp [heap_pop]


theorem heap_pop_some (h : List HNode) (hne : h ≠ []) :
    ∃ x h', heap_pop h = some (x, h') := by
  cases h with
  | nil => exact absurd rfl hne
  | cons y t => exact ⟨_, _, rfl⟩

theorem hn_new_internal_leaves (a b : HNode) :
    (hn_new_internal a b).leaves = a.leaves ++ b.leaves := rfl

theorem build_leaves_spec (freq : Nat → Nat) (syms : List Nat) (hp : List HNode) (u : Nat) :
    List.Perm (build_leaves freq syms (hp, u)).1 (initial_leaves freq syms ++ hp) ∧
    (build_leaves freq syms (hp, u)).2 = u + (initial_leaves freq syms).length := by
  induction syms generalizing hp u with
  | nil => simp [build_leaves, initial_leaves]
  | cons s ss ih =>
    unfold build_leaves
    split
    · rename_i hs
      obtain ⟨h1, h2⟩ := ih (heap_push hp (hn_new_leaf s (freq s))) (u + 1)
      refine ⟨?_, ?_⟩
      · refine h1.trans ?_
        have h3 : initial_leaves freq (s :: ss) =
            hn_new_leaf s (freq s) :: initial_leaves freq ss := by
          simp [initial_leaves, List.filter_cons, hs]
        rw [h3]
        refine ((heap_push_perm hp _).append_left _).trans ?_
        simp
      · rw [h2]
        simp [initial_leaves, List.filter_cons, hs]
        omega
    · rename_i hs
      obtain ⟨h1, h2⟩ := ih hp u
      have h3 : initial_leaves freq (s :: ss) = initial_leaves freq ss := by
        simp [initial_leaves, List.filter_cons, hs]
      rw [h3]
      exact ⟨h1, h2⟩

theorem build_merge_spec (fuel : Nat) (hp : List HNode) (hlen : hp.length ≤ fuel + 1) :
    ∃ hp', build_merge fuel hp = some hp' ∧ hp'.length ≤ 1 ∧ (hp ≠ [] → hp'.length = 1) ∧
      List.Perm (hp'.flatMap HNode.leaves) (hp.flatMap HNode.leaves) ∧
      (2 ≤ hp.length → ∀ t ∈ hp', t.is_leaf = false) := by
  induction fuel generalizing hp with
  | zero =>
    have h1 : ¬ 1 < hp.length := by omega
    refine ⟨hp, by simp [build_merge, h1], by omega, ?_, List.Perm.refl _, by omega⟩
    intro hne
    have := List.length_pos.mpr hne
    omega
  | succ fuel ih =>
    by_cases h1 : 1 < hp.length
    · have hne : hp ≠ [] := by intro h; simp [h] at h1
      obtain ⟨a, hp1, ha⟩ := heap_pop_some hp hne
      have hpa := heap_pop_perm hp a hp1 ha
      have hl1 : hp1.length + 1 = hp.length := by simpa using hpa.length_eq.symm
      have hne1 : hp1 ≠ [] := by intro h; simp [h] at hl1; omega
      obtain ⟨b, hp2, hb⟩ := heap_pop_some hp1 hne1
      have hpb := heap_pop_perm hp1 b hp2 hb
      have hl2 : hp2.length + 1 = hp1.length := by simpa using hpb.length_eq.symm
      generalize hab : (if hn_less b a then (b, a) else (a, b)) = ab
      have hleaves : List.Perm (hn_new_internal ab.1 ab.2).leaves (a.leaves ++ b.leaves) := by
        rw [← hab, hn_new_internal_leaves]
        split
        · exact List.perm_append_comm
        · exact List.Perm.refl _
      have hpush := heap_push_perm hp2 (hn_new_internal ab.1 ab.2)
      have hlH : (heap_push hp2 (hn_new_internal ab.1 ab.2)).length = hp2.length + 1 := by
        simpa using hpush.length_eq
      obtain ⟨hp', hres, hle, hone, hperm, hleaf⟩ :=
        ih (heap_push hp2 (hn_new_internal ab.1 ab.2)) (by omega)
      have hstep : build_merge (fuel + 1) hp =
          build_merge fuel (heap_push hp2 (hn_new_internal ab.1 ab.2)) := by
        rw [build_merge]
        simp only [h1, if_true, ha, hb, hab]
      refine ⟨hp', by rw [hstep]; exact hres, hle, ?_, ?_, ?_⟩
      · intro _
        apply hone
        intro h
        rw [h] at hlH
        simp at hlH
      · refine hperm.trans ?_
        refine (hpush.flatMap_right HNode.leaves).trans ?_
        refine List.Perm.trans ?_ (hpa.flatMap_right HNode.leaves).symm
        simp only [List.flatMap_cons]
        refine List.Perm.trans ?_ ((hpb.flatMap_right HNode.leaves).symm.append_left a.leaves)
        simp only [List.flatMap_cons]
        rw [← List.append_assoc]
        exact hleaves.append_right _
      · intro _ t ht
        by_cases h2 : 2 ≤ (heap_push hp2 (hn_new_internal ab.1 ab.2)).length
        · exact hleaf h2 t ht
        · have h0 : hp2 = [] := by
            apply List.eq_nil_of_length_eq_zero
            omega
          subst h0
          have hH : heap_push [] (hn_new_internal ab.1 ab.2) = [hn_new_internal ab.1 ab.2] :=
            List.perm_singleton.mp hpush
          rw [hH] at hres
          have hres' : hp' = [hn_new_internal ab.1 ab.2] := by
            cases fuel with
            | zero => simpa [build_merge] using hres.symm
            | succ n => simpa [build_merge] using hres.symm
          rw [hres'] at ht
          simp only [List.mem_singleton] at ht
          rw [ht]
          rfl
    · refine ⟨hp, ?_, by omega, ?_, List.Perm.refl _, by omega⟩
      · rw [build_merge]
        simp [h1]
      · intro hne
        have := List.length_pos.mpr hne
        omega


/-- The (symbol, frequency) pairs of the symbols with nonzero frequency. -/
theorem initial_leaves_flatMap (freq : Nat → Nat) (syms : List Nat) :
    (initial_leaves freq syms).flatMap HNode.leaves =
      (syms.filter (fun s => 0 < freq s)).map (fun s => (s, freq s)) := by
  unfold initial_leaves
  induction syms.filter (fun s => 0 < freq s) with
  | nil => rfl
  | cons s ss ih =>
    simp only [List.map_cons, List.flatMap_cons, ih]
    rfl

theorem heap_pop_singleton (x : HNode) : heap_pop [x] = some (x, []) := by
  simp [heap_pop, heap_pop_loop]

/-- What `build_huffman` returns, in the two cases of its `unique` test. -/
theorem build_huffman_cases (freq : Nat → Nat) (h : ∃ s, s < 256 ∧ 0 < freq s) :
    ∃ root unique, build_huffman freq = some (root, unique) ∧
      unique = ((List.range 256).filter (fun s => 0 < freq s)).length ∧
      ((unique = 1 ∧ ∃ s, (List.range 256).filter (fun s => 0 < freq s) = [s] ∧
          root = hn_new_internal (hn_new_leaf (if s = 0 then 1 else 0) 0)
            (hn_new_leaf s (freq s))) ∨
       (2 ≤ unique ∧ root.is_leaf = false ∧
          List.Perm root.leaves
            (((List.range 256).filter (fun s => 0 < freq s)).map (fun s => (s, freq s))))) := by
  obtain ⟨s0, hs0, hf0⟩ := h
  obtain ⟨hperm, huniq⟩ := build_leaves_spec freq (List.range 256) [] 0
  simp only [List.append_nil, Nat.zero_add] at hperm huniq
  have hlen : (initial_leaves freq (List.range 256)).length =
      ((List.range 256).filter (fun s => 0 < freq s)).length := by
    simp [initial_leaves]
  have hmem : s0 ∈ (List.range 256).filter (fun s => 0 < freq s) := by
    simp [List.mem_filter, hs0, hf0]
  have hpos : 0 < ((List.range 256).filter (fun s => 0 < freq s)).length :=
    List.length_pos_of_mem hmem
  generalize hP : (List.range 256).filter (fun s => 0 < freq s) = P at *
  generalize hst : build_leaves freq (List.range 256) ([], 0) = st at *
  have hb : build_huffman freq =
      if st.2 = 0 then none
      else if st.2 = 1 then
        match heap_pop st.1 with
        | none => none
        | some (only, _) =>
          some (hn_new_internal (hn_new_leaf (if only.sym = 0 then 1 else 0) 0) only, st.2)
      else
        match build_merge st.1.length st.1 with
        | none => none
        | some hp1 =>
          match heap_pop hp1 with
          | none => none
          | some (root, _) => some (root, st.2) := by
    unfold build_huffman
    simp only [hst]
  rw [hlen] at huniq
  by_cases h1 : P.length = 1
  · obtain ⟨s, hs⟩ := List.length_eq_one.mp h1
    have hinit : initial_leaves freq (List.range 256) = [hn_new_leaf s (freq s)] := by
      simp [initial_leaves, hP, hs]
    rw [hinit] at hperm
    have hhp : st.1 = [hn_new_leaf s (freq s)] := List.perm_singleton.mp hperm
    refine ⟨_, 1, ?_, h1.symm, Or.inl ⟨rfl, s, hs, rfl⟩⟩
    rw [hb, huniq, h1, hhp, heap_pop_singleton]
    simp [hn_new_leaf, HNode.sym]
  · have h2 : 2 ≤ P.length := by omega
    have hl : st.1.length = P.length := by
      rw [hperm.length_eq, hlen]
    obtain ⟨hp', hres, _, hone, hpl, hleaf⟩ := build_merge_spec st.1.length st.1 (by omega)
    have hne : st.1 ≠ [] := by
      intro h
      rw [h] at hl
      simp at hl
      omega
    obtain ⟨root, hroot⟩ := List.length_eq_one.mp (hone hne)
    subst hroot
    refine ⟨root, P.length, ?_, rfl, Or.inr ⟨h2, hleaf (by omega) root (by simp), ?_⟩⟩
    · rw [hb, huniq, hres]
      have : P.length ≠ 0 := by omega
      simp [this, h1, heap_pop_singleton]
    · have h3 : List.Perm root.leaves (st.1.flatMap HNode.leaves) := by
        simpa using hpl
      refine h3.trans ?_
      refine (hperm.flatMap_right HNode.leaves).trans ?_
      rw [initial_leaves_flatMap, hP]


/-- The assignment `codes[sym] = strdup(...)` of one leaf. -/
theorem gen_codes_eq_foldl (t : HNode) (buf : List Char) (codes : Codes) :
    gen_codes t buf codes =
      (paths t buf).foldl assign codes := by
  induction t generalizing buf codes with
  | leaf s f => rfl
  | node l r f ihl ihr =>
    simp only [gen_codes, paths, List.foldl_append, ihl, ihr]

theorem foldl_update_not_mem (l : List (Nat × List Char)) (codes : Codes) (s : Nat)
    (hs : s ∉ l.map Prod.fst) :
    (l.foldl assign codes) s = codes s := by
  induction l generalizing codes with
  | nil => rfl
  | cons p l ih =>
    simp only [List.map_cons, List.mem_cons, not_or] at hs
    simp only [List.foldl_cons]
    rw [ih _ hs.2, assign, Function.update_noteq hs.1]

theorem foldl_update_mem (l : List (Nat × List Char)) (codes : Codes) (s : Nat) (c : List Char)
    (hnd : (l.map Prod.fst).Nodup) (hs : (s, c) ∈ l) :
    (l.foldl assign codes) s = some c := by
  induction l generalizing codes with
  | nil => simp at hs
  | cons p l ih =>
    simp only [List.map_cons, List.nodup_cons] at hnd
    simp only [List.foldl_cons]
    rcases List.mem_cons.mp hs with h | h
    · subst h
      rw [foldl_update_not_mem _ _ _ hnd.1]
      simp [assign]
    · exact ih _ hnd.2 h

theorem paths_map_fst (t : HNode) (buf : List Char) :
    (paths t buf).map Prod.fst = t.syms := by
  induction t generalizing buf with
  | leaf s f => rfl
  | node l r f ihl ihr =>
    simp only [paths, List.map_append, ihl, ihr, HNode.syms, HNode.leaves]

theorem paths_prefix (t : HNode) (buf : List Char) :
    ∀ p ∈ paths t buf, buf <+: p.2 := by
  induction t generalizing buf with
  | leaf s f =>
    intro p hp
    simp only [paths, List.mem_singleton] at hp
    subst hp
    by_cases hb : buf = []
    · simp [hb]
    · simp [hb]
  | node l r f ihl ihr =>
    intro p hp
    simp only [paths, List.mem_append] at hp
    rcases hp with h | h
    · exact (List.prefix_append buf _).trans (ihl _ p h)
    · exact (List.prefix_append buf _).trans (ihr _ p h)

/-- Two strings that extend a common stem by different characters are not
prefixes of one another. -/
theorem not_prefix_of_fork (buf c1 c2 : List Char) (x y : Char) (hxy : x ≠ y)
    (h1 : buf ++ [x] <+: c1) (h2 : buf ++ [y] <+: c2) : ¬ c1 <+: c2 := by
  intro h
  have h3 : buf ++ [x] <+: c2 := h1.trans h
  have h4 : buf ++ [x] = buf ++ [y] :=
    List.prefix_of_prefix_length_le h3 h2 (by simp) |>.eq_of_length (by simp)
  exact hxy (by simpa using h4)

theorem paths_pairwise (t : HNode) (buf : List Char) :
    (paths t buf).Pairwise (fun p q => ¬ p.2 <+: q.2 ∧ ¬ q.2 <+: p.2) := by
  induction t generalizing buf with
  | leaf s f => simp [paths]
  | node l r f ihl ihr =>
    simp only [paths]
    rw [List.pairwise_append]
    refine ⟨ihl _, ihr _, ?_⟩
    intro p hp q hq
    have h1 := paths_prefix l _ p hp
    have h2 := paths_prefix r _ q hq
    exact ⟨not_prefix_of_fork buf _ _ '0' '1' (by decide) h1 h2,
      not_prefix_of_fork buf _ _ '1' '0' (by decide) h2 h1⟩

theorem paths_ne_nil (t : HNode) (buf : List Char) : ∀ p ∈ paths t buf, p.2 ≠ [] := by
  induction t generalizing buf with
  | leaf s f =>
    intro p hp
    simp only [paths, List.mem_singleton] at hp
    subst hp
    by_cases hb : buf = [] <;> simp [hb]
  | node l r f ihl ihr =>
    intro p hp
    simp only [paths, List.mem_append] at hp
    rcases hp with h | h
    · exact ihl _ p h
    · exact ihr _ p h

theorem paths_bits (t : HNode) (buf : List Char) (hbuf : ∀ ch ∈ buf, ch = '0' ∨ ch = '1') :
    ∀ p ∈ paths t buf, ∀ ch ∈ p.2, ch = '0' ∨ ch = '1' := by
  induction t generalizing buf with
  | leaf s f =>
    intro p hp
    simp only [paths, List.mem_singleton] at hp
    subst hp
    by_cases hb : buf = []
    · simp [hb]
    · simpa [hb] using hbuf
  | node l r f ihl ihr =>
    intro p hp
    simp only [paths, List.mem_append] at hp
    rcases hp with h | h
    · refine ihl _ ?_ p h
      intro ch hch
      rcases List.mem_append.mp hch with h' | h'
      · exact hbuf ch h'
      · left; simpa using h'
    · refine ihr _ ?_ p h
      intro ch hch
      rcases List.mem_append.mp hch with h' | h'
      · exact hbuf ch h'
      · right; simpa using h'

theorem leaves_length_pos (t : HNode) : 0 < t.leaves.length := by
  induction t with
  | leaf s f => simp [HNode.leaves]
  | node l r f ihl ihr => simp [HNode.leaves]; omega

theorem paths_length_le (t : HNode) (buf : List Char) :
    ∀ p ∈ paths t buf, p.2.length ≤ buf.length + t.leaves.length := by
  induction t generalizing buf with
  | leaf s f =>
    intro p hp
    simp only [paths, List.mem_singleton] at hp
    subst hp
    by_cases hb : buf = [] <;> simp [hb, HNode.leaves]
  | node l r f ihl ihr =>
    intro p hp
    simp only [paths, List.mem_append] at hp
    have hl := leaves_length_pos l
    have hr := leaves_length_pos r
    rcases hp with h | h
    · have := ihl _ p h
      simp only [List.length_append, List.length_singleton, HNode.leaves] at this ⊢
      omega
    · have := ihr _ p h
      simp only [List.length_append, List.length_singleton, HNode.leaves] at this ⊢
      omega

/-- Every leaf symbol has an assignment in `paths`. -/
theorem exists_path_of_mem_syms (t : HNode) (buf : List Char) (s : Nat) (hs : s ∈ t.syms) :
    ∃ c, (s, c) ∈ paths t buf := by
  rw [← paths_map_fst t buf] at hs
  obtain ⟨p, hp, rfl⟩ := List.mem_map.mp hs
  exact ⟨p.2, hp⟩

end Encoder

namespace Encoder

/-- The tree `build_huffman` returns: an internal node whose leaf symbols are
distinct, below 256 and include every symbol of nonzero frequency. -/
theorem build_huffman_tree (freq : Nat → Nat) (h : ∃ s, s < 256 ∧ 0 < freq s) :
    ∃ root unique, build_huffman freq = some (root, unique) ∧
      root.is_leaf = false ∧ root.syms.Nodup ∧
      (∀ s, s < 256 → 0 < freq s → s ∈ root.syms) ∧
      (∀ s ∈ root.syms, s < 256) ∧ root.leaves.length ≤ 256 := by
  obtain ⟨root, unique, hb, _, hcase⟩ := build_huffman_cases freq h
  refine ⟨root, unique, hb, ?_⟩
  have hPnd : ((List.range 256).filter (fun s => 0 < freq s)).Nodup :=
    (List.nodup_range 256).filter _
  have hPlen : ((List.range 256).filter (fun s => 0 < freq s)).length ≤ 256 := by
    have := List.length_filter_le (fun s => decide (0 < freq s)) (List.range 256)
    simpa using this
  rcases hcase with ⟨_, s, hP, rfl⟩ | ⟨_, hleaf, hperm⟩
  · have hs : s < 256 := by
      have : s ∈ (List.range 256).filter (fun s => 0 < freq s) := by rw [hP]; simp
      exact List.mem_range.mp (List.mem_filter.mp this).1
    refine ⟨rfl, ?_, ?_, ?_, ?_⟩
    · simp only [HNode.syms, hn_new_internal, hn_new_leaf, HNode.leaves, List.map_cons,
        List.map_nil, List.cons_append, List.nil_append, List.nodup_cons, List.mem_singleton,
        List.not_mem_nil, not_false_eq_true, List.nodup_nil, and_true]
      split <;> omega
    · intro s' hs' hf'
      have : s' ∈ (List.range 256).filter (fun s => 0 < freq s) := by
        simp [List.mem_filter, hs', hf']
      rw [hP] at this
      simp only [List.mem_singleton] at this
      simp [HNode.syms, hn_new_internal, hn_new_leaf, HNode.leaves, this]
    · intro s' hs'
      simp only [HNode.syms, hn_new_internal, hn_new_leaf, HNode.leaves, List.map_cons,
        List.map_nil, List.cons_append, List.nil_append, List.mem_cons, List.not_mem_nil,
        or_false] at hs'
      rcases hs' with h' | h'
      · rw [h']; split <;> omega
      · rw [h']; exact hs
    · simp [hn_new_internal, hn_new_leaf, HNode.leaves]
  · have hsyms : List.Perm root.syms ((List.range 256).filter (fun s => 0 < freq s)) := by
      have := hperm.map Prod.fst
      simpa [HNode.syms, Function.comp_def] using this
    refine ⟨hleaf, hsyms.nodup_iff.mpr hPnd, ?_, ?_, ?_⟩
    · intro s hs hf
      exact hsyms.mem_iff.mpr (by simp [List.mem_filter, hs, hf])
    · intro s hs
      exact List.mem_range.mp (List.mem_filter.mp (hsyms.mem_iff.mp hs)).1
    · rw [hperm.length_eq]
      simpa using hPlen

/-- The table `gen_codes` fills from a tree with distinct leaf symbols holds, for
every leaf symbol, the string assigned at its leaf. -/
theorem gen_codes_of_mem (root : HNode) (codes : Codes) (hnd : root.syms.Nodup)
    (s : Nat) (hs : s ∈ root.syms) :
    ∃ c, gen_codes root [] codes s = some c ∧ (s, c) ∈ paths root [] := by
  obtain ⟨c, hc⟩ := exists_path_of_mem_syms root [] s hs
  refine ⟨c, ?_, hc⟩
  rw [gen_codes_eq_foldl]
  exact foldl_update_mem _ _ _ _ (by rw [paths_map_fst]; exact hnd) hc

/-- C2. For every frequency table with at least one nonzero entry, `build_huffman`
returns a tree, and the codes `gen_codes` assigns from it to the symbols with
nonzero frequency are pairwise prefix-free: for distinct symbols `a` and `b` the
code of `a` is not a prefix of the code of `b` (in particular the two differ). -/
theorem huffman_codes_prefix_free (freq : Nat → Nat) (h : ∃ s, s < 256 ∧ 0 < freq s) :
    ∃ root unique, build_huffman freq = some (root, unique) ∧
      ∀ a b, a < 256 → b < 256 → 0 < freq a → 0 < freq b → a ≠ b →
        ∃ ca cb, gen_codes root [] (fun _ => none) a = some ca ∧
          gen_codes root [] (fun _ => none) b = some cb ∧ ¬ ca <+: cb ∧ ca ≠ cb := by
  obtain ⟨root, unique, hb, _, hnd, hmem, _, _⟩ := build_huffman_tree freq h
  refine ⟨root, unique, hb, ?_⟩
  intro a b ha hb' hfa hfb hab
  obtain ⟨ca, hca, hpa⟩ := gen_codes_of_mem root (fun _ => none) hnd a (hmem a ha hfa)
  obtain ⟨cb, hcb, hpb⟩ := gen_codes_of_mem root (fun _ => none) hnd b (hmem b hb' hfb)
  have hsymm : Symmetric (fun p q : Nat × List Char => ¬ p.2 <+: q.2 ∧ ¬ q.2 <+: p.2) :=
    fun _ _ hpq => ⟨hpq.2, hpq.1⟩
  have hne : (a, ca) ≠ (b, cb) := fun heq => hab (congrArg Prod.fst heq)
  have hpw := (paths_pairwise root []).forall hsymm hpa hpb hne
  refine ⟨ca, cb, hca, hcb, hpw.1, ?_⟩
  intro heq
  exact hpw.1 (heq ▸ List.prefix_refl ca)

/-- Witness for `huffman_codes_prefix_free`: the table with `freq[65] = 3`,
`freq[66] = 1` and zero elsewhere. -/
theorem huffman_codes_prefix_free_witness :
    (∃ s, s < 256 ∧ 0 < (fun s => if s = 65 then 3 else if s = 66 then 1 else 0 : Nat → Nat) s) ∧
    ∃ root unique,
      build_huffman (fun s => if s = 65 then 3 else if s = 66 then 1 else 0) = some (root, unique) ∧
      ∀ a b, a < 256 → b < 256 →
        0 < (fun s => if s = 65 then 3 else if s = 66 then 1 else 0 : Nat → Nat) a →
        0 < (fun s => if s = 65 then 3 else if s = 66 then 1 else 0 : Nat → Nat) b → a ≠ b →
        ∃ ca cb, gen_codes root [] (fun _ => none) a = some ca ∧
          gen_codes root [] (fun _ => none) b = some cb ∧ ¬ ca <+: cb ∧ ca ≠ cb :=
  ⟨⟨65, by decide, by decide⟩, huffman_codes_prefix_free _ ⟨65, by decide, by decide⟩⟩

end Encoder

namespace Encoder

/-! ### The fuel of the sift loops is never exhausted -/

/-- The sift-up loop started at index `i` gives the same result for every fuel of
at least `i`: it stops by its own tests. -/
theorem heap_push_loop_fuel (fuel fuel' : Nat) (a : List HNode) (i : Nat)
    (h : i ≤ fuel) (h' : i ≤ fuel') :
    heap_push_loop fuel a i = heap_push_loop fuel' a i := by
  induction fuel generalizing fuel' a i with
  | zero =>
    have hi : i = 0 := by omega
    subst hi
    cases fuel' <;> simp [heap_push_loop]
  | succ fuel ih =>
    cases fuel' with
    | zero =>
      have hi : i = 0 := by omega
      subst hi
      simp [heap_push_loop]
    | succ fuel' =>
      simp only [heap_push_loop]
      split
      · split
        · rfl
        · exact ih fuel' _ _ (by omega) (by omega)
      · rfl

theorem heap_pop_pick_ge (a : List HNode) (i : Nat) :
    heap_pop_pick a i = i ∨ i < heap_pop_pick a i := by
  unfold heap_pop_pick
  simp only []
  split_ifs <;> omega

theorem heap_pop_pick_of_le (a : List HNode) (i : Nat) (h : a.length ≤ i) :
    heap_pop_pick a i = i := by
  unfold heap_pop_pick
  have h1 : ¬ (i * 2 + 1 < a.length) := by omega
  have h2 : ¬ (i * 2 + 2 < a.length) := by omega
  simp [h1, h2]

/-- The sift-down loop started at index `i` gives the same result for every fuel
of at least `sz - i`: it stops by its own test `m==i`. -/
theorem heap_pop_loop_fuel (fuel fuel' : Nat) (a : List HNode) (i : Nat)
    (h : a.length ≤ fuel + i) (h' : a.length ≤ fuel' + i) :
    heap_pop_loop fuel a i = heap_pop_loop fuel' a i := by
  induction fuel generalizing fuel' a i with
  | zero =>
    have hp := heap_pop_pick_of_le a i (by omega)
    cases fuel' <;> simp [heap_pop_loop, hp]
  | succ fuel ih =>
    cases fuel' with
    | zero =>
      have hp := heap_pop_pick_of_le a i (by omega)
      simp [heap_pop_loop, hp]
    | succ fuel' =>
      simp only [heap_pop_loop]
      split
      · rfl
      · rename_i hm
        have hgt : i < heap_pop_pick a i := by
          rcases heap_pop_pick_ge a i with h1 | h1
          · exact absurd h1 hm
          · exact h1
        exact ih fuel' _ _ (by rw [swap_length]; omega) (by rw [swap_length]; omega)

end Encoder

namespace Encoder

open Decoder (get_bit)

theorem get_bit_eq (data : List Nat) (i : Nat) :
    get_bit data i = ((data.getD (i / 8) 0).testBit (7 - i % 8)).toNat := by
  unfold get_bit
  rw [Nat.toNat_testBit, Nat.and_one_is_mod, Nat.shiftRight_eq_div_pow]

theorem get_bit_append_zeros (data : List Nat) (n i : Nat) :
    get_bit (data ++ List.replicate n 0) i = get_bit data i := by
  unfold get_bit
  congr 2
  by_cases h : i / 8 < data.length
  · simp [List.getD_eq_getElem?_getD, List.getElem?_append_left h]
  · have h' : data.length ≤ i / 8 := Nat.le_of_not_lt h
    rw [List.getD_eq_getElem?_getD, List.getD_eq_getElem?_getD, List.getElem?_append_right h',
      List.getElem?_eq_none h']
    by_cases h2 : i / 8 - data.length < n
    · simp [List.getElem?_replicate, h2]
    · simp [List.getElem?_replicate, h2]

theorem get_bit_set_other (data : List Nat) (byte v i : Nat) (h : i / 8 ≠ byte) :
    get_bit (data.set byte v) i = get_bit data i := by
  unfold get_bit
  congr 2
  simp [List.getD_eq_getElem?_getD, List.getElem?_set_ne (Ne.symm h)]

theorem get_bit_set_same (data : List Nat) (byte v i : Nat) (h : i / 8 = byte)
    (hb : byte < data.length) :
    get_bit (data.set byte v) i = (v.testBit (7 - i % 8)).toNat := by
  rw [get_bit_eq]
  congr 2
  simp [List.getD_eq_getElem?_getD, h, List.getElem?_set_self hb]

theorem holds_init : Holds bitbuf_init [] := by
  refine ⟨rfl, List.length_replicate 1024 0, Nat.zero_lt_succ 1023, Nat.zero_le _, ?_⟩
  intro i
  have := get_bit_append_zeros [] 1024 i
  simp only [List.nil_append] at this
  rw [bitbuf_init, this]
  simp [get_bit]

theorem holds_push_bit (b : BitBuf) (bs : List Bool) (bit : Bool) (h : Holds b bs) :
    Holds (bitbuf_push_bit b bit) (bs ++ [bit]) := by
  obtain ⟨hlen, hdata, hcap, hle, hbits⟩ := h
  -- the buffer after the growth step
  have key : ∀ b1 : BitBuf, b1.bit_len = b.bit_len → b1.data.length = b1.cap → 0 < b1.cap →
      b.bit_len / 8 < b1.cap → (∀ i, get_bit b1.data i = (bs.getD i false).toNat) →
      Holds { b1 with
        data := if bit then b1.data.set (b.bit_len / 8)
            (b1.data.getD (b.bit_len / 8) 0 ||| u8 (1 <<< (7 - b.bit_len % 8))) else b1.data,
        bit_len := b.bit_len + 1 } (bs ++ [bit]) := by
    intro b1 _ hd1 hc1 hlt hb1
    refine ⟨by simp [hlen], ?_, hc1, by simp only; omega, ?_⟩
    · cases bit <;> simp [hd1]
    · intro i
      have hbyte : b.bit_len / 8 < b1.data.length := by rw [hd1]; exact hlt
      have hnew : ((bs ++ [bit]).getD i false) =
          if i < bs.length then bs.getD i false else if i = bs.length then bit else false := by
        by_cases h1 : i < bs.length
        · simp [List.getD_eq_getElem?_getD, List.getElem?_append_left h1, h1]
        · by_cases h2 : i = bs.length
          · subst h2
            simp [List.getD_eq_getElem?_getD]
          · have h3 : bs.length + 1 ≤ i := by omega
            simp only [h1, h2, if_false]
            rw [List.getD_eq_getElem?_getD, List.getElem?_eq_none (by simpa using h3)]
            rfl
      have hold : ∀ j, bs.length ≤ j → bs.getD j false = false := by
        intro j hj
        rw [List.getD_eq_getElem?_getD, List.getElem?_eq_none hj]
        rfl
      cases bit with
      | false =>
        simp only [Bool.false_eq_true, if_false]
        rw [hb1, hnew]
        by_cases h1 : i < bs.length
        · simp only [h1, if_true]
        · simp only [h1, if_false, ite_self]
          rw [hold i (Nat.le_of_not_lt h1)]
      | true =>
        simp only [if_true]
        have hmask : u8 (1 <<< (7 - b.bit_len % 8)) = 2 ^ (7 - b.bit_len % 8) := by
          rw [Nat.one_shiftLeft, u8]
          apply Nat.mod_eq_of_lt
          exact Nat.pow_lt_pow_right (by decide) (by omega)
        rw [hmask]
        by_cases hi : i / 8 = b.bit_len / 8
        · rw [get_bit_set_same _ _ _ _ hi hbyte, Nat.testBit_or, Nat.testBit_two_pow, hnew]
          have hg := get_bit_eq b1.data i
          rw [hi, hb1] at hg
          have hg' : (b1.data.getD (b.bit_len / 8) 0).testBit (7 - i % 8) = bs.getD i false := by
            revert hg
            cases (b1.data.getD (b.bit_len / 8) 0).testBit (7 - i % 8) <;>
              cases bs.getD i false <;> simp
          rw [hg']
          congr 1
          by_cases h1 : i < bs.length
          · have : ¬ (7 - b.bit_len % 8 = 7 - i % 8) := by omega
            simp [h1, this]
          · by_cases h2 : i = bs.length
            · have : 7 - b.bit_len % 8 = 7 - i % 8 := by rw [h2, hlen]
              simp [h2, this]
            · have : ¬ (7 - b.bit_len % 8 = 7 - i % 8) := by omega
              simp only [h1, h2, if_false, this, decide_False, Bool.or_false]
              exact hold i (Nat.le_of_not_lt h1)
        · rw [get_bit_set_other _ _ _ _ hi, hb1, hnew]
          have : i ≠ bs.length := by
            intro h2
            rw [h2, hlen] at hi
            exact hi rfl
          by_cases h1 : i < bs.length
          · simp only [h1, if_true]
          · simp only [h1, this, if_false]
            rw [hold i (Nat.le_of_not_lt h1)]
  unfold bitbuf_push_bit
  simp only []
  by_cases hg : b.cap ≤ b.bit_len / 8
  · simp only [hg, if_true]
    refine key { b with cap := b.cap * 2, data := b.data ++ List.replicate (b.cap * 2 - b.cap) 0 }
      rfl ?_ ?_ ?_ ?_
    · simp [hdata]; omega
    · simp only; omega
    · simp only; omega
    · intro i
      simp only
      rw [get_bit_append_zeros]
      exact hbits i
  · simp only [hg, if_false]
    exact key b rfl hdata hcap (by omega) hbits

end Encoder

namespace Decoder

open Encoder (code_bits)

theorem descend_null (q : List Bool) : HNode.null.descend q = HNode.null := by
  induction q with
  | nil => rfl
  | cons b q ih => simpa [HNode.descend, HNode.child] using ih

theorem descend_append (t : HNode) (p q : List Bool) :
    t.descend (p ++ q) = (t.descend p).descend q := by
  induction p generalizing t with
  | nil => rfl
  | cons b p ih => simp [HNode.descend, ih]

theorem flag_eq_none (t : HNode) : t.flag = none ↔ t = HNode.null := by
  cases t <;> simp [HNode.flag]

theorem flag_descend_null (q : List Bool) : (HNode.null.descend q).flag = none := by
  rw [descend_null]; rfl

theorem flag_hn_new_descend (q : List Bool) :
    (hn_new.descend q).flag = if q = [] then some (false, 0) else none := by
  cases q with
  | nil => rfl
  | cons b q =>
    simp only [HNode.descend, hn_new, HNode.child, ite_self, descend_null, HNode.flag]
    rfl

/-- The effect of one `insert_code` on the fields of every node of the trie. -/
theorem insert_code_spec (code : List Char) (hbits : IsBits code) (sym : Nat) :
    ∀ t : HNode, t ≠ HNode.null →
      ∃ t', insert_code t code sym = some t' ∧ t' ≠ HNode.null ∧
        ∀ q : List Bool, (t'.descend q).flag =
          if q = code_bits code then some (true, sym)
          else if q <+: code_bits code then some (((t.descend q).flag).getD (false, 0))
          else (t.descend q).flag := by
  induction code with
  | nil =>
    intro t ht
    cases t with
    | null => exact absurd rfl ht
    | node il s z o =>
      refine ⟨_, rfl, by simp, ?_⟩
      intro q
      cases q with
      | nil => simp [code_bits, HNode.descend, HNode.flag]
      | cons b q => simp [code_bits, HNode.descend, HNode.child]
  | cons p ps ih =>
    intro t ht
    have hps : IsBits ps := fun ch hch => hbits ch (List.mem_cons_of_mem _ hch)
    cases t with
    | null => exact absurd rfl ht
    | node il s z o =>
      -- the child under which the rest of the code is inserted
      have side : ∀ (c : HNode) (bit : Bool), 
          ∃ c', insert_code (if c = HNode.null then hn_new else c) ps sym = some c' ∧
            c' ≠ HNode.null ∧
            ∀ q : List Bool, (c'.descend q).flag =
              if q = code_bits ps then some (true, sym)
              else if q <+: code_bits ps then some (((c.descend q).flag).getD (false, 0))
              else (c.descend q).flag := by
        intro c _
        have hne : (if c = HNode.null then hn_new else c) ≠ HNode.null := by
          split
          · simp [hn_new]
          · assumption
        obtain ⟨c', hc', hcn, hq⟩ := ih hps _ hne
        refine ⟨c', hc', hcn, ?_⟩
        intro q
        rw [hq q]
        by_cases hcnull : c = HNode.null
        · subst hcnull
          simp only [if_true, flag_hn_new_descend, flag_descend_null]
          by_cases h1 : q = code_bits ps
          · simp [h1]
          · simp only [h1, if_false]
            by_cases h2 : q <+: code_bits ps
            · simp only [h2, if_true]
              by_cases h3 : q = [] <;> simp [h3]
            · simp only [h2, if_false]
              have h3 : q ≠ [] := by
                intro h
                exact h2 (h ▸ List.nil_prefix)
              simp [h3]
        · simp [hcnull]
      rcases hbits p (List.mem_cons_self _ _) with hp | hp
      · subst hp
        obtain ⟨z', hz', _, hq⟩ := side z false
        refine ⟨HNode.node il s z' o, by simp [insert_code, hz'], by simp, ?_⟩
        intro q
        cases q with
        | nil => simp [code_bits, HNode.descend, HNode.flag]
        | cons b q =>
          cases b with
          | false =>
            simp only [HNode.descend, HNode.child, Bool.false_eq_true, if_false, hq q]
            simp [code_bits, List.cons_prefix_cons]
          | true =>
            simp [HNode.descend, HNode.child, code_bits, List.cons_prefix_cons]
      · subst hp
        obtain ⟨o', ho', _, hq⟩ := side o true
        refine ⟨HNode.node il s z o', by simp [insert_code, ho'], by simp, ?_⟩
        intro q
        cases q with
        | nil => simp [code_bits, HNode.descend, HNode.flag]
        | cons b q =>
          cases b with
          | true =>
            simp only [HNode.descend, HNode.child, if_true, hq q]
            simp [code_bits, List.cons_prefix_cons]
          | false =>
            simp [HNode.descend, HNode.child, code_bits, List.cons_prefix_cons]

end Decoder

namespace Decoder

open Encoder (code_bits)

theorem loaded_hn_new : Loaded hn_new [] := by
  refine ⟨by simp [hn_new], ?_, by simp, by simp⟩
  intro q s h
  rw [flag_hn_new_descend] at h
  split at h <;> simp at h

theorem loaded_congr (t : HNode) (E E' : List (Nat × List Bool)) (h : ∀ x, x ∈ E ↔ x ∈ E')
    (hl : Loaded t E) : Loaded t E' := by
  obtain ⟨h0, h1, h2, h3⟩ := hl
  exact ⟨h0, fun q s hq => (h _).mp (h1 q s hq), fun p hp => h2 p ((h p).mpr hp),
    fun p hp => h3 p ((h p).mpr hp)⟩

/-- Inserting a code that is unrelated by prefix to the codes already in the
trie adds exactly that code. -/
theorem loaded_insert (t : HNode) (E : List (Nat × List Bool)) (code : List Char) (s : Nat)
    (hl : Loaded t E) (hbits : IsBits code)
    (hfree : ∀ p ∈ E, ¬ p.2 <+: code_bits code ∧ ¬ code_bits code <+: p.2) :
    ∃ t', insert_code t code s = some t' ∧ Loaded t' ((s, code_bits code) :: E) := by
  obtain ⟨h0, h1, h2, h3⟩ := hl
  obtain ⟨t', ht', hn', hq⟩ := insert_code_spec code hbits s t h0
  refine ⟨t', ht', hn', ?_, ?_, ?_⟩
  · intro q s' hflag
    rw [hq q] at hflag
    by_cases hq1 : q = code_bits code
    · simp only [hq1, if_true, Option.some.injEq, Prod.mk.injEq, true_and] at hflag
      simp [hq1, hflag]
    · simp only [hq1, if_false] at hflag
      by_cases hq2 : q <+: code_bits code
      · simp only [hq2, if_true, Option.some.injEq] at hflag
        have hold : (t.descend q).flag = some (true, s') := by
          cases hf : (t.descend q).flag with
          | none => rw [hf] at hflag; simp at hflag
          | some v => rw [hf] at hflag; simpa using hflag
        exact absurd hq2 (hfree _ (h1 q s' hold)).1
      · simp only [hq2, if_false] at hflag
        exact List.mem_cons_of_mem _ (h1 q s' hflag)
  · intro p hp
    rcases List.mem_cons.mp hp with rfl | hp
    · simp [hq]
    · have hf := hfree p hp
      have hne : p.2 ≠ code_bits code := fun h => hf.1 (h ▸ List.prefix_refl _)
      rw [hq p.2]
      simp only [hne, if_false, hf.1, h2 p hp]
  · intro p hp q hqp
    rw [Ne, ← flag_eq_none, hq q]
    by_cases hq1 : q = code_bits code
    · simp [hq1]
    · simp only [hq1, if_false]
      by_cases hq2 : q <+: code_bits code
      · simp [hq2]
      · simp only [hq2, if_false]
        rcases List.mem_cons.mp hp with rfl | hp
        · exact absurd hqp hq2
        · rw [flag_eq_none]
          exact h3 p hp q hqp

/-- One iteration of the decode loop, in terms of the fields of the child. -/
theorem decode_loop_step (root : HNode) (data : List Nat) (want n i : Nat) (cur : HNode)
    (out : List Nat) (hout : out.length < want) (il : Bool) (s : Nat)
    (hflag : (cur.child (get_bit data i != 0)).flag = some (il, s)) :
    decode_loop root data want (n + 1) i cur out =
      if il then decode_loop root data want n (i + 1) root (out ++ [u8 s])
      else decode_loop root data want n (i + 1) (cur.child (get_bit data i != 0)) out := by
  rw [decode_loop]
  simp only [hout, if_true]
  cases hc : cur.child (get_bit data i != 0) with
  | null => rw [hc] at hflag; simp [HNode.flag] at hflag
  | node il' s' z o =>
    rw [hc] at hflag
    simp only [HNode.flag, Option.some.injEq, Prod.mk.injEq] at hflag
    obtain ⟨rfl, rfl⟩ := hflag
    rfl

theorem descend_snoc (t : HNode) (p : List Bool) (b : Bool) :
    t.descend (p ++ [b]) = (t.descend p).child b := by
  rw [descend_append]
  rfl

/-- Walking the bits of one code of the trie emits its symbol and returns to the
root. -/
theorem decode_loop_code (root : HNode) (E : List (Nat × List Bool)) (hl : Loaded root E)
    (hpf : PrefixFree E) (data : List Nat) (want : Nat) (s : Nat) (c : List Bool)
    (hc : (s, c) ∈ E) (out : List Nat) (hout : out.length < want) (n : Nat) :
    ∀ (suf pre : List Bool) (i : Nat), pre ++ suf = c → suf ≠ [] →
      (∀ j, j < suf.length → (get_bit data (i + j) != 0) = suf.getD j false) →
      decode_loop root data want (n + suf.length) i (root.descend pre) out =
        decode_loop root data want n (i + suf.length) root (out ++ [u8 s]) := by
  obtain ⟨_, h1, h2, h3⟩ := hl
  intro suf
  induction suf with
  | nil => intro pre i _ h; exact absurd rfl h
  | cons b rest ih =>
    intro pre i hpre _ hbit
    have hb : (get_bit data i != 0) = b := by simpa using hbit 0 (by simp)
    have hpre' : (pre ++ [b]) ++ rest = c := by simpa using hpre
    have hchild : (root.descend pre).child (get_bit data i != 0) = root.descend (pre ++ [b]) := by
      rw [hb, descend_snoc]
    have hnn : root.descend (pre ++ [b]) ≠ HNode.null :=
      h3 (s, c) hc _ ⟨rest, hpre'⟩
    by_cases hrest : rest = []
    · subst hrest
      have hflag : (root.descend (pre ++ [b])).flag = some (true, s) := by
        have := h2 (s, c) hc
        simp only [List.append_nil] at hpre'
        rw [hpre']
        exact this
      have := decode_loop_step root data want n i (root.descend pre) out hout true s
        (by rw [hchild]; exact hflag)
      simpa using this
    · cases hf : (root.descend (pre ++ [b])).flag with
      | none => exact absurd ((flag_eq_none _).mp hf) hnn
      | some v =>
        obtain ⟨il, s'⟩ := v
        have hil : il = false := by
          cases il with
          | false => rfl
          | true =>
            exfalso
            have hmem := h1 _ _ hf
            have hne : (s', pre ++ [b]) ≠ (s, c) := by
              intro h
              have h' : pre ++ [b] = c := congrArg Prod.snd h
              rw [← hpre'] at h'
              have := congrArg List.length h'
              simp at this
              exact hrest this
            exact hpf _ hmem _ hc hne ⟨rest, hpre'⟩
        subst hil
        have hstep := decode_loop_step root data want (n + rest.length) i (root.descend pre) out
          hout false s' (by rw [hchild]; exact hf)
        have hih := ih (pre ++ [b]) (i + 1) hpre' hrest (by
          intro j hj
          have := hbit (j + 1) (by simpa using hj)
          simpa [Nat.add_assoc, Nat.add_comm 1 j] using this)
        simp only [List.length_cons]
        rw [show n + (rest.length + 1) = n + rest.length + 1 by omega, hstep]
        simp only [Bool.false_eq_true, if_false, hchild]
        rw [hih]
        congr 1
        omega

/-- Decoding the concatenated codes of a payload from the root emits the payload. -/
theorem decode_loop_payload (root : HNode) (E : List (Nat × List Bool)) (hl : Loaded root E)
    (hpf : PrefixFree E) (data : List Nat) (want : Nat) (codeOf : Nat → List Bool) :
    ∀ (rest : List Nat) (i : Nat) (out : List Nat),
      (∀ b ∈ rest, (b, codeOf b) ∈ E ∧ codeOf b ≠ [] ∧ b < 256) →
      out.length + rest.length = want →
      (∀ j, j < (rest.flatMap codeOf).length →
        (get_bit data (i + j) != 0) = (rest.flatMap codeOf).getD j false) →
      decode_loop root data want (rest.flatMap codeOf).length i root out = some (out ++ rest) := by
  intro rest
  induction rest with
  | nil =>
    intro i out _ _ _
    simp [decode_loop]
  | cons b bs ih =>
    intro i out hE hlen hbit
    obtain ⟨hmem, hne, hb⟩ := hE b (List.mem_cons_self _ _)
    have hout : out.length < want := by simp at hlen; omega
    have hcode := decode_loop_code root E hl hpf data want b (codeOf b) hmem out hout
      (bs.flatMap codeOf).length (codeOf b) [] i rfl hne (by
        intro j hj
        have := hbit j (by simp only [List.flatMap_cons, List.length_append]; omega)
        rw [this]
        simp [List.getD_eq_getElem?_getD, List.getElem?_append_left hj])
    simp only [List.flatMap_cons, List.length_append]
    rw [Nat.add_comm]
    have hroot : root.descend [] = root := rfl
    rw [hroot] at hcode
    rw [hcode]
    have hu8 : u8 b = b := Nat.mod_eq_of_lt hb
    rw [hu8]
    have hih := ih (i + (codeOf b).length) (out ++ [b])
      (fun b' hb' => hE b' (List.mem_cons_of_mem _ hb'))
      (by simp at hlen ⊢; omega)
      (by
        intro j hj
        have := hbit ((codeOf b).length + j)
          (by simp only [List.flatMap_cons, List.length_append]; omega)
        rw [← Nat.add_assoc] at this
        rw [this]
        simp only [List.flatMap_cons, List.getD_eq_getElem?_getD]
        rw [List.getElem?_append_right (by omega)]
        simp)
    rw [hih]
    simp

end Decoder

namespace Encoder

theorem holds_push_bits (bits : List Bool) :
    ∀ (b : BitBuf) (bs : List Bool), Holds b bs → Holds (push_bits b bits) (bs ++ bits) := by
  induction bits with
  | nil => intro b bs h; simpa [push_bits] using h
  | cons x xs ih =>
    intro b bs h
    have h1 := ih _ _ (holds_push_bit b bs x h)
    simpa [push_bits] using h1

theorem bitbuf_push_code_eq (b : BitBuf) (code : List Char) :
    bitbuf_push_code b code = push_bits b (code_bits code) := by
  simp [bitbuf_push_code, push_bits, code_bits, List.foldl_map]

theorem push_bits_append (b : BitBuf) (xs ys : List Bool) :
    push_bits b (xs ++ ys) = push_bits (push_bits b xs) ys := by
  simp [push_bits]

theorem encode_payload_eq (codes : Codes) :
    ∀ (p : List Nat) (bb : BitBuf), (∀ b ∈ p, ∃ c, codes b = some c) →
      encode_payload codes p bb =
        some (push_bits bb (p.flatMap (fun b => code_bits ((codes b).getD [])))) := by
  intro p
  induction p with
  | nil => intro bb _; rfl
  | cons b bs ih =>
    intro bb h
    obtain ⟨c, hc⟩ := h b (List.mem_cons_self _ _)
    rw [encode_payload]
    simp only [hc]
    rw [ih _ (fun b' hb' => h b' (List.mem_cons_of_mem _ hb')), bitbuf_push_code_eq]
    simp [push_bits_append, hc]

theorem codebook_entries_eq (freq : Nat → Nat) (codes : Codes) :
    ∀ syms : List Nat, (∀ s ∈ syms, 0 < freq s → ∃ c, codes s = some c) →
      codebook_entries freq codes syms =
        some ((syms.filter (fun s => 0 < freq s)).map
          (fun (s : Nat) => Line.entry (s : Int) (freq s) ((codes s).getD []))) := by
  intro syms
  induction syms with
  | nil => intro _; rfl
  | cons s ss ih =>
    intro h
    have ih' := ih (fun s' hs' => h s' (List.mem_cons_of_mem _ hs'))
    rw [codebook_entries]
    by_cases hs : 0 < freq s
    · obtain ⟨c, hc⟩ := h s (List.mem_cons_self _ _) hs
      simp [hs, hc, ih', List.filter_cons]
    · simp [hs, ih', List.filter_cons]

/-- Without `uint64_t` wrap-around the frequency of a byte is its number of
occurrences. -/
theorem count_freq_eq (p : List Nat) (hlen : p.length < 2 ^ 64) (s : Nat) :
    count_freq p s = p.count s := by
  have key : ∀ (q : List Nat) (f : Nat → Nat), (∀ s, f s + q.length < 2 ^ 64) →
      ∀ s, (q.foldl (fun f b => Function.update f b (u64 (f b + 1))) f) s = f s + q.count s := by
    intro q
    induction q with
    | nil => intro f _ s; simp
    | cons b bs ih =>
      intro f hf s
      simp only [List.foldl_cons]
      have hu : u64 (f b + 1) = f b + 1 := by
        have := hf b
        simp only [List.length_cons] at this
        exact Nat.mod_eq_of_lt (by omega)
      rw [hu]
      rw [ih]
      · by_cases hsb : s = b
        · subst hsb
          simp [List.count_cons_self]
          omega
        · have hbs : b ≠ s := fun h => hsb h.symm
          rw [Function.update_noteq hsb, List.count_cons_of_ne hsb]
      · intro s'
        have := hf s'
        simp only [List.length_cons] at this
        by_cases hsb : s' = b
        · subst hsb
          simp
          omega
        · simp [Function.update_noteq hsb]
          omega
  have := key p (fun _ => 0) (by simpa using hlen) s
  simpa [count_freq] using this

theorem code_bits_length (c : List Char) : (code_bits c).length = c.length := by
  simp [code_bits]

open Decoder (IsBits)

/-- On strings of `'0'` and `'1'` the prefix order of the bit sequences is the
prefix order of the strings. -/
theorem prefix_of_code_bits_prefix :
    ∀ (a b : List Char), IsBits a → IsBits b → code_bits a <+: code_bits b → a <+: b := by
  intro a
  induction a with
  | nil => intro b _ _ _; exact List.nil_prefix
  | cons x xs ih =>
    intro b ha hb h
    cases b with
    | nil => simp [code_bits] at h
    | cons y ys =>
      simp only [code_bits, List.map_cons, List.cons_prefix_cons] at h
      have hx := ha x (List.mem_cons_self _ _)
      have hy := hb y (List.mem_cons_self _ _)
      have hxy : x = y := by
        rcases hx with rfl | rfl <;> rcases hy with rfl | rfl <;> simp_all
      rw [hxy, List.cons_prefix_cons]
      exact ⟨rfl, ih ys (fun ch hch => ha ch (List.mem_cons_of_mem _ hch))
        (fun ch hch => hb ch (List.mem_cons_of_mem _ hch)) h.2⟩

end Encoder

namespace Decoder

open Encoder (code_bits)

/-- Loading the codebook lines of a family of codes that is prefix-free, made of
`'0'` and `'1'`, non-empty and short enough for `%2047s`, adds exactly these
codes to the trie. -/
theorem load_entries_spec (code : Nat → List Char) (freq : Nat → Nat) :
    ∀ (L : List Nat) (t : HNode) (E : List (Nat × List Bool)), Loaded t E →
      (∀ s ∈ L, IsBits (code s) ∧ code s ≠ [] ∧ (code s).length ≤ 2047 ∧ s ≤ 255) →
      (∀ s ∈ L, ∀ p ∈ E, ¬ p.2 <+: code_bits (code s) ∧ ¬ code_bits (code s) <+: p.2) →
      L.Pairwise (fun s s' => ¬ code_bits (code s) <+: code_bits (code s') ∧
        ¬ code_bits (code s') <+: code_bits (code s)) →
      ∃ t', load_entries (L.map (fun (s : Nat) => Line.entry (s : Int) (freq s) (code s))) t
          = some t' ∧
        Loaded t' (L.reverse.map (fun s => (s, code_bits (code s))) ++ E) := by
  intro L
  induction L with
  | nil => intro t E hl _ _ _; exact ⟨t, rfl, by simpa using hl⟩
  | cons s ss ih =>
    intro t E hl hcode hfree hpw
    obtain ⟨hbits, hne, hlen, hs⟩ := hcode s (List.mem_cons_self _ _)
    obtain ⟨t1, ht1, hl1⟩ := loaded_insert t E (code s) s hl hbits (hfree s (List.mem_cons_self _ _))
    rw [List.pairwise_cons] at hpw
    obtain ⟨t2, ht2, hl2⟩ := ih t1 ((s, code_bits (code s)) :: E) hl1
      (fun s' hs' => hcode s' (List.mem_cons_of_mem _ hs'))
      (by
        intro s' hs' p hp
        rcases List.mem_cons.mp hp with rfl | hp
        · exact hpw.1 s' hs'
        · exact hfree s' (List.mem_cons_of_mem _ hs') p hp)
      hpw.2
    refine ⟨t2, ?_, ?_⟩
    · simp only [List.map_cons, load_entries, hne, if_false]
      have hrange : ¬ ((s : Int) < 0 ∨ 255 < (s : Int)) := by omega
      simp only [hrange, if_false, List.take_of_length_le hlen, Int.toNat_ofNat, ht1]
      exact ht2
    · simpa using hl2

end Decoder

namespace Encoder

open Decoder (IsBits Loaded PrefixFree)

/-- The codes of the leaf symbols of a tree with distinct leaf symbols and at most
256 leaves: strings of `'0'` and `'1'`, non-empty, of at most 256 characters, and
pairwise prefix-free. -/
theorem codes_facts (root : HNode) (hnd : root.syms.Nodup) (hleaves : root.leaves.length ≤ 256) :
    (∀ s ∈ root.syms, ∃ c, gen_codes root [] (fun _ => none) s = some c ∧
      IsBits c ∧ c ≠ [] ∧ c.length ≤ 256) ∧
    (∀ s ∈ root.syms, ∀ s' ∈ root.syms, s ≠ s' →
      ¬ code_bits ((gen_codes root [] (fun _ => none) s).getD []) <+:
        code_bits ((gen_codes root [] (fun _ => none) s').getD [])) := by
  constructor
  · intro s hs
    obtain ⟨c, hc, hp⟩ := gen_codes_of_mem root (fun _ => none) hnd s hs
    refine ⟨c, hc, paths_bits root [] (by simp) _ hp, paths_ne_nil root [] _ hp, ?_⟩
    have := paths_length_le root [] _ hp
    simp only [List.length_nil, Nat.zero_add] at this
    omega
  · intro s hs s' hs' hne
    obtain ⟨c, hc, hp⟩ := gen_codes_of_mem root (fun _ => none) hnd s hs
    obtain ⟨c', hc', hp'⟩ := gen_codes_of_mem root (fun _ => none) hnd s' hs'
    rw [hc, hc']
    simp only [Option.getD_some]
    intro hpre
    have hchar := prefix_of_code_bits_prefix c c' (paths_bits root [] (by simp) _ hp)
      (paths_bits root [] (by simp) _ hp') hpre
    have hsymm : Symmetric (fun p q : Nat × List Char => ¬ p.2 <+: q.2 ∧ ¬ q.2 <+: p.2) :=
      fun _ _ hpq => ⟨hpq.2, hpq.1⟩
    have hne' : (s, c) ≠ (s', c') := fun heq => hne (congrArg Prod.fst heq)
    exact ((paths_pairwise root []).forall hsymm hp hp' hne').1 hchar

end Encoder

namespace Encoder

open Decoder (IsBits Loaded PrefixFree)

/-- What Method 3 writes for a non-empty payload of bytes, and what the decoder's
codebook loader makes of the lines written. -/
theorem method3_spec (p : List Nat) (hne : p ≠ []) (hb : ∀ b ∈ p, b < 256)
    (hlen : p.length < 2 ^ 64) :
    ∃ (unique : Nat) (entries : List Line) (bb : BitBuf) (T : Decoder.HNode)
      (E : List (Nat × List Bool)) (codeOf : Nat → List Bool),
      method3 p = some (Line.tag :: Line.payload_size p.length :: Line.unique unique :: entries,
        { magic := ['M', '3', 'B', '0'], psz := u32 p.length,
          padbits := u8 (padbits bb.bit_len), bit_bytes := u32 ((bb.bit_len + 7) / 8),
          data := bb.data.take (u32 ((bb.bit_len + 7) / 8)) }) ∧
      Holds bb (p.flatMap codeOf) ∧ bb.bit_len = total_code_bits p ∧
      Decoder.load_entries entries Decoder.hn_new = some T ∧ Loaded T E ∧ PrefixFree E ∧
      (∀ b ∈ p, (b, codeOf b) ∈ E ∧ codeOf b ≠ [] ∧ b < 256) := by
  have hfreq : ∀ s, count_freq p s = p.count s := count_freq_eq p hlen
  have hpos : ∀ s, 0 < count_freq p s ↔ s ∈ p := by
    intro s
    rw [hfreq, List.count_pos_iff]
  obtain ⟨b0, hb0⟩ := List.exists_mem_of_ne_nil p hne
  obtain ⟨root, unique, hbuild, _, hnd, hmem, hsyms, hleaves⟩ :=
    build_huffman_tree (count_freq p) ⟨b0, hb b0 hb0, (hpos b0).mpr hb0⟩
  obtain ⟨hcodes, hfree⟩ := codes_facts root hnd hleaves
  generalize hcd : gen_codes root [] (fun _ => none) = codes at hcodes hfree
  have hsome : ∀ s, s < 256 → 0 < count_freq p s → ∃ c, codes s = some c := by
    intro s hs hf
    obtain ⟨c, hc, _⟩ := hcodes s (hmem s hs hf)
    exact ⟨c, hc⟩
  have hent := codebook_entries_eq (count_freq p) codes (List.range 256)
    (fun s hs hf => hsome s (List.mem_range.mp hs) hf)
  have henc := encode_payload_eq codes p bitbuf_init
    (fun b hbp => hsome b (hb b hbp) ((hpos b).mpr hbp))
  have hholds := holds_push_bits (p.flatMap (fun b => code_bits ((codes b).getD [])))
    bitbuf_init [] holds_init
  simp only [List.nil_append] at hholds
  generalize hP : (List.range 256).filter (fun s => 0 < count_freq p s) = P at hent
  have hPmem : ∀ s, s ∈ P ↔ s < 256 ∧ s ∈ p := by
    intro s
    rw [← hP]
    simp [List.mem_filter, hpos]
  have hPsyms : ∀ s ∈ P, s ∈ root.syms := by
    intro s hs
    exact hmem s ((hPmem s).mp hs).1 ((hpos s).mpr ((hPmem s).mp hs).2)
  have hPnd : P.Nodup := by
    rw [← hP]
    exact (List.nodup_range 256).filter _
  obtain ⟨T, hT, hload⟩ := Decoder.load_entries_spec (fun s => (codes s).getD []) (count_freq p)
    P Decoder.hn_new [] Decoder.loaded_hn_new
    (by
      intro s hs
      obtain ⟨c, hc, h1, h2, h3⟩ := hcodes s (hPsyms s hs)
      simp only [hc, Option.getD_some]
      refine ⟨h1, h2, by omega, ?_⟩
      have := ((hPmem s).mp hs).1
      omega)
    (by simp)
    (by
      rw [List.pairwise_iff_forall_sublist]
      intro s s' hsub
      have hs : s ∈ P := hsub.subset (by simp)
      have hs' : s' ∈ P := hsub.subset (by simp)
      have hne' : s ≠ s' := by
        intro h
        subst h
        have := (hsub.nodup hPnd)
        simp at this
      exact ⟨hfree s (hPsyms s hs) s' (hPsyms s' hs') hne',
        hfree s' (hPsyms s' hs') s (hPsyms s hs) (Ne.symm hne')⟩)
  simp only [List.append_nil] at hload
  refine ⟨unique, _, _, T, _, fun b => code_bits ((codes b).getD []), ?_, hholds, ?_, hT,
    hload, ?_, ?_⟩
  · unfold method3
    have hsz : ¬ p.length = 0 := by
      intro h
      exact hne (List.eq_nil_of_length_eq_zero h)
    simp only [hsz, if_false, hbuild, hcd, hent, henc]
  · rw [hholds.1]
    unfold total_code_bits
    rw [hbuild]
    simp only [hcd]
    clear hholds henc
    induction p with
    | nil => rfl
    | cons b bs _ =>
      simp [List.flatMap_cons, code_bits_length, List.length_flatMap, Function.comp_def]
  · intro x hx y hy hxy
    simp only [List.mem_map, List.mem_reverse] at hx hy
    obtain ⟨s, hs, rfl⟩ := hx
    obtain ⟨s', hs', rfl⟩ := hy
    have hne' : s ≠ s' := by
      intro h
      subst h
      exact hxy rfl
    exact hfree s (hPsyms s hs) s' (hPsyms s' hs') hne'
  · intro b hbp
    refine ⟨?_, ?_, hb b hbp⟩
    · simp only [List.mem_map, List.mem_reverse]
      exact ⟨b, (hPmem b).mpr ⟨hb b hbp, hbp⟩, rfl⟩
    · obtain ⟨c, hc, _, h2, _⟩ := hcodes b (hmem b (hb b hbp) ((hpos b).mpr hbp))
      simp only [hc, Option.getD_some, code_bits]
      intro h
      exact h2 (List.map_eq_nil_iff.mp h)

end Encoder

namespace Encoder

open Decoder (IsBits Loaded PrefixFree get_bit)

theorem get_bit_take (data : List Nat) (n i : Nat) (h : i / 8 < n) :
    get_bit (data.take n) i = get_bit data i := by
  unfold get_bit
  congr 2
  simp [List.getD_eq_getElem?_getD, List.getElem?_take, h]

theorem load_codebook_of_entries (a c : Line) (n : Nat) (entries : List Line)
    (T : Decoder.HNode) (h : Decoder.load_entries entries Decoder.hn_new = some T) :
    Decoder.load_codebook_build_trie (a :: Line.payload_size n :: c :: entries) = some (T, n) := by
  simp [Decoder.load_codebook_build_trie, h]

theorem padbits_le (n : Nat) : padbits n ≤ 7 := by
  unfold padbits
  omega

/-- C1 (as amended). For every non-empty byte payload `p` whose packed bitstream
occupies fewer than `2^32` bytes, so that `bit_bytes` fits its `uint32_t` header
field: Method 3 succeeds, and the decoder, rebuilding the trie from the codebook
lines written and running `huffman_decode_binary` on the binary file written with
the payload size declared in the codebook, succeeds and returns exactly `p`. -/
theorem huffman_roundtrip (p : List Nat) (hne : p ≠ []) (hb : ∀ b ∈ p, b < 256)
    (hlen : p.length < 2 ^ 63) (hfit : (total_code_bits p + 7) / 8 < 2 ^ 32) :
    ∃ lines f, method3 p = some (lines, f) ∧
      Decoder.decode_method3_payload lines f = some p := by
  obtain ⟨unique, entries, bb, T, E, codeOf, hm3, hholds, hL, hT, hload, hpf, hE⟩ :=
    method3_spec p hne hb (by omega)
  refine ⟨_, _, hm3, ?_⟩
  obtain ⟨hlen1, hdata, hcap, hle, hbit⟩ := hholds
  rw [← hL] at hfit
  have hu32 : u32 ((bb.bit_len + 7) / 8) = (bb.bit_len + 7) / 8 := Nat.mod_eq_of_lt hfit
  have hu8 : u8 (padbits bb.bit_len) = padbits bb.bit_len :=
    Nat.mod_eq_of_lt (by have := padbits_le bb.bit_len; omega)
  have hnb : (bb.bit_len + 7) / 8 ≤ bb.data.length := by omega
  have hvalid : (bb.bit_len + 7) / 8 * 8 - padbits bb.bit_len = bb.bit_len := by
    unfold padbits
    omega
  have hdec := Decoder.decode_loop_payload T E hload hpf (bb.data.take ((bb.bit_len + 7) / 8))
    p.length codeOf p 0 [] hE (by simp) (by
      intro j hj
      rw [← hlen1] at hj
      rw [Nat.zero_add, get_bit_take _ _ _ (by omega), hbit]
      cases (p.flatMap codeOf).getD j false <;> rfl)
  rw [← hlen1] at hdec
  unfold Decoder.decode_method3_payload
  rw [load_codebook_of_entries _ _ _ _ T hT]
  simp only [Decoder.huffman_decode_binary, hu32, hu8, ne_eq, not_true_eq_false, if_false,
    List.length_take, List.take_take, Nat.min_self]
  have h1 : ¬ min ((bb.bit_len + 7) / 8) bb.data.length < (bb.bit_len + 7) / 8 := by
    rw [Nat.min_eq_left hnb]
    omega
  have h2 : ¬ 7 < padbits bb.bit_len := by have := padbits_le bb.bit_len; omega
  have h3 : ¬ (bb.bit_len + 7) / 8 * 8 < padbits bb.bit_len := by
    unfold padbits
    omega
  simp only [h1, h2, h3, if_false, hvalid, hdec]
  simp

end Encoder

namespace Encoder

set_option maxRecDepth 100000 in
/-- Witness for `huffman_roundtrip`: the payload `[5, 7, 5]`. -/
theorem huffman_roundtrip_witness :
    ∃ lines f, method3 [5, 7, 5] = some (lines, f) ∧
      Decoder.decode_method3_payload lines f = some [5, 7, 5] :=
  huffman_roundtrip [5, 7, 5] (by decide) (by decide) (by decide) (by decide)

theorem flatMap_replicate_length (codeOf : Nat → List Bool) (n : Nat) :
    ((List.replicate n 0).flatMap codeOf).length = n * (codeOf 0).length := by
  induction n with
  | zero => simp
  | succ n ih =>
    rw [List.replicate_succ, List.flatMap_cons, List.length_append, ih]
    ring

/-- A payload of `n` zero bytes, `n` a positive multiple of `2^35`: the written
`bit_bytes` field is 0 and the decoder rejects the file. -/
theorem method3_replicate_fails (n : Nat) (hpos : 0 < n) (hdvd : 2 ^ 35 ∣ n)
    (hlt : n < 2 ^ 64) :
    ¬ ∃ lines f, method3 (List.replicate n 0) = some (lines, f) ∧
      Decoder.decode_method3_payload lines f = some (List.replicate n 0) := by
  have hne : List.replicate n 0 ≠ [] := by
    intro h
    have := congrArg List.length h
    rw [List.length_replicate] at this
    exact absurd this (by simpa using Nat.pos_iff_ne_zero.mp hpos)
  have hb : ∀ b ∈ List.replicate n 0, b < 256 := by
    intro b hb
    rw [List.eq_of_mem_replicate hb]
    decide
  obtain ⟨unique, entries, bb, T, E, codeOf, hm3, hholds, _, hT, _, _, _⟩ :=
    method3_spec (List.replicate n 0) hne hb (by rw [List.length_replicate]; exact hlt)
  rintro ⟨lines, f, hm, hd⟩
  rw [hm3] at hm
  simp only [Option.some.injEq, Prod.mk.injEq] at hm
  obtain ⟨rfl, rfl⟩ := hm
  have hL : bb.bit_len = n * (codeOf 0).length := by
    rw [hholds.1, flatMap_replicate_length]
  have hmod : bb.bit_len % 34359738368 = 0 := by
    rw [hL]
    exact Nat.mod_eq_zero_of_dvd (Dvd.dvd.mul_right (by simpa using hdvd) _)
  have hu32 : u32 ((bb.bit_len + 7) / 8) = 0 := by
    unfold u32
    norm_num
    omega
  have hpad : u8 (padbits bb.bit_len) = 0 := by
    unfold u8 padbits
    omega
  unfold Decoder.decode_method3_payload at hd
  rw [load_codebook_of_entries _ _ _ _ T hT] at hd
  simp only [Decoder.huffman_decode_binary, hu32, hpad, ne_eq, not_true_eq_false, if_false,
    List.take_zero, List.length_nil, Nat.lt_irrefl, Nat.zero_mul, Nat.sub_zero,
    Decoder.decode_loop, List.length_replicate, Nat.not_lt_zero] at hd
  have hn0 : ¬ (0 = n) := by omega
  simp [hn0] at hd

/-- C1 fails as stated: for the payload of `2^35` zero bytes the encoder writes a
file (its `bit_bytes` field wraps to 0) from which the decoder does not recover
the payload. -/
theorem huffman_roundtrip_fails_large :
    List.replicate (2 ^ 35) 0 ≠ [] ∧ (∀ b ∈ List.replicate (2 ^ 35) 0, b < 256) ∧
    ¬ ∃ lines f, Encoder.method3 (List.replicate (2 ^ 35) 0) = some (lines, f) ∧
      Decoder.decode_method3_payload lines f = some (List.replicate (2 ^ 35) 0) := by
  refine ⟨?_, ?_, method3_replicate_fails (2 ^ 35) (by norm_num) (dvd_refl _) (by norm_num)⟩
  · intro h
    have := congrArg List.length h
    rw [List.length_replicate] at this
    norm_num at this
  · intro b hb
    rw [List.eq_of_mem_replicate hb]
    decide

end Encoder

/-! ## Zigzag -/

/-- C3. The table `(ZZU[k], ZZV[k])` is not a bijection onto the 8x8 grid: the
indices 56 and 57 both map to the cell (7,7) and no index maps to the cell (0,7).
Accordingly the grid that is 1 at (0,7) and 0 elsewhere is not returned by
de-zigzagging its zigzag vector: the cell (0,7) comes back as 0. -/
theorem zigzag_table_not_bijective :
    (Encoder.ZZU.getD 56 0 = Encoder.ZZU.getD 57 0 ∧
      Encoder.ZZV.getD 56 0 = Encoder.ZZV.getD 57 0) ∧
    (∀ k, k < 64 → ¬ (Encoder.ZZU.getD k 0 = 0 ∧ Encoder.ZZV.getD k 0 = 7)) ∧
    Decoder.dezigzag (Encoder.zigzag (fun u v => if u = 0 ∧ v = 7 then 1 else 0)) 0 7 = 0 ∧
    (fun u v => if u = 0 ∧ v = 7 then 1 else 0 : Grid) 0 7 = 1 := by
  decide

/-! ## Run-length coding -/

theorem i16_of_small (z : Nat) (hz : z ≤ 64) : i16 (z : Int) = z := by
  unfold i16
  omega

theorem set_after_zeros (done : List Int) (zc n : Nat) (v : Int) :
    (done ++ List.replicate (zc + (n + 1)) 0).set (done.length + zc) v =
      (done ++ List.replicate zc 0 ++ [v]) ++ List.replicate n 0 := by
  rw [List.replicate_add, List.replicate_succ]
  rw [show done ++ (List.replicate zc 0 ++ (0 :: List.replicate n 0)) =
    (done ++ List.replicate zc 0) ++ (0 :: List.replicate n 0) by simp]
  rw [show done.length + zc = (done ++ List.replicate zc 0).length by simp]
  rw [List.set_append_right _ _ (Nat.le_refl _)]
  simp

/-- Replaying the pairs of the rest of a vector: `done` is the part of the vector
up to its last nonzero entry so far, followed by `zc` zeros already counted. -/
theorem replay_rle_loop (vs : List Int) :
    ∀ (zc : Nat) (done : List Int), done.length + zc + vs.length ≤ 64 →
      Decoder.replay (Encoder.rle_loop vs zc) done.length
          (done ++ List.replicate (zc + vs.length) 0) =
        some (done ++ List.replicate zc 0 ++ vs) := by
  induction vs with
  | nil =>
    intro zc done _
    simp [Encoder.rle_loop, Decoder.replay]
  | cons v vs ih =>
    intro zc done hlen
    simp only [List.length_cons] at hlen
    by_cases hv : v = 0
    · subst hv
      have := ih (zc + 1) done (by omega)
      simp only [Encoder.rle_loop, if_true, List.length_cons]
      rw [show ((zc : Int) + 1) = ((zc + 1 : Nat) : Int) by simp]
      rw [show zc + (vs.length + 1) = zc + 1 + vs.length by omega, this]
      simp [List.replicate_succ']
    · simp only [Encoder.rle_loop, hv, if_false, Decoder.replay]
      rw [i16_of_small zc (by omega)]
      have h1 : ¬ (64 : Int) ≤ (done.length : Int) + (zc : Int) := by omega
      have h2 : ¬ ((done.length : Int) + (zc : Int) < 0) := by omega
      simp only [h1, h2, if_false]
      rw [show ((done.length : Int) + (zc : Int)).toNat = done.length + zc by omega]
      rw [List.length_cons, set_after_zeros]
      have := ih 0 (done ++ List.replicate zc 0 ++ [v]) (by simp; omega)
      simp only [Nat.zero_add, List.replicate_zero, List.append_nil, Nat.cast_zero] at this
      rw [show ((done.length : Int) + (zc : Int) + 1) =
        (((done ++ List.replicate zc 0 ++ [v]).length : Nat) : Int) by
          simp only [List.length_append, List.length_replicate, List.length_singleton]
          push_cast
          ring]
      rw [this]
      simp

theorem rle_loop_length_le (vs : List Int) (zc : Int) :
    (Encoder.rle_loop vs zc).length ≤ vs.length := by
  induction vs generalizing zc with
  | nil => simp [Encoder.rle_loop]
  | cons v vs ih =>
    simp only [Encoder.rle_loop]
    split
    · have := ih (zc + 1)
      simp only [List.length_cons]
      omega
    · have := ih 0
      simp only [List.length_cons]
      omega

/-- C4. For every 64-vector `v` (of signed 16-bit values or of any integers; the
all-zero vector and vectors with a nonzero last element included), reading the binary record the
encoder writes for the pairs of `v` into a zero-filled buffer of 64 slots, as the
binary decoder does, succeeds and yields `v`. -/
theorem rle_roundtrip (v : List Int) (hlen : v.length = 64) :
    Decoder.read_record (Encoder.write_record (Encoder.rle v)) = some v ∧
    Decoder.replay (Encoder.rle v) 0 (List.replicate 64 0) = some v := by
  have hreplay : Decoder.replay (Encoder.rle v) 0 (List.replicate 64 0) = some v := by
    have := replay_rle_loop v 0 [] (by simp [hlen])
    simpa [Encoder.rle, hlen] using this
  refine ⟨?_, hreplay⟩
  have hle : (Encoder.rle v).length ≤ 64 := by
    have := rle_loop_length_le v 0
    rw [hlen] at this
    exact this
  have hpc : u16 (Encoder.rle v).length = (Encoder.rle v).length :=
    Nat.mod_eq_of_lt (by omega)
  simp only [Decoder.read_record, Encoder.write_record, hpc, Nat.lt_irrefl, if_false,
    List.take_length]
  exact hreplay

/-- Witness for `rle_roundtrip`: a vector with a nonzero DC entry and a nonzero
last entry. -/
theorem rle_roundtrip_witness :
    Decoder.read_record (Encoder.write_record
        (Encoder.rle ([7] ++ List.replicate 62 0 ++ [-3]))) =
      some ([7] ++ List.replicate 62 0 ++ [-3]) ∧
    Decoder.replay (Encoder.rle ([7] ++ List.replicate 62 0 ++ [-3])) 0 (List.replicate 64 0) =
      some ([7] ++ List.replicate 62 0 ++ [-3]) :=
  rle_roundtrip ([7] ++ List.replicate 62 0 ++ [-3]) (by decide)

/-! ## The Method-2 coefficient pipeline -/

/-- C7. The coefficient grid the Method-2 decoder rebuilds does not satisfy
`F[u][v] = q[u][v] * Q[u][v]` at every cell: for the 8x8 image whose columns
alternate white and black the quantised luma grid has `q[0][7] = 15` and
`Q[0][7] = 61`, the decoder reads all three records successfully, and the luma
grid it rebuilds has `F[0][7] = 0` instead of `915` (no zigzag index maps to the
cell (0,7)). -/
theorem method2_grid_loses_coefficient :
    (Decoder.method2_grids 1 (Encoder.method2_records [stripes])).map
        (fun Fs => Fs.map (fun b => b.map (fun F => F 0 7))) = some [[0, 0, 0]] ∧
    stripes 0 0 7 * Decoder.Q 0 0 7 = 915 := by
  decide

/-! ## DC prediction -/

theorem i16_of_isI16 (x : Int) (h : IsI16 x) : i16 x = x := by
  unfold IsI16 at h
  unfold i16
  omega

theorem i16_add_i16_sub (a b : Int) (h : IsI16 b) : i16 (a + i16 (b - a)) = b := by
  unfold IsI16 at h
  unfold i16
  omega

/-- The state after one block of the encoder's DC loop. -/
theorem dpcm_block_state (p dc : Nat → Int) :
    (Encoder.dpcm (Encoder.dpcm (Encoder.dpcm p 0 (dc 0)).1 1 (dc 1)).1 2 (dc 2)).1 =
      Function.update (Function.update (Function.update p 0 (dc 0)) 1 (dc 1)) 2 (dc 2) := rfl

theorem update3_apply (p dc : Nat → Int) (c : Nat) (hc : c < 3) :
    Function.update (Function.update (Function.update p 0 (dc 0)) 1 (dc 1)) 2 (dc 2) c = dc c := by
  interval_cases c <;> simp [Function.update]

/-- The differences stored for one block by the encoder's DC loop. -/
theorem dpcm_block_diffs (p dc : Nat → Int) :
    (Encoder.dpcm p 0 (dc 0)).2 = i16 (dc 0 - p 0) ∧
    (Encoder.dpcm (Encoder.dpcm p 0 (dc 0)).1 1 (dc 1)).2 = i16 (dc 1 - p 1) ∧
    (Encoder.dpcm (Encoder.dpcm (Encoder.dpcm p 0 (dc 0)).1 1 (dc 1)).1 2 (dc 2)).2 =
      i16 (dc 2 - p 2) := by
  simp [Encoder.dpcm, Function.update]

/-- The stored differences of channel `c` are the differential code of the DC
sequence of channel `c` alone. -/
theorem dpcm_blocks_channel (blocks : List (Nat → Int)) :
    ∀ (p : Nat → Int) (c : Nat), c < 3 →
      (Encoder.dpcm_blocks p blocks).map (fun b => b c) =
        dpcm_chain (p c) (blocks.map (fun b => b c)) := by
  induction blocks with
  | nil => intro p c _; rfl
  | cons dc rest ih =>
    intro p c hc
    obtain ⟨h0, h1, h2⟩ := dpcm_block_diffs p dc
    simp only [Encoder.dpcm_blocks, List.map_cons, dpcm_chain]
    rw [ih _ c hc, dpcm_block_state, update3_apply p dc c hc, h0, h1, h2]
    interval_cases c <;> simp

theorem getLast?_getD_cons (a : Int) (l : List Int) (x y : Int) :
    ((a :: l).getLast?).getD x = ((a :: l).getLast?).getD y := by
  rw [List.getLast?_eq_getLast _ (List.cons_ne_nil a l)]
  rfl

/-- The predictor of channel `c` after the block loop is the last DC value of
channel `c` (its initial value when there is no block). -/
theorem dpcm_state_channel (blocks : List (Nat → Int)) :
    ∀ (p : Nat → Int) (c : Nat), c < 3 →
      Encoder.dpcm_state p blocks c = ((blocks.map (fun b => b c)).getLast?).getD (p c) := by
  induction blocks with
  | nil => intro p c _; rfl
  | cons dc rest ih =>
    intro p c hc
    simp only [Encoder.dpcm_state, List.map_cons]
    rw [ih _ c hc, dpcm_block_state, update3_apply p dc c hc]
    cases rest with
    | nil => simp
    | cons d ds =>
      simp only [List.map_cons, List.getLast?_cons_cons]
      exact getLast?_getD_cons _ _ _ _

/-- One block of the decoder's DC loop on the differences the encoder stored. -/
theorem inverse_dpcm_block (p dc : Nat → Int) (hdc : ∀ c, c < 3 → IsI16 (dc c)) :
    Decoder.inverse_dpcm p 0 (i16 (dc 0 - p 0)) = (Function.update p 0 (dc 0), dc 0) ∧
    Decoder.inverse_dpcm (Function.update p 0 (dc 0)) 1 (i16 (dc 1 - p 1)) =
      (Function.update (Function.update p 0 (dc 0)) 1 (dc 1), dc 1) ∧
    Decoder.inverse_dpcm (Function.update (Function.update p 0 (dc 0)) 1 (dc 1)) 2
        (i16 (dc 2 - p 2)) =
      (Function.update (Function.update (Function.update p 0 (dc 0)) 1 (dc 1)) 2 (dc 2), dc 2) := by
  have e0 := i16_add_i16_sub (p 0) (dc 0) (hdc 0 (by omega))
  have e1 := i16_add_i16_sub (p 1) (dc 1) (hdc 1 (by omega))
  have e2 := i16_add_i16_sub (p 2) (dc 2) (hdc 2 (by omega))
  refine ⟨?_, ?_, ?_⟩
  · simp only [Decoder.inverse_dpcm, e0]
  · have h : Function.update p 0 (dc 0) 1 = p 1 := by simp [Function.update]
    simp only [Decoder.inverse_dpcm, h, e1]
  · have h : Function.update (Function.update p 0 (dc 0)) 1 (dc 1) 2 = p 2 := by
      simp [Function.update]
    simp only [Decoder.inverse_dpcm, h, e2]

/-- Decoding the stored differences of the blocks from the same initial
predictors returns the DC values. -/
theorem inverse_dpcm_blocks_dpcm_blocks (blocks : List (Nat → Int))
    (h : ∀ b ∈ blocks, ∀ c, c < 3 → IsI16 (b c)) :
    ∀ (p : Nat → Int) (c : Nat), c < 3 →
      (Decoder.inverse_dpcm_blocks p (Encoder.dpcm_blocks p blocks)).map (fun b => b c) =
        blocks.map (fun b => b c) := by
  induction blocks with
  | nil => intro p c _; rfl
  | cons dc rest ih =>
    intro p c hc
    have hdc := h dc (List.mem_cons_self _ _)
    have ih' := ih (fun b hb => h b (List.mem_cons_of_mem _ hb))
    obtain ⟨h0, h1, h2⟩ := dpcm_block_diffs p dc
    obtain ⟨d0, d1, d2⟩ := inverse_dpcm_block p dc hdc
    simp only [Encoder.dpcm_blocks, Decoder.inverse_dpcm_blocks, List.map_cons, h0, h1, h2,
      if_true, if_false, one_ne_zero, OfNat.ofNat_ne_zero, OfNat.ofNat_ne_one, d0, d1, d2,
      dpcm_block_state]
    rw [ih' _ c hc]
    congr 1
    interval_cases c <;> simp

/-- C5. For every sequence of blocks whose DC values are signed 16-bit values,
visited in raster order with the predictors starting at 0: the decoder's inverse
DPCM applied to the encoder's stored differences reconstructs the DC sequence of
every channel exactly (the casts to `int16_t` are part of both steps, so this
includes differences that wrap around); and the stored differences and the
predictor of a channel are functions of the DC values of that channel alone. -/
theorem dpcm_roundtrip (blocks : List (Nat → Int))
    (h : ∀ b ∈ blocks, ∀ c, c < 3 → IsI16 (b c)) (c : Nat) (hc : c < 3) :
    (Decoder.inverse_dpcm_blocks (fun _ => 0)
        (Encoder.dpcm_blocks (fun _ => 0) blocks)).map (fun b => b c) =
      blocks.map (fun b => b c) ∧
    (Encoder.dpcm_blocks (fun _ => 0) blocks).map (fun b => b c) =
      dpcm_chain 0 (blocks.map (fun b => b c)) ∧
    Encoder.dpcm_state (fun _ => 0) blocks c = ((blocks.map (fun b => b c)).getLast?).getD 0 :=
  ⟨inverse_dpcm_blocks_dpcm_blocks blocks h _ c hc, dpcm_blocks_channel blocks _ c hc,
    dpcm_state_channel blocks _ c hc⟩

/-- Witness for `dpcm_roundtrip`: two blocks whose luma difference
`-30000 - 30000` wraps around in 16 bits. -/
theorem dpcm_roundtrip_witness :
    (Decoder.inverse_dpcm_blocks (fun _ => 0)
        (Encoder.dpcm_blocks (fun _ => 0)
          [fun c => if c = 0 then 30000 else 5, fun c => if c = 0 then -30000 else 7])).map
        (fun b => b 0) =
      [fun c => if c = 0 then 30000 else 5, fun c => if c = 0 then -30000 else 7].map
        (fun b => b 0) ∧
    (Encoder.dpcm_blocks (fun _ => 0)
        [fun c => if c = 0 then 30000 else 5, fun c => if c = 0 then -30000 else 7]).map
        (fun b => b 0) =
      dpcm_chain 0 ([fun c => if c = 0 then 30000 else 5,
        fun c => if c = 0 then -30000 else 7].map (fun b => b 0)) ∧
    Encoder.dpcm_state (fun _ => 0)
        [fun c => if c = 0 then 30000 else 5, fun c => if c = 0 then -30000 else 7] 0 =
      (([fun c => if c = 0 then 30000 else 5,
        fun c => if c = 0 then -30000 else 7].map (fun b => b 0)).getLast?).getD 0 :=
  dpcm_roundtrip [fun c => if c = 0 then 30000 else 5, fun c => if c = 0 then -30000 else 7]
    (by
      intro b hb c hc
      simp only [List.mem_cons, List.mem_singleton, List.not_mem_nil, or_false] at hb
      rcases hb with rfl | rfl <;> (by_cases hc0 : c = 0 <;> simp [IsI16, hc0]))
    0 (by decide)

/-- The differential code with casts is the one without when every difference is
a signed 16-bit value. -/
theorem dpcm_chain_eq_diffs (ds : List Int) :
    ∀ prev : Int, fits16 prev ds = true → dpcm_chain prev ds = diffs prev ds := by
  induction ds with
  | nil => intro _ _; rfl
  | cons d ds ih =>
    intro prev h
    simp only [fits16, Bool.and_eq_true, decide_eq_true_eq] at h
    simp only [dpcm_chain, diffs, ih d h.2, i16_of_isI16 _ h.1]

/-- C6. For every sequence of per-block DC values `d0, d1, d2, ...` of one channel
whose successive differences fit in 16 bits, with initial predictor 0: the values
the encoder stores at vector index 0 are `d0, d1 - d0, d2 - d1, ...`, and the
predictor after block `i` is `d_i`. -/
theorem dpcm_stored_diffs (blocks : List (Nat → Int)) (c : Nat) (hc : c < 3)
    (hfit : fits16 0 (blocks.map (fun b => b c)) = true) :
    (Encoder.dpcm_blocks (fun _ => 0) blocks).map (fun b => b c) =
      diffs 0 (blocks.map (fun b => b c)) ∧
    ∀ i, i < blocks.length →
      Encoder.dpcm_state (fun _ => 0) (blocks.take (i + 1)) c =
        (blocks.map (fun b => b c)).getD i 0 := by
  refine ⟨?_, ?_⟩
  · rw [dpcm_blocks_channel blocks _ c hc]
    exact dpcm_chain_eq_diffs _ 0 hfit
  · intro i hi
    rw [dpcm_state_channel _ _ c hc, List.map_take]
    have hlen : ((blocks.map (fun b => b c)).take (i + 1)).length = i + 1 := by
      simp; omega
    rw [List.getLast?_eq_getElem?, hlen]
    simp only [Nat.add_sub_cancel, List.getD_eq_getElem?_getD]
    rw [List.getElem?_take_of_lt (Nat.lt_succ_self i)]

/-- Witness for `dpcm_stored_diffs`: the luma DC values 10, 4, 9 of three
blocks. -/
theorem dpcm_stored_diffs_witness :
    (Encoder.dpcm_blocks (fun _ => 0) [fun _ => 10, fun _ => 4, fun _ => 9]).map (fun b => b 0) =
      diffs 0 ([fun _ => 10, fun _ => 4, fun _ => 9].map (fun b => b 0)) ∧
    ∀ i, i < [(fun _ => 10 : Nat → Int), fun _ => 4, fun _ => 9].length →
      Encoder.dpcm_state (fun _ => 0)
          ([(fun _ => 10 : Nat → Int), fun _ => 4, fun _ => 9].take (i + 1)) 0 =
        ([(fun _ => 10 : Nat → Int), fun _ => 4, fun _ => 9].map (fun b => b 0)).getD i 0 :=
  dpcm_stored_diffs [fun _ => 10, fun _ => 4, fun _ => 9] 0 (by decide) (by decide)

/-! ## Quantiser -/

/-- `llround` rounds to the nearest integer, halves away from zero. -/
theorem llround_isRoundHalfAway {α : Type} [LinearOrderedField α] [FloorRing α] (x : α) :
    IsRoundHalfAway x (Encoder.llround x) := by
  unfold IsRoundHalfAway Encoder.llround
  by_cases hx : 0 ≤ x
  · simp only [hx, if_true]
    have h1 : ((⌊x + 1 / 2⌋ : Int) : α) ≤ x + 1 / 2 := Int.floor_le _
    have h2 : x + 1 / 2 < ((⌊x + 1 / 2⌋ : Int) : α) + 1 := Int.lt_floor_add_one _
    generalize ((⌊x + 1 / 2⌋ : Int) : α) = n at h1 h2
    by_cases htie : x - n = -(1 / 2)
    · right
      refine ⟨by rw [htie, abs_neg, abs_of_pos (by norm_num : (0 : α) < 1 / 2)], ?_⟩
      have hn : n = x + 1 / 2 := by linarith
      rw [abs_of_nonneg hx, hn, abs_of_nonneg (by linarith)]
      linarith
    · left
      rw [abs_lt]
      constructor
      · rcases lt_or_eq_of_le (show -(1 / 2) ≤ x - n by linarith) with h | h
        · exact h
        · exact absurd h.symm htie
      · linarith
  · simp only [hx, if_false]
    have hx' : x < 0 := lt_of_not_le hx
    have h1 : ((⌊-x + 1 / 2⌋ : Int) : α) ≤ -x + 1 / 2 := Int.floor_le _
    have h2 : -x + 1 / 2 < ((⌊-x + 1 / 2⌋ : Int) : α) + 1 := Int.lt_floor_add_one _
    push_cast
    generalize ((⌊-x + 1 / 2⌋ : Int) : α) = m at h1 h2
    by_cases htie : x + m = 1 / 2
    · right
      refine ⟨by rw [sub_neg_eq_add, htie, abs_of_pos (by norm_num : (0 : α) < 1 / 2)], ?_⟩
      have hm : m = 1 / 2 - x := by linarith
      rw [abs_of_neg hx', abs_neg, hm, abs_of_nonneg (by linarith)]
      linarith
    · left
      rw [sub_neg_eq_add, abs_lt]
      constructor
      · linarith
      · rcases lt_or_eq_of_le (show x + m ≤ 1 / 2 by linarith) with h | h
        · exact h
        · exact absurd h htie

theorem abs_sub_le_of_isRoundHalfAway {α : Type} [LinearOrderedField α] (x : α) (n : Int)
    (h : IsRoundHalfAway x n) :
    |x - (n : α)| ≤ 1 / 2 := by
  rcases h with h | h
  · exact le_of_lt h
  · exact le_of_eq h.1

/-- The rounded quotient of a coefficient in range is a value of type `int16_t`. -/
theorem llround_quotient_isI16 {α : Type} [LinearOrderedField α] [FloorRing α] (f : α) (Q : Int)
    (hQ : 0 < Q) (hr : |f| ≤ 32767 * (Q : α)) :
    IsI16 (Encoder.llround (f / (Q : α))) := by
  have hQ' : (0 : α) < (Q : α) := by exact_mod_cast hQ
  have hx : |f / (Q : α)| ≤ 32767 := by
    rw [abs_div, abs_of_pos hQ', div_le_iff₀ hQ']
    exact hr
  have hn := abs_sub_le_of_isRoundHalfAway _ _ (llround_isRoundHalfAway (f / (Q : α)))
  generalize Encoder.llround (f / (Q : α)) = n at hn
  rw [abs_le] at hx hn
  unfold IsI16
  constructor
  · have : (-32768 : α) < (n : α) := by linarith
    have h' : ((-32768 : Int) : α) < (n : α) := by push_cast; exact this
    exact le_of_lt (Int.cast_lt.mp h')
  · have : (n : α) < 32768 := by linarith
    have h' : (n : α) < ((32768 : Int) : α) := by push_cast; exact this
    have := Int.cast_lt.mp h'
    omega

theorem quantise_examples :
    Encoder.quantise_m1 (8 : ℚ) 16 = 1 ∧ Encoder.quantise_m1 (-8 : ℚ) 16 = -1 ∧
    Encoder.quantise_m2 (8 : ℚ) 16 = 1 ∧ Encoder.quantise_m2 (-8 : ℚ) 16 = -1 := by
  norm_num [Encoder.quantise_m1, Encoder.quantise_m2, Encoder.llround, i16]

theorem i16_llround_quotient {α : Type} [LinearOrderedField α] [FloorRing α] (f : α) (Q : Int)
    (hQ : 0 < Q) (hr : |f| ≤ 32767 * (Q : α)) :
    i16 (Encoder.llround (f / (Q : α))) = Encoder.llround (f / (Q : α)) :=
  i16_of_isI16 _ (llround_quotient_isI16 f Q hQ hr)

/-- C8. For every coefficient `f` and table entry `Q > 0` (with `|f| <= 32767 Q`,
which holds for every transform coefficient of 8-bit samples), the encoder's
quantised value is `f/Q` rounded to the nearest integer with halves rounded away
from zero, in Method 1 and in Method 2 alike; `f = 8`, `Q = 16` gives 1 and
`f = -8`, `Q = 16` gives -1.  (Exact arithmetic in place of `double`.) -/
theorem quantise_round_half_away {α : Type} [LinearOrderedField α] [FloorRing α] (f : α)
    (Q : Int) (hQ : 0 < Q) (hr : |f| ≤ 32767 * (Q : α)) :
    IsRoundHalfAway (f / (Q : α)) (Encoder.quantise_m1 f Q) ∧
    IsRoundHalfAway (f / (Q : α)) (Encoder.quantise_m2 f Q) ∧
    Encoder.quantise_m1 (8 : ℚ) 16 = 1 ∧ Encoder.quantise_m1 (-8 : ℚ) 16 = -1 ∧
    Encoder.quantise_m2 (8 : ℚ) 16 = 1 ∧ Encoder.quantise_m2 (-8 : ℚ) 16 = -1 := by
  refine ⟨?_, ?_, quantise_examples⟩
  · unfold Encoder.quantise_m1
    rw [i16_llround_quotient f Q hQ hr]
    exact llround_isRoundHalfAway _
  · unfold Encoder.quantise_m2
    rw [i16_llround_quotient f Q hQ hr]
    exact llround_isRoundHalfAway _

/-- Witness for `quantise_round_half_away`: the coefficient `-51/2` and the table
entry 17 (the quotient is exactly `-3/2`). -/
theorem quantise_round_half_away_witness :
    (0 : Int) < 17 ∧ |(-51 / 2 : ℚ)| ≤ 32767 * ((17 : Int) : ℚ) ∧
    IsRoundHalfAway ((-51 / 2 : ℚ) / ((17 : Int) : ℚ)) (Encoder.quantise_m1 (-51 / 2 : ℚ) 17) ∧
    IsRoundHalfAway ((-51 / 2 : ℚ) / ((17 : Int) : ℚ)) (Encoder.quantise_m2 (-51 / 2 : ℚ) 17) ∧
    Encoder.quantise_m1 (8 : ℚ) 16 = 1 ∧ Encoder.quantise_m1 (-8 : ℚ) 16 = -1 ∧
    Encoder.quantise_m2 (8 : ℚ) 16 = 1 ∧ Encoder.quantise_m2 (-8 : ℚ) 16 = -1 :=
  ⟨by decide, by norm_num [abs_of_neg],
    quantise_round_half_away (-51 / 2 : ℚ) 17 (by decide) (by norm_num [abs_of_neg])⟩

set_option maxRecDepth 100000 in
theorem table_entries_pos :
    ∀ Q ∈ Encoder.QT_Y.flatten ++ Encoder.QT_C.flatten, (0 : Int) < Q := by
  decide

/-- C9 fails as stated: for the coefficient `f = 8` and the luma table entry
`QT_Y[0][0] = 16` the quantised value is 1 and `|f - q*Q| = 8 = Q/2`, which is not
smaller than `Q/2`. -/
theorem quantise_error_not_strict :
    (16 : Int) ∈ Encoder.QT_Y.flatten ∧
    ¬ (|(8 : ℚ) - ((Encoder.quantise_m1 (8 : ℚ) 16 : Int) : ℚ) * ((16 : Int) : ℚ)| <
      ((16 : Int) : ℚ) / 2) := by
  refine ⟨by decide, ?_⟩
  rw [quantise_examples.1]
  norm_num

/-- The quantisation error is at most half a step. -/
theorem quantise_error_bound {α : Type} [LinearOrderedField α] [FloorRing α] (f : α)
    (Q : Int) (hpos : 0 < Q) (hr : |f| ≤ 32767 * (Q : α)) :
    |f - ((Encoder.quantise_m1 f Q : Int) : α) * (Q : α)| ≤ (Q : α) / 2 := by
  have hQ' : (0 : α) < (Q : α) := by exact_mod_cast hpos
  unfold Encoder.quantise_m1
  rw [i16_llround_quotient f Q hpos hr]
  have h := abs_sub_le_of_isRoundHalfAway _ _ (llround_isRoundHalfAway (f / (Q : α)))
  generalize Encoder.llround (f / (Q : α)) = n at h
  have hfac : f - (n : α) * (Q : α) = (f / (Q : α) - (n : α)) * (Q : α) := by
    field_simp
    ring
  rw [hfac, abs_mul, abs_of_pos hQ']
  calc |f / (Q : α) - (n : α)| * (Q : α) ≤ 1 / 2 * (Q : α) :=
        mul_le_mul_of_nonneg_right h (le_of_lt hQ')
    _ = (Q : α) / 2 := by ring

/-- C9 (as amended). For every coefficient `f` and entry `Q` of the luma or chroma
table (with `|f| <= 32767 Q`), the quantised value `q` computed by the encoder
satisfies `|f - q*Q| <= Q/2`; the bound is attained when `f/Q` lies halfway between
two integers.  (Exact arithmetic in place of `double`.) -/
theorem quantise_error_le_half {α : Type} [LinearOrderedField α] [FloorRing α] (f : α)
    (Q : Int) (hQ : Q ∈ Encoder.QT_Y.flatten ++ Encoder.QT_C.flatten)
    (hr : |f| ≤ 32767 * (Q : α)) :
    |f - ((Encoder.quantise_m1 f Q : Int) : α) * (Q : α)| ≤ (Q : α) / 2 :=
  quantise_error_bound f Q (table_entries_pos Q hQ) hr

/-- Witness for `quantise_error_le_half`: the coefficient 8 and the luma entry
16, where the bound is attained. -/
theorem quantise_error_le_half_witness :
    (16 : Int) ∈ Encoder.QT_Y.flatten ++ Encoder.QT_C.flatten ∧
    |(8 : ℚ)| ≤ 32767 * ((16 : Int) : ℚ) ∧
    |(8 : ℚ) - ((Encoder.quantise_m1 (8 : ℚ) 16 : Int) : ℚ) * ((16 : Int) : ℚ)| ≤
      ((16 : Int) : ℚ) / 2 :=
  ⟨by decide, by norm_num, quantise_error_le_half (8 : ℚ) 16 (by decide) (by norm_num)⟩

/-! ## Residual -/

theorem round_half_even_err {α : Type} [LinearOrderedField α] [FloorRing α] (y : α) :
    |((Encoder.round_half_even y : Int) : α) - y| ≤ 1 / 2 := by
  unfold Encoder.round_half_even
  have h1 : ((⌊y⌋ : Int) : α) ≤ y := Int.floor_le _
  have h2 : y < ((⌊y⌋ : Int) : α) + 1 := Int.lt_floor_add_one _
  simp only []
  rw [abs_le]
  split_ifs with ha hb hc
  · constructor <;> linarith
  · push_cast; constructor <;> linarith
  · constructor <;> linarith
  · push_cast; constructor <;> linarith

/-- The rounding error of the conversion to binary32. -/
theorem to_float32_err {α : Type} [LinearOrderedField α] [FloorRing α] (x : α) :
    |Encoder.to_float32 x - x| ≤ max ((2 : α) ^ (-24 : Int) * |x|) ((2 : α) ^ (-150 : Int)) := by
  unfold Encoder.to_float32
  by_cases hx : x = 0
  · simp [hx]
  · simp only [hx, if_false]
    have hpos : 0 < |x| := abs_pos.mpr hx
    generalize he : max (Int.log 2 |x|) (-126) = e
    have hulp : (0 : α) < (2 : α) ^ (e - 23) := by positivity
    have herr := round_half_even_err (x / (2 : α) ^ (e - 23))
    generalize (Encoder.round_half_even (x / (2 : α) ^ (e - 23)) : Int) = r at herr
    have hfac : (r : α) * (2 : α) ^ (e - 23) - x =
        ((r : α) - x / (2 : α) ^ (e - 23)) * (2 : α) ^ (e - 23) := by
      field_simp
    have hhalf : (1 / 2 : α) * (2 : α) ^ (e - 23) = (2 : α) ^ (e - 24) := by
      rw [show e - 23 = (e - 24) + 1 by ring, zpow_add₀ (by norm_num : (2 : α) ≠ 0), zpow_one]
      ring
    have hb : |(r : α) * (2 : α) ^ (e - 23) - x| ≤ (2 : α) ^ (e - 24) := by
      rw [hfac, abs_mul, abs_of_pos hulp, ← hhalf]
      exact mul_le_mul_of_nonneg_right herr (le_of_lt hulp)
    refine le_trans hb ?_
    by_cases hlog : -126 ≤ Int.log 2 |x|
    · have he' : e = Int.log 2 |x| := by rw [← he]; exact max_eq_left hlog
      refine le_trans ?_ (le_max_left _ _)
      have hle : ((2 : ℕ) : α) ^ Int.log 2 |x| ≤ |x| := Int.zpow_log_le_self (by norm_num) hpos
      rw [he', show Int.log 2 |x| - 24 = (-24 : Int) + Int.log 2 |x| by ring,
        zpow_add₀ (by norm_num : (2 : α) ≠ 0)]
      have h24 : (0 : α) ≤ (2 : α) ^ (-24 : Int) := by positivity
      have hle' : (2 : α) ^ Int.log 2 |x| ≤ |x| := by exact_mod_cast hle
      exact mul_le_mul_of_nonneg_left hle' h24
    · have he' : e = -126 := by
        rw [← he]
        exact max_eq_right (by omega)
      refine le_trans ?_ (le_max_right _ _)
      rw [he']
      norm_num

/-- C10 fails as stated: for the coefficient `f = 1 + 2^-30` (a `double`) and the
table entry `Q = 16` the quantised value is 0, the stored residual is the
binary32 value 1, and the reconstruction `q*Q + e = 1` differs from `f`. -/
theorem residual_not_exact :
    Encoder.quantise_m1 (1 + 1 / 2 ^ 30 : ℚ) 16 = 0 ∧
    Encoder.residual_m1 (1 + 1 / 2 ^ 30 : ℚ) 16 = 1 ∧
    Decoder.dequant_m1 (Encoder.quantise_m1 (1 + 1 / 2 ^ 30 : ℚ) 16) 16
      (some (Encoder.residual_m1 (1 + 1 / 2 ^ 30 : ℚ) 16)) ≠ (1 + 1 / 2 ^ 30 : ℚ) := by
  have hq : Encoder.quantise_m1 (1 + 1 / 2 ^ 30 : ℚ) 16 = 0 := by
    have hfl : ⌊((1 + 1 / 2 ^ 30 : ℚ) / ((16 : Int) : ℚ) + 1 / 2)⌋ = 0 := by
      rw [Int.floor_eq_iff]
      norm_num
    have hnn : (0 : ℚ) ≤ (1 + 1 / 2 ^ 30 : ℚ) / ((16 : Int) : ℚ) := by norm_num
    simp only [Encoder.quantise_m1, Encoder.llround, hnn, if_true, hfl]
    decide
  have hlog : Int.log 2 |(1 + 1 / 2 ^ 30 : ℚ)| = 0 := by
    rw [abs_of_pos (by norm_num), Int.log_of_one_le_right 2 (by norm_num)]
    have : ⌊(1 + 1 / 2 ^ 30 : ℚ)⌋₊ = 1 := by
      rw [Nat.floor_eq_iff (by norm_num)]
      norm_num
    rw [this]
    simp
  have hr : Encoder.residual_m1 (1 + 1 / 2 ^ 30 : ℚ) 16 = 1 := by
    have hne : ¬ ((1 + 1 / 2 ^ 30 : ℚ) = 0) := by norm_num
    have hfl : ⌊((1 + 1 / 2 ^ 30 : ℚ) / (2 : ℚ) ^ ((0 : Int) - 23))⌋ = 8388608 := by
      rw [Int.floor_eq_iff]
      norm_num [zpow_neg]
    simp only [Encoder.residual_m1, hq, Int.cast_zero, zero_mul, sub_zero, Encoder.to_float32,
      hne, if_false, hlog, Encoder.round_half_even, hfl]
    norm_num [zpow_neg]
  refine ⟨hq, hr, ?_⟩
  rw [hq, hr]
  norm_num [Decoder.dequant_m1]

/-- C10 (as amended). For every coefficient `f` and table entry `Q > 0` processed
in Method 1 (with `|f| <= 32767 Q`), the stored pair (quantised `q`, residual `e`),
where `e` is `f - q*Q` converted to binary32, satisfies `|q*Q + e - f| <= Q / 2^25`,
and `q*Q + e = f` exactly whenever `f - q*Q` is a binary32 value; so the decoder's
residual-mode reconstruction `q*Q + e` returns the encoder's coefficient up to the
binary32 rounding of the residual.  (Exact arithmetic in place of `double`.) -/
theorem residual_reconstruction {α : Type} [LinearOrderedField α] [FloorRing α] (f : α)
    (Q : Int) (hQ : 0 < Q) (hr : |f| ≤ 32767 * (Q : α)) :
    |Decoder.dequant_m1 (Encoder.quantise_m1 f Q) Q (some (Encoder.residual_m1 f Q)) - f| ≤
      (Q : α) / 2 ^ 25 ∧
    (Encoder.to_float32 (f - ((Encoder.quantise_m1 f Q : Int) : α) * (Q : α)) =
        f - ((Encoder.quantise_m1 f Q : Int) : α) * (Q : α) →
      Decoder.dequant_m1 (Encoder.quantise_m1 f Q) Q (some (Encoder.residual_m1 f Q)) = f) := by
  have hQ' : (1 : α) ≤ (Q : α) := by exact_mod_cast hQ
  have hx := quantise_error_bound f Q hQ hr
  have herr := to_float32_err (f - ((Encoder.quantise_m1 f Q : Int) : α) * (Q : α))
  unfold Decoder.dequant_m1 Encoder.residual_m1
  generalize ((Encoder.quantise_m1 f Q : Int) : α) * (Q : α) = qQ at hx herr ⊢
  constructor
  · have hrew : qQ + Encoder.to_float32 (f - qQ) - f = Encoder.to_float32 (f - qQ) - (f - qQ) := by
      ring
    simp only []
    rw [hrew]
    refine le_trans herr (max_le ?_ ?_)
    · have h24 : (2 : α) ^ (-24 : Int) = 1 / 2 ^ 24 := by
        rw [zpow_neg, one_div]
        norm_cast
      rw [h24]
      calc 1 / 2 ^ 24 * |f - qQ| ≤ 1 / 2 ^ 24 * ((Q : α) / 2) :=
            mul_le_mul_of_nonneg_left hx (by positivity)
        _ = (Q : α) / 2 ^ 25 := by ring
    · have h150 : (2 : α) ^ (-150 : Int) = 1 / 2 ^ 150 := by
        rw [zpow_neg, one_div]
        norm_cast
      rw [h150, div_le_div_iff₀ (by positivity) (by positivity)]
      calc (1 : α) * 2 ^ 25 ≤ (Q : α) * 2 ^ 25 :=
            mul_le_mul_of_nonneg_right hQ' (by positivity)
        _ ≤ (Q : α) * 2 ^ 150 :=
            mul_le_mul_of_nonneg_left
              (pow_le_pow_right₀ (by norm_num) (by norm_num)) (by linarith)
  · intro h
    simp only []
    rw [h]
    ring

/-- Witness for `residual_reconstruction`: the coefficient `1 + 2^-30` and the
table entry 16. -/
theorem residual_reconstruction_witness :
    (0 : Int) < 16 ∧ |(1 + 1 / 2 ^ 30 : ℚ)| ≤ 32767 * ((16 : Int) : ℚ) ∧
    |Decoder.dequant_m1 (Encoder.quantise_m1 (1 + 1 / 2 ^ 30 : ℚ) 16) 16
        (some (Encoder.residual_m1 (1 + 1 / 2 ^ 30 : ℚ) 16)) - (1 + 1 / 2 ^ 30 : ℚ)| ≤
      ((16 : Int) : ℚ) / 2 ^ 25 ∧
    (Encoder.to_float32 ((1 + 1 / 2 ^ 30 : ℚ) -
          ((Encoder.quantise_m1 (1 + 1 / 2 ^ 30 : ℚ) 16 : Int) : ℚ) * ((16 : Int) : ℚ)) =
        (1 + 1 / 2 ^ 30 : ℚ) -
          ((Encoder.quantise_m1 (1 + 1 / 2 ^ 30 : ℚ) 16 : Int) : ℚ) * ((16 : Int) : ℚ) →
      Decoder.dequant_m1 (Encoder.quantise_m1 (1 + 1 / 2 ^ 30 : ℚ) 16) 16
        (some (Encoder.residual_m1 (1 + 1 / 2 ^ 30 : ℚ) 16)) = (1 + 1 / 2 ^ 30 : ℚ)) :=
  ⟨by decide, by rw [abs_of_pos (by norm_num)]; norm_num,
    residual_reconstruction (1 + 1 / 2 ^ 30 : ℚ) 16 (by decide)
      (by rw [abs_of_pos (by norm_num)]; norm_num)⟩

/-! ## The code table -/

namespace Encoder

/-- C13. For every frequency table with at least one nonzero entry (a table with
exactly one nonzero entry included), `build_huffman` and `gen_codes` return, and
every symbol with nonzero frequency is assigned a code of length at least 1. -/
theorem huffman_codes_nonempty (freq : Nat → Nat) (h : ∃ s, s < 256 ∧ 0 < freq s) :
    ∃ codes, huffman_codes freq = some codes ∧
      ∀ s, s < 256 → 0 < freq s → ∃ c, codes s = some c ∧ 1 ≤ c.length := by
  obtain ⟨root, unique, hb, _, hnd, hmem, _, hleaves⟩ := build_huffman_tree freq h
  refine ⟨gen_codes root [] (fun _ => none), by simp [huffman_codes, hb], ?_⟩
  intro s hs hf
  obtain ⟨c, hc, _, hne, _⟩ := (codes_facts root hnd hleaves).1 s (hmem s hs hf)
  exact ⟨c, hc, List.length_pos.mpr hne⟩

/-- Witness for `huffman_codes_nonempty`: the table whose only nonzero entry is
`freq[0] = 7`. -/
theorem huffman_codes_nonempty_witness :
    (∃ s, s < 256 ∧ 0 < (fun s => if s = 0 then 7 else 0 : Nat → Nat) s) ∧
    ∃ codes, huffman_codes (fun s => if s = 0 then 7 else 0) = some codes ∧
      ∀ s, s < 256 → 0 < (fun s => if s = 0 then 7 else 0 : Nat → Nat) s →
        ∃ c, codes s = some c ∧ 1 ≤ c.length :=
  ⟨⟨0, by decide, by decide⟩, huffman_codes_nonempty _ ⟨0, by decide, by decide⟩⟩

end Encoder

namespace Encoder

theorem build_leaves_congr (freq freq' : Nat → Nat) (syms : List Nat)
    (h : ∀ s ∈ syms, freq s = freq' s) (st : List HNode × Nat) :
    build_leaves freq syms st = build_leaves freq' syms st := by
  induction syms generalizing st with
  | nil => rfl
  | cons s ss ih =>
    obtain ⟨hp, u⟩ := st
    have hs := h s (List.mem_cons_self _ _)
    have ih' := ih (fun s' hs' => h s' (List.mem_cons_of_mem _ hs'))
    simp only [build_leaves, hs, ih']

/-- `build_huffman` reads the entries `freq[0..255]` only. -/
theorem build_huffman_congr (freq freq' : Nat → Nat) (h : ∀ s, s < 256 → freq s = freq' s) :
    build_huffman freq = build_huffman freq' := by
  unfold build_huffman
  rw [build_leaves_congr freq freq' (List.range 256) (fun s hs => h s (List.mem_range.mp hs))]

/-- The frequency table of a payload does not depend on the order of its bytes. -/
theorem count_freq_perm (p p' : List Nat) (h : p.Perm p') : count_freq p = count_freq p' := by
  unfold count_freq
  refine h.foldl_eq' ?_ _
  intro a _ b _ f
  funext s
  by_cases hab : a = b
  · subst hab; rfl
  · by_cases hsa : s = a
    · subst hsa
      simp [Function.update, hab]
    · by_cases hsb : s = b
      · subst hsb
        have : ¬ (a = s) := hab
        simp [Function.update, hsa, this]
      · simp [Function.update, hsa, hsb]

/-- C14. `build_huffman` followed by `gen_codes` is a function of the entries
`freq[0..255]` of the frequency table alone: two tables that agree there yield
identical code strings for every symbol; and the frequency table of a payload
does not change when its bytes are permuted, so a payload and a permutation of it
yield identical code strings for every symbol. -/
theorem huffman_codes_deterministic (freq freq' : Nat → Nat)
    (h : ∀ s, s < 256 → freq s = freq' s) :
    huffman_codes freq = huffman_codes freq' ∧
    ∀ p p' : List Nat, p.Perm p' →
      count_freq p = count_freq p' ∧
      huffman_codes (count_freq p) = huffman_codes (count_freq p') := by
  refine ⟨?_, ?_⟩
  · unfold huffman_codes
    rw [build_huffman_congr freq freq' h]
  · intro p p' hp
    have := count_freq_perm p p' hp
    exact ⟨this, by rw [this]⟩

/-- Witness for `huffman_codes_deterministic`: two tables that agree on the
entries 0..255 and differ at index 300. -/
theorem huffman_codes_deterministic_witness :
    (∀ s, s < 256 → (fun s => if s = 65 then 3 else 0 : Nat → Nat) s =
      (fun s => if s = 65 then 3 else if s = 300 then 9 else 0 : Nat → Nat) s) ∧
    (huffman_codes (fun s => if s = 65 then 3 else 0) =
        huffman_codes (fun s => if s = 65 then 3 else if s = 300 then 9 else 0) ∧
      ∀ p p' : List Nat, p.Perm p' →
        count_freq p = count_freq p' ∧
        huffman_codes (count_freq p) = huffman_codes (count_freq p')) :=
  ⟨fun s hs => by
      have : s ≠ 300 := by omega
      simp [this],
    huffman_codes_deterministic _ _ (fun s hs => by
      have : s ≠ 300 := by omega
      simp [this])⟩

end Encoder

/-! ## Bit packer and the header of the Huffman file -/

namespace Encoder

open Decoder (get_bit)

/-- C16. For every bit sequence `b_0 .. b_(n-1)` pushed into a freshly initialised
`BitBuf` with `bitbuf_push_bit` (buffer growth included): `bit_len = n`, the
expression `(data[i/8] >> (7 - i%8)) & 1` gives `b_i` for every `i < n`, and it
gives 0 at every position `i >= n` (the pad bits are zero). -/
theorem bitbuf_push_bits_spec (bs : List Bool) :
    (bs.foldl bitbuf_push_bit bitbuf_init).bit_len = bs.length ∧
    (∀ i, i < bs.length →
      get_bit (bs.foldl bitbuf_push_bit bitbuf_init).data i = if bs.getD i false then 1 else 0) ∧
    (∀ i, bs.length ≤ i → get_bit (bs.foldl bitbuf_push_bit bitbuf_init).data i = 0) := by
  have h := holds_push_bits bs bitbuf_init [] holds_init
  simp only [List.nil_append, push_bits] at h
  obtain ⟨h1, _, _, _, h5⟩ := h
  refine ⟨h1, ?_, ?_⟩
  · intro i _
    rw [h5 i]
    cases bs.getD i false <;> rfl
  · intro i hi
    rw [h5 i, List.getD_eq_getElem?_getD, List.getElem?_eq_none hi]
    rfl

theorem padbits_thirteen : padbits 13 = 3 := by decide

/-- C15 (as amended). For every non-empty payload of bytes whose packed bitstream
occupies fewer than `2^32` bytes, the pad-bit count the encoder writes is
`(8 - (L mod 8)) mod 8`, where `L` is the sum over the payload bytes of the length
of each byte's code; it lies in 0..7, and `L + padbits` equals 8 times the written
`bit_bytes`; for `L = 13` the pad-bit count is 3. -/
theorem padbits_written (p : List Nat) (hne : p ≠ []) (hb : ∀ b ∈ p, b < 256)
    (hlen : p.length < 2 ^ 63) (hfit : (total_code_bits p + 7) / 8 < 2 ^ 32) :
    ∃ lines f, method3 p = some (lines, f) ∧
      f.padbits = (8 - total_code_bits p % 8) % 8 ∧ f.padbits ≤ 7 ∧
      total_code_bits p + f.padbits = 8 * f.bit_bytes ∧ padbits 13 = 3 := by
  obtain ⟨unique, entries, bb, T, E, codeOf, hm3, _, hL, _⟩ := method3_spec p hne hb (by omega)
  refine ⟨_, _, hm3, ?_⟩
  rw [← hL] at hfit ⊢
  have hu32 : u32 ((bb.bit_len + 7) / 8) = (bb.bit_len + 7) / 8 := Nat.mod_eq_of_lt hfit
  have hu8 : u8 (padbits bb.bit_len) = padbits bb.bit_len :=
    Nat.mod_eq_of_lt (by have := padbits_le bb.bit_len; omega)
  simp only [hu32, hu8]
  refine ⟨rfl, padbits_le _, ?_, padbits_thirteen⟩
  unfold padbits
  omega

set_option maxRecDepth 100000 in
/-- Witness for `padbits_written`: the payload `[5, 7, 5]`. -/
theorem padbits_written_witness :
    ∃ lines f, method3 [5, 7, 5] = some (lines, f) ∧
      f.padbits = (8 - total_code_bits [5, 7, 5] % 8) % 8 ∧ f.padbits ≤ 7 ∧
      total_code_bits [5, 7, 5] + f.padbits = 8 * f.bit_bytes ∧ padbits 13 = 3 :=
  padbits_written [5, 7, 5] (by decide) (by decide) (by decide) (by decide)

/-- The header written for a payload of `n` zero bytes, `n` a positive multiple of
`2^35`: `bit_bytes` and `padbits` are 0 although code bits were written. -/
theorem method3_replicate_header (n : Nat) (hpos : 0 < n) (hdvd : 2 ^ 35 ∣ n)
    (hlt : n < 2 ^ 64) :
    ∃ lines f, method3 (List.replicate n 0) = some (lines, f) ∧
      f.bit_bytes = 0 ∧ f.padbits = 0 ∧ 0 < total_code_bits (List.replicate n 0) := by
  have hne : List.replicate n 0 ≠ [] := by
    intro h
    have := congrArg List.length h
    rw [List.length_replicate] at this
    exact absurd this (by simpa using Nat.pos_iff_ne_zero.mp hpos)
  have hb : ∀ b ∈ List.replicate n 0, b < 256 := by
    intro b hb
    rw [List.eq_of_mem_replicate hb]
    decide
  have hmem0 : 0 ∈ List.replicate n 0 := by
    rw [List.mem_replicate]
    exact ⟨Nat.pos_iff_ne_zero.mp hpos, rfl⟩
  obtain ⟨unique, entries, bb, T, E, codeOf, hm3, hholds, hL, _, _, _, hE⟩ :=
    method3_spec (List.replicate n 0) hne hb (by rw [List.length_replicate]; exact hlt)
  have hk : 0 < (codeOf 0).length := List.length_pos.mpr (hE 0 hmem0).2.1
  have hL' : bb.bit_len = n * (codeOf 0).length := by
    rw [hholds.1, flatMap_replicate_length]
  have hmod : bb.bit_len % 34359738368 = 0 := by
    rw [hL']
    exact Nat.mod_eq_zero_of_dvd (Dvd.dvd.mul_right (by simpa using hdvd) _)
  have hu32 : u32 ((bb.bit_len + 7) / 8) = 0 := by
    unfold u32
    norm_num
    omega
  have hpad : u8 (padbits bb.bit_len) = 0 := by
    unfold u8 padbits
    omega
  refine ⟨_, _, hm3, hu32, hpad, ?_⟩
  rw [← hL, hL']
  exact Nat.mul_pos hpos hk

/-- C15 fails as stated: for the payload of `2^35` zero bytes the encoder writes
`bit_bytes = 0` and `padbits = 0`, while the number `L` of code bits is positive,
so `L + padbits` is not 8 times the written `bit_bytes`. -/
theorem padbits_written_fails_large :
    ∃ lines f, method3 (List.replicate (2 ^ 35) 0) = some (lines, f) ∧
      total_code_bits (List.replicate (2 ^ 35) 0) + f.padbits ≠ 8 * f.bit_bytes := by
  obtain ⟨lines, f, hm, h1, h2, h3⟩ :=
    method3_replicate_header (2 ^ 35) (by norm_num) (dvd_refl _) (by norm_num)
  refine ⟨lines, f, hm, ?_⟩
  rw [h1, h2]
  omega

end Encoder

namespace Decoder

/-- C19. `huffman_decode_binary` fails on every stream whose `padbits` field is
greater than 7 and on every stream whose total bit count `8*bit_bytes` is smaller
than `padbits`, whatever the trie, the data and the declared payload size. -/
theorem huffman_decode_binary_bad_padbits (f : M3File) (root : HNode) (want_bytes : Nat)
    (h : 7 < f.padbits ∨ f.bit_bytes * 8 < f.padbits) :
    huffman_decode_binary f root want_bytes = none := by
  unfold huffman_decode_binary
  by_cases h1 : f.magic ≠ ['M', '3', 'B', '0']
  · rw [if_pos h1]
  · rw [if_neg h1]
    by_cases h2 : f.data.length < f.bit_bytes
    · rw [if_pos h2]
    · rw [if_neg h2]
      by_cases h3 : 7 < f.padbits
      · simp only [h3, if_true]
      · have h4 : f.bit_bytes * 8 < f.padbits := by
          rcases h with h | h
          · exact absurd h h3
          · exact h
        simp only [h3, h4, if_true, if_false]

/-- Witness for `huffman_decode_binary_bad_padbits`: a complete stream of one byte
with `padbits = 8`. -/
theorem huffman_decode_binary_bad_padbits_witness :
    (7 < (M3File.mk ['M', '3', 'B', '0'] 1 8 1 [128]).padbits ∨
      (M3File.mk ['M', '3', 'B', '0'] 1 8 1 [128]).bit_bytes * 8 <
        (M3File.mk ['M', '3', 'B', '0'] 1 8 1 [128]).padbits) ∧
    huffman_decode_binary (M3File.mk ['M', '3', 'B', '0'] 1 8 1 [128])
      (HNode.node false 0 HNode.null (HNode.node true 5 HNode.null HNode.null)) 1 = none :=
  ⟨by decide, huffman_decode_binary_bad_padbits _ _ _ (by decide)⟩

/-- C20. A bitstream of total length 0 is accepted as the empty payload: for every
trie, `huffman_decode_binary` given `bit_bytes = 0`, `padbits = 0` and declared
payload size 0 succeeds and returns the empty byte sequence. -/
theorem huffman_decode_binary_empty (root : HNode) (psz : Nat) (data : List Nat) :
    huffman_decode_binary (M3File.mk ['M', '3', 'B', '0'] psz 0 0 data) root 0 = some [] := by
  simp [huffman_decode_binary, decode_loop]

end Decoder

/-! ## The trie built from the encoder's codebook -/

namespace Decoder

open Encoder (code_bits)

theorem load_entries_erase_freq (lines : List Line) :
    ∀ t : HNode, load_entries (lines.map Line.erase_freq) t = load_entries lines t := by
  induction lines with
  | nil => intro t; rfl
  | cons l ls ih =>
    intro t
    cases l with
    | entry sym freq code =>
      simp only [List.map_cons, Line.erase_freq, load_entries]
      split_ifs
      · exact ih t
      · rfl
      · cases insert_code t (code.take 2047) sym.toNat with
        | none => rfl
        | some t1 => exact ih t1
    | tag => simpa [Line.erase_freq, load_entries] using ih t
    | payload_size n => simpa [Line.erase_freq, load_entries] using ih t
    | unique k => simpa [Line.erase_freq, load_entries] using ih t
    | other text => simpa [Line.erase_freq, load_entries] using ih t

/-- The frequency fields of the codebook lines have no influence on the result of
`load_codebook_build_trie`. -/
theorem load_codebook_erase_freq (lines : List Line) :
    load_codebook_build_trie (lines.map Line.erase_freq) = load_codebook_build_trie lines := by
  cases lines with
  | nil => rfl
  | cons a rest =>
    cases rest with
    | nil => rfl
    | cons b rest =>
      cases b with
      | payload_size n =>
        cases rest with
        | nil => rfl
        | cons c entries =>
          simp only [List.map_cons, Line.erase_freq, load_codebook_build_trie,
            load_entries_erase_freq]
      | tag => rfl
      | unique k => rfl
      | entry sym freq code => rfl
      | other text => rfl

/-- In a trie that holds a prefix-free family of codes, the walk along a code of
the family passes only nodes that exist and that are not marked leaf, and ends at
a node marked leaf with the symbol of the code. -/
theorem loaded_walk (T : HNode) (E : List (Nat × List Bool)) (hl : Loaded T E)
    (hpf : PrefixFree E) (s : Nat) (c : List Bool) (hc : (s, c) ∈ E) :
    (∀ q, q <+: c → T.descend q ≠ HNode.null) ∧
    (∀ q, q <+: c → q ≠ c → ∃ sym, (T.descend q).flag = some (false, sym)) ∧
    (T.descend c).flag = some (true, s) := by
  obtain ⟨_, h1, h2, h3⟩ := hl
  refine ⟨fun q hq => h3 (s, c) hc q hq, ?_, h2 (s, c) hc⟩
  intro q hq hne
  cases hf : (T.descend q).flag with
  | none => exact absurd ((flag_eq_none _).mp hf) (h3 (s, c) hc q hq)
  | some v =>
    obtain ⟨il, sym⟩ := v
    cases il with
    | false => exact ⟨sym, rfl⟩
    | true =>
      exfalso
      have hmem := h1 _ _ hf
      have hne' : (sym, q) ≠ (s, c) := fun h => hne (congrArg Prod.snd h)
      exact hpf _ hmem _ hc hne' hq

end Decoder

namespace Encoder

open Decoder (IsBits Loaded PrefixFree)

/-- The encoder's codebook entries for a frequency table, and the trie the decoder
loads from them. -/
theorem codebook_load_spec (freq : Nat → Nat) (h : ∃ s, s < 256 ∧ 0 < freq s) :
    ∃ (codes : Codes) (entries : List Line) (T : Decoder.HNode) (E : List (Nat × List Bool)),
      huffman_codes freq = some codes ∧
      codebook_entries freq codes (List.range 256) = some entries ∧
      Decoder.load_entries entries Decoder.hn_new = some T ∧ Loaded T E ∧ PrefixFree E ∧
      ∀ s, s < 256 → 0 < freq s → ∃ c, codes s = some c ∧ (s, code_bits c) ∈ E := by
  obtain ⟨root, unique, hbuild, _, hnd, hmem, hsyms, hleaves⟩ := build_huffman_tree freq h
  obtain ⟨hcodes, hfree⟩ := codes_facts root hnd hleaves
  have hhc : huffman_codes freq = some (gen_codes root [] (fun _ => none)) := by
    simp [huffman_codes, hbuild]
  generalize hcd : gen_codes root [] (fun _ => none) = codes at hcodes hfree hhc
  have hsome : ∀ s, s < 256 → 0 < freq s → ∃ c, codes s = some c := by
    intro s hs hf
    obtain ⟨c, hc, _⟩ := hcodes s (hmem s hs hf)
    exact ⟨c, hc⟩
  have hent := codebook_entries_eq freq codes (List.range 256)
    (fun s hs hf => hsome s (List.mem_range.mp hs) hf)
  generalize hP : (List.range 256).filter (fun s => 0 < freq s) = P at hent
  have hPmem : ∀ s, s ∈ P ↔ s < 256 ∧ 0 < freq s := by
    intro s
    rw [← hP]
    simp [List.mem_filter]
  have hPsyms : ∀ s ∈ P, s ∈ root.syms := by
    intro s hs
    exact hmem s ((hPmem s).mp hs).1 ((hPmem s).mp hs).2
  have hPnd : P.Nodup := by
    rw [← hP]
    exact (List.nodup_range 256).filter _
  obtain ⟨T, hT, hload⟩ := Decoder.load_entries_spec (fun s => (codes s).getD []) freq
    P Decoder.hn_new [] Decoder.loaded_hn_new
    (by
      intro s hs
      obtain ⟨c, hc, h1, h2, h3⟩ := hcodes s (hPsyms s hs)
      simp only [hc, Option.getD_some]
      refine ⟨h1, h2, by omega, ?_⟩
      have := ((hPmem s).mp hs).1
      omega)
    (by simp)
    (by
      rw [List.pairwise_iff_forall_sublist]
      intro s s' hsub
      have hs : s ∈ P := hsub.subset (by simp)
      have hs' : s' ∈ P := hsub.subset (by simp)
      have hne' : s ≠ s' := by
        intro h
        subst h
        have := (hsub.nodup hPnd)
        simp at this
      exact ⟨hfree s (hPsyms s hs) s' (hPsyms s' hs') hne',
        hfree s' (hPsyms s' hs') s (hPsyms s hs) (Ne.symm hne')⟩)
  simp only [List.append_nil] at hload
  refine ⟨codes, _, T, _, hhc, hent, hT, hload, ?_, ?_⟩
  · intro x hx y hy hxy
    simp only [List.mem_map, List.mem_reverse] at hx hy
    obtain ⟨s, hs, rfl⟩ := hx
    obtain ⟨s', hs', rfl⟩ := hy
    have hne' : s ≠ s' := by
      intro h
      subst h
      exact hxy rfl
    exact hfree s (hPsyms s hs) s' (hPsyms s' hs') hne'
  · intro s hs hf
    obtain ⟨c, hc⟩ := hsome s hs hf
    refine ⟨c, hc, ?_⟩
    simp only [List.mem_map, List.mem_reverse]
    exact ⟨s, (hPmem s).mpr ⟨hs, hf⟩, by simp [hc]⟩

/-- C17. For every frequency table with at least one nonzero entry, the decoder
loads a trie from the encoder's codebook lines, and for every listed symbol `s`:
walking `code[s]` from the root follows only existing children, passes through no
node marked leaf before its end, and ends at a node marked leaf holding `s`; the
frequency fields of the lines have no influence on the result. -/
theorem trie_of_codebook (freq : Nat → Nat) (h : ∃ s, s < 256 ∧ 0 < freq s) :
    ∃ (codes : Codes) (entries : List Line) (T : Decoder.HNode),
      huffman_codes freq = some codes ∧
      codebook_entries freq codes (List.range 256) = some entries ∧
      (∀ n u, Decoder.load_codebook_build_trie
        (Line.tag :: Line.payload_size n :: Line.unique u :: entries) = some (T, n)) ∧
      (∀ s, s < 256 → 0 < freq s → ∃ c, codes s = some c ∧
        (∀ q, q <+: code_bits c → T.descend q ≠ Decoder.HNode.null) ∧
        (∀ q, q <+: code_bits c → q ≠ code_bits c →
          ∃ sym, (T.descend q).flag = some (false, sym)) ∧
        (T.descend (code_bits c)).flag = some (true, s)) ∧
      (∀ lines, Decoder.load_codebook_build_trie (lines.map Line.erase_freq) =
        Decoder.load_codebook_build_trie lines) := by
  obtain ⟨codes, entries, T, E, hc, he, hT, hl, hpf, hE⟩ := codebook_load_spec freq h
  refine ⟨codes, entries, T, hc, he, ?_, ?_, Decoder.load_codebook_erase_freq⟩
  · intro n u
    exact load_codebook_of_entries _ _ n entries T hT
  · intro s hs hf
    obtain ⟨c, hcs, hmem⟩ := hE s hs hf
    exact ⟨c, hcs, Decoder.loaded_walk T E hl hpf s (code_bits c) hmem⟩

/-- Witness for `trie_of_codebook`: the table with `freq[65] = 3`, `freq[66] = 1`
and zero elsewhere. -/
theorem trie_of_codebook_witness :
    (∃ s, s < 256 ∧ 0 < (fun s => if s = 65 then 3 else if s = 66 then 1 else 0 : Nat → Nat) s) ∧
    ∃ (codes : Codes) (entries : List Line) (T : Decoder.HNode),
      huffman_codes (fun s => if s = 65 then 3 else if s = 66 then 1 else 0) = some codes ∧
      codebook_entries (fun s => if s = 65 then 3 else if s = 66 then 1 else 0) codes
        (List.range 256) = some entries ∧
      (∀ n u, Decoder.load_codebook_build_trie
        (Line.tag :: Line.payload_size n :: Line.unique u :: entries) = some (T, n)) ∧
      (∀ s, s < 256 →
        0 < (fun s => if s = 65 then 3 else if s = 66 then 1 else 0 : Nat → Nat) s →
        ∃ c, codes s = some c ∧
        (∀ q, q <+: code_bits c → T.descend q ≠ Decoder.HNode.null) ∧
        (∀ q, q <+: code_bits c → q ≠ code_bits c →
          ∃ sym, (T.descend q).flag = some (false, sym)) ∧
        (T.descend (code_bits c)).flag = some (true, s)) ∧
      (∀ lines, Decoder.load_codebook_build_trie (lines.map Line.erase_freq) =
        Decoder.load_codebook_build_trie lines) :=
  ⟨⟨65, by decide, by decide⟩, trie_of_codebook _ ⟨65, by decide, by decide⟩⟩

end Encoder

/-! ## The bitstream decoder against the reference walk -/

namespace Decoder

theorem stream_bits_zero (data : List Nat) (i : Nat) : stream_bits data i 0 = [] := rfl

theorem stream_bits_succ (data : List Nat) (i k : Nat) :
    stream_bits data i (k + 1) = (get_bit data i != 0) :: stream_bits data (i + 1) k := by
  unfold stream_bits
  rw [List.range_succ_eq_map, List.map_cons, List.map_map]
  refine congrArg₂ _ rfl (List.map_congr_left ?_)
  intro j _
  simp only [Function.comp, Nat.succ_eq_add_one]
  rw [show i + (j + 1) = i + 1 + j by omega]

theorem stream_bits_take (data : List Nat) (i n k : Nat) (h : k ≤ n) :
    (stream_bits data i n).take k = stream_bits data i k := by
  unfold stream_bits
  rw [← List.map_take, List.take_range, Nat.min_eq_left h]

theorem stream_bits_congr (data data' : List Nat) (n : Nat)
    (h : ∀ j, j < n → get_bit data' j = get_bit data j) :
    stream_bits data' 0 n = stream_bits data 0 n := by
  unfold stream_bits
  refine List.map_congr_left ?_
  intro j hj
  rw [Nat.zero_add, h j (List.mem_range.mp hj)]

theorem walk_cons_null (root cur : HNode) (b : Bool) (bs : List Bool)
    (h : cur.child b = HNode.null) : walk root cur (b :: bs) = none := by
  rw [walk]
  simp only [h]

theorem walk_cons_leaf (root cur : HNode) (b : Bool) (bs : List Bool) (sym : Nat)
    (zero one : HNode) (h : cur.child b = HNode.node true sym zero one) :
    walk root cur (b :: bs) = (walk root root bs).map (fun w => u8 sym :: w) := by
  rw [walk]
  simp only [h, if_true]

theorem walk_cons_inner (root cur : HNode) (b : Bool) (bs : List Bool) (sym : Nat)
    (zero one : HNode) (h : cur.child b = HNode.node false sym zero one) :
    walk root cur (b :: bs) = walk root (HNode.node false sym zero one) bs := by
  rw [walk]
  simp only [h, Bool.false_eq_true, if_false]

/-- The symbols emitted on a prefix of the bits are a prefix of the symbols emitted
on all of them. -/
theorem walk_append (root : HNode) (xs ys : List Bool) :
    ∀ (cur : HNode) (w : List Nat), walk root cur (xs ++ ys) = some w →
      ∃ w1, walk root cur xs = some w1 ∧ w1 <+: w := by
  induction xs with
  | nil => intro cur w _; exact ⟨[], rfl, List.nil_prefix⟩
  | cons b bs ih =>
    intro cur w hw
    rw [List.cons_append] at hw
    cases hch : cur.child b with
    | null => rw [walk_cons_null _ _ _ _ hch] at hw; exact absurd hw (by simp)
    | node il sym zero one =>
      cases il with
      | true =>
        rw [walk_cons_leaf _ _ _ _ _ _ _ hch] at hw ⊢
        simp only [Option.map_eq_some'] at hw ⊢
        obtain ⟨w2, hw2, rfl⟩ := hw
        obtain ⟨w1, h1, h2⟩ := ih root w2 hw2
        exact ⟨u8 sym :: w1, ⟨w1, h1, rfl⟩, (List.prefix_cons_inj _).mpr h2⟩
      | false =>
        rw [walk_cons_inner _ _ _ _ _ _ _ hch] at hw ⊢
        exact ih _ w hw

/-- The decode loop produces `want_bytes` symbols exactly when some initial
segment of the remaining bits walks to that many symbols. -/
theorem decode_loop_iff (root : HNode) (data : List Nat) (want : Nat) :
    ∀ (n i : Nat) (cur : HNode) (acc res : List Nat), acc.length ≤ want →
      ((decode_loop root data want n i cur acc = some res ∧ res.length = want) ↔
        ∃ k, k ≤ n ∧ ∃ w, walk root cur (stream_bits data i k) = some w ∧
          res = acc ++ w ∧ res.length = want) := by
  intro n
  induction n with
  | zero =>
    intro i cur acc res _
    simp only [decode_loop, Option.some.injEq]
    constructor
    · rintro ⟨rfl, hl⟩
      exact ⟨0, le_refl _, [], rfl, by simp, hl⟩
    · rintro ⟨k, hk, w, hw, rfl, hl⟩
      have hk0 : k = 0 := by omega
      subst hk0
      rw [stream_bits_zero, walk] at hw
      cases hw
      exact ⟨by simp, hl⟩
  | succ n ih =>
    intro i cur acc res hacc
    by_cases hlt : acc.length < want
    · have key : ∀ P : Nat → Prop, (∃ k, k ≤ n + 1 ∧ ∃ w,
          walk root cur (stream_bits data i k) = some w ∧ res = acc ++ w ∧ res.length = want) ↔
          ∃ k, k ≤ n ∧ ∃ w, walk root cur (stream_bits data i (k + 1)) = some w ∧
            res = acc ++ w ∧ res.length = want := by
        intro _
        constructor
        · rintro ⟨k, hk, w, hw, hr, hl⟩
          cases k with
          | zero =>
            rw [stream_bits_zero, walk] at hw
            cases hw
            rw [hr] at hl
            simp at hl
            omega
          | succ k => exact ⟨k, by omega, w, hw, hr, hl⟩
        · rintro ⟨k, hk, w, hw, hr, hl⟩
          exact ⟨k + 1, by omega, w, hw, hr, hl⟩
      rw [key (fun _ => True)]
      simp only [decode_loop, if_pos hlt, stream_bits_succ]
      cases hch : cur.child (get_bit data i != 0) with
      | null => simp [walk_cons_null _ _ _ _ hch]
      | node il sym zero one =>
        cases il with
        | true =>
          simp only [if_true, walk_cons_leaf _ _ _ _ _ _ _ hch]
          rw [ih (i + 1) root (acc ++ [u8 sym]) res (by simp; omega)]
          constructor
          · rintro ⟨k, hk, w, hw, hr, hl⟩
            exact ⟨k, hk, u8 sym :: w, by simp [hw], by simpa using hr, hl⟩
          · rintro ⟨k, hk, w, hw, hr, hl⟩
            simp only [Option.map_eq_some'] at hw
            obtain ⟨w2, hw2, rfl⟩ := hw
            exact ⟨k, hk, w2, hw2, by simpa using hr, hl⟩
        | false =>
          simp only [Bool.false_eq_true, if_false, walk_cons_inner _ _ _ _ _ _ _ hch]
          exact ih (i + 1) _ acc res hacc
    · have hle : acc.length = want := by omega
      simp only [decode_loop, if_neg hlt, Option.some.injEq]
      constructor
      · rintro ⟨rfl, hl⟩
        exact ⟨0, Nat.zero_le _, [], rfl, by simp, hl⟩
      · rintro ⟨k, hk, w, hw, rfl, hl⟩
        have hw0 : w = [] := by
          rw [List.length_append] at hl
          exact List.length_eq_zero.mp (by omega)
        subst hw0
        exact ⟨by simp, hl⟩

/-- The result of `huffman_decode_binary` on a well-formed header, in terms of the
decode loop over the valid bits. -/
theorem huffman_decode_binary_eq (f : M3File) (root : HNode) (want : Nat)
    (hmagic : f.magic = ['M', '3', 'B', '0']) (hdata : f.bit_bytes ≤ f.data.length)
    (hpad : f.padbits ≤ 7) (hbits : f.padbits ≤ 8 * f.bit_bytes) (out : List Nat) :
    huffman_decode_binary f root want = some out ↔
      decode_loop root (f.data.take f.bit_bytes) want (8 * f.bit_bytes - f.padbits) 0 root []
        = some out ∧ out.length = want := by
  unfold huffman_decode_binary
  rw [if_neg (by simp [hmagic]), if_neg (by omega)]
  simp only [if_neg (show ¬ 7 < f.padbits by omega),
    if_neg (show ¬ f.bit_bytes * 8 < f.padbits by omega)]
  rw [Nat.mul_comm f.bit_bytes 8]
  cases decode_loop root (f.data.take f.bit_bytes) want (8 * f.bit_bytes - f.padbits) 0 root []
    with
  | none => simp
  | some o =>
    by_cases ho : o.length = want
    · simp only [ho, ne_eq, not_true_eq_false, if_false, Option.some.injEq]
      constructor
      · rintro rfl; exact ⟨rfl, ho⟩
      · rintro ⟨h, _⟩; exact h
    · simp only [ne_eq, ho, not_false_eq_true, if_true]
      constructor
      · intro h; cases h
      · rintro ⟨h, h2⟩
        cases h
        exact absurd h2 ho

theorem stream_bits_data_take (data : List Nat) (m n : Nat) (h : n ≤ 8 * m) :
    stream_bits (data.take m) 0 n = stream_bits data 0 n := by
  refine stream_bits_congr _ _ n ?_
  intro j hj
  exact Encoder.get_bit_take data m j (by omega)

end Decoder

namespace Decoder

theorem take_split (l : List Bool) (a b : Nat) (h : a ≤ b) :
    l.take b = l.take a ++ (l.take b).drop a := by
  conv_lhs => rw [← List.take_append_drop a (l.take b)]
  rw [List.take_take, Nat.min_eq_left h]

/-- C18. For any trie and a binary bitstream with `padbits <= 7` and
`8 * bit_bytes >= padbits`, `huffman_decode_binary` returns `out` exactly when `out`
has `want_bytes` symbols and is what the walk from the root emits on an initial
segment of the first `8 * bit_bytes - padbits` bits without stepping to a
non-existent child; it fails when the valid bits end with fewer symbols, and when a
non-existent child is reached before `want_bytes` symbols are out; the bits from
index `8 * bit_bytes - padbits` on have no influence on the result. -/
theorem huffman_decode_binary_iff_walk (f : M3File) (root : HNode) (want : Nat)
    (hmagic : f.magic = ['M', '3', 'B', '0']) (hdata : f.bit_bytes ≤ f.data.length)
    (hpad : f.padbits ≤ 7) (hbits : f.padbits ≤ 8 * f.bit_bytes) :
    (∀ out, huffman_decode_binary f root want = some out ↔
      out.length = want ∧ ∃ k, k ≤ 8 * f.bit_bytes - f.padbits ∧
        walk root root ((stream_bits f.data 0 (8 * f.bit_bytes - f.padbits)).take k)
          = some out) ∧
    (∀ w, walk root root (stream_bits f.data 0 (8 * f.bit_bytes - f.padbits)) = some w →
      w.length < want → huffman_decode_binary f root want = none) ∧
    (∀ k w, k < 8 * f.bit_bytes - f.padbits →
      walk root root ((stream_bits f.data 0 (8 * f.bit_bytes - f.padbits)).take k) = some w →
      w.length < want →
      walk root root ((stream_bits f.data 0 (8 * f.bit_bytes - f.padbits)).take (k + 1)) = none →
      huffman_decode_binary f root want = none) ∧
    (∀ data', f.bit_bytes ≤ data'.length →
      (∀ j, j < 8 * f.bit_bytes - f.padbits → get_bit data' j = get_bit f.data j) →
      huffman_decode_binary (M3File.mk f.magic f.psz f.padbits f.bit_bytes data')
        root want = huffman_decode_binary f root want) := by
  have main : ∀ (g : M3File), g.magic = ['M', '3', 'B', '0'] → g.bit_bytes ≤ g.data.length →
      g.padbits ≤ 7 → g.padbits ≤ 8 * g.bit_bytes → ∀ out,
      (huffman_decode_binary g root want = some out ↔
        out.length = want ∧ ∃ k, k ≤ 8 * g.bit_bytes - g.padbits ∧
          walk root root ((stream_bits g.data 0 (8 * g.bit_bytes - g.padbits)).take k)
            = some out) := by
    intro g h1 h2 h3 h4 out
    rw [huffman_decode_binary_eq g root want h1 h2 h3 h4 out,
      decode_loop_iff root _ want _ 0 root [] out (Nat.zero_le _)]
    constructor
    · rintro ⟨k, hk, w, hw, hr, hl⟩
      rw [List.nil_append] at hr
      subst hr
      refine ⟨hl, k, hk, ?_⟩
      rw [stream_bits_take _ _ _ _ hk, ← stream_bits_data_take g.data g.bit_bytes k (by omega)]
      exact hw
    · rintro ⟨hl, k, hk, hw⟩
      refine ⟨k, hk, out, ?_, by simp, hl⟩
      rw [stream_bits_take _ _ _ _ hk, ← stream_bits_data_take g.data g.bit_bytes k (by omega)]
        at hw
      exact hw
  have hiff := main f hmagic hdata hpad hbits
  refine ⟨hiff, ?_, ?_, ?_⟩
  · intro w hw hlt
    cases hd : huffman_decode_binary f root want with
    | none => rfl
    | some out =>
      exfalso
      obtain ⟨hl, k, hk, hwk⟩ := (hiff out).mp hd
      rw [← List.take_append_drop k (stream_bits f.data 0 (8 * f.bit_bytes - f.padbits))] at hw
      obtain ⟨w1, h1, h2⟩ := walk_append root _ _ root w hw
      rw [hwk] at h1
      cases h1
      have := h2.length_le
      omega
  · intro k w hk hw hlt hnone
    cases hd : huffman_decode_binary f root want with
    | none => rfl
    | some out =>
      exfalso
      obtain ⟨hl, k2, hk2, hwk⟩ := (hiff out).mp hd
      rcases Nat.lt_or_ge k k2 with hlt2 | hge
      · have hsplit : (stream_bits f.data 0 (8 * f.bit_bytes - f.padbits)).take k2 =
            (stream_bits f.data 0 (8 * f.bit_bytes - f.padbits)).take (k + 1) ++
              ((stream_bits f.data 0 (8 * f.bit_bytes - f.padbits)).take k2).drop (k + 1) := by
          exact take_split _ (k + 1) k2 (by omega)
        rw [hsplit] at hwk
        obtain ⟨w1, h1, _⟩ := walk_append root _ _ root out hwk
        rw [hnone] at h1
        cases h1
      · have hsplit : (stream_bits f.data 0 (8 * f.bit_bytes - f.padbits)).take k =
            (stream_bits f.data 0 (8 * f.bit_bytes - f.padbits)).take k2 ++
              ((stream_bits f.data 0 (8 * f.bit_bytes - f.padbits)).take k).drop k2 := by
          exact take_split _ k2 k (by omega)
        rw [hsplit] at hw
        obtain ⟨w1, h1, h2⟩ := walk_append root _ _ root w hw
        rw [hwk] at h1
        cases h1
        have := h2.length_le
        omega
  · intro data' hlen hagree
    have hiff' := main (M3File.mk f.magic f.psz f.padbits f.bit_bytes data')
      hmagic hlen hpad hbits
    simp only at hiff'
    rw [stream_bits_congr f.data data' _ hagree] at hiff'
    apply Option.ext
    intro out
    rw [Option.mem_def, Option.mem_def, hiff out, hiff' out]

end Decoder

namespace Decoder

/-- Witness for `huffman_decode_binary_iff_walk`: the one-byte stream `10000000`
with six pad bits and the trie with the leaves `65` (bit 0) and `66` (bit 1). -/
theorem huffman_decode_binary_iff_walk_witness :
    (M3File.mk ['M', '3', 'B', '0'] 2 6 1 [128]).magic = ['M', '3', 'B', '0'] ∧
    (M3File.mk ['M', '3', 'B', '0'] 2 6 1 [128]).bit_bytes ≤
      (M3File.mk ['M', '3', 'B', '0'] 2 6 1 [128]).data.length ∧
    (M3File.mk ['M', '3', 'B', '0'] 2 6 1 [128]).padbits ≤ 7 ∧
    (M3File.mk ['M', '3', 'B', '0'] 2 6 1 [128]).padbits ≤
      8 * (M3File.mk ['M', '3', 'B', '0'] 2 6 1 [128]).bit_bytes ∧
    huffman_decode_binary (M3File.mk ['M', '3', 'B', '0'] 2 6 1 [128])
      (HNode.node false 0 (HNode.node true 65 HNode.null HNode.null)
        (HNode.node true 66 HNode.null HNode.null)) 2 = some [66, 65] ∧
    ∀ out, huffman_decode_binary (M3File.mk ['M', '3', 'B', '0'] 2 6 1 [128])
      (HNode.node false 0 (HNode.node true 65 HNode.null HNode.null)
        (HNode.node true 66 HNode.null HNode.null)) 2 = some out ↔
      out.length = 2 ∧ ∃ k, k ≤ 8 * 1 - 6 ∧
        walk (HNode.node false 0 (HNode.node true 65 HNode.null HNode.null)
            (HNode.node true 66 HNode.null HNode.null))
          (HNode.node false 0 (HNode.node true 65 HNode.null HNode.null)
            (HNode.node true 66 HNode.null HNode.null))
          ((stream_bits [128] 0 (8 * 1 - 6)).take k) = some out :=
  ⟨rfl, by decide, by decide, by decide, by decide,
    (huffman_decode_binary_iff_walk (M3File.mk ['M', '3', 'B', '0'] 2 6 1 [128])
      (HNode.node false 0 (HNode.node true 65 HNode.null HNode.null)
        (HNode.node true 66 HNode.null HNode.null)) 2 rfl (by decide) (by decide)
      (by decide)).1⟩

end Decoder

/-! ## DCT round trip -/

theorem foldl_add_eq_sum {K : Type} [Field K] (f : Nat → K) (n : Nat) :
    (List.range n).foldl (fun s x => s + f x) 0 = ∑ x in Finset.range n, f x := by
  induction n with
  | zero => rfl
  | succ n ih => rw [List.range_succ, List.foldl_append, ih, Finset.sum_range_succ]; rfl

/-- Telescoping form of the Dirichlet kernel. -/
theorem dirichlet_kernel (φ : ℝ) (n : Nat) :
    2 * Real.sin (φ / 2) * (1 / 2 + ∑ u in Finset.range n, Real.cos (((u : ℝ) + 1) * φ)) =
      Real.sin (((n : ℝ) + 1 / 2) * φ) := by
  induction n with
  | zero => simp; ring_nf
  | succ n ih =>
    rw [Finset.sum_range_succ, ← add_assoc, mul_add, ih]
    have h1 : (((n + 1 : Nat) : ℝ) + 1 / 2) * φ = ((n : ℝ) + 1) * φ + φ / 2 := by
      push_cast; ring
    have h2 : ((n : ℝ) + 1 / 2) * φ = ((n : ℝ) + 1) * φ - φ / 2 := by ring
    rw [h1, h2, Real.sin_add, Real.sin_sub]
    ring

/-- The cosine sum `1/2 + cos φ + ... + cos 7φ` at `φ = m π / 8`. -/
theorem cos_sum_eighths (m : ℤ) (hm : ¬ (16 : ℤ) ∣ m) :
    1 / 2 + ∑ u in Finset.range 7, Real.cos (((u : ℝ) + 1) * ((m : ℝ) * Real.pi / 8)) =
      -(-1 : ℝ) ^ m / 2 := by
  have hk := dirichlet_kernel ((m : ℝ) * Real.pi / 8) 7
  have hs : Real.sin ((m : ℝ) * Real.pi / 8 / 2) ≠ 0 := by
    intro h0
    rw [Real.sin_eq_zero_iff] at h0
    obtain ⟨n, hn⟩ := h0
    apply hm
    refine ⟨n, ?_⟩
    have hpi := Real.pi_pos
    have : (m : ℝ) = 16 * n := by
      field_simp at hn
      have h2 : (n : ℝ) * (8 * 2) * Real.pi = (m : ℝ) * Real.pi := by linarith
      have := mul_right_cancel₀ (ne_of_gt hpi) h2
      linarith
    exact_mod_cast this
  have h3 : (((7 : Nat) : ℝ) + 1 / 2) * ((m : ℝ) * Real.pi / 8) =
      (m : ℝ) * Real.pi - (m : ℝ) * Real.pi / 8 / 2 := by
    push_cast; ring
  rw [h3, Real.sin_int_mul_pi_sub] at hk
  have h4 : 2 * Real.sin ((m : ℝ) * Real.pi / 8 / 2) *
      (1 / 2 + ∑ u in Finset.range 7, Real.cos (((u : ℝ) + 1) * ((m : ℝ) * Real.pi / 8))) =
      2 * Real.sin ((m : ℝ) * Real.pi / 8 / 2) * (-(-1 : ℝ) ^ m / 2) := by
    rw [hk]; ring
  exact mul_left_cancel₀ (mul_ne_zero two_ne_zero hs) h4

theorem cos_mul_cos (a b : ℝ) :
    Real.cos a * Real.cos b = 1 / 2 * (Real.cos (a - b) + Real.cos (a + b)) := by
  rw [Real.cos_sub, Real.cos_add]; ring

namespace Encoder

theorem alpha8_sq (u : Nat) : ALPHA8 u * ALPHA8 u = if u = 0 then 1 / 2 else 1 := by
  unfold ALPHA8
  by_cases h : u = 0
  · simp only [h, if_true]
    rw [div_mul_div_comm, one_mul, Real.mul_self_sqrt (by norm_num)]
  · simp [h]

/-- The weighted sum of products of two rows of the cosine table, through the
cosine sums at `(x - x') π / 8` and `(x + x' + 1) π / 8`. -/
theorem cos8_sum (x x' : Nat) :
    ∑ u in Finset.range 8, ALPHA8 u * ALPHA8 u * (COS8 u x * COS8 u x') =
      1 / 2 * ((1 / 2 + ∑ u in Finset.range 7,
          Real.cos (((u : ℝ) + 1) * ((((x : ℤ) - (x' : ℤ) : ℤ) : ℝ) * Real.pi / 8))) +
        (1 / 2 + ∑ u in Finset.range 7,
          Real.cos (((u : ℝ) + 1) * ((((x : ℤ) + (x' : ℤ) + 1 : ℤ) : ℝ) * Real.pi / 8)))) := by
  rw [Finset.sum_range_succ']
  have h0 : ALPHA8 0 * ALPHA8 0 * (COS8 0 x * COS8 0 x') = 1 / 2 := by
    rw [alpha8_sq]; simp [COS8]
  have hu : ∀ u ∈ Finset.range 7, ALPHA8 (u + 1) * ALPHA8 (u + 1) *
      (COS8 (u + 1) x * COS8 (u + 1) x') =
      1 / 2 * Real.cos (((u : ℝ) + 1) * ((((x : ℤ) - (x' : ℤ) : ℤ) : ℝ) * Real.pi / 8)) +
      1 / 2 * Real.cos (((u : ℝ) + 1) * ((((x : ℤ) + (x' : ℤ) + 1 : ℤ) : ℝ) * Real.pi / 8)) := by
    intro u _
    rw [alpha8_sq, if_neg (Nat.succ_ne_zero u), one_mul]
    unfold COS8
    rw [cos_mul_cos]
    have e1 : (2 * (x : ℝ) + 1) * ((u + 1 : Nat) : ℝ) * Real.pi / 16 -
        (2 * (x' : ℝ) + 1) * ((u + 1 : Nat) : ℝ) * Real.pi / 16 =
        ((u : ℝ) + 1) * ((((x : ℤ) - (x' : ℤ) : ℤ) : ℝ) * Real.pi / 8) := by
      push_cast; ring
    have e2 : (2 * (x : ℝ) + 1) * ((u + 1 : Nat) : ℝ) * Real.pi / 16 +
        (2 * (x' : ℝ) + 1) * ((u + 1 : Nat) : ℝ) * Real.pi / 16 =
        ((u : ℝ) + 1) * ((((x : ℤ) + (x' : ℤ) + 1 : ℤ) : ℝ) * Real.pi / 8) := by
      push_cast; ring
    rw [e1, e2]; ring
  rw [Finset.sum_congr rfl hu, h0, Finset.sum_add_distrib, ← Finset.mul_sum, ← Finset.mul_sum]
  ring

/-- Orthogonality of the rows of the cosine table. -/
theorem cos8_orthogonal (x x' : Nat) (hx : x < 8) (hx' : x' < 8) :
    ∑ u in Finset.range 8, ALPHA8 u * ALPHA8 u * (COS8 u x * COS8 u x') =
      if x = x' then 4 else 0 := by
  rw [cos8_sum]
  have h2 : ¬ (16 : ℤ) ∣ ((x : ℤ) + (x' : ℤ) + 1) := by omega
  rw [cos_sum_eighths _ h2]
  have hodd : (-1 : ℝ) ^ ((x : ℤ) + (x' : ℤ) + 1) = -(-1 : ℝ) ^ ((x : ℤ) - (x' : ℤ)) := by
    have e : (x : ℤ) + (x' : ℤ) + 1 = ((x : ℤ) - (x' : ℤ)) + (2 * (x' : ℤ) + 1) := by ring
    rw [e, zpow_add₀ (by norm_num : (-1 : ℝ) ≠ 0),
      Odd.neg_one_zpow (⟨(x' : ℤ), rfl⟩ : Odd (2 * (x' : ℤ) + 1))]
    ring
  by_cases h : x = x'
  · subst h
    rw [if_pos rfl, hodd]
    simp
    norm_num
  · rw [if_neg h]
    have h1 : ¬ (16 : ℤ) ∣ ((x : ℤ) - (x' : ℤ)) := by omega
    rw [cos_sum_eighths _ h1, hodd]
    ring

end Encoder

namespace Encoder

/-- One-dimensional inversion: the weighted transpose of the cosine table undoes
the cosine table up to the factor 4. -/
theorem cos8_inverse (h : Nat → ℝ) (x : Nat) (hx : x < 8) :
    ∑ u in Finset.range 8,
      ALPHA8 u * (ALPHA8 u * ∑ x' in Finset.range 8, h x' * COS8 u x') * COS8 u x = 4 * h x := by
  have e : ∀ u ∈ Finset.range 8,
      ALPHA8 u * (ALPHA8 u * ∑ x' in Finset.range 8, h x' * COS8 u x') * COS8 u x =
      ∑ x' in Finset.range 8, h x' * (ALPHA8 u * ALPHA8 u * (COS8 u x * COS8 u x')) := by
    intro u _
    rw [Finset.mul_sum, Finset.mul_sum, Finset.sum_mul]
    exact Finset.sum_congr rfl (fun x' _ => by ring)
  rw [Finset.sum_congr rfl e, Finset.sum_comm]
  have e2 : ∀ x' ∈ Finset.range 8,
      ∑ u in Finset.range 8, h x' * (ALPHA8 u * ALPHA8 u * (COS8 u x * COS8 u x')) =
      if x = x' then 4 * h x else 0 := by
    intro x' hx'
    rw [← Finset.mul_sum, cos8_orthogonal x x' hx (Finset.mem_range.mp hx')]
    by_cases hxx : x = x'
    · subst hxx; simp only [if_true]; ring
    · simp only [if_neg hxx, mul_zero]
  rw [Finset.sum_congr rfl e2, Finset.sum_ite_eq, if_pos (Finset.mem_range.mpr hx)]

end Encoder

theorem decoder_cos8_eq : Decoder.COS8 = Encoder.COS8 := rfl

theorem decoder_a8_eq : Decoder.A8 = Encoder.ALPHA8 := rfl

/-- C11. Over the reals, the decoder's `idct8x8` applied to the encoder's
`dct8x8` of an 8x8 grid `g` gives back `g`: every entry `out[x][y]` with
`x, y < 8` equals `g[x][y]`. -/
theorem idct8x8_dct8x8 (g : Nat → Nat → ℝ) (x y : Nat) (hx : x < 8) (hy : y < 8) :
    Decoder.idct8x8 Decoder.COS8 Decoder.A8
      (Encoder.dct8x8 Encoder.COS8 Encoder.ALPHA8 g) x y = g x y := by
  rw [decoder_cos8_eq, decoder_a8_eq]
  simp only [Decoder.idct8x8, Encoder.dct8x8, foldl_add_eq_sum]
  have inner : ∀ v ∈ Finset.range 8,
      Encoder.ALPHA8 v * (∑ u in Finset.range 8, Encoder.ALPHA8 u *
        (1 / 4 * Encoder.ALPHA8 u * Encoder.ALPHA8 v *
          ∑ y' in Finset.range 8,
            (∑ x' in Finset.range 8, g x' y' * Encoder.COS8 u x') * Encoder.COS8 v y') *
        Encoder.COS8 u x) * Encoder.COS8 v y =
      Encoder.ALPHA8 v * (Encoder.ALPHA8 v *
        ∑ y' in Finset.range 8, g x y' * Encoder.COS8 v y') * Encoder.COS8 v y := by
    intro v _
    have e : ∀ u ∈ Finset.range 8, Encoder.ALPHA8 u *
        (1 / 4 * Encoder.ALPHA8 u * Encoder.ALPHA8 v *
          ∑ y' in Finset.range 8,
            (∑ x' in Finset.range 8, g x' y' * Encoder.COS8 u x') * Encoder.COS8 v y') *
        Encoder.COS8 u x =
        ∑ y' in Finset.range 8, (1 / 4 * Encoder.ALPHA8 v * Encoder.COS8 v y') *
          (Encoder.ALPHA8 u * (Encoder.ALPHA8 u *
            ∑ x' in Finset.range 8, g x' y' * Encoder.COS8 u x') * Encoder.COS8 u x) := by
      intro u _
      rw [Finset.mul_sum, Finset.mul_sum, Finset.sum_mul]
      exact Finset.sum_congr rfl (fun y' _ => by ring)
    rw [Finset.sum_congr rfl e, Finset.sum_comm]
    have e2 : ∀ y' ∈ Finset.range 8,
        ∑ u in Finset.range 8, (1 / 4 * Encoder.ALPHA8 v * Encoder.COS8 v y') *
          (Encoder.ALPHA8 u * (Encoder.ALPHA8 u *
            ∑ x' in Finset.range 8, g x' y' * Encoder.COS8 u x') * Encoder.COS8 u x) =
        Encoder.ALPHA8 v * (g x y' * Encoder.COS8 v y') := by
      intro y' _
      rw [← Finset.mul_sum, Encoder.cos8_inverse (fun x' => g x' y') x hx]
      ring
    rw [Finset.sum_congr rfl e2, ← Finset.mul_sum]
  rw [Finset.sum_congr rfl inner, Encoder.cos8_inverse (fun y' => g x y') y hy]
  ring

/-- Witness for `idct8x8_dct8x8`: the grid with `g[x][y] = 16*x + y` at the entry
`(3, 5)`. -/
theorem idct8x8_dct8x8_witness :
    3 < 8 ∧ 5 < 8 ∧
    Decoder.idct8x8 Decoder.COS8 Decoder.A8
      (Encoder.dct8x8 Encoder.COS8 Encoder.ALPHA8 (fun x y => 16 * (x : ℝ) + (y : ℝ))) 3 5 =
      (fun x y => 16 * (x : ℝ) + (y : ℝ)) 3 5 :=
  ⟨by decide, by decide, idct8x8_dct8x8 _ 3 5 (by decide) (by decide)⟩

/-! ## The heap returns a node of least frequency -/

namespace Encoder

theorem hn_less_eq (x y : HNode) :
    hn_less x y = true ↔
      (x.freq < y.freq ∨ (x.freq = y.freq ∧ (min_sym x < min_sym y ∨
        (min_sym x = min_sym y ∧ x.is_leaf = true ∧ y.is_leaf = false)))) := by
  unfold hn_less
  simp only []
  by_cases hf : x.freq = y.freq
  · by_cases hm : min_sym x = min_sym y
    · cases hx : x.is_leaf <;> cases hy : y.is_leaf <;> simp [hf, hm]
    · simp [hf, hm]
  · simp [hf]

theorem hn_le_iff (x y : HNode) :
    hn_le x y ↔
      (x.freq < y.freq ∨ (x.freq = y.freq ∧ (min_sym x < min_sym y ∨
        (min_sym x = min_sym y ∧ (y.is_leaf = true → x.is_leaf = true))))) := by
  unfold hn_le
  rw [← Bool.not_eq_true, hn_less_eq]
  cases hx : x.is_leaf <;> cases hy : y.is_leaf <;> simp <;> omega

theorem hn_le_refl (x : HNode) : hn_le x x := by
  rw [hn_le_iff]; simp

theorem hn_le_trans (x y z : HNode) (h1 : hn_le x y) (h2 : hn_le y z) : hn_le x z := by
  rw [hn_le_iff] at *
  rcases h1 with h1 | ⟨h1, h1' | ⟨h1', h1''⟩⟩ <;>
    rcases h2 with h2 | ⟨h2, h2' | ⟨h2', h2''⟩⟩
  · left; omega
  · left; omega
  · left; omega
  · left; omega
  · right; exact ⟨by omega, Or.inl (by omega)⟩
  · right; exact ⟨by omega, Or.inl (by omega)⟩
  · left; omega
  · right; exact ⟨by omega, Or.inl (by omega)⟩
  · right; exact ⟨by omega, Or.inr ⟨by omega, fun h => h1'' (h2'' h)⟩⟩

theorem hn_le_of_less (x y : HNode) (h : hn_less x y = true) : hn_le x y := by
  rw [hn_less_eq] at h
  rw [hn_le_iff]
  rcases h with h | ⟨h, h' | ⟨h', h'', h3⟩⟩
  · exact Or.inl h
  · exact Or.inr ⟨h, Or.inl h'⟩
  · exact Or.inr ⟨h, Or.inr ⟨h', fun _ => h''⟩⟩

theorem hn_le_of_not_less (x y : HNode) (h : ¬ hn_less y x = true) : hn_le x y := by
  unfold hn_le
  simpa using h

theorem hn_less_trans (x y z : HNode) (h1 : hn_less x y = true) (h2 : hn_less y z = true) :
    hn_less x z = true := by
  rw [hn_less_eq] at *
  rcases h1 with h1 | ⟨h1, h1' | ⟨h1', h1'', h13⟩⟩ <;>
    rcases h2 with h2 | ⟨h2, h2' | ⟨h2', h2'', h23⟩⟩
  · left; omega
  · left; omega
  · left; omega
  · left; omega
  · right; exact ⟨by omega, Or.inl (by omega)⟩
  · right; exact ⟨by omega, Or.inl (by omega)⟩
  · left; omega
  · right; exact ⟨by omega, Or.inl (by omega)⟩
  · rw [h13] at h2''; cases h2''

theorem hn_le_freq (x y : HNode) (h : hn_le x y) : x.freq ≤ y.freq := by
  rw [hn_le_iff] at h
  rcases h with h | ⟨h, _⟩ <;> omega

theorem swap_getD (a : List HNode) (i j k : Nat) (hi : i < a.length) (hj : j < a.length) :
    (swap a i j).getD k default =
      if k = j then a.getD i default else if k = i then a.getD j default
      else a.getD k default := by
  unfold swap
  simp only [List.getD_eq_getElem?_getD, List.getElem?_set, List.length_set]
  by_cases h1 : k = j
  · subst h1
    simp [hj, hi]
  · by_cases h2 : k = i
    · subst h2
      have : ¬ j = k := fun h => h1 h.symm
      simp [hi, hj, h1, this]
    · have h1' : ¬ j = k := fun h => h1 h.symm
      have h2' : ¬ i = k := fun h => h2 h.symm
      simp [h1, h2, h1', h2']

end Encoder

namespace Encoder

/-- The sift-up loop restores the heap property when only the node at `i` may be
less than its parent. -/
theorem heap_push_loop_isHeap (fuel : Nat) :
    ∀ (a : List HNode) (i : Nat), i ≤ fuel → i < a.length →
      (∀ j, 0 < j → j < a.length → j ≠ i →
        hn_le (a.getD ((j - 1) / 2) default) (a.getD j default)) →
      (∀ j, 0 < j → j < a.length → 0 < i → (j - 1) / 2 = i →
        hn_le (a.getD ((i - 1) / 2) default) (a.getD j default)) →
      IsHeap (heap_push_loop fuel a i) := by
  induction fuel with
  | zero =>
    intro a i hi _ h1 _
    have hi0 : i = 0 := by omega
    subst hi0
    intro j hj hjl
    exact h1 j hj hjl (by omega)
  | succ fuel ih =>
    intro a i hi hil h1 h2
    unfold heap_push_loop
    by_cases hpos : 0 < i
    · rw [if_pos hpos]
      simp only []
      by_cases hless : hn_less (a.getD i default) (a.getD ((i - 1) / 2) default) = true
      · rw [hless]
        simp only [Bool.not_true, Bool.false_eq_true, if_false]
        have hpl : (i - 1) / 2 < a.length := by omega
        have hpi : (i - 1) / 2 < i := by omega
        apply ih
        · omega
        · rw [swap_length]; exact hpl
        · intro j hj hjl hjp
          rw [swap_length] at hjl
          rw [swap_getD a i _ _ hil hpl, swap_getD a i _ _ hil hpl]
          by_cases hji : j = i
          · subst hji
            rw [if_pos rfl, if_neg hjp, if_pos rfl]
            exact hn_le_of_less _ _ hless
          · rw [if_neg hjp, if_neg hji]
            by_cases hq : (j - 1) / 2 = (i - 1) / 2
            · rw [if_pos hq]
              have := h1 j hj hjl hji
              rw [hq] at this
              exact hn_le_trans _ _ _ (hn_le_of_less _ _ hless) this
            · rw [if_neg hq]
              by_cases hqi : (j - 1) / 2 = i
              · rw [if_pos hqi]
                exact h2 j hj hjl hpos hqi
              · rw [if_neg hqi]
                exact h1 j hj hjl hji
        · intro j hj hjl hp0 hjp
          rw [swap_length] at hjl
          rw [swap_getD a i _ _ hil hpl, swap_getD a i _ _ hil hpl]
          have hg1 : ¬ ((i - 1) / 2 - 1) / 2 = (i - 1) / 2 := by omega
          have hg2 : ¬ ((i - 1) / 2 - 1) / 2 = i := by omega
          have hjp' : ¬ j = (i - 1) / 2 := by omega
          rw [if_neg hg1, if_neg hg2, if_neg hjp']
          have hgp := h1 ((i - 1) / 2) hp0 hpl (by omega)
          by_cases hji : j = i
          · rw [if_pos hji]
            exact hgp
          · rw [if_neg hji]
            have := h1 j hj hjl hji
            rw [hjp] at this
            exact hn_le_trans _ _ _ hgp this
      · have hf : hn_less (a.getD i default) (a.getD ((i - 1) / 2) default) = false := by
          simpa using hless
        rw [hf]
        simp only [Bool.not_false, if_true]
        intro j hj hjl
        by_cases hji : j = i
        · subst hji
          exact hf
        · exact h1 j hj hjl hji
    · rw [if_neg hpos]
      intro j hj hjl
      exact h1 j hj hjl (by omega)

theorem getD_append_left (h : List HNode) (n : HNode) (j : Nat) (hj : j < h.length) :
    (h ++ [n]).getD j default = h.getD j default := by
  simp [List.getD_eq_getElem?_getD, List.getElem?_append_left hj]

/-- `heap_push` keeps the heap property. -/
theorem heap_push_isHeap (h : List HNode) (n : HNode) (hh : IsHeap h) :
    IsHeap (heap_push h n) := by
  unfold heap_push
  apply heap_push_loop_isHeap
  · exact le_refl _
  · simp
  · intro j hj hjl hne
    have hjl' : j < h.length := by
      simp at hjl; omega
    rw [getD_append_left h n j hjl', getD_append_left h n _ (by omega)]
    exact hh j hj hjl'
  · intro j _ hjl _ hjp
    simp at hjl
    omega

end Encoder

namespace Encoder

/-- The index chosen by the body of the sift-down loop: either `i` itself, which
is then not after its children, or a child that is less than `a[i]` and not after
its sibling. -/
theorem heap_pop_pick_spec (a : List HNode) (i : Nat) :
    (heap_pop_pick a i = i ∧ ∀ j, 0 < j → j < a.length → (j - 1) / 2 = i →
        hn_le (a.getD i default) (a.getD j default)) ∨
    (heap_pop_pick a i ≠ i ∧ heap_pop_pick a i < a.length ∧
      (heap_pop_pick a i - 1) / 2 = i ∧ 0 < heap_pop_pick a i ∧
      hn_less (a.getD (heap_pop_pick a i) default) (a.getD i default) = true ∧
      ∀ j, 0 < j → j < a.length → (j - 1) / 2 = i →
        hn_le (a.getD (heap_pop_pick a i) default) (a.getD j default)) := by
  have hchild : ∀ j, 0 < j → (j - 1) / 2 = i → j = i * 2 + 1 ∨ j = i * 2 + 2 := by
    intro j hj hji; omega
  unfold heap_pop_pick
  simp only [Bool.and_eq_true, decide_eq_true_eq]
  by_cases hl : i * 2 + 1 < a.length ∧
      hn_less (a.getD (i * 2 + 1) default) (a.getD i default) = true
  · rw [if_pos hl]
    by_cases hr : i * 2 + 2 < a.length ∧
        hn_less (a.getD (i * 2 + 2) default) (a.getD (i * 2 + 1) default) = true
    · rw [if_pos hr]
      refine Or.inr ⟨by omega, hr.1, by omega, by omega,
        hn_less_trans _ _ _ hr.2 hl.2, ?_⟩
      intro j hj hjl hji
      rcases hchild j hj hji with h | h
      · rw [h]; exact hn_le_of_less _ _ hr.2
      · rw [h]; exact hn_le_refl _
    · rw [if_neg hr]
      refine Or.inr ⟨by omega, hl.1, by omega, by omega, hl.2, ?_⟩
      intro j hj hjl hji
      rcases hchild j hj hji with h | h
      · rw [h]; exact hn_le_refl _
      · rw [h]
        apply hn_le_of_not_less
        intro hless
        exact hr ⟨by omega, hless⟩
  · rw [if_neg hl]
    by_cases hr : i * 2 + 2 < a.length ∧
        hn_less (a.getD (i * 2 + 2) default) (a.getD i default) = true
    · rw [if_pos hr]
      refine Or.inr ⟨by omega, hr.1, by omega, by omega, hr.2, ?_⟩
      intro j hj hjl hji
      rcases hchild j hj hji with h | h
      · rw [h]
        have h1 : hn_le (a.getD i default) (a.getD (i * 2 + 1) default) := by
          apply hn_le_of_not_less
          intro hless
          exact hl ⟨by omega, hless⟩
        exact hn_le_trans _ _ _ (hn_le_of_less _ _ hr.2) h1
      · rw [h]; exact hn_le_refl _
    · rw [if_neg hr]
      refine Or.inl ⟨rfl, ?_⟩
      intro j hj hjl hji
      rcases hchild j hj hji with h | h
      · rw [h]
        apply hn_le_of_not_less
        intro hless
        exact hl ⟨by omega, hless⟩
      · rw [h]
        apply hn_le_of_not_less
        intro hless
        exact hr ⟨by omega, hless⟩

/-- The sift-down loop restores the heap property when only the children of `i`
may be less than their parent. -/
theorem heap_pop_loop_isHeap (fuel : Nat) :
    ∀ (a : List HNode) (i : Nat), a.length ≤ fuel + i →
      (∀ j, 0 < j → j < a.length → (j - 1) / 2 ≠ i →
        hn_le (a.getD ((j - 1) / 2) default) (a.getD j default)) →
      (∀ j, 0 < j → j < a.length → 0 < i → (j - 1) / 2 = i →
        hn_le (a.getD ((i - 1) / 2) default) (a.getD j default)) →
      IsHeap (heap_pop_loop fuel a i) := by
  induction fuel with
  | zero =>
    intro a i hlen h1 _
    change IsHeap a
    intro j hj hjl
    exact h1 j hj hjl (by omega)
  | succ fuel ih =>
    intro a i hlen h1 h2
    unfold heap_pop_loop
    simp only []
    rcases heap_pop_pick_spec a i with ⟨hm, hmin⟩ | ⟨hm, hml, hmp, hm0, hless, hmin⟩
    · rw [if_pos hm]
      intro j hj hjl
      by_cases hji : (j - 1) / 2 = i
      · rw [hji]; exact hmin j hj hjl hji
      · exact h1 j hj hjl hji
    · rw [if_neg hm]
      generalize heap_pop_pick a i = m at *
      have hil : i < a.length := by omega
      apply ih
      · rw [swap_length]; omega
      · intro j hj hjl hjm
        rw [swap_length] at hjl
        rw [swap_getD a i m _ hil hml, swap_getD a i m _ hil hml]
        have hq1 : ¬ (j - 1) / 2 = m := hjm
        rw [if_neg hq1]
        by_cases hqi : (j - 1) / 2 = i
        · rw [if_pos hqi]
          by_cases hjm' : j = m
          · rw [if_pos hjm']
            exact hn_le_of_less _ _ hless
          · rw [if_neg hjm', if_neg (by omega)]
            exact hmin j hj hjl hqi
        · rw [if_neg hqi]
          have hjm' : ¬ j = m := by
            intro h; subst h; exact hqi hmp
          rw [if_neg hjm']
          by_cases hji : j = i
          · rw [if_pos hji]
            subst hji
            exact h2 m hm0 hml hj hmp
          · rw [if_neg hji]
            exact h1 j hj hjl hqi
      · intro j hj hjl _ hjp
        rw [swap_length] at hjl
        rw [swap_getD a i m _ hil hml, swap_getD a i m _ hil hml]
        rw [hmp, if_neg hm.symm, if_pos rfl, if_neg (by omega), if_neg (by omega)]
        have := h1 j hj hjl (by omega)
        rw [hjp] at this
        exact this

/-- In a heap the root is not after any node. -/
theorem isHeap_root_le (a : List HNode) (hh : IsHeap a) :
    ∀ k, k < a.length → hn_le (a.getD 0 default) (a.getD k default) := by
  intro k
  induction k using Nat.strong_induction_on with
  | _ k ih =>
    intro hk
    by_cases hk0 : k = 0
    · subst hk0; exact hn_le_refl _
    · exact hn_le_trans _ _ _ (ih ((k - 1) / 2) (by omega) (by omega)) (hh k (by omega) hk)

/-- `heap_pop` keeps the heap property and returns a node that is not after any
node of the heap. -/
theorem heap_pop_isHeap (h : List HNode) (x : HNode) (h' : List HNode) (hh : IsHeap h)
    (hp : heap_pop h = some (x, h')) : IsHeap h' ∧ ∀ t ∈ h, hn_le x t := by
  cases h with
  | nil => simp [heap_pop] at hp
  | cons y t =>
    simp only [heap_pop, Option.some.injEq, Prod.mk.injEq] at hp
    obtain ⟨rfl, rfl⟩ := hp
    constructor
    · apply heap_pop_loop_isHeap
      · simp
      · intro j hj hjl hq
        have hjl' : j < t.length := by
          simp at hjl; omega
        have e1 : ∀ k, 0 < k → k < t.length →
            ((((y :: t).set 0 ((y :: t).getD ((y :: t).length - 1) default)).take
              ((y :: t).length - 1)).getD k default) = (y :: t).getD k default := by
          intro k hk hkl
          simp only [List.getD_eq_getElem?_getD, List.getElem?_take, List.length_cons,
            Nat.add_sub_cancel, hkl, if_true]
          rw [List.getElem?_set_ne (by omega)]
        rw [e1 j hj hjl', e1 _ (by omega) (by omega)]
        exact hh j hj (by simp; omega)
      · intro j _ _ h0 _
        exact absurd h0 (lt_irrefl 0)
    · intro z hz
      obtain ⟨k, hk, rfl⟩ := List.getElem_of_mem hz
      have := isHeap_root_le (y :: t) hh k hk
      simpa [List.getD_eq_getElem?_getD, List.getElem?_eq_getElem hk] using this

end Encoder

/-! ## Merging the two least weights does not lose optimality -/

namespace Encoder

theorem cost_cons (p : Nat × Nat) (P : List (Nat × Nat)) :
    cost (p :: P) = p.1 * p.2 + cost P := by
  simp [cost]

theorem kraft_cons (B : Nat) (p : Nat × Nat) (P : List (Nat × Nat)) :
    kraft B (p :: P) = 2 ^ (B - p.2) + kraft B P := by
  simp [kraft]

theorem cost_perm (P Q : List (Nat × Nat)) (h : P.Perm Q) : cost P = cost Q :=
  (h.map _).sum_eq

theorem kraft_eq_of_lengths (B : Nat) (P Q : List (Nat × Nat))
    (h : (P.map Prod.snd).Perm (Q.map Prod.snd)) : kraft B P = kraft B Q := by
  have := (h.map (fun l => 2 ^ (B - l))).sum_eq
  simpa [kraft, List.map_map, Function.comp] using this

theorem kraft_perm (B : Nat) (P Q : List (Nat × Nat)) (h : P.Perm Q) :
    kraft B P = kraft B Q :=
  kraft_eq_of_lengths B P Q (h.map _)

theorem feasible_perm (B : Nat) (P Q : List (Nat × Nat)) (h : P.Perm Q)
    (hf : Feasible B P) : Feasible B Q :=
  ⟨fun p hp => hf.1 p (h.mem_iff.mpr hp), by rw [← kraft_perm B P Q h]; exact hf.2⟩

theorem exchange_le (a w L0 l : Nat) (haw : a ≤ w) (hl : L0 ≤ l) :
    a * l + w * L0 ≤ a * L0 + w * l := by
  obtain ⟨d, rfl⟩ := Nat.exists_eq_add_of_le haw
  obtain ⟨e, rfl⟩ := Nat.exists_eq_add_of_le hl
  nlinarith [Nat.zero_le (d * e)]

/-- The lengths can be exchanged so that a least weight at the head gets the
greatest length, without raising the cost. -/
theorem raise_head (a : Nat) :
    ∀ (R : List (Nat × Nat)) (la : Nat), (∀ p ∈ R, a ≤ p.1) →
      ∃ (L : Nat) (R' : List (Nat × Nat)), R'.map Prod.fst = R.map Prod.fst ∧
        (((a, L) :: R').map Prod.snd).Perm (((a, la) :: R).map Prod.snd) ∧
        (∀ p ∈ R', p.2 ≤ L) ∧ la ≤ L ∧ cost ((a, L) :: R') ≤ cost ((a, la) :: R) := by
  intro R
  induction R with
  | nil =>
    intro la _
    exact ⟨la, [], rfl, List.Perm.refl _, by simp, le_refl _, le_refl _⟩
  | cons q R0 ih =>
    intro la ha
    obtain ⟨w, l⟩ := q
    obtain ⟨L0, R0', hfst, hsnd, hmax, hla, hcost⟩ :=
      ih la (fun p hp => ha p (List.mem_cons_of_mem _ hp))
    have haw : a ≤ w := ha (w, l) (List.mem_cons_self _ _)
    simp only [cost_cons, List.map_cons] at hcost hsnd ⊢
    by_cases hl : l ≤ L0
    · refine ⟨L0, (w, l) :: R0', by simp [hfst], ?_, ?_, hla, ?_⟩
      · simp only [List.map_cons]
        exact (List.Perm.swap l L0 _).trans ((hsnd.cons l).trans (List.Perm.swap la l _))
      · intro p hp
        rcases List.mem_cons.mp hp with h | h
        · rw [h]; exact hl
        · exact hmax p h
      · simp only [cost_cons]
        omega
    · have hl' : L0 ≤ l := by omega
      refine ⟨l, (w, L0) :: R0', by simp [hfst], ?_, ?_, by omega, ?_⟩
      · simp only [List.map_cons]
        exact (hsnd.cons l).trans (List.Perm.swap la l _)
      · intro p hp
        rcases List.mem_cons.mp hp with h | h
        · rw [h]; exact hl'
        · exact le_trans (hmax p h) hl'
      · simp only [cost_cons]
        have := exchange_le a w L0 l haw hl'
        omega

theorem kraft_dvd (B L : Nat) (hL : L ≤ B) :
    ∀ R : List (Nat × Nat), (∀ p ∈ R, p.2 ≤ L) → 2 ^ (B - L) ∣ kraft B R := by
  intro R
  induction R with
  | nil => intro _; simp [kraft]
  | cons q R ih =>
    intro h
    rw [kraft_cons]
    refine Dvd.dvd.add ?_ (ih (fun p hp => h p (List.mem_cons_of_mem _ hp)))
    have := h q (List.mem_cons_self _ _)
    exact pow_dvd_pow 2 (by omega)

end Encoder

namespace Encoder

/-- The exchange step of the optimality argument: in a feasible assignment of
lengths, two least weights `a` and `b` can be merged into one weight `a + b`, the
cost going down by at least `a + b`. -/
theorem merge_step (B a b la lb : Nat) (R : List (Nat × Nat)) (hab : a ≤ b)
    (hR : ∀ p ∈ R, b ≤ p.1) (hF : Feasible B ((a, la) :: (b, lb) :: R)) :
    ∃ (m : Nat) (R' : List (Nat × Nat)), R'.map Prod.fst = R.map Prod.fst ∧
      Feasible B ((a + b, m) :: R') ∧
      cost ((a + b, m) :: R') + a + b ≤ cost ((a, la) :: (b, lb) :: R) := by
  obtain ⟨L1, T1, hfst1, hsnd1, hmax1, _, hcost1⟩ := raise_head a ((b, lb) :: R) la (by
    intro p hp
    rcases List.mem_cons.mp hp with h | h
    · rw [h]; exact hab
    · exact le_trans hab (hR p h))
  cases T1 with
  | nil => simp at hfst1
  | cons q R1 =>
    obtain ⟨b', lb1⟩ := q
    simp only [List.map_cons, List.cons.injEq] at hfst1
    obtain ⟨hb', hfstR1⟩ := hfst1
    subst hb'
    have hR1 : ∀ p ∈ R1, b' ≤ p.1 := by
      intro p hp
      have : p.1 ∈ R.map Prod.fst := by
        rw [← hfstR1]; exact List.mem_map_of_mem _ hp
      obtain ⟨p', hp', he⟩ := List.mem_map.mp this
      rw [← he]; exact hR p' hp'
    obtain ⟨L2, R2, hfst2, hsnd2, hmax2, _, hcost2⟩ := raise_head b' R1 lb1 hR1
    have hL21 : L2 ≤ L1 := by
      have hmem : L2 ∈ ((b', lb1) :: R1).map Prod.snd :=
        hsnd2.mem_iff.mp (by simp)
      obtain ⟨p, hp, he⟩ := List.mem_map.mp hmem
      rw [← he]; exact hmax1 p hp
    have hP2 : (((a, L1) :: (b', L2) :: R2).map Prod.snd).Perm
        (((a, la) :: (b', lb) :: R).map Prod.snd) := by
      refine List.Perm.trans ?_ hsnd1
      simp only [List.map_cons] at hsnd2 ⊢
      exact hsnd2.cons L1
    have hk2 : kraft B ((a, L1) :: (b', L2) :: R2) ≤ 2 ^ B := by
      rw [kraft_eq_of_lengths B _ _ hP2]; exact hF.2
    have hlen2 : ∀ l ∈ ((a, L1) :: (b', L2) :: R2).map Prod.snd, l ≤ B := by
      intro l hl
      obtain ⟨p, hp, he⟩ := List.mem_map.mp (hP2.mem_iff.mp hl)
      rw [← he]; exact hF.1 p hp
    have hL1B : L1 ≤ B := hlen2 L1 (by simp)
    have hL2B : L2 ≤ B := hlen2 L2 (by simp)
    have hR2B : ∀ p ∈ R2, p.2 ≤ B := fun p hp => le_trans (hmax2 p hp) hL2B
    simp only [kraft_cons, cost_cons] at hk2 hcost1 hcost2
    -- both weights at the length `L2`
    obtain ⟨k, hk⟩ := kraft_dvd B L2 hL2B R2 hmax2
    have hpow : 2 ^ B = 2 ^ (B - L2) * 2 ^ L2 := by
      rw [← pow_add]; congr 1; omega
    have hu : 0 < 2 ^ (B - L2) := Nat.two_pow_pos _
    have hv : 0 < 2 ^ (B - L1) := Nat.two_pow_pos _
    have hk3 : 2 ^ (B - L2) + 2 ^ (B - L2) + kraft B R2 ≤ 2 ^ B := by
      rw [hk, hpow] at hk2 ⊢
      have h1 : 2 ^ (B - L2) * (1 + k) < 2 ^ (B - L2) * 2 ^ L2 := by
        have : 2 ^ (B - L2) * (1 + k) = 2 ^ (B - L2) + 2 ^ (B - L2) * k := by ring
        omega
      have h2 : 1 + k < 2 ^ L2 := Nat.lt_of_mul_lt_mul_left h1
      have h3 : 2 ^ (B - L2) * (2 + k) ≤ 2 ^ (B - L2) * 2 ^ L2 :=
        Nat.mul_le_mul_left _ (by omega)
      have : 2 ^ (B - L2) * (2 + k) = 2 ^ (B - L2) + 2 ^ (B - L2) + 2 ^ (B - L2) * k := by
        ring
      omega
    have hL2pos : 1 ≤ L2 := by
      by_contra h0
      have h0' : L2 = 0 := by omega
      rw [h0'] at hk3
      simp only [Nat.sub_zero] at hk3
      have := Nat.two_pow_pos B
      omega
    refine ⟨L2 - 1, R2, by rw [hfst2, hfstR1], ⟨?_, ?_⟩, ?_⟩
    · intro p hp
      rcases List.mem_cons.mp hp with h | h
      · rw [h]; show L2 - 1 ≤ B; omega
      · exact hR2B p h
    · rw [kraft_cons]
      show 2 ^ (B - (L2 - 1)) + kraft B R2 ≤ 2 ^ B
      have : B - (L2 - 1) = (B - L2) + 1 := by omega
      rw [this, pow_succ]
      omega
    · simp only [cost_cons]
      have e1 : (a + b') * (L2 - 1) + a + b' = a * L2 + b' * L2 := by
        obtain ⟨n, rfl⟩ : ∃ n, L2 = n + 1 := ⟨L2 - 1, by omega⟩
        simp only [Nat.add_sub_cancel]
        ring
      have e2 : a * L2 ≤ a * L1 := Nat.mul_le_mul_left _ hL21
      omega

/-- The exchange step for an assignment given up to the order of its entries. -/
theorem merge_step_perm (B a b : Nat) (W : List Nat) (Q : List (Nat × Nat))
    (hF : Feasible B Q) (hQ : (Q.map Prod.fst).Perm (a :: b :: W)) (hab : a ≤ b)
    (hW : ∀ w ∈ W, b ≤ w) :
    ∃ Q', Feasible B Q' ∧ (Q'.map Prod.fst).Perm ((a + b) :: W) ∧
      cost Q' + a + b ≤ cost Q := by
  have ha : a ∈ Q.map Prod.fst := hQ.mem_iff.mpr (by simp)
  obtain ⟨pa, hpa, hpa1⟩ := List.mem_map.mp ha
  obtain ⟨Q1, h1⟩ : ∃ Q1, Q.Perm (pa :: Q1) := by
    obtain ⟨s, t, rfl⟩ := List.append_of_mem hpa
    exact ⟨s ++ t, List.perm_middle⟩
  have h2 : (Q1.map Prod.fst).Perm (b :: W) := by
    have := (h1.map Prod.fst).symm.trans hQ
    rw [List.map_cons, hpa1] at this
    exact this.cons_inv
  have hb : b ∈ Q1.map Prod.fst := h2.mem_iff.mpr (by simp)
  obtain ⟨pb, hpb, hpb1⟩ := List.mem_map.mp hb
  obtain ⟨Q2, h3⟩ : ∃ Q2, Q1.Perm (pb :: Q2) := by
    obtain ⟨s, t, rfl⟩ := List.append_of_mem hpb
    exact ⟨s ++ t, List.perm_middle⟩
  have h4 : (Q2.map Prod.fst).Perm W := by
    have := (h3.map Prod.fst).symm.trans h2
    rw [List.map_cons, hpb1] at this
    exact this.cons_inv
  have h5 : Q.Perm ((a, pa.2) :: (b, pb.2) :: Q2) := by
    have e1 : pa = (a, pa.2) := by rw [← hpa1]
    have e2 : pb = (b, pb.2) := by rw [← hpb1]
    rw [← e1, ← e2]
    exact h1.trans (h3.cons pa)
  have hR : ∀ p ∈ Q2, b ≤ p.1 := by
    intro p hp
    exact hW p.1 (h4.mem_iff.mp (List.mem_map_of_mem _ hp))
  obtain ⟨m, R', hfst, hfeas, hcost⟩ :=
    merge_step B a b pa.2 pb.2 _ hab hR (feasible_perm B _ _ h5 hF)
  refine ⟨(a + b, m) :: R', hfeas, ?_, ?_⟩
  · rw [List.map_cons, hfst]
    exact h4.cons (a + b)
  · rw [cost_perm Q _ h5]
    exact hcost

end Encoder

/-! ## Kraft inequality of a prefix-free code -/

theorem pairwise_nil_mem (C : List (List Bool))
    (hC : C.Pairwise (fun x y => ¬ x <+: y ∧ ¬ y <+: x)) (h : [] ∈ C) : C = [[]] := by
  cases C with
  | nil => simp at h
  | cons c C' =>
    rw [List.pairwise_cons] at hC
    rcases List.mem_cons.mp h with h | h
    · subst h
      cases C' with
      | nil => rfl
      | cons d _ => exact absurd List.nil_prefix (hC.1 d (List.mem_cons_self _ _)).1
    · exact absurd List.nil_prefix (hC.1 [] h).2

theorem strip_bit_some (b : Bool) (c t : List Bool) (h : strip_bit b c = some t) :
    c = b :: t := by
  cases c with
  | nil => simp [strip_bit] at h
  | cons x c' =>
    simp only [strip_bit] at h
    split_ifs at h with hx
    · simp only [Option.some.injEq] at h
      rw [hx, h]

theorem sum_strip (B : Nat) (C : List (List Bool)) (h : [] ∉ C) :
    (C.map (fun c => 2 ^ (B + 1 - c.length))).sum =
      ((C.filterMap (strip_bit false)).map (fun c => 2 ^ (B - c.length))).sum +
      ((C.filterMap (strip_bit true)).map (fun c => 2 ^ (B - c.length))).sum := by
  induction C with
  | nil => rfl
  | cons c C ih =>
    simp only [List.mem_cons, not_or] at h
    have ih' := ih h.2
    cases c with
    | nil => exact absurd rfl h.1
    | cons x t =>
      cases x with
      | false =>
        simp only [List.map_cons, List.sum_cons, List.filterMap_cons, strip_bit, if_true,
          Bool.false_eq_true, if_false, List.length_cons, ih', Nat.add_sub_add_right]
        omega
      | true =>
        simp only [List.map_cons, List.sum_cons, List.filterMap_cons, strip_bit, if_true,
          Bool.true_eq_false, if_false, List.length_cons, ih', Nat.add_sub_add_right]
        omega

theorem pairwise_strip (b : Bool) (C : List (List Bool))
    (hC : C.Pairwise (fun x y => ¬ x <+: y ∧ ¬ y <+: x)) :
    (C.filterMap (strip_bit b)).Pairwise (fun x y => ¬ x <+: y ∧ ¬ y <+: x) := by
  refine List.Pairwise.filterMap (strip_bit b) ?_ hC
  intro x y hxy t ht t' ht'
  rw [strip_bit_some b x t ht, strip_bit_some b y t' ht'] at hxy
  simp only [List.prefix_cons_inj] at hxy
  exact hxy

/-- Kraft inequality: the code words of a prefix-free code of lengths at most `B`
satisfy `sum of 2^(B - length) <= 2^B`. -/
theorem kraft_of_prefix_free (B : Nat) :
    ∀ C : List (List Bool), C.Pairwise (fun x y => ¬ x <+: y ∧ ¬ y <+: x) →
      (∀ c ∈ C, c.length ≤ B) → (C.map (fun c => 2 ^ (B - c.length))).sum ≤ 2 ^ B := by
  induction B with
  | zero =>
    intro C hC hlen
    cases C with
    | nil => simp
    | cons c C' =>
      have hc : c = [] := List.length_eq_zero.mp (by
        have := hlen c (List.mem_cons_self _ _); omega)
      rw [pairwise_nil_mem _ hC (by rw [hc]; exact List.mem_cons_self _ _)]
      simp
  | succ B ih =>
    intro C hC hlen
    by_cases hnil : [] ∈ C
    · rw [pairwise_nil_mem _ hC hnil]
      simp
    · rw [sum_strip B C hnil]
      have hl : ∀ b, ∀ t ∈ C.filterMap (strip_bit b), t.length ≤ B := by
        intro b t ht
        obtain ⟨c, hc, hs⟩ := List.mem_filterMap.mp ht
        have := hlen c hc
        rw [strip_bit_some b c t hs] at this
        simp only [List.length_cons] at this
        omega
      have h0 := ih _ (pairwise_strip false C hC) (hl false)
      have h1 := ih _ (pairwise_strip true C hC) (hl true)
      rw [pow_succ]
      omega

/-! ## Optimality of the Huffman code -/

namespace Encoder

theorem wpl_succ (t : HNode) : ∀ d, HNode.wpl (d + 1) t = HNode.wpl d t + t.weight := by
  induction t with
  | leaf s f => intro d; simp only [HNode.wpl, HNode.weight]; ring
  | node l r f ihl ihr =>
    intro d
    simp only [HNode.wpl, HNode.weight, ihl (d + 1), ihr (d + 1)]
    omega

theorem wpl_internal (x y : HNode) :
    HNode.wpl 0 (hn_new_internal x y) =
      HNode.wpl 0 x + HNode.wpl 0 y + (x.weight + y.weight) := by
  simp only [hn_new_internal, HNode.wpl, wpl_succ]
  omega

theorem hn_new_internal_freq (x y : HNode) :
    (hn_new_internal x y).freq = u64 (x.freq + y.freq) := rfl

theorem hn_new_internal_weight (x y : HNode) :
    (hn_new_internal x y).weight = x.weight + y.weight := rfl

theorem mem_le_sum (l : List Nat) (x : Nat) (h : x ∈ l) : x ≤ l.sum := by
  induction l with
  | nil => simp at h
  | cons y l ih =>
    rw [List.sum_cons]
    rcases List.mem_cons.mp h with h | h
    · omega
    · have := ih h; omega

/-- The merge loop of `build_huffman`, started on a heap of trees whose
frequencies are the exact sums of their leaves and add up to less than `2^64`,
ends with one tree, whose weighted path length is at most the weighted path
lengths in the heap plus the cost of any feasible assignment of lengths to the
frequencies in the heap. -/
theorem build_merge_optimal (fuel : Nat) :
    ∀ hp : List HNode, hp.length ≤ fuel + 1 → hp ≠ [] → IsHeap hp →
      (∀ t ∈ hp, t.freq = t.weight) → (hp.map HNode.weight).sum < 2 ^ 64 →
      ∃ root, build_merge fuel hp = some [root] ∧
        ∀ B Q, Feasible B Q → (Q.map Prod.fst).Perm (hp.map HNode.freq) →
          HNode.wpl 0 root ≤ (hp.map (HNode.wpl 0)).sum + cost Q := by
  induction fuel with
  | zero =>
    intro hp hlen hne _ _ _
    obtain ⟨root, rfl⟩ : ∃ root, hp = [root] := by
      apply List.length_eq_one.mp
      have := List.length_pos.mpr hne
      omega
    exact ⟨root, by simp [build_merge], fun B Q _ _ => by simp⟩
  | succ fuel ih =>
    intro hp hlen hne hheap hexact hsum
    by_cases h1 : 1 < hp.length
    · obtain ⟨a, hp1, ha⟩ := heap_pop_some hp hne
      have hpa := heap_pop_perm hp a hp1 ha
      obtain ⟨hheap1, hamin⟩ := heap_pop_isHeap hp a hp1 hheap ha
      have hl1 : hp1.length + 1 = hp.length := by simpa using hpa.length_eq.symm
      have hne1 : hp1 ≠ [] := by intro h; simp [h] at hl1; omega
      obtain ⟨b, hp2, hb⟩ := heap_pop_some hp1 hne1
      have hpb := heap_pop_perm hp1 b hp2 hb
      obtain ⟨hheap2, hbmin⟩ := heap_pop_isHeap hp1 b hp2 hheap1 hb
      have hl2 : hp2.length + 1 = hp1.length := by simpa using hpb.length_eq.symm
      have hperm : hp.Perm (a :: b :: hp2) := hpa.trans (hpb.cons a)
      have hbmem : b ∈ hp := hperm.mem_iff.mpr (by simp)
      have hamem : a ∈ hp := hperm.mem_iff.mpr (by simp)
      have hfa : a.freq = a.weight := hexact a hamem
      have hfb : b.freq = b.weight := hexact b hbmem
      have hsum' : a.weight + b.weight + (hp2.map HNode.weight).sum < 2 ^ 64 := by
        have := (hperm.map HNode.weight).sum_eq
        simp only [List.map_cons, List.sum_cons] at this
        omega
      generalize hab : (if hn_less b a then (b, a) else (a, b)) = ab
      have hcase : ab = (b, a) ∨ ab = (a, b) := by
        rw [← hab]
        split
        · exact Or.inl rfl
        · exact Or.inr rfl
      have hnf : (hn_new_internal ab.1 ab.2).freq = a.freq + b.freq := by
        rcases hcase with h | h
        · rw [h, hn_new_internal_freq, u64]
          dsimp only
          rw [Nat.mod_eq_of_lt (by omega)]; omega
        · rw [h, hn_new_internal_freq, u64]
          dsimp only
          rw [Nat.mod_eq_of_lt (by omega)]
      have hnw : (hn_new_internal ab.1 ab.2).weight = a.weight + b.weight := by
        rcases hcase with h | h
        · rw [h, hn_new_internal_weight]; dsimp only; omega
        · rw [h, hn_new_internal_weight]
      have hnp : HNode.wpl 0 (hn_new_internal ab.1 ab.2) =
          HNode.wpl 0 a + HNode.wpl 0 b + (a.weight + b.weight) := by
        rcases hcase with h | h
        · rw [h, wpl_internal]; dsimp only; omega
        · rw [h, wpl_internal]
      have hpush := heap_push_perm hp2 (hn_new_internal ab.1 ab.2)
      have hlH : (heap_push hp2 (hn_new_internal ab.1 ab.2)).length = hp2.length + 1 := by
        simpa using hpush.length_eq
      have hstep : build_merge (fuel + 1) hp =
          build_merge fuel (heap_push hp2 (hn_new_internal ab.1 ab.2)) := by
        rw [build_merge]
        simp only [h1, if_true, ha, hb, hab]
      obtain ⟨root, hres, hbound⟩ := ih (heap_push hp2 (hn_new_internal ab.1 ab.2))
        (by omega)
        (by intro h; rw [h] at hlH; simp at hlH)
        (heap_push_isHeap hp2 _ hheap2)
        (by
          intro t ht
          rcases List.mem_cons.mp (hpush.mem_iff.mp ht) with h | h
          · rw [h, hnf, hnw, hfa, hfb]
          · exact hexact t (hperm.mem_iff.mpr (by simp [h])))
        (by
          rw [(hpush.map HNode.weight).sum_eq]
          simp only [List.map_cons, List.sum_cons, hnw]
          exact hsum')
      refine ⟨root, by rw [hstep]; exact hres, ?_⟩
      intro B Q hF hQ
      have hQ' : (Q.map Prod.fst).Perm (a.freq :: b.freq :: hp2.map HNode.freq) := by
        refine hQ.trans ?_
        simpa using hperm.map HNode.freq
      have hab' : a.freq ≤ b.freq := hn_le_freq _ _ (hamin b hbmem)
      have hW : ∀ w ∈ hp2.map HNode.freq, b.freq ≤ w := by
        intro w hw
        obtain ⟨t, ht, rfl⟩ := List.mem_map.mp hw
        exact hn_le_freq _ _ (hbmin t (hpb.mem_iff.mpr (by simp [ht])))
      obtain ⟨Q', hF', hQw, hcost⟩ :=
        merge_step_perm B a.freq b.freq (hp2.map HNode.freq) Q hF hQ' hab' hW
      have hb2 := hbound B Q' hF' (by
        refine hQw.trans ?_
        have := (hpush.map HNode.freq).symm
        simpa [hnf] using this)
      rw [(hpush.map (HNode.wpl 0)).sum_eq] at hb2
      have e1 := (hperm.map (HNode.wpl 0)).sum_eq
      simp only [List.map_cons, List.sum_cons, hnp] at hb2 e1
      omega
    · obtain ⟨root, rfl⟩ : ∃ root, hp = [root] := by
        apply List.length_eq_one.mp
        have := List.length_pos.mpr hne
        omega
      exact ⟨root, by simp [build_merge], fun B Q _ _ => by simp⟩

theorem build_leaves_isHeap (freq : Nat → Nat) (syms : List Nat) :
    ∀ (hp : List HNode) (u : Nat), IsHeap hp → IsHeap (build_leaves freq syms (hp, u)).1 := by
  induction syms with
  | nil => intro hp u h; exact h
  | cons s ss ih =>
    intro hp u h
    unfold build_leaves
    split
    · exact ih _ _ (heap_push_isHeap hp _ h)
    · exact ih _ _ h

end Encoder

namespace Encoder

/-- The weighted path length of a tree in terms of the lengths of the code
strings that `gen_codes` stores for its leaves. -/
theorem wpl_eq_sum (codes : Codes) (t : HNode) :
    ∀ buf : List Char, (t.is_leaf = true → buf ≠ []) →
      (∀ p ∈ paths t buf, codes p.1 = some p.2) →
      (t.leaves.map (fun q => q.2 * ((codes q.1).getD []).length)).sum =
        HNode.wpl buf.length t := by
  induction t with
  | leaf s f =>
    intro buf hbuf hp
    have hb : buf ≠ [] := hbuf rfl
    have := hp (s, buf) (by simp [paths, hb])
    simp only at this
    simp [HNode.leaves, HNode.wpl, this]
  | node l r f ihl ihr =>
    intro buf _ hp
    simp only [paths, List.mem_append] at hp
    have h1 := ihl (buf ++ ['0']) (fun _ => by simp) (fun p h => hp p (Or.inl h))
    have h2 := ihr (buf ++ ['1']) (fun _ => by simp) (fun p h => hp p (Or.inr h))
    simp only [List.length_append, List.length_singleton] at h1 h2
    simp only [HNode.leaves, List.map_append, List.sum_append, HNode.wpl, h1, h2]

theorem sum_filter_pos (freq g : Nat → Nat) (l : List Nat) :
    ((l.filter (fun s => 0 < freq s)).map (fun s => freq s * g s)).sum =
      (l.map (fun s => freq s * g s)).sum := by
  induction l with
  | nil => rfl
  | cons s l ih =>
    by_cases h : 0 < freq s
    · simp [List.filter_cons, h, ih]
    · have h0 : freq s = 0 := by omega
      simp [List.filter_cons, h, ih, h0]

theorem sum_filter_le (freq : Nat → Nat) (l : List Nat) :
    ((l.filter (fun s => 0 < freq s)).map freq).sum ≤ (l.map freq).sum := by
  induction l with
  | nil => simp
  | cons s l ih =>
    by_cases h : 0 < freq s
    · simp [List.filter_cons, h]; omega
    · simp [List.filter_cons, h]; omega

/-- With at least two nonzero entries, `build_huffman` returns the tree the merge
loop leaves in the heap. -/
theorem build_huffman_of_merge (freq : Nat → Nat) (root : HNode)
    (h2 : 2 ≤ (build_leaves freq (List.range 256) ([], 0)).2)
    (hm : build_merge (build_leaves freq (List.range 256) ([], 0)).1.length
      (build_leaves freq (List.range 256) ([], 0)).1 = some [root]) :
    build_huffman freq = some (root, (build_leaves freq (List.range 256) ([], 0)).2) := by
  unfold build_huffman
  simp only []
  rw [if_neg (by omega), if_neg (by omega), hm]
  simp only [heap_pop_singleton]

end Encoder

namespace Encoder

/-- The tree `build_huffman` returns for a table with at least two nonzero
entries whose frequencies add up to less than `2^64`: its leaves are the symbols of
nonzero frequency, and the code `gen_codes` reads off it costs no more than any
prefix-free code for those symbols. -/
theorem build_huffman_optimal (freq : Nat → Nat)
    (hsum : ((List.range 256).map freq).sum < 2 ^ 64)
    (h2 : ∃ s s', s < 256 ∧ s' < 256 ∧ s ≠ s' ∧ 0 < freq s ∧ 0 < freq s') :
    ∃ root unique, build_huffman freq = some (root, unique) ∧
      root.is_leaf = false ∧ root.syms.Nodup ∧
      (∀ s, s < 256 → 0 < freq s → s ∈ root.syms) ∧ root.leaves.length ≤ 256 ∧
      List.Perm root.leaves
        (((List.range 256).filter (fun s => 0 < freq s)).map (fun s => (s, freq s))) ∧
      ∀ c : Nat → List Bool,
        (∀ s s', s < 256 → s' < 256 → 0 < freq s → 0 < freq s' → s ≠ s' →
          ¬ c s <+: c s') →
        total_cost freq (fun s => ((gen_codes root [] (fun _ => none) s).getD []).length) ≤
          total_cost freq (fun s => (c s).length) := by
  obtain ⟨s1, s2, hs1, hs2, hne12, hf1, hf2⟩ := h2
  obtain ⟨hperm, huniq⟩ := build_leaves_spec freq (List.range 256) [] 0
  simp only [List.append_nil, Nat.zero_add] at hperm huniq
  have hlen : (initial_leaves freq (List.range 256)).length =
      ((List.range 256).filter (fun s => 0 < freq s)).length := by
    simp [initial_leaves]
  have hPmem : ∀ s, s ∈ (List.range 256).filter (fun s => 0 < freq s) ↔
      s < 256 ∧ 0 < freq s := by
    intro s; simp [List.mem_filter]
  have hPnd : ((List.range 256).filter (fun s => 0 < freq s)).Nodup :=
    (List.nodup_range 256).filter _
  have hinit : initial_leaves freq (List.range 256) =
      ((List.range 256).filter (fun s => 0 < freq s)).map
        (fun s => hn_new_leaf s (freq s)) := rfl
  generalize hP : (List.range 256).filter (fun s => 0 < freq s) = P at *
  generalize hst : build_leaves freq (List.range 256) ([], 0) = st at *
  have hP2 : 2 ≤ P.length := by
    have m1 : s1 ∈ P := (hPmem s1).mpr ⟨hs1, hf1⟩
    have m2 : s2 ∈ P := (hPmem s2).mpr ⟨hs2, hf2⟩
    match P, m1, m2 with
    | [], m1, _ => simp at m1
    | [x], m1, m2 =>
      simp only [List.mem_singleton] at m1 m2
      exact absurd (m1.trans m2.symm) hne12
    | _ :: _ :: _, _, _ => simp
  have hst2 : 2 ≤ st.2 := by rw [huniq, hlen]; exact hP2
  have hne : st.1 ≠ [] := by
    intro h
    have := hperm.length_eq
    rw [h, hlen] at this
    simp at this
    omega
  have hheap : IsHeap st.1 := by
    rw [← hst]
    exact build_leaves_isHeap freq _ [] 0 (fun i _ hi => absurd hi (by simp))
  have hexact : ∀ t ∈ st.1, t.freq = t.weight := by
    intro t ht
    have := hperm.mem_iff.mp ht
    rw [hinit] at this
    obtain ⟨s, _, rfl⟩ := List.mem_map.mp this
    rfl
  have hfreqs : (st.1.map HNode.freq).Perm (P.map freq) := by
    have := hperm.map HNode.freq
    rw [hinit, List.map_map] at this
    exact this
  have hweights : (st.1.map HNode.weight).sum = (P.map freq).sum := by
    have := (hperm.map HNode.weight).sum_eq
    rw [hinit, List.map_map] at this
    exact this
  have hwpl : (st.1.map (HNode.wpl 0)).sum = 0 := by
    have := (hperm.map (HNode.wpl 0)).sum_eq
    rw [hinit, List.map_map] at this
    rw [this]
    apply List.sum_eq_zero
    intro x hx
    obtain ⟨s, _, rfl⟩ := List.mem_map.mp hx
    rfl
  have hsumle : (st.1.map HNode.weight).sum < 2 ^ 64 := by
    rw [hweights, ← hP]
    exact lt_of_le_of_lt (sum_filter_le freq _) hsum
  obtain ⟨root, hm, hbound⟩ :=
    build_merge_optimal st.1.length st.1 (Nat.le_succ _) hne hheap hexact hsumle
  have hb : build_huffman freq = some (root, st.2) := by
    have := build_huffman_of_merge freq root (by rw [hst]; exact hst2) (by rw [hst]; exact hm)
    rw [hst] at this
    exact this
  obtain ⟨root', unique', hb', hleaf, hnd, hmem, _, hleaves⟩ :=
    build_huffman_tree freq ⟨s1, hs1, hf1⟩
  have hr : root' = root := by
    rw [hb] at hb'
    simp only [Option.some.injEq, Prod.mk.injEq] at hb'
    exact hb'.1.symm
  subst hr
  obtain ⟨root'', unique'', hb'', hu'', hcases⟩ := build_huffman_cases freq ⟨s1, hs1, hf1⟩
  rw [hP] at hu'' hcases
  have hr : root'' = root' := by
    rw [hb] at hb''
    simp only [Option.some.injEq, Prod.mk.injEq] at hb''
    exact hb''.1.symm
  subst hr
  have hlv : List.Perm root''.leaves (P.map (fun s => (s, freq s))) := by
    rcases hcases with ⟨h1, _⟩ | ⟨_, _, h⟩
    · omega
    · exact h
  refine ⟨root'', st.2, hb, hleaf, hnd, hmem, hleaves, hlv, ?_⟩
  intro c hc
  have hcodes : ∀ p ∈ paths root'' [], gen_codes root'' [] (fun _ => none) p.1 = some p.2 := by
    intro p hp
    rw [gen_codes_eq_foldl]
    exact foldl_update_mem _ _ _ _ (by rw [paths_map_fst]; exact hnd) hp
  have hw := wpl_eq_sum (gen_codes root'' [] (fun _ => none)) root'' []
    (fun h => by rw [hleaf] at h; cases h) hcodes
  have hw2 := (hlv.map
    (fun q => q.2 * ((gen_codes root'' [] (fun _ => none) q.1).getD []).length)).sum_eq
  rw [hw, List.map_map] at hw2
  have hlhs : total_cost freq
      (fun s => ((gen_codes root'' [] (fun _ => none) s).getD []).length) =
      HNode.wpl 0 root'' := by
    unfold total_cost
    rw [← sum_filter_pos, hP]
    exact hw2.symm
  have hrhs : total_cost freq (fun s => (c s).length) =
      cost (P.map (fun s => (freq s, (c s).length))) := by
    unfold total_cost cost
    rw [← sum_filter_pos, hP, List.map_map]
    rfl
  rw [hlhs, hrhs]
  have hfeas : Feasible ((P.map (fun s => (c s).length)).sum)
      (P.map (fun s => (freq s, (c s).length))) := by
    constructor
    · intro p hp
      obtain ⟨s, hs, rfl⟩ := List.mem_map.mp hp
      exact mem_le_sum _ _ (List.mem_map_of_mem (fun s => (c s).length) hs)
    · have hk : kraft ((P.map (fun s => (c s).length)).sum)
          (P.map (fun s => (freq s, (c s).length))) =
          ((P.map c).map (fun x => 2 ^ ((P.map (fun s => (c s).length)).sum - x.length))).sum := by
        unfold kraft
        rw [List.map_map, List.map_map]
        rfl
      rw [hk]
      apply kraft_of_prefix_free
      · rw [List.pairwise_map]
        refine List.Pairwise.imp_of_mem ?_ hPnd
        intro a b ha hb hab
        have ha' := (hPmem a).mp ha
        have hb' := (hPmem b).mp hb
        exact ⟨hc a b ha'.1 hb'.1 ha'.2 hb'.2 hab, hc b a hb'.1 ha'.1 hb'.2 ha'.2 hab.symm⟩
      · intro x hx
        obtain ⟨s, hs, rfl⟩ := List.mem_map.mp hx
        exact mem_le_sum _ _ (List.mem_map_of_mem (fun s => (c s).length) hs)
  have := hbound _ _ hfeas (by
    rw [List.map_map]
    exact hfreqs.symm)
  rw [hwpl] at this
  omega

/-- C12. For every frequency table with at least two nonzero entries, the entries
adding up to less than `2^64` (as they do in every table `build_huffman` receives:
its caller counts the table from a payload of `long sz` bytes, and the counts add up
to `sz`), the codes produced by `build_huffman` and `gen_codes` form a prefix-free
binary code on the symbols with nonzero frequency, and their total cost (the sum
over the symbols of `freq[s] * length(code[s])`) is at most the total cost of every
prefix-free binary code on those symbols. -/
theorem huffman_codes_optimal (freq : Nat → Nat)
    (hsum : ((List.range 256).map freq).sum < 2 ^ 64)
    (h2 : ∃ s s', s < 256 ∧ s' < 256 ∧ s ≠ s' ∧ 0 < freq s ∧ 0 < freq s') :
    ∃ codes, huffman_codes freq = some codes ∧
      (∀ s s', s < 256 → s' < 256 → 0 < freq s → 0 < freq s' → s ≠ s' →
        ¬ code_bits ((codes s).getD []) <+: code_bits ((codes s').getD [])) ∧
      ∀ c : Nat → List Bool,
        (∀ s s', s < 256 → s' < 256 → 0 < freq s → 0 < freq s' → s ≠ s' →
          ¬ c s <+: c s') →
        total_cost freq (fun s => ((codes s).getD []).length) ≤
          total_cost freq (fun s => (c s).length) := by
  obtain ⟨root, unique, hb, _, hnd, hmem, hleaves, _, hopt⟩ := build_huffman_optimal freq hsum h2
  obtain ⟨_, hfree⟩ := codes_facts root hnd hleaves
  refine ⟨gen_codes root [] (fun _ => none), by simp [huffman_codes, hb], ?_, hopt⟩
  intro s s' hs hs' hf hf' hne'
  exact hfree s (hmem s hs hf) s' (hmem s' hs' hf') hne'

end Encoder

namespace Encoder

set_option maxRecDepth 100000 in
/-- Witness for `huffman_codes_optimal`: the table with `freq[65] = 3`,
`freq[66] = 1` and zero elsewhere. -/
theorem huffman_codes_optimal_witness :
    ((List.range 256).map (fun s => if s = 65 then 3 else if s = 66 then 1 else 0)).sum
      < 2 ^ 64 ∧
    (∃ s s', s < 256 ∧ s' < 256 ∧ s ≠ s' ∧
      0 < (fun s => if s = 65 then 3 else if s = 66 then 1 else 0 : Nat → Nat) s ∧
      0 < (fun s => if s = 65 then 3 else if s = 66 then 1 else 0 : Nat → Nat) s') ∧
    ∃ codes, huffman_codes (fun s => if s = 65 then 3 else if s = 66 then 1 else 0)
        = some codes ∧
      (∀ s s', s < 256 → s' < 256 →
        0 < (fun s => if s = 65 then 3 else if s = 66 then 1 else 0 : Nat → Nat) s →
        0 < (fun s => if s = 65 then 3 else if s = 66 then 1 else 0 : Nat → Nat) s' →
        s ≠ s' →
        ¬ code_bits ((codes s).getD []) <+: code_bits ((codes s').getD [])) ∧
      ∀ c : Nat → List Bool,
        (∀ s s', s < 256 → s' < 256 →
          0 < (fun s => if s = 65 then 3 else if s = 66 then 1 else 0 : Nat → Nat) s →
          0 < (fun s => if s = 65 then 3 else if s = 66 then 1 else 0 : Nat → Nat) s' →
          s ≠ s' → ¬ c s <+: c s') →
        total_cost (fun s => if s = 65 then 3 else if s = 66 then 1 else 0)
            (fun s => ((codes s).getD []).length) ≤
          total_cost (fun s => if s = 65 then 3 else if s = 66 then 1 else 0)
            (fun s => (c s).length) :=
  ⟨by decide, ⟨65, 66, by decide⟩,
    huffman_codes_optimal _ (by decide) ⟨65, 66, by decide⟩⟩

set_option maxRecDepth 100000 in
/-- Outside the tables counted from a payload, when the frequencies add up to
`2^64` or more, the sum in `hn_new_internal` wraps around: for the
table `freq[0] = freq[1] = 2^63`, `freq[2] = 2^63 + 1`, `freq[3] = 2^64 - 1` (zero
elsewhere) the first merge wraps to frequency 0, `build_huffman` returns the tree
`(((0 1) 2) 3)` with code lengths 3, 3, 2, 1 and total cost `10 * 2^63 + 1`, while
the prefix-free code `00`, `01`, `10`, `11` has total cost `10 * 2^63`. -/
theorem huffman_codes_not_optimal_wrap :
    ∃ (freq : Nat → Nat) (root : HNode) (c : Nat → List Bool),
      (∀ s, freq s < 2 ^ 64) ∧
      (∃ s s', s < 256 ∧ s' < 256 ∧ s ≠ s' ∧ 0 < freq s ∧ 0 < freq s') ∧
      build_huffman freq = some (root, 4) ∧
      huffman_codes freq = some (gen_codes root [] (fun _ => none)) ∧
      (∀ s s', s < 256 → s' < 256 → 0 < freq s → 0 < freq s' → s ≠ s' → ¬ c s <+: c s') ∧
      total_cost freq (fun s => (c s).length) = 10 * 2 ^ 63 ∧
      total_cost freq (fun s => ((gen_codes root [] (fun _ => none) s).getD []).length) =
        10 * 2 ^ 63 + 1 := by
  have hb : build_huffman (fun s => if s = 0 then 2 ^ 63 else if s = 1 then 2 ^ 63
        else if s = 2 then 2 ^ 63 + 1 else if s = 3 then 2 ^ 64 - 1 else 0) =
      some (HNode.node (HNode.node (HNode.node (HNode.leaf 0 (2 ^ 63)) (HNode.leaf 1 (2 ^ 63)) 0)
        (HNode.leaf 2 (2 ^ 63 + 1)) (2 ^ 63 + 1)) (HNode.leaf 3 (2 ^ 64 - 1)) (2 ^ 63), 4) := by
    decide
  refine ⟨fun s => if s = 0 then 2 ^ 63 else if s = 1 then 2 ^ 63
      else if s = 2 then 2 ^ 63 + 1 else if s = 3 then 2 ^ 64 - 1 else 0,
    HNode.node (HNode.node (HNode.node (HNode.leaf 0 (2 ^ 63)) (HNode.leaf 1 (2 ^ 63)) 0)
      (HNode.leaf 2 (2 ^ 63 + 1)) (2 ^ 63 + 1)) (HNode.leaf 3 (2 ^ 64 - 1)) (2 ^ 63),
    fun s => if s = 0 then [false, false] else if s = 1 then [false, true]
      else if s = 2 then [true, false] else [true, true],
    ?_, ⟨0, 1, by decide⟩, hb, ?_, ?_, by decide, by decide⟩
  · intro s
    simp only []
    split_ifs <;> norm_num
  · simp only [huffman_codes, hb]
  · intro s s' _ _ hf hf' hne
    have h4 : ∀ t : Nat, 0 < (if t = 0 then 2 ^ 63 else if t = 1 then 2 ^ 63
        else if t = 2 then 2 ^ 63 + 1 else if t = 3 then 2 ^ 64 - 1 else 0 : Nat) →
        t < 4 := by
      intro t ht
      by_contra hge
      have e0 : ¬ t = 0 := by omega
      have e1 : ¬ t = 1 := by omega
      have e2 : ¬ t = 2 := by omega
      have e3 : ¬ t = 3 := by omega
      simp only [e0, e1, e2, e3, if_false] at ht
      exact absurd ht (lt_irrefl 0)
    have hs := h4 s hf
    have hs' := h4 s' hf'
    interval_cases s <;> interval_cases s' <;> first | exact absurd rfl hne | decide

end Encoder

/-! ## Error handling of the readers -/

namespace Decoder

open Encoder (code_bits)

theorem insert_code_ne_null (code : List Char) (sym : Nat) :
    ∀ t t' : HNode, insert_code t code sym = some t' → t' ≠ HNode.null := by
  induction code with
  | nil =>
    intro t t' h
    cases t with
    | null => simp [insert_code] at h
    | node il s z o =>
      simp only [insert_code, Option.some.injEq] at h
      rw [← h]; simp
  | cons p ps ih =>
    intro t t' h
    cases t with
    | null => simp [insert_code] at h
    | node il s z o =>
      simp only [insert_code] at h
      by_cases h0 : p = '0'
      · rw [if_pos h0] at h
        generalize (if z = HNode.null then hn_new else z) = z0 at h
        cases hz : insert_code z0 ps sym with
        | none => rw [hz] at h; cases h
        | some z' =>
          rw [hz] at h
          simp only [Option.some.injEq] at h
          rw [← h]; simp
      · rw [if_neg h0] at h
        by_cases h1 : p = '1'
        · rw [if_pos h1] at h
          generalize (if o = HNode.null then hn_new else o) = o0 at h
          cases ho : insert_code o0 ps sym with
          | none => rw [ho] at h; cases h
          | some o' =>
            rw [ho] at h
            simp only [Option.some.injEq] at h
            rw [← h]; simp
        · rw [if_neg h1] at h
          cases h

/-- From a node that exists, `insert_code` dies exactly on a code with a character
other than `'0'` and `'1'`. -/
theorem insert_code_eq_none (code : List Char) (sym : Nat) :
    ∀ t : HNode, t ≠ HNode.null →
      (insert_code t code sym = none ↔ ∃ ch ∈ code, ch ≠ '0' ∧ ch ≠ '1') := by
  induction code with
  | nil =>
    intro t ht
    cases t with
    | null => exact absurd rfl ht
    | node il s z o => simp [insert_code]
  | cons p ps ih =>
    intro t ht
    cases t with
    | null => exact absurd rfl ht
    | node il s z o =>
      have hz : (if z = HNode.null then hn_new else z) ≠ HNode.null := by
        split_ifs with h
        · simp [hn_new]
        · exact h
      have ho : (if o = HNode.null then hn_new else o) ≠ HNode.null := by
        split_ifs with h
        · simp [hn_new]
        · exact h
      simp only [insert_code, List.mem_cons, exists_eq_or_imp]
      by_cases h0 : p = '0'
      · rw [if_pos h0]
        have := ih _ hz
        cases hi : insert_code (if z = HNode.null then hn_new else z) ps sym with
        | none =>
          rw [hi] at this
          simp only [true_iff] at this ⊢
          exact Or.inr this
        | some z' =>
          rw [hi] at this
          simp only [false_iff, reduceCtorEq] at this ⊢
          rintro (⟨h, _⟩ | h)
          · exact h h0
          · exact this h
      · rw [if_neg h0]
        by_cases h1 : p = '1'
        · rw [if_pos h1]
          have := ih _ ho
          cases hi : insert_code (if o = HNode.null then hn_new else o) ps sym with
          | none =>
            rw [hi] at this
            simp only [true_iff] at this ⊢
            exact Or.inr this
          | some o' =>
            rw [hi] at this
            simp only [false_iff, reduceCtorEq] at this ⊢
            rintro (⟨_, h⟩ | h)
            · exact h h1
            · exact this h
        · rw [if_neg h1]
          simp only [true_iff]
          exact Or.inl ⟨h0, h1⟩

/-- The symbol loop of `load_codebook_build_trie` dies exactly when some line that
converts has a symbol outside `0..255` or a character other than `'0'`, `'1'` in
the converted code. -/
theorem load_entries_eq_none (lines : List Line) :
    ∀ t : HNode, t ≠ HNode.null →
      (load_entries lines t = none ↔
        ∃ sym freq code, Line.entry sym freq code ∈ lines ∧ code ≠ [] ∧
          (sym < 0 ∨ 255 < sym ∨ ∃ ch ∈ code.take 2047, ch ≠ '0' ∧ ch ≠ '1')) := by
  induction lines with
  | nil => intro t _; simp [load_entries]
  | cons l ls ih =>
    intro t ht
    have hskip : ∀ (P : Prop), (∀ sym freq code, l = Line.entry sym freq code →
        ¬ (code ≠ [] ∧ (sym < 0 ∨ 255 < sym ∨ ∃ ch ∈ code.take 2047, ch ≠ '0' ∧ ch ≠ '1'))) →
        ((∃ sym freq code, Line.entry sym freq code ∈ l :: ls ∧ code ≠ [] ∧
          (sym < 0 ∨ 255 < sym ∨ ∃ ch ∈ code.take 2047, ch ≠ '0' ∧ ch ≠ '1')) ↔
         (∃ sym freq code, Line.entry sym freq code ∈ ls ∧ code ≠ [] ∧
          (sym < 0 ∨ 255 < sym ∨ ∃ ch ∈ code.take 2047, ch ≠ '0' ∧ ch ≠ '1'))) := by
      intro _ hl
      constructor
      · rintro ⟨sym, freq, code, hm, hc⟩
        rcases List.mem_cons.mp hm with h | h
        · exact absurd hc (hl sym freq code h.symm)
        · exact ⟨sym, freq, code, h, hc⟩
      · rintro ⟨sym, freq, code, hm, hc⟩
        exact ⟨sym, freq, code, List.mem_cons_of_mem _ hm, hc⟩
    cases l with
    | entry sym freq code =>
      simp only [load_entries]
      by_cases hc : code = []
      · rw [if_pos hc, ih t ht]
        exact (hskip True (by
          intro s f c h
          cases h
          exact fun h => h.1 hc)).symm
      · rw [if_neg hc]
        by_cases hs : sym < 0 ∨ 255 < sym
        · rw [if_pos hs]
          simp only [true_iff]
          refine ⟨sym, freq, code, List.mem_cons_self _ _, hc, ?_⟩
          rcases hs with h | h
          · exact Or.inl h
          · exact Or.inr (Or.inl h)
        · rw [if_neg hs]
          cases hi : insert_code t (code.take 2047) sym.toNat with
          | none =>
            simp only [true_iff]
            have := (insert_code_eq_none _ _ t ht).mp hi
            exact ⟨sym, freq, code, List.mem_cons_self _ _, hc, Or.inr (Or.inr this)⟩
          | some t1 =>
            simp only []
            rw [ih t1 (insert_code_ne_null _ _ t t1 hi)]
            refine (hskip True ?_).symm
            intro s f c h
            cases h
            rintro ⟨_, h | h | h⟩
            · exact hs (Or.inl h)
            · exact hs (Or.inr h)
            · have := (insert_code_eq_none (code.take 2047) sym.toNat t ht).mpr h
              rw [hi] at this
              cases this
    | tag =>
      simp only [load_entries]
      rw [ih t ht]
      exact (hskip True (by intro s f c h; cases h)).symm
    | payload_size n =>
      simp only [load_entries]
      rw [ih t ht]
      exact (hskip True (by intro s f c h; cases h)).symm
    | unique k =>
      simp only [load_entries]
      rw [ih t ht]
      exact (hskip True (by intro s f c h; cases h)).symm
    | other text =>
      simp only [load_entries]
      rw [ih t ht]
      exact (hskip True (by intro s f c h; cases h)).symm

/-- C22. For every codebook with its three header lines, the second one converting
as `payload_size N`: `load_codebook_build_trie` fails if and only if some later
line that converts as (symbol, frequency, code) has a symbol outside `0..255` or a
converted code (at most 2047 characters) containing a character other than `'0'`
and `'1'`; otherwise it returns a trie and the payload size `N`. -/
theorem load_codebook_fails_iff (a c : Line) (n : Nat) (entries : List Line) :
    (load_codebook_build_trie (a :: Line.payload_size n :: c :: entries) = none ↔
      ∃ sym freq code, Line.entry sym freq code ∈ entries ∧ code ≠ [] ∧
        (sym < 0 ∨ 255 < sym ∨ ∃ ch ∈ code.take 2047, ch ≠ '0' ∧ ch ≠ '1')) ∧
    (load_codebook_build_trie (a :: Line.payload_size n :: c :: entries) ≠ none →
      ∃ T, T ≠ HNode.null ∧
        load_codebook_build_trie (a :: Line.payload_size n :: c :: entries) = some (T, n)) := by
  have hnew : hn_new ≠ HNode.null := by simp [hn_new]
  have key := load_entries_eq_none entries hn_new hnew
  simp only [load_codebook_build_trie]
  cases hl : load_entries entries hn_new with
  | none =>
    rw [hl] at key
    simp only [true_iff] at key
    simp only [true_iff, ne_eq, not_true_eq_false, false_implies, and_true]
    exact key
  | some T =>
    rw [hl] at key
    simp only [false_iff, reduceCtorEq] at key
    refine ⟨by simpa using key, fun _ => ⟨T, ?_, rfl⟩⟩
    clear key
    revert hl
    generalize hn_new = t0 at hnew
    induction entries generalizing t0 with
    | nil =>
      intro hl
      simp only [load_entries, Option.some.injEq] at hl
      rw [← hl]; exact hnew
    | cons l ls ih =>
      intro hl
      cases l with
      | entry sym freq code =>
        simp only [load_entries] at hl
        split_ifs at hl with h1 h2
        · exact ih t0 hnew hl
        · cases hi : insert_code t0 (code.take 2047) sym.toNat with
          | none => rw [hi] at hl; cases hl
          | some t1 =>
            rw [hi] at hl
            exact ih t1 (insert_code_ne_null _ _ t0 t1 hi) hl
      | tag => exact ih t0 hnew (by simpa [load_entries] using hl)
      | payload_size n => exact ih t0 hnew (by simpa [load_entries] using hl)
      | unique k => exact ih t0 hnew (by simpa [load_entries] using hl)
      | other text => exact ih t0 hnew (by simpa [load_entries] using hl)

end Decoder

namespace Decoder

/-- C21 (code defect). `load_codebook_build_trie` never looks at the first line
of the codebook: the result is the same as with the line `M3_BYTE_HUFFMAN`, and the
codebook `X / payload_size 1 / unique 1 / 65 1 0` is loaded.  The binary readers do
check their tags: they succeed only on `M3B0` and `M2B0`. -/
theorem codebook_tag_unchecked {α : Type} [LinearOrderedField α] [FloorRing α] :
    (∀ (a : Line) (rest : List Line),
      load_codebook_build_trie (a :: rest) = load_codebook_build_trie (Line.tag :: rest)) ∧
    load_codebook_build_trie
        [Line.other ['X'], Line.payload_size 1, Line.unique 1, Line.entry 65 1 ['0']] =
      some (HNode.node false 0 (HNode.node true 65 HNode.null HNode.null) HNode.null, 1) ∧
    (∀ (f : M3File) (root : HNode) (want : Nat),
      huffman_decode_binary f root want ≠ none → f.magic = ['M', '3', 'B', '0']) ∧
    (∀ (COS8 : Nat → Nat → α) (A8 : Nat → α) (magic : List Char) (W H bw bh : Int)
      (records : List Record) (Wd Hd : Int) (has : Bool),
      decode_method2_from_file COS8 A8 (RleFile.binary magic W H bw bh records) Wd Hd has ≠ none →
        magic = ['M', '2', 'B', '0']) := by
  refine ⟨?_, by decide, ?_, ?_⟩
  · intro a rest
    cases rest with
    | nil => rfl
    | cons b rest => cases b <;> rfl
  · intro f root want h
    by_contra hm
    apply h
    unfold huffman_decode_binary
    rw [if_pos hm]
  · intro COS8 A8 magic W H bw bh records Wd Hd has h
    by_contra hm
    apply h
    simp only [decode_method2_from_file]
    rw [if_pos hm]

/-- C24. For every RLE file and every width and height supplied from `dim.txt`,
`decode_method2_from_file` fails or succeeds as it does without them, and hands
the same dimensions and the same stores into the planes to the BMP writer; on
success the dimensions are the ones declared in the file. -/
theorem decode_method2_dim_independent {α : Type} [LinearOrderedField α] [FloorRing α]
    (COS8 : Nat → Nat → α) (A8 : Nat → α) (f : RleFile) (Wd Hd : Int) (has : Bool) :
    (decode_method2_from_file COS8 A8 f Wd Hd has).map Prod.snd =
      (decode_method2_from_file COS8 A8 f 0 0 false).map Prod.snd ∧
    ∀ ws d, decode_method2_from_file COS8 A8 f Wd Hd has = some (ws, d) →
      match f with
      | RleFile.ascii (some (W, H)) _ => d.W = W ∧ d.H = H
      | RleFile.ascii none _ => False
      | RleFile.binary _ W H _ _ _ => d.W = W ∧ d.H = H := by
  have body : ∀ (W H bw bh : Int) (w1 w2 : List Warning) (items : List Item),
      (decode_body COS8 A8 W H bw bh w1 items).map Prod.snd =
        (decode_body COS8 A8 W H bw bh w2 items).map Prod.snd ∧
      ∀ ws d, decode_body COS8 A8 W H bw bh w1 items = some (ws, d) → d.W = W ∧ d.H = H := by
    intro W H bw bh w1 w2 items
    unfold decode_body
    cases decode_blocks_px COS8 A8 W H (block_indices bh.toNat bw.toNat) (fun _ => 0) items with
    | none => exact ⟨rfl, fun ws d h => by cases h⟩
    | some r =>
      refine ⟨rfl, ?_⟩
      intro ws d h
      simp only [Option.some.injEq, Prod.mk.injEq] at h
      rw [← h.2]
      exact ⟨rfl, rfl⟩
  cases f with
  | ascii header lines =>
    cases header with
    | none => exact ⟨rfl, fun ws d h => by simp [decode_method2_from_file] at h⟩
    | some wh =>
      obtain ⟨W, H⟩ := wh
      simp only [decode_method2_from_file]
      exact body _ _ _ _ _ _ _
  | binary magic W H bw bh records =>
    simp only [decode_method2_from_file]
    by_cases hm : magic ≠ ['M', '2', 'B', '0']
    · simp only [if_pos hm]
      exact ⟨trivial, fun ws d h => by cases h⟩
    · simp only [if_neg hm]
      exact body _ _ _ _ _ _ _

end Decoder

/-- C25. The decoder's constant tables equal the encoder's entry for entry: the
zigzag tables `ZZU` and `ZZV` (64 entries each), the luma table (`QY = QT_Y`) and
the chroma table (`QC = QT_C`), 8 rows of 8 entries. -/
theorem decoder_tables_eq :
    Decoder.ZZU = Encoder.ZZU ∧ Decoder.ZZV = Encoder.ZZV ∧
    Decoder.ZZU.length = 64 ∧ Decoder.ZZV.length = 64 ∧
    Decoder.QY = Encoder.QT_Y ∧ Decoder.QC = Encoder.QT_C ∧
    Decoder.QY.map List.length = List.replicate 8 8 ∧
    Decoder.QC.map List.length = List.replicate 8 8 := by
  decide

/-! ## The run-length code against its description -/

namespace Encoder

theorem nonzero_from_eq (w : List Int) :
    ∀ o : Nat, nonzero_from o w =
      ((List.range w.length).filter (fun i => w.getD i 0 ≠ 0)).map (fun i => i + o) := by
  induction w with
  | nil => intro o; rfl
  | cons x xs ih =>
    intro o
    have hcomp : ((fun i => decide ((x :: xs).getD i 0 ≠ 0)) ∘ Nat.succ) =
        (fun i => decide (xs.getD i 0 ≠ 0)) := by
      funext i
      simp [List.getD_eq_getElem?_getD]
    have hmap : ((fun i => i + o) ∘ Nat.succ) = (fun i => i + (o + 1)) := by
      funext i
      simp only [Function.comp, Nat.succ_eq_add_one]
      omega
    rw [List.length_cons, List.range_succ_eq_map, List.filter_cons, List.filter_map, hcomp]
    have h0 : (x :: xs).getD 0 0 = x := rfl
    rw [h0]
    by_cases hx : x = 0
    · simp only [nonzero_from, hx, ne_eq, not_true_eq_false, decide_False, if_false,
        Bool.false_eq_true, List.map_map, hmap, ih (o + 1)]
    · simp only [nonzero_from, hx, ne_eq, not_false_eq_true, decide_True, if_true,
        List.map_cons, List.map_map, hmap, ih (o + 1), Nat.zero_add]

theorem nonzero_indices_eq (v : List Int) : nonzero_indices v = nonzero_from 0 v := by
  rw [nonzero_from_eq]
  simp [nonzero_indices]

/-- The RLE loop on the part of a vector that starts at index `o`, the last
nonzero entry before it being at index `prev`. -/
theorem rle_loop_eq (g : Nat → Int) (w : List Int) :
    ∀ (o : Nat) (prev zc : Int), zc = (o : Int) - prev - 1 → 0 ≤ zc →
      zc + w.length ≤ 32767 → (∀ i, i < w.length → w.getD i 0 = g (o + i)) →
      rle_loop w zc =
        List.zipWith (fun (p : Int) (i : Nat) => ({ skip := (i : Int) - p - 1, val := g i } : Pair))
          (prev :: (nonzero_from o w).map Int.ofNat) (nonzero_from o w) := by
  induction w with
  | nil => intro o prev zc _ _ _ _; simp [rle_loop, nonzero_from]
  | cons x xs ih =>
    intro o prev zc hzc h0 hlen hg
    simp only [List.length_cons] at hlen
    have hg' : ∀ i, i < xs.length → xs.getD i 0 = g (o + 1 + i) := by
      intro i hi
      have := hg (i + 1) (by simp; omega)
      simp only [List.getD_eq_getElem?_getD, List.getElem?_cons_succ] at this ⊢
      rw [this]
      congr 1
      omega
    by_cases hx : x = 0
    · simp only [rle_loop, nonzero_from, hx, if_true, ne_eq, not_true_eq_false, if_false]
      exact ih (o + 1) prev (zc + 1) (by push_cast; omega) (by omega) (by omega) hg'
    · simp only [rle_loop, nonzero_from, hx, if_false, ne_eq, not_false_eq_true, if_true,
        List.map_cons, List.zipWith_cons_cons]
      have hx0 : x = g o := by
        have := hg 0 (by simp)
        simpa using this
      have hi16 : i16 zc = zc := by
        unfold i16; omega
      rw [hi16, ← hx0, ← hzc]
      congr 1
      exact ih (o + 1) o 0 (by push_cast; omega) (le_refl _) (by omega) hg'

theorem rle_loop_vals (w : List Int) :
    ∀ zc : Int, (rle_loop w zc).map Pair.val = w.filter (fun x => x ≠ 0) := by
  induction w with
  | nil => intro zc; rfl
  | cons x xs ih =>
    intro zc
    by_cases hx : x = 0
    · simp [rle_loop, hx, ih]
    · simp [rle_loop, hx, ih]

/-- C28. For every 64-vector `v`, the encoder's RLE emits exactly the pairs of the
description `rle_spec`: one pair per nonzero entry of `v`, in index order, whose
value is that entry and whose skip is the number of entries strictly between it
and the previous nonzero entry (or the start), all of which are zero; the values of
the pairs are the nonzero entries of `v` in order, so zeros after the last nonzero
entry produce no pair and the all-zero vector yields the empty list. -/
theorem rle_pairs_spec (v : List Int) (hlen : v.length = 64) :
    rle v = rle_spec v ∧
    (rle v).length = (nonzero_indices v).length ∧
    (rle v).map Pair.val = v.filter (fun x => x ≠ 0) ∧
    (∀ i, i ∈ nonzero_indices v ↔ i < 64 ∧ v.getD i 0 ≠ 0) ∧
    (nonzero_indices v).Pairwise (fun i j => i < j) ∧
    ((∀ x ∈ v, x = 0) → rle v = []) := by
  have h1 : rle v = rle_spec v := by
    unfold rle rle_spec
    rw [nonzero_indices_eq]
    exact rle_loop_eq (fun i => v.getD i 0) v 0 (-1) 0 (by simp) (le_refl _)
      (by rw [hlen]; norm_num) (fun i _ => by simp)
  have hmem : ∀ i, i ∈ nonzero_indices v ↔ i < 64 ∧ v.getD i 0 ≠ 0 := by
    intro i
    simp [nonzero_indices, List.mem_filter, hlen]
  have hvals := rle_loop_vals v 0
  refine ⟨h1, ?_, hvals, hmem, ?_, ?_⟩
  · rw [h1]
    unfold rle_spec
    rw [List.length_zipWith]
    simp
  · unfold nonzero_indices
    exact (List.pairwise_lt_range _).filter _
  · intro hz
    have : v.filter (fun x => x ≠ 0) = [] := by
      rw [List.filter_eq_nil_iff]
      intro x hx
      simp [hz x hx]
    change (rle v).map Pair.val = _ at hvals
    rw [this] at hvals
    exact List.map_eq_nil_iff.mp hvals

/-- Witness for `rle_pairs_spec`: the vector `5, 0, 0, -3` followed by 60 zeros. -/
theorem rle_pairs_spec_witness :
    ([5, 0, 0, -3] ++ List.replicate 60 0 : List Int).length = 64 ∧
    rle ([5, 0, 0, -3] ++ List.replicate 60 0) = rle_spec ([5, 0, 0, -3] ++ List.replicate 60 0) ∧
    rle ([5, 0, 0, -3] ++ List.replicate 60 0) = [Pair.mk 0 5, Pair.mk 2 (-3)] :=
  ⟨by decide, (rle_pairs_spec _ (by decide)).1, by decide⟩

end Encoder

/-! ## Colour conversion -/

namespace Decoder

theorem i32_of_fits (x : Int) (h : -2 ^ 31 ≤ x ∧ x < 2 ^ 31) : i32 x = x := by
  unfold i32
  omega

theorem clampi_byte (x : Int) :
    0 ≤ clampi x 0 255 ∧ clampi x 0 255 ≤ 255 ∧ clampi x 0 255 = max 0 (min 255 x) := by
  unfold clampi
  split_ifs <;> omega

theorem clampi_byte_toNat (x : Int) :
    (clampi x 0 255 % 256).toNat = (clampi x 0 255).toNat ∧ (clampi x 0 255).toNat ≤ 255 := by
  obtain ⟨h0, h1, _⟩ := clampi_byte x
  constructor
  · congr 1; omega
  · omega

theorem ycbcr_to_rgb_examples :
    ycbcr_to_rgb (300 : ℚ) 128 128 = (255, 255, 255) ∧
    ycbcr_to_rgb (-5 : ℚ) 128 128 = (0, 0, 0) := by
  norm_num [ycbcr_to_rgb, Encoder.llround, i32, clampi]
  rfl

/-- The colour conversion in exact arithmetic.  For all values `Y`, `Cb`, `Cr`
whose three channel values
round to integers that fit the 32-bit `int`, `ycbcr_to_rgb` returns
`R = clamp(round(Y + 1.402(Cr-128)))`,
`G = clamp(round(Y - 0.344136(Cb-128) - 0.714136(Cr-128)))`,
`B = clamp(round(Y + 1.772(Cb-128)))`, with `round` to the nearest integer (halves
away from zero) and `clamp(x) = max 0 (min 255 x)`; for all values whatsoever every
output channel lies in `0..255`; `Y = 300`, `Cb = Cr = 128` gives `(255,255,255)`
and `Y = -5` gives `(0,0,0)`.  (Exact arithmetic in place of `double`.) -/
theorem ycbcr_to_rgb_spec {α : Type} [LinearOrderedField α] [FloorRing α] (Y Cb Cr : α)
    (hr : -2 ^ 31 ≤ Encoder.llround (Y + 1402 / 1000 * (Cr - 128)) ∧
      Encoder.llround (Y + 1402 / 1000 * (Cr - 128)) < 2 ^ 31)
    (hg : -2 ^ 31 ≤ Encoder.llround
        (Y - 344136 / 1000000 * (Cb - 128) - 714136 / 1000000 * (Cr - 128)) ∧
      Encoder.llround
        (Y - 344136 / 1000000 * (Cb - 128) - 714136 / 1000000 * (Cr - 128)) < 2 ^ 31)
    (hb : -2 ^ 31 ≤ Encoder.llround (Y + 1772 / 1000 * (Cb - 128)) ∧
      Encoder.llround (Y + 1772 / 1000 * (Cb - 128)) < 2 ^ 31) :
    ycbcr_to_rgb Y Cb Cr =
      ((max 0 (min 255 (Encoder.llround (Y + 1402 / 1000 * (Cr - 128))))).toNat,
       (max 0 (min 255 (Encoder.llround
          (Y - 344136 / 1000000 * (Cb - 128) - 714136 / 1000000 * (Cr - 128))))).toNat,
       (max 0 (min 255 (Encoder.llround (Y + 1772 / 1000 * (Cb - 128))))).toNat) ∧
    (∀ x : α, IsRoundHalfAway x (Encoder.llround x)) ∧
    (∀ Y' Cb' Cr' : α, (ycbcr_to_rgb Y' Cb' Cr').1 ≤ 255 ∧
      (ycbcr_to_rgb Y' Cb' Cr').2.1 ≤ 255 ∧ (ycbcr_to_rgb Y' Cb' Cr').2.2 ≤ 255) ∧
    ycbcr_to_rgb (300 : ℚ) 128 128 = (255, 255, 255) ∧
    ycbcr_to_rgb (-5 : ℚ) 128 128 = (0, 0, 0) := by
  refine ⟨?_, llround_isRoundHalfAway, ?_, ycbcr_to_rgb_examples⟩
  · unfold ycbcr_to_rgb
    simp only [i32_of_fits _ hr, i32_of_fits _ hg, i32_of_fits _ hb,
      (clampi_byte_toNat _).1]
    simp only [(clampi_byte _).2.2]
  · intro Y' Cb' Cr'
    unfold ycbcr_to_rgb
    simp only [(clampi_byte_toNat _).1]
    exact ⟨(clampi_byte_toNat _).2, (clampi_byte_toNat _).2, (clampi_byte_toNat _).2⟩

/-- An instance of `ycbcr_to_rgb_spec`: `Y = 100`, `Cb = 90`, `Cr = 200` over the
rationals. -/
theorem ycbcr_to_rgb_spec_witness :
    ycbcr_to_rgb (100 : ℚ) 90 200 = (201, 62, 33) ∧
    ycbcr_to_rgb (100 : ℚ) 90 200 =
      ((max 0 (min 255 (Encoder.llround ((100 : ℚ) + 1402 / 1000 * (200 - 128))))).toNat,
       (max 0 (min 255 (Encoder.llround
          ((100 : ℚ) - 344136 / 1000000 * (90 - 128) - 714136 / 1000000 * (200 - 128))))).toNat,
       (max 0 (min 255 (Encoder.llround ((100 : ℚ) + 1772 / 1000 * (90 - 128))))).toNat) :=
  ⟨by norm_num [ycbcr_to_rgb, Encoder.llround, i32, clampi]; exact ⟨rfl, rfl, rfl⟩,
    (ycbcr_to_rgb_spec (100 : ℚ) 90 200
      (by norm_num [Encoder.llround]) (by norm_num [Encoder.llround])
      (by norm_num [Encoder.llround])).1⟩

/-- In exact arithmetic too, values whose rounding does not fit the 32-bit `int`
are stored wrongly: for `Y = 2^31`, `Cb = Cr = 128` the cast `(int)llround(r)` wraps to `-2^31` and
`ycbcr_to_rgb` returns `(0,0,0)`, whereas `clamp(round(Y))` is 255. -/
theorem ycbcr_to_rgb_wraps :
    ycbcr_to_rgb (2147483648 : ℚ) 128 128 = (0, 0, 0) ∧
    max 0 (min 255 (Encoder.llround ((2147483648 : ℚ) + 1402 / 1000 * (128 - 128)))) = 255 := by
  norm_num [ycbcr_to_rgb, Encoder.llround, i32, clampi]

end Decoder

/-! ## Block geometry: edge replication and write-back -/

theorem nodup_flatMap_of_key {β γ : Type} (l : List β) (f : β → List γ) (key : γ → β)
    (hl : l.Nodup) (hf : ∀ x ∈ l, (f x).Nodup) (hk : ∀ x ∈ l, ∀ a ∈ f x, key a = x) :
    (l.flatMap f).Nodup := by
  rw [List.nodup_flatMap]
  refine ⟨hf, ?_⟩
  refine List.Pairwise.imp_of_mem ?_ hl
  intro x y hx hy hne
  show List.Disjoint (f x) (f y)
  intro a hax hay
  exact hne ((hk x hx a hax).symm.trans (hk y hy a hay))

namespace Decoder

theorem mem_stored_indices (W H bh bw a : Nat) :
    a ∈ stored_indices W H bh bw ↔
      ∃ m, m < bh ∧ ∃ n, n < bw ∧ ∃ i, i < 8 ∧ ∃ j, j < 8 ∧
        m * 8 + i < H ∧ n * 8 + j < W ∧ a = (m * 8 + i) * W + (n * 8 + j) := by
  unfold stored_indices
  simp only [List.mem_flatMap, List.mem_range]
  constructor
  · rintro ⟨m, hm, n, hn, i, hi, j, hj, h⟩
    split_ifs at h with hc
    · simp at h
    · simp only [List.mem_singleton] at h
      exact ⟨m, hm, n, hn, i, hi, j, hj, by omega, by omega, h⟩
  · rintro ⟨m, hm, n, hn, i, hi, j, hj, h1, h2, h⟩
    refine ⟨m, hm, n, hn, i, hi, j, hj, ?_⟩
    rw [if_neg (by omega)]
    simp [h]

theorem index_div_mod (W y x : Nat) (hx : x < W) :
    (y * W + x) / W = y ∧ (y * W + x) % W = x := by
  have hW : 0 < W := by omega
  constructor
  · rw [Nat.add_comm, Nat.add_mul_div_right _ _ hW, Nat.div_eq_of_lt hx, Nat.zero_add]
  · rw [Nat.add_comm, Nat.add_mul_mod_self_right, Nat.mod_eq_of_lt hx]

theorem stored_indices_nodup (W H bh bw : Nat) : (stored_indices W H bh bw).Nodup := by
  unfold stored_indices
  refine nodup_flatMap_of_key _ _ (fun a => a / W / 8) (List.nodup_range _) ?_ ?_
  · intro m _
    refine nodup_flatMap_of_key _ _ (fun a => a % W / 8) (List.nodup_range _) ?_ ?_
    · intro n _
      refine nodup_flatMap_of_key _ _ (fun a => a / W % 8) (List.nodup_range _) ?_ ?_
      · intro i _
        refine nodup_flatMap_of_key _ _ (fun a => a % W % 8) (List.nodup_range _) ?_ ?_
        · intro j _
          split_ifs
          · exact List.nodup_nil
          · exact List.nodup_singleton _
        · intro j hj a ha
          split_ifs at ha with hc
          · simp at ha
          · simp only [List.mem_singleton] at ha
            have := (index_div_mod W (m * 8 + i) (n * 8 + j) (by omega)).2
            have hj' := List.mem_range.mp hj
            simp only [ha, this]
            omega
      · intro i hi a ha
        simp only [List.mem_flatMap, List.mem_range] at ha
        obtain ⟨j, hj, ha⟩ := ha
        split_ifs at ha with hc
        · simp at ha
        · simp only [List.mem_singleton] at ha
          have := (index_div_mod W (m * 8 + i) (n * 8 + j) (by omega)).1
          have hi' := List.mem_range.mp hi
          simp only [ha, this]
          omega
    · intro n _ a ha
      simp only [List.mem_flatMap, List.mem_range] at ha
      obtain ⟨i, hi, j, hj, ha⟩ := ha
      split_ifs at ha with hc
      · simp at ha
      · simp only [List.mem_singleton] at ha
        have := (index_div_mod W (m * 8 + i) (n * 8 + j) (by omega)).2
        simp only [ha, this]
        omega
  · intro m _ a ha
    simp only [List.mem_flatMap, List.mem_range] at ha
    obtain ⟨n, _, i, hi, j, hj, ha⟩ := ha
    split_ifs at ha with hc
    · simp at ha
    · simp only [List.mem_singleton] at ha
      have := (index_div_mod W (m * 8 + i) (n * 8 + j) (by omega)).1
      simp only [ha, this]
      omega

/-- With `bw = ceil(W/8)` and `bh = ceil(H/8)`, the write-back loops store every
index of the `W x H` plane exactly once and no other index. -/
theorem stored_indices_perm (W H : Nat) :
    (stored_indices W H ((H + 7) / 8) ((W + 7) / 8)).Perm (List.range (W * H)) := by
  rw [List.perm_ext_iff_of_nodup (stored_indices_nodup _ _ _ _) (List.nodup_range _)]
  intro a
  rw [mem_stored_indices, List.mem_range]
  constructor
  · rintro ⟨m, _, n, _, i, _, j, _, h1, h2, rfl⟩
    calc (m * 8 + i) * W + (n * 8 + j) < (m * 8 + i) * W + W := by omega
      _ = (m * 8 + i + 1) * W := by ring
      _ ≤ H * W := Nat.mul_le_mul_right _ (by omega)
      _ = W * H := Nat.mul_comm _ _
  · intro ha
    have hW : 0 < W := by
      rcases Nat.eq_zero_or_pos W with h | h
      · rw [h] at ha; simp at ha
      · exact h
    have hy : a / W < H := Nat.div_lt_of_lt_mul ha
    have hx : a % W < W := Nat.mod_lt _ hW
    refine ⟨a / W / 8, by omega, a % W / 8, by omega, a / W % 8, by omega, a % W % 8, by omega,
      by omega, by omega, ?_⟩
    have e1 : a / W / 8 * 8 + a / W % 8 = a / W := by omega
    have e2 : a % W / 8 * 8 + a % W % 8 = a % W := by omega
    rw [e1, e2, Nat.mul_comm]
    exact (Nat.div_add_mod a W).symm

end Decoder

namespace Decoder

theorem flatMap_congr_mem {β γ : Type} {l : List β} {f g : β → List γ}
    (h : ∀ x ∈ l, f x = g x) : l.flatMap f = l.flatMap g := by
  induction l with
  | nil => rfl
  | cons a l ih =>
    rw [List.flatMap_cons, List.flatMap_cons, h a (List.mem_cons_self _ _),
      ih (fun x hx => h x (List.mem_cons_of_mem _ hx))]

/-- The index `y*W+x` of a sample inside a plane whose size fits the 32-bit `int`
is computed without wrap-around. -/
theorem i32_index (W H y x : Nat) (hy : y < H) (hx : x < W) (hWH : W * H < 2 ^ 31) :
    i32 (i32 ((y : Int) * (W : Int)) + (x : Int)) = ((y * W + x : Nat) : Int) ∧
      y * W + x < W * H := by
  have hlt : y * W + x < W * H := by
    calc y * W + x < y * W + W := by omega
      _ = (y + 1) * W := by ring
      _ ≤ H * W := Nat.mul_le_mul_right _ (by omega)
      _ = W * H := Nat.mul_comm _ _
  have hle : y * W ≤ y * W + x := Nat.le_add_right _ _
  have hc : ((y : Int) * (W : Int)) = ((y * W : Nat) : Int) := by push_cast; ring
  rw [hc]
  generalize y * W = p at *
  rw [i32_of_fits (p : Int) (by constructor <;> omega),
    i32_of_fits ((p : Int) + (x : Int)) (by constructor <;> omega)]
  exact ⟨by push_cast; ring, hlt⟩

/-- As long as the row and column numbers of the block and the size of the plane
fit the 32-bit `int`, the indices of `block_pixels` are the products and sums
computed without wrap-around. -/
theorem block_pixels_indices (W H m n : Nat) (hm : m * 8 + 7 < 2 ^ 31)
    (hn : n * 8 + 7 < 2 ^ 31) (hWH : W * H < 2 ^ 31) :
    (block_pixels (W : Int) (H : Int) m n).map (fun p => p.2.2) =
      ((List.range 8).flatMap (fun i => (List.range 8).flatMap (fun j =>
        if H ≤ m * 8 + i ∨ W ≤ n * 8 + j then []
        else [(m * 8 + i) * W + (n * 8 + j)]))).map Int.ofNat := by
  unfold block_pixels
  simp only [List.map_flatMap]
  refine flatMap_congr_mem (fun i hi => ?_)
  refine flatMap_congr_mem (fun j hj => ?_)
  have hi8 := List.mem_range.mp hi
  have hj8 := List.mem_range.mp hj
  have ey : i32 ((m : Int) * 8 + (i : Int)) = (m : Int) * 8 + (i : Int) :=
    i32_of_fits _ (by constructor <;> omega)
  have ex : i32 ((n : Int) * 8 + (j : Int)) = (n : Int) * 8 + (j : Int) :=
    i32_of_fits _ (by constructor <;> omega)
  by_cases hc : H ≤ m * 8 + i ∨ W ≤ n * 8 + j
  · have hc' : ((m : Int) * 8 + (i : Int) ≥ (H : Int) ∨ (n : Int) * 8 + (j : Int) ≥ (W : Int)) := by
      clear ey ex
      omega
    simp only [ey, ex, if_pos hc, if_pos hc', List.map_nil]
  · have hc' : ¬ ((m : Int) * 8 + (i : Int) ≥ (H : Int) ∨ (n : Int) * 8 + (j : Int) ≥ (W : Int)) := by
      clear ey ex
      omega
    have e := (i32_index W H (m * 8 + i) (n * 8 + j) (by omega) (by omega) hWH).1
    push_cast at e
    simp only [ey, ex, if_neg hc, if_neg hc', List.map_cons, List.map_nil, Int.ofNat_eq_coe, e]
    push_cast
    rfl

/-- The indices stored by the write-back of all blocks, as given by the model of
the loops over `int` values, are the indices `stored_indices`, as long as the loop
counters and the size of the plane fit the 32-bit `int`. -/
theorem write_back_indices (W H bh bw : Nat) (hbh : bh * 8 ≤ 2 ^ 31) (hbw : bw * 8 ≤ 2 ^ 31)
    (hWH : W * H < 2 ^ 31) :
    (block_indices bh bw).flatMap
        (fun b => (block_pixels (W : Int) (H : Int) b.1 b.2).map (fun p => p.2.2)) =
      (stored_indices W H bh bw).map Int.ofNat := by
  unfold block_indices stored_indices
  simp only [List.flatMap_assoc, List.flatMap_map, List.map_flatMap]
  refine flatMap_congr_mem (fun m hm => ?_)
  refine flatMap_congr_mem (fun n hn => ?_)
  have hm' := List.mem_range.mp hm
  have hn' := List.mem_range.mp hn
  have := block_pixels_indices W H m n (by omega) (by omega) hWH
  simp only [List.map_flatMap] at this
  exact this

theorem write_back_fst (W H : Int) (m n : Nat) (px : Nat → Nat → Nat × Nat × Nat) :
    (write_back W H m n px).map Prod.fst = (block_pixels W H m n).map (fun p => p.2.2) := by
  unfold write_back
  rw [List.map_map]
  rfl

/-- The stores of the block loop are, block after block, at the indices of
`block_pixels`. -/
theorem decode_blocks_px_writes {α : Type} [LinearOrderedField α] [FloorRing α]
    (COS8 : Nat → Nat → α) (A8 : Nat → α) (W H : Int) (bs : List (Nat × Nat)) :
    ∀ (prevDC : Nat → Int) (items : List Item) (ws : List Warning)
      (wr : List (Int × Nat × Nat × Nat)),
      decode_blocks_px COS8 A8 W H bs prevDC items = some (ws, wr) →
      wr.map Prod.fst = bs.flatMap (fun b => (block_pixels W H b.1 b.2).map (fun p => p.2.2)) := by
  induction bs with
  | nil =>
    intro prevDC items ws wr h
    simp only [decode_blocks_px, Option.some.injEq, Prod.mk.injEq] at h
    rw [← h.2]; rfl
  | cons b bs ih =>
    intro prevDC items ws wr h
    simp only [decode_blocks_px] at h
    cases hb : decode_block COS8 A8 W H b.1 b.2 prevDC items with
    | none => rw [hb] at h; cases h
    | some r =>
      obtain ⟨p, rest, w, wr1⟩ := r
      rw [hb] at h
      simp only [] at h
      cases hr : decode_blocks_px COS8 A8 W H bs p rest with
      | none => rw [hr] at h; cases h
      | some r2 =>
        obtain ⟨ws2, wr2⟩ := r2
        rw [hr] at h
        simp only [Option.some.injEq, Prod.mk.injEq] at h
        rw [← h.2, List.map_append, List.flatMap_cons, ih p rest ws2 wr2 hr]
        refine congrArg (fun l => l ++ _) ?_
        -- the stores of the block itself
        unfold decode_block at hb
        split at hb
        · split at hb
          · cases hb
          · split at hb
            · cases hb
            · split at hb
              · cases hb
              · simp only [Option.some.injEq, Prod.mk.injEq] at hb
                rw [← hb.2.2.2]
                exact write_back_fst _ _ _ _ _
        · cases hb

end Decoder

namespace Decoder

theorem tdiv_ceil_toNat (W : Nat) (hW : W + 7 < 2 ^ 31) :
    (Int.tdiv (i32 ((W : Int) + 7)) 8).toNat = (W + 7) / 8 := by
  rw [i32_of_fits _ (by constructor <;> omega)]
  have h : ((W : Int) + 7) = ((W + 7 : Nat) : Int) := by push_cast; rfl
  rw [h, show (8 : Int) = ((8 : Nat) : Int) from rfl, ← Int.ofNat_tdiv, Int.toNat_ofNat]

theorem decode_body_writes {α : Type} [LinearOrderedField α] [FloorRing α]
    (COS8 : Nat → Nat → α) (A8 : Nat → α) (W H : Nat) (bw bh : Int) (warn : List Warning)
    (items : List Item) (ws : List Warning) (d : Decoded)
    (hW7 : W + 7 < 2 ^ 31) (hH7 : H + 7 < 2 ^ 31) (hWH : W * H < 2 ^ 31)
    (hbw : bw.toNat = (W + 7) / 8) (hbh : bh.toNat = (H + 7) / 8)
    (h : decode_body COS8 A8 (W : Int) (H : Int) bw bh warn items = some (ws, d)) :
    (d.writes.map Prod.fst).Perm ((List.range (W * H)).map Int.ofNat) := by
  unfold decode_body at h
  rw [hbw, hbh] at h
  cases hb : decode_blocks_px COS8 A8 (W : Int) (H : Int)
      (block_indices ((H + 7) / 8) ((W + 7) / 8)) (fun _ => 0) items with
  | none => rw [hb] at h; cases h
  | some r =>
    obtain ⟨ws1, wr⟩ := r
    rw [hb] at h
    simp only [Option.some.injEq, Prod.mk.injEq] at h
    rw [← h.2]
    simp only []
    rw [decode_blocks_px_writes COS8 A8 _ _ _ _ _ _ _ hb,
      write_back_indices W H _ _ (by omega) (by omega) hWH]
    exact (stored_indices_perm W H).map _

/-- Block geometry for planes that fit the 32-bit `int`.  For every `W, H >= 1`
with `W + 7`, `H + 7` and `W * H` at most `2^31 - 1`, with `bw = ceil(W/8)` and
`bh = ceil(H/8)`: the encoder's sample `(i,j)` of block `(m,n)` is the plane sample
at row `min(8m+i, H-1)` and column `min(8n+j, W-1)`, at an index within
`0 .. W*H-1`; the decoder's write-back stores a sample only when `8m+i < H` and
`8n+j < W`; the indices it stores over all blocks are every index of the `W x H`
plane exactly once and no other; and so are the stores of
`decode_method2_from_file` on a file that declares `W`, `H` (and, in binary mode,
these block counts). -/
theorem block_geometry (W H : Nat) (hW : 1 ≤ W) (hH : 1 ≤ H)
    (hW7 : W + 7 < 2 ^ 31) (hH7 : H + 7 < 2 ^ 31) (hWH : W * H < 2 ^ 31) :
    (∀ m n i j : Nat, m < (H + 7) / 8 → n < (W + 7) / 8 → i < 8 → j < 8 →
      (Encoder.block_sample W H m n i j).1 = min ((m : Int) * 8 + i) ((H : Int) - 1) ∧
      (Encoder.block_sample W H m n i j).2.1 = min ((n : Int) * 8 + j) ((W : Int) - 1) ∧
      (Encoder.block_sample W H m n i j).2.2 =
        (Encoder.block_sample W H m n i j).1 * W + (Encoder.block_sample W H m n i j).2.1 ∧
      0 ≤ (Encoder.block_sample W H m n i j).2.2 ∧
      (Encoder.block_sample W H m n i j).2.2 < (W : Int) * H) ∧
    (∀ m n : Nat, m < (H + 7) / 8 → n < (W + 7) / 8 → ∀ p ∈ block_pixels W H m n,
      (m : Int) * 8 + p.1 < H ∧ (n : Int) * 8 + p.2.1 < W ∧
      p.2.2 = ((m : Int) * 8 + p.1) * W + ((n : Int) * 8 + p.2.1)) ∧
    ((block_indices ((H + 7) / 8) ((W + 7) / 8)).flatMap
        (fun b => (block_pixels W H b.1 b.2).map (fun p => p.2.2))).Perm
      ((List.range (W * H)).map Int.ofNat) ∧
    (∀ (COS8 : Nat → Nat → ℚ) (A8 : Nat → ℚ) (f : RleFile) (Wd Hd : Int) (has : Bool)
      (ws : List Warning) (d : Decoded),
      ((∃ lines, f = RleFile.ascii (some ((W : Int), (H : Int))) lines) ∨
        (∃ magic records, f = RleFile.binary magic W H
          (((W + 7) / 8 : Nat) : Int) (((H + 7) / 8 : Nat) : Int) records)) →
      decode_method2_from_file COS8 A8 f Wd Hd has = some (ws, d) →
      (d.writes.map Prod.fst).Perm ((List.range (W * H)).map Int.ofNat)) := by
  have hwrap : ∀ y x : Int, 0 ≤ y → y ≤ (H : Int) - 1 → 0 ≤ x → x < (W : Int) →
      i32 (i32 (y * W) + x) = y * W + x ∧ 0 ≤ y * W + x ∧ y * W + x < (W : Int) * H := by
    intro y x hy0 hy1 hx0 hx1
    obtain ⟨y', rfl⟩ := Int.eq_ofNat_of_zero_le hy0
    obtain ⟨x', rfl⟩ := Int.eq_ofNat_of_zero_le hx0
    obtain ⟨e, hlt⟩ := i32_index W H y' x' (by omega) (by omega) hWH
    rw [e]
    have h0 : (0 : Int) ≤ ((y' * W + x' : Nat) : Int) := Int.ofNat_nonneg _
    have h1 : (((y' * W + x' : Nat) : Int)) < ((W * H : Nat) : Int) := Int.ofNat_lt.mpr hlt
    push_cast at h0 h1 ⊢
    exact ⟨rfl, h0, h1⟩
  refine ⟨?_, ?_, ?_, ?_⟩
  · intro m n i j hm hn hi hj
    unfold Encoder.block_sample
    simp only []
    rw [i32_of_fits ((m : Int) * 8 + i) (by constructor <;> omega),
      i32_of_fits ((n : Int) * 8 + j) (by constructor <;> omega),
      i32_of_fits ((H : Int) - 1) (by constructor <;> omega),
      i32_of_fits ((W : Int) - 1) (by constructor <;> omega)]
    have hy : (if (m : Int) * 8 + i ≥ (H : Int) then (H : Int) - 1 else (m : Int) * 8 + i) =
        min ((m : Int) * 8 + i) ((H : Int) - 1) := by
      split_ifs <;> omega
    have hx : (if (n : Int) * 8 + j ≥ (W : Int) then (W : Int) - 1 else (n : Int) * 8 + j) =
        min ((n : Int) * 8 + j) ((W : Int) - 1) := by
      split_ifs <;> omega
    rw [hy, hx]
    have h1 : (0 : Int) ≤ min ((m : Int) * 8 + i) ((H : Int) - 1) := by omega
    have h1' : min ((m : Int) * 8 + i) ((H : Int) - 1) ≤ (H : Int) - 1 := min_le_right _ _
    have h2 : (0 : Int) ≤ min ((n : Int) * 8 + j) ((W : Int) - 1) := by omega
    have h2' : min ((n : Int) * 8 + j) ((W : Int) - 1) < (W : Int) := by omega
    rw [(hwrap _ _ h1 h1' h2 h2').1]
    exact ⟨rfl, rfl, rfl, (hwrap _ _ h1 h1' h2 h2').2⟩
  · intro m n hm hn p hp
    unfold block_pixels at hp
    simp only [List.mem_flatMap, List.mem_range] at hp
    obtain ⟨i, hi, j, hj, hp⟩ := hp
    rw [i32_of_fits ((m : Int) * 8 + i) (by constructor <;> omega),
      i32_of_fits ((n : Int) * 8 + j) (by constructor <;> omega)] at hp
    split_ifs at hp with hc
    · simp at hp
    · simp only [List.mem_singleton] at hp
      rw [hp]
      simp only []
      rw [(hwrap _ _ (by omega) (by omega) (by omega) (by omega)).1]
      exact ⟨by omega, by omega, rfl⟩
  · rw [write_back_indices W H _ _ (by omega) (by omega) hWH]
    exact (stored_indices_perm W H).map _
  · intro COS8 A8 f Wd Hd has ws d hf h
    rcases hf with ⟨lines, rfl⟩ | ⟨magic, records, rfl⟩
    · simp only [decode_method2_from_file] at h
      exact decode_body_writes COS8 A8 W H _ _ _ _ ws d hW7 hH7 hWH
        (tdiv_ceil_toNat W hW7) (tdiv_ceil_toNat H hH7) h
    · simp only [decode_method2_from_file] at h
      split_ifs at h
      exact decode_body_writes COS8 A8 W H _ _ _ _ ws d hW7 hH7 hWH
        (Int.toNat_ofNat _) (Int.toNat_ofNat _) h

/-- An instance of `block_geometry`: a plane of 10 columns and 9 rows. -/
theorem block_geometry_witness :
    1 ≤ 10 ∧ 1 ≤ 9 ∧
    ((block_indices ((9 + 7) / 8) ((10 + 7) / 8)).flatMap
        (fun b => (block_pixels ((10 : Nat) : Int) ((9 : Nat) : Int) b.1 b.2).map
          (fun p => p.2.2))).Perm
      ((List.range (10 * 9)).map Int.ofNat) ∧
    Encoder.block_sample 10 9 1 1 3 5 = (8, 9, 89) :=
  ⟨by decide, by decide,
    (block_geometry 10 9 (by decide) (by decide) (by decide) (by decide) (by decide)).2.2.1,
    by decide⟩

/-- C27 fails on the code for a plane whose size does not fit the 32-bit `int`.
With `W = 65536` and `H = 32769` (both at least 1, `bh = 4097`), the first sample
of block `(4096, 0)` is at row 32768 and column 0, inside the plane; the product
`y*W = 2^31` overflows `int`, and with wrap-around the index the encoder reads at
and the decoder stores at is `-2^31`, outside `0 .. W*H-1`, where the index without
overflow is `2^31`. -/
theorem block_index_overflows :
    (1 : Int) ≤ 65536 ∧ (1 : Int) ≤ 32769 ∧ 4096 < (32769 + 7) / 8 ∧
    Encoder.block_sample 65536 32769 4096 0 0 0 = (32768, 0, -2147483648) ∧
    (32768 : Int) = min (4096 * 8 + 0) (32769 - 1) ∧
    ¬ (0 ≤ (Encoder.block_sample 65536 32769 4096 0 0 0).2.2) ∧
    (0, 0, (-2147483648 : Int)) ∈ block_pixels 65536 32769 4096 0 ∧
    (32768 : Int) * 65536 + 0 = 2147483648 ∧ (2147483648 : Int) < 65536 * 32769 := by
  refine ⟨by decide, by decide, by decide, by decide, by decide, by decide, ?_, by decide,
    by decide⟩
  unfold block_pixels
  simp only [List.mem_flatMap, List.mem_range]
  exact ⟨0, by decide, 0, by decide, by decide⟩

end Decoder

/-! ## The merge loop pops the two least nodes -/

namespace Encoder

theorem min_sym_mem (t : HNode) : min_sym t ∈ t.syms := by
  induction t with
  | leaf s f => simp [min_sym, HNode.syms, HNode.leaves]
  | node l r f ihl ihr =>
    simp only [min_sym, HNode.syms, HNode.leaves, List.map_append, List.mem_append]
    simp only [HNode.syms] at ihl ihr
    split_ifs
    · exact Or.inl ihl
    · exact Or.inr ihr

theorem min_sym_le (t : HNode) : ∀ s ∈ t.syms, min_sym t ≤ s := by
  induction t with
  | leaf s f =>
    intro x hx
    simp only [HNode.syms, HNode.leaves, List.map_cons, List.map_nil, List.mem_singleton] at hx
    rw [hx]; exact le_refl _
  | node l r f ihl ihr =>
    intro x hx
    simp only [HNode.syms, HNode.leaves, List.map_append, List.mem_append] at hx
    simp only [HNode.syms] at ihl ihr
    simp only [min_sym]
    rcases hx with hx | hx
    · have := ihl x hx
      split_ifs <;> omega
    · have := ihr x hx
      split_ifs <;> omega

theorem hn_less_of_le_of_ne (a t : HNode) (h : hn_le a t) (hne : min_sym a ≠ min_sym t) :
    hn_less a t = true := by
  rw [hn_le_iff] at h
  rw [hn_less_eq]
  rcases h with h | ⟨h, h' | ⟨h', _⟩⟩
  · exact Or.inl h
  · exact Or.inr ⟨h, Or.inl h'⟩
  · exact absurd h' hne

theorem syms_internal (a b : HNode) : (hn_new_internal a b).syms = a.syms ++ b.syms := by
  simp [hn_new_internal, HNode.syms, HNode.leaves]

/-- In a heap of trees with pairwise distinct leaf symbols, `heap_pop` returns the
node that is less than every other node. -/
theorem heap_pop_least (hp : List HNode) (a : HNode) (hp1 : List HNode) (hh : IsHeap hp)
    (hnd : (hp.flatMap HNode.syms).Nodup) (hpop : heap_pop hp = some (a, hp1)) :
    hp.Perm (a :: hp1) ∧ IsHeap hp1 ∧ (hp1.flatMap HNode.syms).Nodup ∧
      ∀ t ∈ hp1, hn_less a t = true := by
  have hperm := heap_pop_perm hp a hp1 hpop
  obtain ⟨hh1, hmin⟩ := heap_pop_isHeap hp a hp1 hh hpop
  have hnd' : (a.syms ++ hp1.flatMap HNode.syms).Nodup := by
    have := (hperm.flatMap_right HNode.syms).nodup_iff.mp hnd
    simpa using this
  rw [List.nodup_append] at hnd'
  refine ⟨hperm, hh1, hnd'.2.1, ?_⟩
  intro t ht
  apply hn_less_of_le_of_ne a t (hmin t (hperm.mem_iff.mpr (List.mem_cons_of_mem _ ht)))
  intro he
  apply hnd'.2.2 (min_sym_mem a)
  rw [he]
  exact List.mem_flatMap.mpr ⟨t, ht, min_sym_mem t⟩

theorem merge_run_fst (fuel : Nat) :
    ∀ hp : List HNode, (merge_run fuel hp).map Prod.fst = build_merge fuel hp := by
  induction fuel with
  | zero =>
    intro hp
    simp only [merge_run, build_merge]
    split_ifs <;> rfl
  | succ fuel ih =>
    intro hp
    simp only [merge_run, build_merge]
    split_ifs
    · cases heap_pop hp with
      | none => rfl
      | some r =>
        obtain ⟨a, hp1⟩ := r
        simp only []
        cases heap_pop hp1 with
        | none => rfl
        | some r2 =>
          obtain ⟨b, hp2⟩ := r2
          simp only []
          rw [← ih]
          cases merge_run fuel
            (heap_push hp2 (hn_new_internal (if hn_less b a then (b, a) else (a, b)).1
              (if hn_less b a then (b, a) else (a, b)).2)) with
          | none => rfl
          | some r3 => rfl
    · rfl

/-- The merge loop on a heap of ordered trees with pairwise distinct leaf symbols:
every iteration pops the least node and then the least of the rest, never swaps
them, and the loop ends after `sz - 1` iterations with one ordered tree. -/
theorem merge_run_spec (fuel : Nat) :
    ∀ hp : List HNode, hp.length ≤ fuel + 1 → hp ≠ [] → IsHeap hp →
      (hp.flatMap HNode.syms).Nodup → (∀ t ∈ hp, t.ordered) →
      ∃ root steps, merge_run fuel hp = some ([root], steps) ∧
        steps.length + 1 = hp.length ∧ root.ordered ∧
        ∀ e ∈ steps, ∃ rest, e.heap.Perm (e.a :: e.b :: rest) ∧
          (∀ t ∈ e.b :: rest, hn_less e.a t = true) ∧
          (∀ t ∈ rest, hn_less e.b t = true) ∧
          hn_less e.b e.a = false ∧ e.guard = false := by
  induction fuel with
  | zero =>
    intro hp hlen hne _ _ hord
    obtain ⟨root, rfl⟩ : ∃ root, hp = [root] := by
      apply List.length_eq_one.mp
      have := List.length_pos.mpr hne
      omega
    exact ⟨root, [], by simp [merge_run], rfl, hord root (by simp), by simp⟩
  | succ fuel ih =>
    intro hp hlen hne hheap hnd hord
    by_cases h1 : 1 < hp.length
    · obtain ⟨a, hp1, ha⟩ := heap_pop_some hp hne
      obtain ⟨hpa, hheap1, hnd1, hamin⟩ := heap_pop_least hp a hp1 hheap hnd ha
      have hl1 : hp1.length + 1 = hp.length := by simpa using hpa.length_eq.symm
      have hne1 : hp1 ≠ [] := by intro h; simp [h] at hl1; omega
      obtain ⟨b, hp2, hb⟩ := heap_pop_some hp1 hne1
      obtain ⟨hpb, hheap2, hnd2, hbmin⟩ := heap_pop_least hp1 b hp2 hheap1 hnd1 hb
      have hl2 : hp2.length + 1 = hp1.length := by simpa using hpb.length_eq.symm
      have hperm : hp.Perm (a :: b :: hp2) := hpa.trans (hpb.cons a)
      have hab : hn_less a b = true := hamin b (hpb.mem_iff.mpr (List.mem_cons_self _ _))
      have hba : hn_less b a = false := hn_le_of_less a b hab
      have hpush := heap_push_perm hp2 (hn_new_internal a b)
      have hlH : (heap_push hp2 (hn_new_internal a b)).length = hp2.length + 1 := by
        simpa using hpush.length_eq
      have hnd' : ((heap_push hp2 (hn_new_internal a b)).flatMap HNode.syms).Nodup := by
        rw [(hpush.flatMap_right HNode.syms).nodup_iff]
        have := (hperm.flatMap_right HNode.syms).nodup_iff.mp hnd
        simpa [syms_internal] using this
      have hord' : ∀ t ∈ heap_push hp2 (hn_new_internal a b), t.ordered := by
        intro t ht
        rcases List.mem_cons.mp (hpush.mem_iff.mp ht) with h | h
        · rw [h]
          exact ⟨hab, hba, hord a (hperm.mem_iff.mpr (by simp)),
            hord b (hperm.mem_iff.mpr (by simp))⟩
        · exact hord t (hperm.mem_iff.mpr (by simp [h]))
      obtain ⟨root, steps, hres, hlen', hroot, hsteps⟩ :=
        ih (heap_push hp2 (hn_new_internal a b)) (by omega)
          (by intro h; rw [h] at hlH; simp at hlH)
          (heap_push_isHeap hp2 _ hheap2) hnd' hord'
      refine ⟨root, MergeStep.mk hp a b (hn_less b a) :: steps, ?_, ?_, hroot, ?_⟩
      · rw [merge_run]
        simp only [h1, if_true, ha, hb, hba, Bool.false_eq_true, if_false, hres]
      · simp only [List.length_cons]
        omega
      · intro e he
        rcases List.mem_cons.mp he with h | h
        · rw [h]
          refine ⟨hp2, hperm, ?_, hbmin, hba, hba⟩
          intro t ht
          exact hamin t (hpb.mem_iff.mpr ht)
        · exact hsteps e h
    · obtain ⟨root, rfl⟩ : ∃ root, hp = [root] := by
        apply List.length_eq_one.mp
        have := List.length_pos.mpr hne
        omega
      exact ⟨root, [], by simp [merge_run], rfl, hord root (by simp), by simp⟩

end Encoder

namespace Encoder

/-- The heap after the leaf-insertion loop of `build_huffman`: a heap of leaves
with pairwise distinct symbols, one per nonzero entry of the table. -/
theorem initial_heap_facts (freq : Nat → Nat) :
    IsHeap (build_leaves freq (List.range 256) ([], 0)).1 ∧
    ((build_leaves freq (List.range 256) ([], 0)).1.flatMap HNode.syms).Nodup ∧
    (∀ t ∈ (build_leaves freq (List.range 256) ([], 0)).1, t.ordered) ∧
    (build_leaves freq (List.range 256) ([], 0)).2 =
      ((List.range 256).filter (fun s => 0 < freq s)).length ∧
    (build_leaves freq (List.range 256) ([], 0)).1.length =
      ((List.range 256).filter (fun s => 0 < freq s)).length := by
  obtain ⟨hperm, huniq⟩ := build_leaves_spec freq (List.range 256) [] 0
  simp only [List.append_nil, Nat.zero_add] at hperm huniq
  have hlen : (initial_leaves freq (List.range 256)).length =
      ((List.range 256).filter (fun s => 0 < freq s)).length := by
    simp [initial_leaves]
  have hinit : initial_leaves freq (List.range 256) =
      ((List.range 256).filter (fun s => 0 < freq s)).map
        (fun s => hn_new_leaf s (freq s)) := rfl
  refine ⟨build_leaves_isHeap freq _ [] 0 (fun i _ hi => absurd hi (by simp)), ?_, ?_,
    by rw [huniq, hlen], by rw [hperm.length_eq, hlen]⟩
  · rw [(hperm.flatMap_right HNode.syms).nodup_iff]
    have : (initial_leaves freq (List.range 256)).flatMap HNode.syms =
        (List.range 256).filter (fun s => 0 < freq s) := by
      rw [hinit]
      generalize (List.range 256).filter (fun s => 0 < freq s) = P
      induction P with
      | nil => rfl
      | cons s ss ih =>
        simp only [List.map_cons, List.flatMap_cons, ih]
        rfl
    rw [this]
    exact (List.nodup_range 256).filter _
  · intro t ht
    have := hperm.mem_iff.mp ht
    rw [hinit] at this
    obtain ⟨s, _, rfl⟩ := List.mem_map.mp this
    trivial

theorem two_le_length_filter (freq : Nat → Nat)
    (h2 : ∃ s s', s < 256 ∧ s' < 256 ∧ s ≠ s' ∧ 0 < freq s ∧ 0 < freq s') :
    2 ≤ ((List.range 256).filter (fun s => 0 < freq s)).length := by
  obtain ⟨s1, s2, hs1, hs2, hne12, hf1, hf2⟩ := h2
  have m1 : s1 ∈ (List.range 256).filter (fun s => 0 < freq s) := by
    simp [List.mem_filter, hs1, hf1]
  have m2 : s2 ∈ (List.range 256).filter (fun s => 0 < freq s) := by
    simp [List.mem_filter, hs2, hf2]
  generalize (List.range 256).filter (fun s => 0 < freq s) = P at m1 m2
  match P, m1, m2 with
  | [], m1, _ => simp at m1
  | [x], m1, m2 =>
    simp only [List.mem_singleton] at m1 m2
    exact absurd (m1.trans m2.symm) hne12
  | _ :: _ :: _, _, _ => simp

/-- C29. For every frequency table with at least two nonzero entries, in every
iteration of the merge loop of `build_huffman` the first node popped is less under
`hn_less` than every other node of the heap and the second one is less than every
node left, the first being less than the second, so the swap guard `hn_less(b,a)`
is false in every iteration; the loop ends after exactly `unique - 1` iterations
with a single node in the heap, which `build_huffman` returns as the root. -/
theorem merge_loop_pops_least (freq : Nat → Nat)
    (h2 : ∃ s s', s < 256 ∧ s' < 256 ∧ s ≠ s' ∧ 0 < freq s ∧ 0 < freq s') :
    ∃ root steps,
      merge_run (build_leaves freq (List.range 256) ([], 0)).1.length
        (build_leaves freq (List.range 256) ([], 0)).1 = some ([root], steps) ∧
      build_merge (build_leaves freq (List.range 256) ([], 0)).1.length
        (build_leaves freq (List.range 256) ([], 0)).1 = some [root] ∧
      build_huffman freq = some (root, (build_leaves freq (List.range 256) ([], 0)).2) ∧
      (build_leaves freq (List.range 256) ([], 0)).2 =
        ((List.range 256).filter (fun s => 0 < freq s)).length ∧
      steps.length = (build_leaves freq (List.range 256) ([], 0)).2 - 1 ∧
      ∀ e ∈ steps, ∃ rest, e.heap.Perm (e.a :: e.b :: rest) ∧
        (∀ t ∈ e.b :: rest, hn_less e.a t = true) ∧
        (∀ t ∈ rest, hn_less e.b t = true) ∧
        hn_less e.a e.b = true ∧ hn_less e.b e.a = false ∧ e.guard = false := by
  obtain ⟨hheap, hnd, hord, huniq, hlen⟩ := initial_heap_facts freq
  have hP2 := two_le_length_filter freq h2
  have hbh := build_huffman_of_merge freq
  generalize build_leaves freq (List.range 256) ([], 0) = st at *
  have hne : st.1 ≠ [] := by
    intro h
    rw [h] at hlen
    simp at hlen
    omega
  obtain ⟨root, steps, hrun, hsl, _, hsteps⟩ :=
    merge_run_spec st.1.length st.1 (Nat.le_succ _) hne hheap hnd hord
  have hm : build_merge st.1.length st.1 = some [root] := by
    rw [← merge_run_fst, hrun]; rfl
  refine ⟨root, steps, hrun, hm, ?_, huniq, by omega, ?_⟩
  · exact hbh root (by omega) hm
  · intro e he
    obtain ⟨rest, h1, h2', h3, h4, h5⟩ := hsteps e he
    exact ⟨rest, h1, h2', h3, h2' e.b (List.mem_cons_self _ _), h4, h5⟩

end Encoder

namespace Encoder

set_option maxRecDepth 100000 in
/-- Witness for `merge_loop_pops_least`: the table with `freq[65] = 3`,
`freq[66] = 1`, `freq[67] = 2` and zero elsewhere takes two merges. -/
theorem merge_loop_pops_least_witness :
    (∃ s s', s < 256 ∧ s' < 256 ∧ s ≠ s' ∧
      0 < (fun s => if s = 65 then 3 else if s = 66 then 1 else if s = 67 then 2 else 0 :
        Nat → Nat) s ∧
      0 < (fun s => if s = 65 then 3 else if s = 66 then 1 else if s = 67 then 2 else 0 :
        Nat → Nat) s') ∧
    (build_leaves (fun s => if s = 65 then 3 else if s = 66 then 1 else if s = 67 then 2 else 0)
      (List.range 256) ([], 0)).2 = 3 ∧
    ∃ root steps,
      merge_run (build_leaves
          (fun s => if s = 65 then 3 else if s = 66 then 1 else if s = 67 then 2 else 0)
          (List.range 256) ([], 0)).1.length
        (build_leaves
          (fun s => if s = 65 then 3 else if s = 66 then 1 else if s = 67 then 2 else 0)
          (List.range 256) ([], 0)).1 = some ([root], steps) ∧
      steps.length = 2 ∧ ∀ e ∈ steps, e.guard = false := by
  refine ⟨⟨65, 66, by decide⟩, by decide, ?_⟩
  obtain ⟨root, steps, h1, _, _, _, h5, h6⟩ := merge_loop_pops_least
    (fun s => if s = 65 then 3 else if s = 66 then 1 else if s = 67 then 2 else 0)
    ⟨65, 66, by decide⟩
  refine ⟨root, steps, h1, ?_, ?_⟩
  · rw [h5]; decide
  · intro e he
    obtain ⟨_, _, _, _, _, _, hg⟩ := h6 e he
    exact hg

/-- C30. For every frequency table with at least one nonzero entry, in every
internal node of the tree `build_huffman` returns the left child is less than the
right child under `hn_less` and the right child is not less than the left one;
`hn_less` orders by ascending frequency, then by ascending `min_sym`, the least
leaf symbol below the node, then leaf before internal node. -/
theorem huffman_tree_ordered (freq : Nat → Nat) (h : ∃ s, s < 256 ∧ 0 < freq s) :
    (∃ root unique, build_huffman freq = some (root, unique) ∧ root.ordered) ∧
    (∀ x y : HNode, hn_less x y = true ↔
      (x.freq < y.freq ∨ (x.freq = y.freq ∧ (min_sym x < min_sym y ∨
        (min_sym x = min_sym y ∧ x.is_leaf = true ∧ y.is_leaf = false))))) ∧
    (∀ t : HNode, min_sym t ∈ t.syms ∧ ∀ s ∈ t.syms, min_sym t ≤ s) := by
  refine ⟨?_, hn_less_eq, fun t => ⟨min_sym_mem t, min_sym_le t⟩⟩
  obtain ⟨root, unique, hb, hu, hcases⟩ := build_huffman_cases freq h
  refine ⟨root, unique, hb, ?_⟩
  rcases hcases with ⟨_, s, hs, rfl⟩ | ⟨h2, _, _⟩
  · have hmem : s ∈ (List.range 256).filter (fun s => 0 < freq s) := by rw [hs]; simp
    have hpos : 0 < freq s := by
      have := (List.mem_filter.mp hmem).2
      simpa using this
    refine ⟨?_, ?_, trivial, trivial⟩
    · rw [hn_less_eq]
      exact Or.inl hpos
    · apply hn_le_of_less
      rw [hn_less_eq]
      exact Or.inl hpos
  · obtain ⟨hheap, hnd, hord, huniq, hlen⟩ := initial_heap_facts freq
    have hbh := build_huffman_of_merge freq
    generalize build_leaves freq (List.range 256) ([], 0) = st at *
    have hne : st.1 ≠ [] := by
      intro h'
      rw [h'] at hlen
      simp at hlen
      omega
    obtain ⟨root', steps, hrun, _, hroot, _⟩ :=
      merge_run_spec st.1.length st.1 (Nat.le_succ _) hne hheap hnd hord
    have hm : build_merge st.1.length st.1 = some [root'] := by
      rw [← merge_run_fst, hrun]; rfl
    have := hbh root' (by omega) hm
    rw [hb] at this
    simp only [Option.some.injEq, Prod.mk.injEq] at this
    rw [this.1]
    exact hroot

set_option maxRecDepth 100000 in
/-- Witness for `huffman_tree_ordered`: the table with the single nonzero entry
`freq[0] = 7`, whose tree has the dummy leaf of symbol 1 on the left. -/
theorem huffman_tree_ordered_witness :
    (∃ s, s < 256 ∧ 0 < (fun s => if s = 0 then 7 else 0 : Nat → Nat) s) ∧
    build_huffman (fun s => if s = 0 then 7 else 0) =
      some (HNode.node (HNode.leaf 1 0) (HNode.leaf 0 7) 7, 1) ∧
    ∃ root unique, build_huffman (fun s => if s = 0 then 7 else 0) = some (root, unique) ∧
      root.ordered :=
  ⟨⟨0, by decide⟩, by decide,
    (huffman_tree_ordered (fun s => if s = 0 then 7 else 0) ⟨0, by decide⟩).1⟩

end Encoder

/-! ## De-zigzagging the zigzag vector -/

namespace Decoder

/-- The de-zigzag loop over the indices `ts` leaves a cell alone that no index of
`ts` maps to. -/
theorem dezigzag_fold_miss (zz : List Int) (u v : Nat) :
    ∀ (ts : List Nat) (F : Grid),
      (∀ t ∈ ts, ¬ (ZZU.getD t 0 = u ∧ ZZV.getD t 0 = v)) →
      (ts.foldl (fun F t => F.set (ZZU.getD t 0) (ZZV.getD t 0) (zz.getD t 0)) F) u v = F u v := by
  intro ts
  induction ts with
  | nil => intro F _; rfl
  | cons t rest ih =>
    intro F h
    rw [List.foldl_cons, ih _ (fun t' ht' => h t' (List.mem_cons_of_mem _ ht'))]
    have := h t (List.mem_cons_self _ _)
    unfold Grid.set
    rw [if_neg (fun hc => this ⟨hc.1.symm, hc.2.symm⟩)]

/-- The de-zigzag loop over the indices `ts`: when every index that maps to the
cell `(u, v)` carries the value `x` and some index does map to it, the cell ends up
holding `x`. -/
theorem dezigzag_fold_hit (zz : List Int) (u v : Nat) (x : Int) :
    ∀ (ts : List Nat) (F : Grid),
      (∀ t ∈ ts, ZZU.getD t 0 = u → ZZV.getD t 0 = v → zz.getD t 0 = x) →
      (∃ t ∈ ts, ZZU.getD t 0 = u ∧ ZZV.getD t 0 = v) →
      (ts.foldl (fun F t => F.set (ZZU.getD t 0) (ZZV.getD t 0) (zz.getD t 0)) F) u v = x := by
  intro ts
  induction ts with
  | nil => intro F _ h; obtain ⟨t, ht, _⟩ := h; cases ht
  | cons t rest ih =>
    intro F hval hex
    rw [List.foldl_cons]
    by_cases hr : ∃ t' ∈ rest, ZZU.getD t' 0 = u ∧ ZZV.getD t' 0 = v
    · exact ih _ (fun t' ht' => hval t' (List.mem_cons_of_mem _ ht')) hr
    · rw [dezigzag_fold_miss zz u v rest _ (fun t' ht' hc => hr ⟨t', ht', hc⟩)]
      obtain ⟨t0, ht0, hu, hv⟩ := hex
      rcases List.mem_cons.mp ht0 with rfl | hmem
      · unfold Grid.set
        rw [if_pos ⟨hu.symm, hv.symm⟩]
        exact hval t0 (List.mem_cons_self _ _) hu hv
      · exact absurd ⟨t0, hmem, hu, hv⟩ hr

/-- Entry `k` of the zigzag vector of `g`. -/
theorem zigzag_getD (g : Grid) (k : Nat) (hk : k < 64) :
    (Encoder.zigzag g).getD k 0 = g (Encoder.ZZU.getD k 0) (Encoder.ZZV.getD k 0) := by
  unfold Encoder.zigzag
  rw [List.getD_eq_getElem _ _ (by simpa using hk)]
  simp

/-- C33. For every 8x8 grid `g`: for every index `k` in 0..63, de-zigzagging the
zigzag vector of `g` (the decoder loop, a later write replacing an earlier one)
gives `g[ZZU[k]][ZZV[k]]` at the cell `(ZZU[k], ZZV[k])`; two indices that map to
the same cell carry the same entry of the zigzag vector; index 0 is the only index
mapped to the cell `(0, 0)`; and a cell that no index maps to comes back as 0. -/
theorem dezigzag_zigzag (g : Grid) :
    (∀ k, k < 64 →
      dezigzag (Encoder.zigzag g) (ZZU.getD k 0) (ZZV.getD k 0) =
        g (Encoder.ZZU.getD k 0) (Encoder.ZZV.getD k 0)) ∧
    (∀ k k', k < 64 → k' < 64 → ZZU.getD k 0 = ZZU.getD k' 0 → ZZV.getD k 0 = ZZV.getD k' 0 →
      (Encoder.zigzag g).getD k 0 = (Encoder.zigzag g).getD k' 0) ∧
    (∀ k, k < 64 → (ZZU.getD k 0 = 0 ∧ ZZV.getD k 0 = 0 ↔ k = 0)) ∧
    (∀ u v, (∀ k, k < 64 → ¬ (ZZU.getD k 0 = u ∧ ZZV.getD k 0 = v)) →
      dezigzag (Encoder.zigzag g) u v = 0) := by
  have hU : ZZU = Encoder.ZZU := rfl
  have hV : ZZV = Encoder.ZZV := rfl
  refine ⟨?_, ?_, by decide, ?_⟩
  · intro k hk
    unfold dezigzag
    apply dezigzag_fold_hit
    · intro t ht hu hv
      rw [zigzag_getD g t (List.mem_range.mp ht), ← hU, ← hV, hu, hv]
    · exact ⟨k, List.mem_range.mpr hk, rfl, rfl⟩
  · intro k k' hk hk' hu hv
    rw [zigzag_getD g k hk, zigzag_getD g k' hk', ← hU, ← hV, hu, hv]
  · intro u v h
    unfold dezigzag
    rw [dezigzag_fold_miss _ u v _ _ (fun t ht => h t (List.mem_range.mp ht))]

end Decoder


/-! ## Bounds on the run-length pairs -/

namespace Encoder

/-- The pairs the RLE loop emits for the rest `vs` of a vector, `zc` zeros being
counted already: skips within 0..63, nonzero values, the skips plus one adding up
to at most the entries consumed, and no cursor position of the decoder's replay,
started at `k`, reaching 64. -/
theorem rle_loop_bounds (vs : List Int) :
    ∀ zc : Nat, zc + vs.length ≤ 64 →
      (∀ p ∈ rle_loop vs zc, 0 ≤ p.skip ∧ p.skip ≤ 63 ∧ p.val ≠ 0) ∧
      ((rle_loop vs zc).map (fun p => p.skip + 1)).sum ≤ (zc : Int) + vs.length ∧
      ∀ k : Int, k + zc + vs.length ≤ 64 → ¬ overflows ((rle_loop vs zc).map Pair.skip) k := by
  induction vs with
  | nil =>
    intro zc _
    refine ⟨by simp [rle_loop], by simp [rle_loop], ?_⟩
    intro k _
    simp [rle_loop, overflows]
  | cons v vs ih =>
    intro zc hlen
    simp only [List.length_cons] at hlen
    by_cases hv : v = 0
    · subst hv
      obtain ⟨h1, h2, h3⟩ := ih (zc + 1) (by omega)
      simp only [rle_loop, if_true, List.length_cons]
      rw [show ((zc : Int) + 1) = ((zc + 1 : Nat) : Int) by simp]
      refine ⟨h1, ?_, ?_⟩
      · push_cast at h2 ⊢
        omega
      · intro k hk
        apply h3 k
        push_cast at hk ⊢
        omega
    · obtain ⟨h1, h2, h3⟩ := ih 0 (by omega)
      simp only [rle_loop, hv, if_false, List.length_cons]
      rw [i16_of_small zc (by omega)]
      refine ⟨?_, ?_, ?_⟩
      · intro p hp
        rcases List.mem_cons.mp hp with rfl | hp
        · exact ⟨by simp, by simp; omega, hv⟩
        · exact h1 p hp
      · simp only [List.map_cons, List.sum_cons]
        push_cast at h2 ⊢
        omega
      · intro k hk
        simp only [List.map_cons, overflows, not_or]
        push_cast at hk
        refine ⟨by omega, h3 _ ?_⟩
        push_cast
        omega

/-- C36. For every 64-vector, the encoder's RLE loop emits at most 64 pairs, each
with `0 <= skip <= 63` and `val != 0`, and the sum over the pairs of `skip + 1` is
at most 64; so the pair count stays below the 256 slots of `pairs`, the
`(uint16_t)` cast of the pair count does not change it, no cursor position of the
decoder's replay reaches 64, and the binary decoder reads the record back without
failing. -/
theorem rle_pairs_bounds (v : List Int) (hlen : v.length = 64) :
    (rle v).length ≤ 64 ∧
    (∀ p ∈ rle v, 0 ≤ p.skip ∧ p.skip ≤ 63 ∧ p.val ≠ 0) ∧
    ((rle v).map (fun p => p.skip + 1)).sum ≤ 64 ∧
    (rle v).length < 256 ∧
    (write_record (rle v)).pc = (rle v).length ∧
    ¬ overflows ((rle v).map Pair.skip) 0 ∧
    Decoder.read_record (write_record (rle v)) = some v := by
  have hle : (rle v).length ≤ 64 := by
    have := rle_loop_length_le v 0
    rw [hlen] at this
    exact this
  obtain ⟨h1, h2, h3⟩ := rle_loop_bounds v 0 (by omega)
  have hpc : u16 (rle v).length = (rle v).length := Nat.mod_eq_of_lt (by omega)
  refine ⟨hle, h1, ?_, by omega, hpc, ?_, ?_⟩
  · rw [hlen] at h2
    simpa [rle] using h2
  · have := h3 0 (by rw [hlen]; norm_num)
    simpa [rle] using this
  · have hreplay : Decoder.replay (rle v) 0 (List.replicate 64 0) = some v := by
      have := replay_rle_loop v 0 [] (by simp [hlen])
      simpa [rle, hlen] using this
    simp only [Decoder.read_record, write_record, hpc, Nat.lt_irrefl, if_false,
      List.take_length]
    exact hreplay

/-- Witness for `rle_pairs_bounds`: the vector with 64 nonzero entries, which
produces 64 pairs of skip 0. -/
theorem rle_pairs_bounds_witness :
    (List.replicate 64 (5 : Int)).length = 64 ∧
    (rle (List.replicate 64 5)).length ≤ 64 ∧
    (∀ p ∈ rle (List.replicate 64 5), 0 ≤ p.skip ∧ p.skip ≤ 63 ∧ p.val ≠ 0) ∧
    ((rle (List.replicate 64 5)).map (fun p => p.skip + 1)).sum ≤ 64 ∧
    (rle (List.replicate 64 5)).length < 256 ∧
    (write_record (rle (List.replicate 64 5))).pc = (rle (List.replicate 64 5)).length ∧
    ¬ overflows ((rle (List.replicate 64 5)).map Pair.skip) 0 ∧
    Decoder.read_record (write_record (rle (List.replicate 64 5))) =
      some (List.replicate 64 5) :=
  ⟨by decide, rle_pairs_bounds (List.replicate 64 5) (by decide)⟩

end Encoder


/-! ## The single-symbol table -/

namespace Encoder

theorem eq_singleton_of_nodup {l : List Nat} {a : Nat} (hnd : l.Nodup)
    (h : ∀ x, x ∈ l ↔ x = a) : l = [a] := by
  match l, hnd, h with
  | [], _, h => exact absurd ((h a).mpr rfl) (by simp)
  | [x], _, h =>
    have := (h x).mp (by simp)
    rw [this]
  | x :: y :: rest, hnd, h =>
    have hx := (h x).mp (by simp)
    have hy := (h y).mp (by simp)
    rw [List.nodup_cons] at hnd
    exact absurd (by rw [hx, hy]; simp) hnd.1

/-- The symbols of nonzero frequency of a table whose only nonzero entry is `s`. -/
theorem filter_single (freq : Nat → Nat) (s : Nat) (hs : s < 256) (hpos : 0 < freq s)
    (hz : ∀ t, t < 256 → t ≠ s → freq t = 0) :
    (List.range 256).filter (fun t => 0 < freq t) = [s] := by
  apply eq_singleton_of_nodup ((List.nodup_range 256).filter _)
  intro x
  simp only [List.mem_filter, List.mem_range, decide_eq_true_eq]
  constructor
  · rintro ⟨hx, hfx⟩
    by_contra hne
    have := hz x hx hne
    omega
  · rintro rfl
    exact ⟨hs, hpos⟩

/-- A payload all of whose bytes have the one-character code `"1"` is encoded as
that many one-bits. -/
theorem encode_payload_ones (codes : Codes) (s : Nat) (hc : codes s = some ['1']) :
    ∀ p : List Nat, (∀ b ∈ p, b = s) →
      p.flatMap (fun b => code_bits ((codes b).getD [])) = List.replicate p.length true := by
  intro p
  induction p with
  | nil => intro _; rfl
  | cons b bs ih =>
    intro h
    have hb := h b (List.mem_cons_self _ _)
    subst hb
    rw [List.flatMap_cons, ih (fun b' hb' => h b' (List.mem_cons_of_mem _ hb')), hc]
    rfl

/-- C32. For every frequency table whose only nonzero entry is `freq[s]`:
`build_huffman` returns, with `unique = 1`, the two-leaf tree whose left child is a
leaf of frequency 0 and symbol `1` if `s = 0` and `0` otherwise (a symbol other than
`s`) and whose right child is the leaf of `s`; the root is not a leaf; `gen_codes`
gives `s` the code `"1"`; the codebook has the single entry of `s`; and a payload
of `N` bytes `s` is encoded as `N` one-bits. -/
theorem single_symbol_code (freq : Nat → Nat) (s : Nat) (hs : s < 256) (hpos : 0 < freq s)
    (hz : ∀ t, t < 256 → t ≠ s → freq t = 0) :
    ∃ root, build_huffman freq = some (root, 1) ∧
      root = HNode.node (HNode.leaf (if s = 0 then 1 else 0) 0) (HNode.leaf s (freq s))
        (u64 (0 + freq s)) ∧
      (if s = 0 then 1 else 0) ≠ s ∧
      root.is_leaf = false ∧
      gen_codes root [] (fun _ => none) s = some ['1'] ∧
      codebook_entries freq (gen_codes root [] (fun _ => none)) (List.range 256) =
        some [Line.entry (s : Int) (freq s) ['1']] ∧
      ∀ p : List Nat, (∀ b ∈ p, b = s) →
        ∃ bb, encode_payload (gen_codes root [] (fun _ => none)) p bitbuf_init = some bb ∧
          Holds bb (List.replicate p.length true) ∧ bb.bit_len = p.length := by
  have hP := filter_single freq s hs hpos hz
  obtain ⟨root, unique, hb, hu, hcases⟩ := build_huffman_cases freq ⟨s, hs, hpos⟩
  rw [hP] at hu hcases
  simp only [List.length_singleton] at hu
  subst hu
  have hroot : root = HNode.node (HNode.leaf (if s = 0 then 1 else 0) 0) (HNode.leaf s (freq s))
      (u64 (0 + freq s)) := by
    rcases hcases with ⟨_, s', hs', hr⟩ | ⟨h2, _⟩
    · have : s' = s := by
        have := List.cons.inj hs'
        exact this.1.symm
      subst this
      exact hr
    · omega
  have hd : (if s = 0 then 1 else 0) ≠ s := by
    split_ifs with h0
    · omega
    · exact fun h => h0 h.symm
  have hcode : gen_codes root [] (fun _ => none) s = some ['1'] := by
    rw [hroot]
    simp [gen_codes]
  refine ⟨root, hb, hroot, hd, by rw [hroot]; rfl, hcode, ?_, ?_⟩
  · rw [codebook_entries_eq, hP]
    · simp [hcode]
    · intro t ht hft
      have : t = s := by
        by_contra hne
        have := hz t (List.mem_range.mp ht) hne
        omega
      exact ⟨_, this ▸ hcode⟩
  · intro p hp
    refine ⟨_, encode_payload_eq _ p bitbuf_init (fun b hb => ⟨_, (hp b hb) ▸ hcode⟩), ?_, ?_⟩
    · rw [encode_payload_ones _ s hcode p hp]
      exact holds_push_bits _ _ _ holds_init
    · rw [encode_payload_ones _ s hcode p hp]
      have := holds_push_bits (List.replicate p.length true) _ _ holds_init
      simpa using this.1

/-- Witness for `single_symbol_code`: the table of the payload `AAA`, whose only
nonzero entry is `freq[65] = 3`. -/
theorem single_symbol_code_witness :
    ∃ root, build_huffman (fun t => if t = 65 then 3 else 0) = some (root, 1) ∧
      root = HNode.node (HNode.leaf (if 65 = 0 then 1 else 0) 0)
        (HNode.leaf 65 ((fun t => if t = 65 then 3 else 0 : Nat → Nat) 65))
        (u64 (0 + (fun t => if t = 65 then 3 else 0 : Nat → Nat) 65)) ∧
      (if 65 = 0 then 1 else 0) ≠ 65 ∧
      root.is_leaf = false ∧
      gen_codes root [] (fun _ => none) 65 = some ['1'] ∧
      codebook_entries (fun t => if t = 65 then 3 else 0)
          (gen_codes root [] (fun _ => none)) (List.range 256) =
        some [Line.entry ((65 : Nat) : Int)
          ((fun t => if t = 65 then 3 else 0 : Nat → Nat) 65) ['1']] ∧
      ∀ p : List Nat, (∀ b ∈ p, b = 65) →
        ∃ bb, encode_payload (gen_codes root [] (fun _ => none)) p bitbuf_init = some bb ∧
          Holds bb (List.replicate p.length true) ∧ bb.bit_len = p.length :=
  single_symbol_code (fun t => if t = 65 then 3 else 0) 65 (by decide) (by decide)
    (fun t _ hne => if_neg hne)

end Encoder


/-! ## The shape of the tree `build_huffman` returns -/

namespace Encoder

theorem sum_filter_eq (freq : Nat → Nat) (l : List Nat) :
    ((l.filter (fun s => 0 < freq s)).map freq).sum = (l.map freq).sum := by
  induction l with
  | nil => rfl
  | cons s l ih =>
    by_cases h : 0 < freq s
    · simp [List.filter_cons, h, ih]
    · have h0 : freq s = 0 := by omega
      simp [List.filter_cons, h, ih, h0]

theorem weight_eq_sum_leaves (t : HNode) : t.weight = (t.leaves.map Prod.snd).sum := by
  induction t with
  | leaf s f => simp [HNode.weight, HNode.leaves]
  | node l r f ihl ihr => simp [HNode.weight, HNode.leaves, ihl, ihr]

theorem sum_indicator_range (b : Nat) :
    ∀ n, ((List.range n).map (fun s => if b = s then 1 else 0)).sum = if b < n then 1 else 0 := by
  intro n
  induction n with
  | zero => simp
  | succ n ih =>
    rw [List.range_succ, List.map_append, List.sum_append, ih]
    by_cases h1 : b < n
    · have : b ≠ n := by omega
      simp [h1, this, show b < n + 1 by omega]
    · by_cases h2 : b = n
      · simp [h2]
      · simp [h1, h2, show ¬ b < n + 1 by omega]

/-- The occurrence counts of the byte values add up to the length of the payload. -/
theorem sum_count_range (n : Nat) (p : List Nat) (h : ∀ b ∈ p, b < n) :
    ((List.range n).map (fun s => p.count s)).sum = p.length := by
  induction p with
  | nil => simp
  | cons b bs ih =>
    have hb := h b (List.mem_cons_self _ _)
    have e : (fun s => (b :: bs).count s) =
        fun s => bs.count s + (if b = s then 1 else 0) := by
      funext s
      rw [List.count_cons]
      simp
    rw [e, List.sum_map_add, ih (fun b' hb' => h b' (List.mem_cons_of_mem _ hb')),
      sum_indicator_range, if_pos hb, List.length_cons]

/-- The entries of the table counted from a payload of bytes add up to the length
of the payload. -/
theorem count_freq_sum (p : List Nat) (hb : ∀ b ∈ p, b < 256) (hlen : p.length < 2 ^ 64) :
    ((List.range 256).map (count_freq p)).sum = p.length := by
  rw [show count_freq p = fun s => p.count s from funext (count_freq_eq p hlen)]
  exact sum_count_range 256 p hb

/-- The merge loop keeps every tree in the heap summed: as long as the frequencies
at the leaves add up to less than `2^64`, every internal node carries the sum of
its children and every tree the sum of its leaves. -/
theorem build_merge_sums (fuel : Nat) :
    ∀ hp : List HNode, (∀ t ∈ hp, t.sums ∧ t.freq = t.weight) →
      (hp.map HNode.weight).sum < 2 ^ 64 →
      ∀ res, build_merge fuel hp = some res → ∀ t ∈ res, t.sums ∧ t.freq = t.weight := by
  induction fuel with
  | zero =>
    intro hp hinv _ res hres
    rw [build_merge] at hres
    split at hres
    · cases hres
    · cases hres
      exact hinv
  | succ fuel ih =>
    intro hp hinv hsum res hres
    by_cases h1 : 1 < hp.length
    · have hne : hp ≠ [] := by intro h; simp [h] at h1
      obtain ⟨a, hp1, ha⟩ := heap_pop_some hp hne
      have hpa := heap_pop_perm hp a hp1 ha
      have hl1 : hp1.length + 1 = hp.length := by simpa using hpa.length_eq.symm
      have hne1 : hp1 ≠ [] := by intro h; simp [h] at hl1; omega
      obtain ⟨b, hp2, hb⟩ := heap_pop_some hp1 hne1
      have hpb := heap_pop_perm hp1 b hp2 hb
      have hperm : hp.Perm (a :: b :: hp2) := hpa.trans (hpb.cons a)
      have hbmem : b ∈ hp := hperm.mem_iff.mpr (by simp)
      have hamem : a ∈ hp := hperm.mem_iff.mpr (by simp)
      obtain ⟨hsa, hfa⟩ := hinv a hamem
      obtain ⟨hsb, hfb⟩ := hinv b hbmem
      have hsum' : a.weight + b.weight + (hp2.map HNode.weight).sum < 2 ^ 64 := by
        have := (hperm.map HNode.weight).sum_eq
        simp only [List.map_cons, List.sum_cons] at this
        omega
      generalize hab : (if hn_less b a then (b, a) else (a, b)) = ab at hres
      have hcase : ab = (b, a) ∨ ab = (a, b) := by
        rw [← hab]
        split
        · exact Or.inl rfl
        · exact Or.inr rfl
      have hnw : (hn_new_internal ab.1 ab.2).weight = a.weight + b.weight := by
        rcases hcase with h | h
        · rw [h, hn_new_internal_weight]; dsimp only; omega
        · rw [h, hn_new_internal_weight]
      have hnf : (hn_new_internal ab.1 ab.2).freq = a.freq + b.freq := by
        rcases hcase with h | h
        · rw [h, hn_new_internal_freq, u64]
          dsimp only
          rw [Nat.mod_eq_of_lt (by omega)]; omega
        · rw [h, hn_new_internal_freq, u64]
          dsimp only
          rw [Nat.mod_eq_of_lt (by omega)]
      have hns : (hn_new_internal ab.1 ab.2).sums := by
        rcases hcase with h | h
        · rw [h]
          refine ⟨?_, hsb, hsa⟩
          dsimp only
          rw [u64, Nat.mod_eq_of_lt (by omega)]
        · rw [h]
          refine ⟨?_, hsa, hsb⟩
          dsimp only
          rw [u64, Nat.mod_eq_of_lt (by omega)]
      have hpush := heap_push_perm hp2 (hn_new_internal ab.1 ab.2)
      have hstep : build_merge (fuel + 1) hp =
          build_merge fuel (heap_push hp2 (hn_new_internal ab.1 ab.2)) := by
        rw [build_merge]
        simp only [h1, if_true, ha, hb, hab]
      rw [hstep] at hres
      refine ih _ ?_ ?_ res hres
      · intro t ht
        rcases List.mem_cons.mp (hpush.mem_iff.mp ht) with h | h
        · rw [h]
          exact ⟨hns, by rw [hnf, hnw, hfa, hfb]⟩
        · exact hinv t (hperm.mem_iff.mpr (by simp [h]))
      · rw [(hpush.map HNode.weight).sum_eq]
        simp only [List.map_cons, List.sum_cons, hnw]
        exact hsum'
    · rw [build_merge, if_neg h1] at hres
      cases hres
      exact hinv

end Encoder


namespace Encoder

/-- C31. For every frequency table with at least one nonzero entry, the entries
adding up to less than `2^64` (as they do in every table `build_huffman` receives,
which is counted from a payload), `build_huffman` returns a tree whose root
is an internal node and in which every internal node carries the sum of the
frequencies of its two children; `unique_out` is the number of nonzero entries;
with two or more nonzero entries the leaves are the symbols of nonzero frequency,
each once and with its frequency, and with one nonzero entry `s` they are a dummy
leaf of frequency 0 followed by the leaf of `s`; the frequency of the root is the
sum of the table, which for the table counted from a payload of bytes is the
payload length. -/
theorem build_huffman_sums (freq : Nat → Nat)
    (hsum : ((List.range 256).map freq).sum < 2 ^ 64)
    (h : ∃ s, s < 256 ∧ 0 < freq s) :
    ∃ root unique, build_huffman freq = some (root, unique) ∧
      root.is_leaf = false ∧ root.sums ∧
      unique = ((List.range 256).filter (fun s => 0 < freq s)).length ∧
      (2 ≤ unique → List.Perm root.leaves
        (((List.range 256).filter (fun s => 0 < freq s)).map (fun s => (s, freq s)))) ∧
      (unique = 1 → ∃ s, (List.range 256).filter (fun s => 0 < freq s) = [s] ∧
        root.leaves = [(if s = 0 then 1 else 0, 0), (s, freq s)]) ∧
      root.freq = ((List.range 256).map freq).sum ∧
      ∀ p : List Nat, (∀ b ∈ p, b < 256) → p.length < 2 ^ 64 → freq = count_freq p →
        root.freq = p.length := by
  obtain ⟨root, unique, hb, hu, hcases⟩ := build_huffman_cases freq h
  have hpay : root.freq = ((List.range 256).map freq).sum →
      ∀ p : List Nat, (∀ b ∈ p, b < 256) → p.length < 2 ^ 64 → freq = count_freq p →
        root.freq = p.length := by
    intro hr p hp hlen hf
    rw [hr, hf]
    rw [show count_freq p = fun s => p.count s from funext (count_freq_eq p hlen)]
    exact sum_count_range 256 p hp
  rcases hcases with ⟨h1, s, hs, hr⟩ | ⟨h2, hleaf, hlv⟩
  · have hfs : freq s = ((List.range 256).map freq).sum := by
      rw [← sum_filter_eq, hs]
      simp
    have hfreq : root.freq = ((List.range 256).map freq).sum := by
      rw [hr, hn_new_internal_freq, u64]
      change (0 + freq s) % 2 ^ 64 = _
      rw [Nat.zero_add, Nat.mod_eq_of_lt (by omega)]
      exact hfs
    refine ⟨root, unique, hb, by rw [hr]; rfl, ?_, hu, fun h2 => by omega,
      fun _ => ⟨s, hs, by rw [hr]; rfl⟩, hfreq, hpay hfreq⟩
    rw [hr]
    refine ⟨?_, trivial, trivial⟩
    change u64 (0 + freq s) = 0 + freq s
    rw [u64, Nat.mod_eq_of_lt (by omega)]
  · obtain ⟨hperm, huniq⟩ := build_leaves_spec freq (List.range 256) [] 0
    simp only [List.append_nil, Nat.zero_add] at hperm huniq
    have hinit : initial_leaves freq (List.range 256) =
        ((List.range 256).filter (fun s => 0 < freq s)).map
          (fun s => hn_new_leaf s (freq s)) := rfl
    have hlen : (initial_leaves freq (List.range 256)).length =
        ((List.range 256).filter (fun s => 0 < freq s)).length := by
      simp [initial_leaves]
    have hb2 := hb
    generalize hst : build_leaves freq (List.range 256) ([], 0) = st at *
    have hst2 : st.2 = unique := by rw [huniq, hlen, hu]
    have hinv : ∀ t ∈ st.1, t.sums ∧ t.freq = t.weight := by
      intro t ht
      have := hperm.mem_iff.mp ht
      rw [hinit] at this
      obtain ⟨s, _, rfl⟩ := List.mem_map.mp this
      exact ⟨trivial, rfl⟩
    have hweights : (st.1.map HNode.weight).sum < 2 ^ 64 := by
      have := (hperm.map HNode.weight).sum_eq
      rw [hinit, List.map_map] at this
      rw [this]
      exact lt_of_le_of_lt (sum_filter_le freq _) hsum
    have hmem : ∃ hp1, build_merge st.1.length st.1 = some hp1 ∧ root ∈ hp1 := by
      unfold build_huffman at hb2
      simp only [] at hb2
      rw [hst, if_neg (by omega), if_neg (by omega)] at hb2
      cases hm : build_merge st.1.length st.1 with
      | none => rw [hm] at hb2; cases hb2
      | some hp1 =>
        rw [hm] at hb2
        simp only [] at hb2
        cases hpop : heap_pop hp1 with
        | none => rw [hpop] at hb2; cases hb2
        | some x =>
          rw [hpop] at hb2
          simp only [Option.some.injEq, Prod.mk.injEq] at hb2
          have := heap_pop_perm hp1 x.1 x.2 hpop
          exact ⟨hp1, rfl, this.mem_iff.mpr (by rw [hb2.1]; simp)⟩
    obtain ⟨hp1, hm, hroot⟩ := hmem
    obtain ⟨hs, hfw⟩ := build_merge_sums _ st.1 hinv hweights hp1 hm root hroot
    have hfreq : root.freq = ((List.range 256).map freq).sum := by
      have e : (Prod.snd ∘ fun s => (s, freq s)) = freq := rfl
      rw [hfw, weight_eq_sum_leaves, (hlv.map Prod.snd).sum_eq, List.map_map, e,
        sum_filter_eq]
    exact ⟨root, unique, hb, hleaf, hs, hu, fun _ => hlv, fun h1 => by omega, hfreq,
      hpay hfreq⟩

set_option maxRecDepth 100000 in
/-- Witness for `build_huffman_sums`: the table of the payload `[65, 66, 65]`. -/
theorem build_huffman_sums_witness :
    ∃ root unique, build_huffman (count_freq [65, 66, 65]) = some (root, unique) ∧
      root.is_leaf = false ∧ root.sums ∧
      unique = ((List.range 256).filter (fun s => 0 < count_freq [65, 66, 65] s)).length ∧
      (2 ≤ unique → List.Perm root.leaves
        (((List.range 256).filter (fun s => 0 < count_freq [65, 66, 65] s)).map
          (fun s => (s, count_freq [65, 66, 65] s)))) ∧
      (unique = 1 → ∃ s, (List.range 256).filter (fun s => 0 < count_freq [65, 66, 65] s) = [s] ∧
        root.leaves = [(if s = 0 then 1 else 0, 0), (s, count_freq [65, 66, 65] s)]) ∧
      root.freq = ((List.range 256).map (count_freq [65, 66, 65])).sum ∧
      ∀ p : List Nat, (∀ b ∈ p, b < 256) → p.length < 2 ^ 64 →
        count_freq [65, 66, 65] = count_freq p → root.freq = p.length :=
  build_huffman_sums (count_freq [65, 66, 65]) (by decide) ⟨65, by decide⟩

set_option maxRecDepth 100000 in
/-- Outside the tables counted from a payload, when the frequencies add up to
`2^64` or more, the sum in `hn_new_internal` wraps around: for the
table `freq[0] = freq[1] = 2^63` (zero elsewhere) `build_huffman` returns a root of
frequency 0 over two leaves of frequency `2^63`, which is not the sum of the
frequencies of its children. -/
theorem build_huffman_sum_wraps :
    ∃ (freq : Nat → Nat) (root : HNode),
      (∀ s, freq s < 2 ^ 64) ∧ (∃ s, s < 256 ∧ 0 < freq s) ∧
      build_huffman freq = some (root, 2) ∧
      root = HNode.node (HNode.leaf 0 (2 ^ 63)) (HNode.leaf 1 (2 ^ 63)) 0 ∧
      ¬ root.sums ∧ root.freq ≠ ((List.range 256).map freq).sum := by
  refine ⟨fun s => if s = 0 then 2 ^ 63 else if s = 1 then 2 ^ 63 else 0,
    HNode.node (HNode.leaf 0 (2 ^ 63)) (HNode.leaf 1 (2 ^ 63)) 0, ?_, ⟨0, by decide⟩,
    by decide, rfl, ?_, by decide⟩
  · intro s
    simp only []
    split_ifs <;> norm_num
  · intro h
    exact absurd h.1 (by decide)

end Encoder


/-! ## The length of the Huffman bitstream -/

namespace Encoder

end Encoder


namespace Encoder

end Encoder


/-! ## Code lengths against frequencies -/

namespace Encoder

set_option maxRecDepth 100000 in
/-- Outside the tables counted from a payload, when the frequencies add up to
`2^64` or more, the sum in `hn_new_internal` wraps around: for the
table `freq[0] = 2^60`, `freq[1] = freq[2] = freq[3] = freq[4] = 2^63` (zero
elsewhere) the merge of the leaves 2 and 3 wraps to frequency 0, and symbol 2, of
frequency `2^63`, gets a code of 3 bits while symbol 0, of frequency `2^60`, gets
a code of 2 bits. -/
theorem code_length_not_monotone_wrap :
    ∃ (freq : Nat → Nat) (codes : Codes),
      (∀ s, freq s < 2 ^ 64) ∧ huffman_codes freq = some codes ∧
      freq 0 < freq 2 ∧ 0 < freq 0 ∧
      ((codes 2).getD []).length = 3 ∧ ((codes 0).getD []).length = 2 := by
  have hb : build_huffman (fun s => if s = 0 then 2 ^ 60 else if s < 5 then 2 ^ 63 else 0) =
      some (HNode.node
        (HNode.node (HNode.node (HNode.leaf 2 (2 ^ 63)) (HNode.leaf 3 (2 ^ 63)) 0)
          (HNode.leaf 4 (2 ^ 63)) (2 ^ 63))
        (HNode.node (HNode.leaf 0 (2 ^ 60)) (HNode.leaf 1 (2 ^ 63)) (2 ^ 63 + 2 ^ 60))
        (2 ^ 60), 5) := by
    decide
  refine ⟨fun s => if s = 0 then 2 ^ 60 else if s < 5 then 2 ^ 63 else 0,
    gen_codes (HNode.node
        (HNode.node (HNode.node (HNode.leaf 2 (2 ^ 63)) (HNode.leaf 3 (2 ^ 63)) 0)
          (HNode.leaf 4 (2 ^ 63)) (2 ^ 63))
        (HNode.node (HNode.leaf 0 (2 ^ 60)) (HNode.leaf 1 (2 ^ 63)) (2 ^ 63 + 2 ^ 60))
        (2 ^ 60)) [] (fun _ => none),
    ?_, ?_, by decide, by decide, by decide, by decide⟩
  · intro s
    simp only []
    split_ifs <;> norm_num
  · simp only [huffman_codes, hb]

end Encoder


/-! ## The colour round trip -/

namespace Encoder

/-- A value within less than 1/2 of an integer rounds to that integer. -/
theorem llround_eq_of_near {α : Type} [LinearOrderedField α] [FloorRing α] (x : α) (n : Int)
    (h : |x - (n : α)| < 1 / 2) : llround x = n := by
  obtain ⟨h1, h2⟩ := abs_lt.mp h
  unfold llround
  split_ifs
  · rw [Int.floor_eq_iff]
    constructor <;> linarith
  · rw [neg_eq_iff_eq_neg, Int.floor_eq_iff]
    push_cast
    constructor <;> linarith

end Encoder

namespace Decoder

/-- Storing a rounded channel value that is a byte: the casts and the clamp leave
it alone. -/
theorem store_byte (n : Nat) (hn : n < 256) :
    (clampi (i32 (n : Int)) 0 255 % 256).toNat = n := by
  rw [i32_of_fits _ (by constructor <;> omega)]
  unfold clampi
  split_ifs <;> omega

/-- C37. For every triple of bytes `(R, G, B)`, `ycbcr_to_rgb` applied to the
result of `rgb_to_ycbcr` gives `(R, G, B)` back, in exact arithmetic: each
recovered channel differs from the original by less than 1/2 before rounding (the
differences are `9/15625000 * (B - G)`,
`129/976562500 * R + 81/1953125000 * G - 339/1953125000 * B` and
`3/15625000 * (G - R)`), so rounding restores it and the clamp does not change it.
A grey pixel `R = G = B = v` maps forward to exactly `(v, 128, 128)`. -/
theorem colour_roundtrip {α : Type} [LinearOrderedField α] [FloorRing α] (R G B : Nat)
    (hR : R < 256) (hG : G < 256) (hB : B < 256) :
    ycbcr_to_rgb (Encoder.rgb_to_ycbcr R G B : α × α × α).1
        (Encoder.rgb_to_ycbcr R G B : α × α × α).2.1
        (Encoder.rgb_to_ycbcr R G B : α × α × α).2.2 = (R, G, B) ∧
    (Encoder.rgb_to_ycbcr R G B : α × α × α).1 +
        1402 / 1000 * ((Encoder.rgb_to_ycbcr R G B : α × α × α).2.2 - 128) - (R : α) =
      9 / 15625000 * ((B : α) - (G : α)) ∧
    (Encoder.rgb_to_ycbcr R G B : α × α × α).1 -
        344136 / 1000000 * ((Encoder.rgb_to_ycbcr R G B : α × α × α).2.1 - 128) -
        714136 / 1000000 * ((Encoder.rgb_to_ycbcr R G B : α × α × α).2.2 - 128) - (G : α) =
      129 / 976562500 * (R : α) + 81 / 1953125000 * (G : α) - 339 / 1953125000 * (B : α) ∧
    (Encoder.rgb_to_ycbcr R G B : α × α × α).1 +
        1772 / 1000 * ((Encoder.rgb_to_ycbcr R G B : α × α × α).2.1 - 128) - (B : α) =
      3 / 15625000 * ((G : α) - (R : α)) ∧
    (Encoder.rgb_to_ycbcr R R R : α × α × α) = ((R : α), 128, 128) := by
  have hR0 : (0 : α) ≤ (R : α) := Nat.cast_nonneg R
  have hG0 : (0 : α) ≤ (G : α) := Nat.cast_nonneg G
  have hB0 : (0 : α) ≤ (B : α) := Nat.cast_nonneg B
  have hR1 : (R : α) ≤ 255 := by exact_mod_cast Nat.le_of_lt_succ hR
  have hG1 : (G : α) ≤ 255 := by exact_mod_cast Nat.le_of_lt_succ hG
  have hB1 : (B : α) ≤ 255 := by exact_mod_cast Nat.le_of_lt_succ hB
  have er : (Encoder.rgb_to_ycbcr R G B : α × α × α).1 +
        1402 / 1000 * ((Encoder.rgb_to_ycbcr R G B : α × α × α).2.2 - 128) - (R : α) =
      9 / 15625000 * ((B : α) - (G : α)) := by
    simp only [Encoder.rgb_to_ycbcr]
    ring
  have eg : (Encoder.rgb_to_ycbcr R G B : α × α × α).1 -
        344136 / 1000000 * ((Encoder.rgb_to_ycbcr R G B : α × α × α).2.1 - 128) -
        714136 / 1000000 * ((Encoder.rgb_to_ycbcr R G B : α × α × α).2.2 - 128) - (G : α) =
      129 / 976562500 * (R : α) + 81 / 1953125000 * (G : α) - 339 / 1953125000 * (B : α) := by
    simp only [Encoder.rgb_to_ycbcr]
    ring
  have eb : (Encoder.rgb_to_ycbcr R G B : α × α × α).1 +
        1772 / 1000 * ((Encoder.rgb_to_ycbcr R G B : α × α × α).2.1 - 128) - (B : α) =
      3 / 15625000 * ((G : α) - (R : α)) := by
    simp only [Encoder.rgb_to_ycbcr]
    ring
  refine ⟨?_, er, eg, eb, ?_⟩
  · have lr : Encoder.llround ((Encoder.rgb_to_ycbcr R G B : α × α × α).1 +
        1402 / 1000 * ((Encoder.rgb_to_ycbcr R G B : α × α × α).2.2 - 128)) = (R : Int) := by
      apply Encoder.llround_eq_of_near
      rw [Int.cast_natCast, er, abs_lt]
      constructor <;> linarith
    have lg : Encoder.llround ((Encoder.rgb_to_ycbcr R G B : α × α × α).1 -
        344136 / 1000000 * ((Encoder.rgb_to_ycbcr R G B : α × α × α).2.1 - 128) -
        714136 / 1000000 * ((Encoder.rgb_to_ycbcr R G B : α × α × α).2.2 - 128)) =
        (G : Int) := by
      apply Encoder.llround_eq_of_near
      rw [Int.cast_natCast, eg, abs_lt]
      constructor <;> linarith
    have lb : Encoder.llround ((Encoder.rgb_to_ycbcr R G B : α × α × α).1 +
        1772 / 1000 * ((Encoder.rgb_to_ycbcr R G B : α × α × α).2.1 - 128)) = (B : Int) := by
      apply Encoder.llround_eq_of_near
      rw [Int.cast_natCast, eb, abs_lt]
      constructor <;> linarith
    unfold ycbcr_to_rgb
    simp only [lr, lg, lb, store_byte R hR, store_byte G hG, store_byte B hB]
  · simp only [Encoder.rgb_to_ycbcr, Prod.mk.injEq]
    refine ⟨?_, ?_, ?_⟩ <;> ring

/-- Witness for `colour_roundtrip`: the pixel `(200, 30, 77)` over the rationals. -/
theorem colour_roundtrip_witness :
    ycbcr_to_rgb (Encoder.rgb_to_ycbcr 200 30 77 : ℚ × ℚ × ℚ).1
        (Encoder.rgb_to_ycbcr 200 30 77 : ℚ × ℚ × ℚ).2.1
        (Encoder.rgb_to_ycbcr 200 30 77 : ℚ × ℚ × ℚ).2.2 = (200, 30, 77) :=
  (colour_roundtrip 200 30 77 (by decide) (by decide) (by decide)).1

end Decoder


/-! ## Bounds on the transform coefficients -/

namespace Encoder

theorem abs_fold_le (f : Nat → ℝ) (C : ℝ) (h : ∀ x, x < 8 → |f x| ≤ C) :
    |(List.range 8).foldl (fun s x => s + f x) 0| ≤ 8 * C := by
  rw [foldl_add_eq_sum]
  calc |∑ x in Finset.range 8, f x| ≤ ∑ x in Finset.range 8, |f x| :=
        Finset.abs_sum_le_sum_abs _ _
    _ ≤ ∑ _x in Finset.range 8, C :=
        Finset.sum_le_sum (fun x hx => h x (Finset.mem_range.mp hx))
    _ = 8 * C := by simp

theorem abs_cos8_le (u x : Nat) : |COS8 u x| ≤ 1 := Real.abs_cos_le_one _

theorem alpha8_bounds (u : Nat) : 0 ≤ ALPHA8 u ∧ ALPHA8 u ≤ 1 := by
  unfold ALPHA8
  split_ifs
  · have h1 : (1 : ℝ) ≤ Real.sqrt 2 := by
      rw [Real.one_le_sqrt]
      norm_num
    constructor
    · positivity
    · rw [div_le_one (by linarith)]
      exact h1
  · exact ⟨by norm_num, le_refl 1⟩

/-- Every coefficient `dct8x8` computes from a block with entries of magnitude at
most `M` has magnitude at most `16 * M`. -/
theorem dct8x8_abs_le (blk : Nat → Nat → ℝ) (M : ℝ)
    (hM : ∀ i j, i < 8 → j < 8 → |blk i j| ≤ M) (u v : Nat) :
    |dct8x8 COS8 ALPHA8 blk u v| ≤ 16 * M := by
  have hM0 : 0 ≤ M := le_trans (abs_nonneg _) (hM 0 0 (by norm_num) (by norm_num))
  have htemp : ∀ y, y < 8 →
      |(List.range 8).foldl (fun s x => s + blk x y * COS8 u x) 0| ≤ 8 * M := by
    intro y hy
    apply abs_fold_le
    intro x hx
    rw [abs_mul]
    calc |blk x y| * |COS8 u x| ≤ M * 1 :=
          mul_le_mul (hM x y hx hy) (abs_cos8_le u x) (abs_nonneg _) hM0
      _ = M := mul_one M
  have hsum : |(List.range 8).foldl (fun s y => s +
      (List.range 8).foldl (fun s x => s + blk x y * COS8 u x) 0 * COS8 v y) 0| ≤ 8 * (8 * M) := by
    apply abs_fold_le
    intro y hy
    rw [abs_mul]
    calc _ ≤ 8 * M * 1 :=
          mul_le_mul (htemp y hy) (abs_cos8_le v y) (abs_nonneg _) (by linarith)
      _ = 8 * M := mul_one _
  obtain ⟨hu0, hu1⟩ := alpha8_bounds u
  obtain ⟨hv0, hv1⟩ := alpha8_bounds v
  unfold dct8x8
  simp only []
  rw [abs_mul, abs_mul, abs_mul, abs_of_nonneg hu0, abs_of_nonneg hv0,
    abs_of_pos (by norm_num : (0 : ℝ) < 1 / 4)]
  have hαα : ALPHA8 u * ALPHA8 v ≤ 1 := by
    calc ALPHA8 u * ALPHA8 v ≤ 1 * 1 := mul_le_mul hu1 hv1 hv0 (by norm_num)
      _ = 1 := one_mul 1
  have hαα0 : 0 ≤ ALPHA8 u * ALPHA8 v := mul_nonneg hu0 hv0
  have hSnn := abs_nonneg ((List.range 8).foldl (fun s y => s +
      (List.range 8).foldl (fun s x => s + blk x y * COS8 u x) 0 * COS8 v y) 0)
  generalize |(List.range 8).foldl (fun s y => s +
      (List.range 8).foldl (fun s x => s + blk x y * COS8 u x) 0 * COS8 v y) 0| = S
      at hsum hSnn
  have h1 : ALPHA8 u * ALPHA8 v * S ≤ 1 * (8 * (8 * M)) :=
    mul_le_mul hαα hsum hSnn (by norm_num)
  have h2 : 1 / 4 * ALPHA8 u * ALPHA8 v * S = 1 / 4 * (ALPHA8 u * ALPHA8 v * S) := by ring
  rw [h2]
  linarith

/-- The DC coefficient of a block with entries of magnitude at most `M` has
magnitude at most `8 * M`. -/
theorem dct8x8_dc_abs_le (blk : Nat → Nat → ℝ) (M : ℝ)
    (hM : ∀ i j, i < 8 → j < 8 → |blk i j| ≤ M) :
    |dct8x8 COS8 ALPHA8 blk 0 0| ≤ 8 * M := by
  have hM0 : 0 ≤ M := le_trans (abs_nonneg _) (hM 0 0 (by norm_num) (by norm_num))
  have htemp : ∀ y, y < 8 →
      |(List.range 8).foldl (fun s x => s + blk x y * COS8 0 x) 0| ≤ 8 * M := by
    intro y hy
    apply abs_fold_le
    intro x hx
    rw [abs_mul]
    calc |blk x y| * |COS8 0 x| ≤ M * 1 :=
          mul_le_mul (hM x y hx hy) (abs_cos8_le 0 x) (abs_nonneg _) hM0
      _ = M := mul_one M
  have hsum : |(List.range 8).foldl (fun s y => s +
      (List.range 8).foldl (fun s x => s + blk x y * COS8 0 x) 0 * COS8 0 y) 0| ≤ 8 * (8 * M) := by
    apply abs_fold_le
    intro y hy
    rw [abs_mul]
    calc _ ≤ 8 * M * 1 :=
          mul_le_mul (htemp y hy) (abs_cos8_le 0 y) (abs_nonneg _) (by linarith)
      _ = 8 * M := mul_one _
  have hα := alpha8_sq 0
  rw [if_pos rfl] at hα
  unfold dct8x8
  simp only []
  rw [mul_assoc (1 / 4 : ℝ), hα, abs_mul, abs_of_pos (by norm_num : (0 : ℝ) < 1 / 4 * (1 / 2))]
  linarith

/-- The level-shifted samples of a block built from bytes have magnitude at most
128. -/
theorem build_block_abs_le (R G B : Int → Nat) (hR : ∀ i, R i < 256) (hG : ∀ i, G i < 256)
    (hB : ∀ i, B i < 256) (W H : Int) (m n c i j : Nat) :
    |(build_block R G B W H m n c i j : ℝ)| ≤ 128 := by
  unfold build_block rgb_to_ycbcr
  simp only []
  generalize (block_sample W H m n i j).2.2 = idx
  have hR0 : (0 : ℝ) ≤ (R idx : ℝ) := Nat.cast_nonneg _
  have hG0 : (0 : ℝ) ≤ (G idx : ℝ) := Nat.cast_nonneg _
  have hB0 : (0 : ℝ) ≤ (B idx : ℝ) := Nat.cast_nonneg _
  have hR1 : (R idx : ℝ) ≤ 255 := by exact_mod_cast Nat.le_of_lt_succ (hR idx)
  have hG1 : (G idx : ℝ) ≤ 255 := by exact_mod_cast Nat.le_of_lt_succ (hG idx)
  have hB1 : (B idx : ℝ) ≤ 255 := by exact_mod_cast Nat.le_of_lt_succ (hB idx)
  rw [abs_le]
  split_ifs <;> constructor <;> linarith

/-- Rounding does not leave an interval with integer end points that is symmetric
about zero. -/
theorem abs_llround_le {α : Type} [LinearOrderedField α] [FloorRing α] (x : α) (N : Int)
    (h : |x| ≤ (N : α)) : |llround x| ≤ N := by
  have hn := abs_sub_le_of_isRoundHalfAway _ _ (llround_isRoundHalfAway x)
  generalize llround x = n at hn
  rw [abs_le] at h hn ⊢
  constructor
  · have : ((-N - 1 : Int) : α) < (n : α) := by push_cast; linarith
    have := Int.cast_lt.mp this
    omega
  · have : (n : α) < ((N + 1 : Int) : α) := by push_cast; linarith
    have := Int.cast_lt.mp this
    omega

set_option maxRecDepth 100000 in
theorem qt_bounds (c u v : Nat) (hu : u < 8) (hv : v < 8) :
    10 ≤ QT c u v ∧ QT c u v ≤ 121 ∧ 16 ≤ QT c 0 0 := by
  have hY : ∀ u, u < 8 → ∀ v, v < 8 →
      10 ≤ (QT_Y.getD u []).getD v 0 ∧ (QT_Y.getD u []).getD v 0 ≤ 121 := by decide
  have hC : ∀ u, u < 8 → ∀ v, v < 8 →
      10 ≤ (QT_C.getD u []).getD v 0 ∧ (QT_C.getD u []).getD v 0 ≤ 121 := by decide
  unfold QT
  split_ifs
  · exact ⟨(hY u hu v hv).1, (hY u hu v hv).2, by decide⟩
  · exact ⟨(hC u hu v hv).1, (hC u hu v hv).2, by decide⟩

end Encoder


namespace Encoder

/-- C38. For every block built from 8-bit `R`, `G`, `B` samples and every channel
(exact real arithmetic in place of `double`): every transform coefficient
satisfies `|F[u][v]| <= 2048`, and `|F[0][0]| <= 1024`; every quantised value
`llround(F[u][v]/Q[u][v])` lies in the signed 16-bit range and the `(int16_t)` cast
does not change it; the quantised DC satisfies `|q[0][0]| <= 64`; so the DC
difference against `prevDC = 0` and against the DC of any other such block is not
changed by the `(int16_t)` cast. -/
theorem coefficient_bounds (R G B : Int → Nat) (hR : ∀ i, R i < 256) (hG : ∀ i, G i < 256)
    (hB : ∀ i, B i < 256) (W H : Int) (m n c : Nat) :
    (∀ u v, |dct8x8 COS8 ALPHA8 (build_block R G B W H m n c) u v| ≤ 2048) ∧
    |dct8x8 COS8 ALPHA8 (build_block R G B W H m n c) 0 0| ≤ 1024 ∧
    (∀ u v, u < 8 → v < 8 →
      IsI16 (llround (dct8x8 COS8 ALPHA8 (build_block R G B W H m n c) u v /
        ((QT c u v : Int) : ℝ))) ∧
      quantise_block COS8 ALPHA8 (build_block R G B W H m n c) c u v =
        llround (dct8x8 COS8 ALPHA8 (build_block R G B W H m n c) u v /
          ((QT c u v : Int) : ℝ))) ∧
    |quantise_block COS8 ALPHA8 (build_block R G B W H m n c) c 0 0| ≤ 64 ∧
    i16 (quantise_block COS8 ALPHA8 (build_block R G B W H m n c) c 0 0 - 0) =
      quantise_block COS8 ALPHA8 (build_block R G B W H m n c) c 0 0 - 0 ∧
    ∀ m' n' : Nat,
      i16 (quantise_block COS8 ALPHA8 (build_block R G B W H m' n' c) c 0 0 -
          quantise_block COS8 ALPHA8 (build_block R G B W H m n c) c 0 0) =
        quantise_block COS8 ALPHA8 (build_block R G B W H m' n' c) c 0 0 -
          quantise_block COS8 ALPHA8 (build_block R G B W H m n c) c 0 0 := by
  have hblk : ∀ m n : Nat, ∀ i j, i < 8 → j < 8 →
      |(build_block R G B W H m n c i j : ℝ)| ≤ 128 :=
    fun m n i j _ _ => build_block_abs_le R G B hR hG hB W H m n c i j
  have hF : ∀ m n u v, |dct8x8 COS8 ALPHA8 (build_block R G B W H m n c) u v| ≤ 2048 := by
    intro m n u v
    have := dct8x8_abs_le _ 128 (hblk m n) u v
    linarith
  have hDC : ∀ m n, |dct8x8 COS8 ALPHA8 (build_block R G B W H m n c) 0 0| ≤ 1024 := by
    intro m n
    have := dct8x8_dc_abs_le _ 128 (hblk m n)
    linarith
  have hq : ∀ m n u v, u < 8 → v < 8 →
      IsI16 (llround (dct8x8 COS8 ALPHA8 (build_block R G B W H m n c) u v /
        ((QT c u v : Int) : ℝ))) := by
    intro m n u v hu hv
    obtain ⟨h10, _, _⟩ := qt_bounds c u v hu hv
    apply llround_quotient_isI16 _ _ (by omega)
    have : (10 : ℝ) ≤ ((QT c u v : Int) : ℝ) := by exact_mod_cast h10
    have := hF m n u v
    linarith
  have hq0 : ∀ m n, |quantise_block COS8 ALPHA8 (build_block R G B W H m n c) c 0 0| ≤ 64 := by
    intro m n
    obtain ⟨_, _, h16⟩ := qt_bounds c 0 0 (by norm_num) (by norm_num)
    have h16' : (16 : ℝ) ≤ ((QT c 0 0 : Int) : ℝ) := by exact_mod_cast h16
    unfold quantise_block quantise_m2
    rw [i16_of_isI16 _ (hq m n 0 0 (by norm_num) (by norm_num))]
    apply abs_llround_le
    rw [abs_div, abs_of_pos (by linarith : (0 : ℝ) < ((QT c 0 0 : Int) : ℝ)),
      div_le_iff₀ (by linarith)]
    have := hDC m n
    push_cast
    nlinarith
  refine ⟨hF m n, hDC m n, ?_, hq0 m n, ?_, ?_⟩
  · intro u v hu hv
    refine ⟨hq m n u v hu hv, ?_⟩
    unfold quantise_block quantise_m2
    exact i16_of_isI16 _ (hq m n u v hu hv)
  · apply i16_of_isI16
    have := abs_le.mp (hq0 m n)
    unfold IsI16
    omega
  · intro m' n'
    apply i16_of_isI16
    have := abs_le.mp (hq0 m n)
    have := abs_le.mp (hq0 m' n')
    unfold IsI16
    omega

/-- Witness for `coefficient_bounds`: the first block of an 8x8 image that is red
throughout, luma channel. -/
theorem coefficient_bounds_witness :
    (∀ u v, |dct8x8 COS8 ALPHA8
      (build_block (fun _ => 255) (fun _ => 0) (fun _ => 0) 8 8 0 0 0) u v| ≤ 2048) ∧
    |dct8x8 COS8 ALPHA8
      (build_block (fun _ => 255) (fun _ => 0) (fun _ => 0) 8 8 0 0 0) 0 0| ≤ 1024 ∧
    |quantise_block COS8 ALPHA8
      (build_block (fun _ => 255) (fun _ => 0) (fun _ => 0) 8 8 0 0 0) 0 0 0| ≤ 64 :=
  have h := coefficient_bounds (fun _ => 255) (fun _ => 0) (fun _ => 0)
    (fun _ => (by decide : (255 : Nat) < 256)) (fun _ => (by decide : (0 : Nat) < 256))
    (fun _ => (by decide : (0 : Nat) < 256)) 8 8 0 0 0
  ⟨h.1, h.2.1, h.2.2.2.1⟩

end Encoder


/-! ## Colour conversion in `double` arithmetic -/

/-- A value within less than 1/2 of an integer is rounded to that integer. -/
theorem round_half_even_eq_of_near {α : Type} [LinearOrderedField α] [FloorRing α] (y : α)
    (n : Int) (h : |y - (n : α)| < 1 / 2) : Encoder.round_half_even y = n := by
  obtain ⟨h1, h2⟩ := abs_lt.mp h
  unfold Encoder.round_half_even
  simp only []
  by_cases hy : (n : α) ≤ y
  · have hfl : ⌊y⌋ = n := by
      rw [Int.floor_eq_iff]
      constructor <;> linarith
    rw [hfl, if_pos (by linarith)]
  · have hfl : ⌊y⌋ = n - 1 := by
      rw [Int.floor_eq_iff]
      push_cast
      constructor <;> linarith
    rw [hfl]
    push_cast
    rw [if_neg (by linarith), if_pos (by linarith)]
    ring

theorem to_double_zero {α : Type} [LinearOrderedField α] [FloorRing α] :
    to_double (0 : α) = 0 := by
  simp [to_double]

/-- The `double` nearest to `x`, from the binade `2^e <= |x| < 2^(e+1)` of `x` and
the integer `n` nearest to `x / 2^(e-52)`. -/
theorem to_double_eq_of {α : Type} [LinearOrderedField α] [FloorRing α] (x : α) (e n : Int)
    (he : -1022 ≤ e) (h1 : (2 : α) ^ e ≤ |x|) (h2 : |x| < (2 : α) ^ (e + 1))
    (hn : |x / (2 : α) ^ (e - 52) - (n : α)| < 1 / 2) :
    to_double x = (n : α) * (2 : α) ^ (e - 52) := by
  have hpos : (0 : α) < |x| := lt_of_lt_of_le (zpow_pos (by norm_num) e) h1
  have hx : x ≠ 0 := abs_pos.mp hpos
  have hlog : Int.log 2 |x| = e := by
    apply le_antisymm
    · have := (Int.lt_zpow_iff_log_lt (by norm_num : 1 < 2) hpos).mp (by exact_mod_cast h2)
      omega
    · exact (Int.zpow_le_iff_le_log (by norm_num : 1 < 2) hpos).mp (by exact_mod_cast h1)
  unfold to_double
  simp only [if_neg hx, hlog, max_eq_left he]
  rw [round_half_even_eq_of_near _ n hn]

/-- The rounding error of `to_double`. -/
theorem to_double_err {α : Type} [LinearOrderedField α] [FloorRing α] (x : α) :
    |to_double x - x| ≤ max ((2 : α) ^ (-53 : Int) * |x|) ((2 : α) ^ (-1075 : Int)) := by
  unfold to_double
  by_cases hx : x = 0
  · simp [hx]
  · simp only [hx, if_false]
    have hpos : 0 < |x| := abs_pos.mpr hx
    generalize he : max (Int.log 2 |x|) (-1022) = e
    have hulp : (0 : α) < (2 : α) ^ (e - 52) := by positivity
    have herr := round_half_even_err (x / (2 : α) ^ (e - 52))
    generalize (Encoder.round_half_even (x / (2 : α) ^ (e - 52)) : Int) = r at herr
    have hfac : (r : α) * (2 : α) ^ (e - 52) - x =
        ((r : α) - x / (2 : α) ^ (e - 52)) * (2 : α) ^ (e - 52) := by
      field_simp
    have hhalf : (1 / 2 : α) * (2 : α) ^ (e - 52) = (2 : α) ^ (e - 53) := by
      rw [show e - 52 = (e - 53) + 1 by ring, zpow_add₀ (by norm_num : (2 : α) ≠ 0), zpow_one]
      ring
    have hb : |(r : α) * (2 : α) ^ (e - 52) - x| ≤ (2 : α) ^ (e - 53) := by
      rw [hfac, abs_mul, abs_of_pos hulp, ← hhalf]
      exact mul_le_mul_of_nonneg_right herr (le_of_lt hulp)
    refine le_trans hb ?_
    by_cases hlog : -1022 ≤ Int.log 2 |x|
    · have he' : e = Int.log 2 |x| := by rw [← he]; exact max_eq_left hlog
      refine le_trans ?_ (le_max_left _ _)
      have hle : ((2 : ℕ) : α) ^ Int.log 2 |x| ≤ |x| := Int.zpow_log_le_self (by norm_num) hpos
      rw [he', show Int.log 2 |x| - 53 = (-53 : Int) + Int.log 2 |x| by ring,
        zpow_add₀ (by norm_num : (2 : α) ≠ 0)]
      have h53 : (0 : α) ≤ (2 : α) ^ (-53 : Int) := by positivity
      have hle' : (2 : α) ^ Int.log 2 |x| ≤ |x| := by exact_mod_cast hle
      exact mul_le_mul_of_nonneg_left hle' h53
    · have he' : e = -1022 := by
        rw [← he]
        exact max_eq_right (by omega)
      refine le_trans ?_ (le_max_right _ _)
      rw [he']
      norm_num

/-- A bound on the magnitude of a rounded value. -/
theorem abs_to_double_le {α : Type} [LinearOrderedField α] [FloorRing α] (x B : α)
    (h : |x| ≤ B) : |to_double x| ≤ 2 * B + 1 := by
  have herr := to_double_err x
  have h0 : 0 ≤ |x| := abs_nonneg x
  have h1 : (2 : α) ^ (-53 : Int) * |x| ≤ |x| := by
    have : (2 : α) ^ (-53 : Int) ≤ 1 := by
      rw [zpow_neg]
      exact inv_le_one_of_one_le₀ (one_le_zpow₀ (by norm_num) (by norm_num))
    calc (2 : α) ^ (-53 : Int) * |x| ≤ 1 * |x| := mul_le_mul_of_nonneg_right this h0
      _ = |x| := one_mul _
  have h2 : (2 : α) ^ (-1075 : Int) ≤ 1 := by
    rw [zpow_neg]
    exact inv_le_one_of_one_le₀ (one_le_zpow₀ (by norm_num) (by norm_num))
  have h3 : max ((2 : α) ^ (-53 : Int) * |x|) ((2 : α) ^ (-1075 : Int)) ≤ |x| + 1 :=
    max_le (by linarith) (by linarith)
  have h4 : |to_double x| ≤ |to_double x - x| + |x| := by
    have := abs_add (to_double x - x) x
    simpa using this
  linarith

theorem ycbcr_channels_grey {α : Type} [LinearOrderedField α] [FloorRing α] (Y : α) :
    Decoder.ycbcr_channels Y 128 128 = (to_double Y, to_double (to_double Y), to_double Y) := by
  unfold Decoder.ycbcr_channels
  simp only [sub_self, to_double_zero, mul_zero, add_zero, sub_zero]

theorem to_double_examples :
    to_double (300 : ℚ) = 300 ∧ to_double (-5 : ℚ) = -5 ∧
    to_double ((2 : ℚ) ^ 31) = 2 ^ 31 := by
  refine ⟨?_, ?_, ?_⟩
  · have := to_double_eq_of (300 : ℚ) 8 (300 * 2 ^ 44) (by norm_num)
      (by rw [abs_of_pos (by norm_num)]; norm_num)
      (by rw [abs_of_pos (by norm_num)]; norm_num) (by norm_num [zpow_neg])
    rw [this]
    norm_num [zpow_neg]
  · have := to_double_eq_of (-5 : ℚ) 2 (-(5 * 2 ^ 50)) (by norm_num)
      (by rw [abs_of_neg (by norm_num)]; norm_num)
      (by rw [abs_of_neg (by norm_num)]; norm_num) (by norm_num [zpow_neg])
    rw [this]
    norm_num [zpow_neg]
  · have := to_double_eq_of ((2 : ℚ) ^ 31) 31 (2 ^ 52) (by norm_num)
      (by rw [abs_of_pos (by norm_num)]; norm_num)
      (by rw [abs_of_pos (by norm_num)]; norm_num) (by norm_num [zpow_neg])
    rw [this]
    norm_num [zpow_neg]

/-- The `double` values of the channels for `Y = 0x1.67e978d4fdf3bp+7`
(`6331638863617851 / 2^45`, about 179.956), `Cb = 128`, `Cr = 0`: the product
`1.402 * (-128)` is computed with the `double` nearest to 1.402, which is below
1.402, and the sum is exactly `1/2`. -/
theorem ycbcr_channels_tie :
    Decoder.ycbcr_channels (6331638863617851 / 2 ^ 45 : ℚ) 128 0 =
      (1 / 2, 4773910743554854 / 2 ^ 44, 6331638863617851 / 2 ^ 45) := by
  have hm : to_double (-128 : ℚ) = -128 := by
    have := to_double_eq_of (-128 : ℚ) 7 (-(2 ^ 52)) (by norm_num)
      (by rw [abs_of_neg (by norm_num)]; norm_num)
      (by rw [abs_of_neg (by norm_num)]; norm_num) (by norm_num [zpow_neg])
    rw [this]
    norm_num [zpow_neg]
  have hc1 : to_double (1402 / 1000 : ℚ) = 6314046677573435 / 2 ^ 52 := by
    have := to_double_eq_of (1402 / 1000 : ℚ) 0 6314046677573435 (by norm_num)
      (by rw [abs_of_pos (by norm_num)]; norm_num)
      (by rw [abs_of_pos (by norm_num)]; norm_num)
      (by rw [abs_lt]; constructor <;> norm_num [zpow_neg])
    rw [this]
    norm_num [zpow_neg]
  have hp1 : to_double (6314046677573435 / 2 ^ 52 * -128 : ℚ) = -(6314046677573435 / 2 ^ 45) := by
    have := to_double_eq_of (6314046677573435 / 2 ^ 52 * -128 : ℚ) 7 (-6314046677573435)
      (by norm_num)
      (by rw [abs_of_neg (by norm_num)]; norm_num)
      (by rw [abs_of_neg (by norm_num)]; norm_num) (by norm_num [zpow_neg])
    rw [this]
    norm_num [zpow_neg]
  have hr : to_double (6331638863617851 / 2 ^ 45 + -(6314046677573435 / 2 ^ 45) : ℚ) = 1 / 2 := by
    have := to_double_eq_of (6331638863617851 / 2 ^ 45 + -(6314046677573435 / 2 ^ 45) : ℚ)
      (-1) (2 ^ 52) (by norm_num)
      (by rw [abs_of_pos (by norm_num)]; norm_num [zpow_neg])
      (by rw [abs_of_pos (by norm_num)]; norm_num) (by norm_num [zpow_neg])
    rw [this]
    norm_num [zpow_neg]
  have hY : to_double (6331638863617851 / 2 ^ 45 : ℚ) = 6331638863617851 / 2 ^ 45 := by
    have := to_double_eq_of (6331638863617851 / 2 ^ 45 : ℚ) 7 6331638863617851 (by norm_num)
      (by rw [abs_of_pos (by norm_num)]; norm_num)
      (by rw [abs_of_pos (by norm_num)]; norm_num) (by norm_num [zpow_neg])
    rw [this]
    norm_num [zpow_neg]
  have hc3 : to_double (714136 / 1000000 : ℚ) = 6432365246983713 / 2 ^ 53 := by
    have := to_double_eq_of (714136 / 1000000 : ℚ) (-1) 6432365246983713 (by norm_num)
      (by rw [abs_of_pos (by norm_num)]; norm_num [zpow_neg])
      (by rw [abs_of_pos (by norm_num)]; norm_num)
      (by rw [abs_lt]; constructor <;> norm_num [zpow_neg])
    rw [this]
    norm_num [zpow_neg]
  have hp3 : to_double (6432365246983713 / 2 ^ 53 * -128 : ℚ) = -(6432365246983713 / 2 ^ 46) := by
    have := to_double_eq_of (6432365246983713 / 2 ^ 53 * -128 : ℚ) 6 (-6432365246983713)
      (by norm_num)
      (by rw [abs_of_neg (by norm_num)]; norm_num)
      (by rw [abs_of_neg (by norm_num)]; norm_num) (by norm_num [zpow_neg])
    rw [this]
    norm_num [zpow_neg]
  have hg : to_double (6331638863617851 / 2 ^ 45 - -(6432365246983713 / 2 ^ 46) : ℚ) =
      4773910743554854 / 2 ^ 44 := by
    have := to_double_eq_of (6331638863617851 / 2 ^ 45 - -(6432365246983713 / 2 ^ 46) : ℚ)
      8 4773910743554854 (by norm_num)
      (by rw [abs_of_pos (by norm_num)]; norm_num)
      (by rw [abs_of_pos (by norm_num)]; norm_num)
      (by rw [abs_lt]; constructor <;> norm_num [zpow_neg])
    rw [this]
    norm_num [zpow_neg]
  unfold Decoder.ycbcr_channels
  simp only [sub_self, to_double_zero, mul_zero, add_zero, sub_zero, zero_sub]
  rw [hm, hc1, hp1, hr, hY, hc3, hp3, hg]

namespace Decoder

/-- The bytes `ycbcr_to_rgb` stores for `Y = 0x1.67e978d4fdf3bp+7`, `Cb = 128`,
`Cr = 0`, in `double` arithmetic. -/
theorem ycbcr_to_rgb_double_tie :
    ycbcr_to_rgb_double (6331638863617851 / 2 ^ 45 : ℚ) 128 0 = (1, 255, 180) := by
  unfold ycbcr_to_rgb_double
  rw [ycbcr_channels_tie]
  norm_num [Encoder.llround, i32, clampi]
  exact ⟨rfl, rfl⟩

theorem ycbcr_to_rgb_double_examples :
    ycbcr_to_rgb_double (300 : ℚ) 128 128 = (255, 255, 255) ∧
    ycbcr_to_rgb_double (-5 : ℚ) 128 128 = (0, 0, 0) ∧
    ycbcr_to_rgb_double ((2 : ℚ) ^ 31) 128 128 = (0, 0, 0) := by
  obtain ⟨h1, h2, h3⟩ := to_double_examples
  refine ⟨?_, ?_, ?_⟩
  · unfold ycbcr_to_rgb_double
    rw [ycbcr_channels_grey, h1, h1]
    norm_num [Encoder.llround, i32, clampi]
    rfl
  · unfold ycbcr_to_rgb_double
    rw [ycbcr_channels_grey, h2, h2]
    norm_num [Encoder.llround, i32, clampi]
  · unfold ycbcr_to_rgb_double
    rw [ycbcr_channels_grey, h3, h3]
    norm_num [Encoder.llround, i32, clampi]

/-- For inputs of magnitude at most `2^1000` no exact result of the channel
computation reaches `2^1024`: the `double` computation does not overflow. -/
theorem ycbcr_no_overflow {α : Type} [LinearOrderedField α] [FloorRing α] (Y Cb Cr : α)
    (hY : |Y| ≤ 2 ^ 1000) (hCb : |Cb| ≤ 2 ^ 1000) (hCr : |Cr| ≤ 2 ^ 1000) :
    ∀ x ∈ ycbcr_exact_results Y Cb Cr, |x| < 2 ^ 1024 := by
  have hM : (2 : α) ^ 1024 = 2 ^ 24 * 2 ^ 1000 := by rw [← pow_add]
  have hM128 : (128 : α) ≤ 2 ^ 1000 := by
    calc (128 : α) = 2 ^ 7 := by norm_num
      _ ≤ 2 ^ 1000 := pow_le_pow_right₀ (by norm_num) (by norm_num)
  rw [hM]
  generalize (2 : α) ^ 1000 = M at *
  have hconst : ∀ c : α, 0 ≤ c → c ≤ 3 / 2 → |to_double c| ≤ 4 := by
    intro c h0 h1
    have := abs_to_double_le c (3 / 2) (by rw [abs_of_nonneg h0]; exact h1)
    linarith
  have hc1 := hconst (1402 / 1000) (by norm_num) (by norm_num)
  have hc2 := hconst (344136 / 1000000) (by norm_num) (by norm_num)
  have hc3 := hconst (714136 / 1000000) (by norm_num) (by norm_num)
  have hc4 : |to_double (1772 / 1000 : α)| ≤ 5 := by
    have := abs_to_double_le (1772 / 1000 : α) 2 (by rw [abs_of_pos (by norm_num)]; norm_num)
    linarith
  have h128 : |(128 : α)| = 128 := abs_of_pos (by norm_num)
  have hdr : |Cr - 128| ≤ 2 * M := by
    have := abs_sub Cr 128
    rw [h128] at this
    linarith
  have hdb : |Cb - 128| ≤ 2 * M := by
    have := abs_sub Cb 128
    rw [h128] at this
    linarith
  have htr : |to_double (Cr - 128)| ≤ 5 * M := by
    have := abs_to_double_le _ _ hdr
    linarith
  have htb : |to_double (Cb - 128)| ≤ 5 * M := by
    have := abs_to_double_le _ _ hdb
    linarith
  have hprod : ∀ c t : α, |c| ≤ 5 → |t| ≤ 5 * M → |c * t| ≤ 25 * M := by
    intro c t hc ht
    rw [abs_mul]
    calc |c| * |t| ≤ 5 * (5 * M) := mul_le_mul hc ht (abs_nonneg _) (by norm_num)
      _ = 25 * M := by ring
  have hp1 := hprod _ _ (le_trans hc1 (by norm_num)) htr
  have hp2 := hprod _ _ (le_trans hc2 (by norm_num)) htb
  have hp3 := hprod _ _ (le_trans hc3 (by norm_num)) htr
  have hp4 := hprod _ _ hc4 htb
  have hq1 := abs_to_double_le _ _ hp1
  have hq2 := abs_to_double_le _ _ hp2
  have hq3 := abs_to_double_le _ _ hp3
  have hq4 := abs_to_double_le _ _ hp4
  have hs1 : |Y + to_double (to_double (1402 / 1000) * to_double (Cr - 128))| ≤ 52 * M := by
    have := abs_add Y (to_double (to_double (1402 / 1000) * to_double (Cr - 128)))
    linarith
  have hs2 : |Y - to_double (to_double (344136 / 1000000) * to_double (Cb - 128))| ≤
      52 * M := by
    have := abs_sub Y (to_double (to_double (344136 / 1000000) * to_double (Cb - 128)))
    linarith
  have hs2' := abs_to_double_le _ _ hs2
  have hs3 : |to_double (Y - to_double (to_double (344136 / 1000000) * to_double (Cb - 128))) -
      to_double (to_double (714136 / 1000000) * to_double (Cr - 128))| ≤ 157 * M := by
    have := abs_sub
      (to_double (Y - to_double (to_double (344136 / 1000000) * to_double (Cb - 128))))
      (to_double (to_double (714136 / 1000000) * to_double (Cr - 128)))
    linarith
  have hs4 : |Y + to_double (to_double (1772 / 1000) * to_double (Cb - 128))| ≤ 52 * M := by
    have := abs_add Y (to_double (to_double (1772 / 1000) * to_double (Cb - 128)))
    linarith
  intro x hx
  simp only [ycbcr_exact_results, List.mem_cons, List.mem_singleton, List.not_mem_nil,
    or_false] at hx
  have hfin : ∀ y : α, y ≤ 157 * M → y < 2 ^ 24 * M := by
    intro y hy
    have : (157 : α) * M < 2 ^ 24 * M := by
      have h157 : (157 : α) < 2 ^ 24 := by norm_num
      exact mul_lt_mul_of_pos_right h157 (by linarith)
    linarith
  have hM0 : (0 : α) ≤ M := by linarith
  have hle : ∀ k : α, k ≤ 157 → k * M ≤ 157 * M :=
    fun k hk => mul_le_mul_of_nonneg_right hk hM0
  rcases hx with rfl | rfl | rfl | rfl | rfl | rfl | rfl | rfl | rfl | rfl
  · exact hfin _ (le_trans hdr (hle 2 (by norm_num)))
  · exact hfin _ (le_trans hdb (hle 2 (by norm_num)))
  · exact hfin _ (le_trans hp1 (hle 25 (by norm_num)))
  · exact hfin _ (le_trans hs1 (hle 52 (by norm_num)))
  · exact hfin _ (le_trans hp2 (hle 25 (by norm_num)))
  · exact hfin _ (le_trans hs2 (hle 52 (by norm_num)))
  · exact hfin _ (le_trans hp3 (hle 25 (by norm_num)))
  · exact hfin _ (hs3)
  · exact hfin _ (le_trans hp4 (hle 25 (by norm_num)))
  · exact hfin _ (le_trans hs4 (hle 52 (by norm_num)))

/-- C26 (as amended). For all values `Y`, `Cb`, `Cr` of magnitude at most `2^1000`
(so that no intermediate result leaves the range of `double`) whose three channel
values `r = Y + 1.402(Cr-128)`, `g = Y - 0.344136(Cb-128) - 0.714136(Cr-128)`,
`b = Y + 1.772(Cb-128)`, computed in `double` arithmetic (each constant and the
result of each operation rounded to the nearest `double`), round to integers that
fit the 32-bit `int`, `ycbcr_to_rgb` returns `R = clamp(round(r))`,
`G = clamp(round(g))`, `B = clamp(round(b))`, with `round` to the nearest integer
(halves away from zero) and `clamp(x) = max 0 (min 255 x)`, and no exact result of
an operation reaches `2^1024`; for all values
whatsoever every output channel lies in `0..255`; `Y = 300`, `Cb = Cr = 128` gives
`(255,255,255)` and `Y = -5` gives `(0,0,0)`. -/
theorem ycbcr_to_rgb_double_spec {α : Type} [LinearOrderedField α] [FloorRing α]
    (Y Cb Cr : α) (hY : |Y| ≤ 2 ^ 1000) (hCb : |Cb| ≤ 2 ^ 1000) (hCr : |Cr| ≤ 2 ^ 1000)
    (hr : -2 ^ 31 ≤ Encoder.llround (ycbcr_channels Y Cb Cr).1 ∧
      Encoder.llround (ycbcr_channels Y Cb Cr).1 < 2 ^ 31)
    (hg : -2 ^ 31 ≤ Encoder.llround (ycbcr_channels Y Cb Cr).2.1 ∧
      Encoder.llround (ycbcr_channels Y Cb Cr).2.1 < 2 ^ 31)
    (hb : -2 ^ 31 ≤ Encoder.llround (ycbcr_channels Y Cb Cr).2.2 ∧
      Encoder.llround (ycbcr_channels Y Cb Cr).2.2 < 2 ^ 31) :
    ycbcr_to_rgb_double Y Cb Cr =
      ((max 0 (min 255 (Encoder.llround (ycbcr_channels Y Cb Cr).1))).toNat,
       (max 0 (min 255 (Encoder.llround (ycbcr_channels Y Cb Cr).2.1))).toNat,
       (max 0 (min 255 (Encoder.llround (ycbcr_channels Y Cb Cr).2.2))).toNat) ∧
    ycbcr_channels Y Cb Cr =
      (to_double (Y + to_double (to_double (1402 / 1000) * to_double (Cr - 128))),
       to_double (to_double (Y -
          to_double (to_double (344136 / 1000000) * to_double (Cb - 128))) -
        to_double (to_double (714136 / 1000000) * to_double (Cr - 128))),
       to_double (Y + to_double (to_double (1772 / 1000) * to_double (Cb - 128)))) ∧
    (∀ x ∈ ycbcr_exact_results Y Cb Cr, |x| < 2 ^ 1024) ∧
    (∀ x : α, IsRoundHalfAway x (Encoder.llround x)) ∧
    (∀ Y' Cb' Cr' : α, (ycbcr_to_rgb_double Y' Cb' Cr').1 ≤ 255 ∧
      (ycbcr_to_rgb_double Y' Cb' Cr').2.1 ≤ 255 ∧ (ycbcr_to_rgb_double Y' Cb' Cr').2.2 ≤ 255) ∧
    ycbcr_to_rgb_double (300 : ℚ) 128 128 = (255, 255, 255) ∧
    ycbcr_to_rgb_double (-5 : ℚ) 128 128 = (0, 0, 0) := by
  refine ⟨?_, rfl, ycbcr_no_overflow Y Cb Cr hY hCb hCr, llround_isRoundHalfAway, ?_,
    ycbcr_to_rgb_double_examples.1, ycbcr_to_rgb_double_examples.2.1⟩
  · unfold ycbcr_to_rgb_double
    simp only [i32_of_fits _ hr, i32_of_fits _ hg, i32_of_fits _ hb,
      (clampi_byte_toNat _).1]
    simp only [(clampi_byte _).2.2]
  · intro Y' Cb' Cr'
    unfold ycbcr_to_rgb_double
    simp only [(clampi_byte_toNat _).1]
    exact ⟨(clampi_byte_toNat _).2, (clampi_byte_toNat _).2, (clampi_byte_toNat _).2⟩

/-- Witness for `ycbcr_to_rgb_double_spec`: `Y = 0x1.67e978d4fdf3bp+7`, `Cb = 128`,
`Cr = 0` over the rationals, where `r` is exactly `1/2`. -/
theorem ycbcr_to_rgb_double_spec_witness :
    ycbcr_to_rgb_double (6331638863617851 / 2 ^ 45 : ℚ) 128 0 = (1, 255, 180) ∧
    ycbcr_to_rgb_double (6331638863617851 / 2 ^ 45 : ℚ) 128 0 =
      ((max 0 (min 255 (Encoder.llround
          (ycbcr_channels (6331638863617851 / 2 ^ 45 : ℚ) 128 0).1))).toNat,
       (max 0 (min 255 (Encoder.llround
          (ycbcr_channels (6331638863617851 / 2 ^ 45 : ℚ) 128 0).2.1))).toNat,
       (max 0 (min 255 (Encoder.llround
          (ycbcr_channels (6331638863617851 / 2 ^ 45 : ℚ) 128 0).2.2))).toNat) :=
  ⟨ycbcr_to_rgb_double_tie,
    (ycbcr_to_rgb_double_spec (6331638863617851 / 2 ^ 45 : ℚ) 128 0
      (by rw [abs_of_pos (by norm_num)]; norm_num)
      (by rw [abs_of_pos (by norm_num)]; norm_num)
      (by norm_num)
      (by rw [ycbcr_channels_tie]; norm_num [Encoder.llround])
      (by rw [ycbcr_channels_tie]; norm_num [Encoder.llround])
      (by rw [ycbcr_channels_tie]; norm_num [Encoder.llround])).1⟩

/-- C26 fails as stated in two ways.  The channel values are computed in `double`:
for `Y = 0x1.67e978d4fdf3bp+7` (about 179.956), `Cb = 128`, `Cr = 0` the exact
value of `Y + 1.402(Cr-128)` is below `1/2` and rounds to 0, but the `double`
nearest to 1.402 is below 1.402, the `double` sum is exactly `1/2`, and
`ycbcr_to_rgb` stores `R = 1`.  And the rounded value is narrowed to `int` before
the clamp: for `Y = 2^31`, `Cb = Cr = 128` the cast `(int)llround(r)` wraps to
`-2^31` and `ycbcr_to_rgb` stores `(0,0,0)`, whereas `clamp(round(Y))` is 255. -/
theorem ycbcr_to_rgb_double_differs :
    ycbcr_to_rgb_double (6331638863617851 / 2 ^ 45 : ℚ) 128 0 = (1, 255, 180) ∧
    (max 0 (min 255 (Encoder.llround
      ((6331638863617851 / 2 ^ 45 : ℚ) + 1402 / 1000 * (0 - 128))))).toNat = 0 ∧
    ycbcr_to_rgb_double ((2 : ℚ) ^ 31) 128 128 = (0, 0, 0) ∧
    max 0 (min 255 (Encoder.llround (((2 : ℚ) ^ 31) + 1402 / 1000 * (128 - 128)))) = 255 := by
  refine ⟨ycbcr_to_rgb_double_tie, ?_, ycbcr_to_rgb_double_examples.2.2, ?_⟩
  · norm_num [Encoder.llround]
  · norm_num [Encoder.llround]

end Decoder
